import Mathlib

/-! # Stream calculator: lexer, operator-precedence evaluator, number formatter

A shallow embedding of `Middleware/Lexer.c`, `Middleware/Parser.c`,
`Middleware/Double2Str.c` and of `OnKeyPress` in `main.c` with the line buffer it
keeps; the LCD and keypad drivers are not part of it.

Modelling conventions.
* `f64` values are rationals (`ℚ`). The lexer and the evaluator compute exactly.
  The formatter is given twice: `Double2String` computes exactly, and
  `Double2String_build` runs on a `Build`, which says how a `f64` operation rounds
  (`rnd`) and what a conversion `(long) x` yields outside the range of the 32-bit
  `long` (`ovf`). `roundDouble` is the rounding of IEEE 754 doubles.
* The global variables of a C file become the fields of a record that is passed
  through every function.
* A stack `xs[MAX_STACK]` with its `top` index is a list whose head is the top
  entry and whose length is `top + 1`; the code never reads a cell above `top`.
* `while (1)` in `Calc_PushOp` is a loop with an explicit iteration budget;
  `none` means that the budget ran out or that the table was read out of bounds.
* A conversion `(long) x` of a value outside the 32-bit range is undefined in C:
  `toLong` yields `none` and the exact `Double2String` has no output then, while
  `toLong_build` yields `ovf x`.
-/

namespace Calc

/-! ## Common.h -/

/-- Token kinds (`TokenType`). -/
inductive TokenType
  | TOK_NUM
  | TOK_ADD
  | TOK_SUB
  | TOK_MUL
  | TOK_DIV
  | TOK_LPAREN
  | TOK_RPAREN
  | TOK_END
  | TOK_ERROR
  deriving DecidableEq, Repr

/-- Error codes `ERR_OK`, `ERR_SYNTAX`, `ERR_DIV0` held by `sys_error`. -/
inductive ErrCode
  | ERR_OK
  | ERR_SYNTAX
  | ERR_DIV0
  deriving DecidableEq, Repr

open TokenType ErrCode

/-! ## Lexer.c -/

/-- Lexer states (`InputState`). -/
inductive InputState
  | STATE_IDLE
  | STATE_INT
  | STATE_DOT
  | STATE_FRAC
  deriving DecidableEq, Repr

/-- Character classes (`EventType`). -/
inductive EventType
  | EVT_DIGIT
  | EVT_DOT
  | EVT_MINUS
  | EVT_PLUS
  | EVT_MUL
  | EVT_DIV
  | EVT_LPAREN
  | EVT_RPAREN
  | EVT_END
  | EVT_OTHER
  deriving DecidableEq, Repr

open InputState EventType

/-- The static variables of `Lexer.c`. -/
structure Lexer where
  current_val : ℚ
  frac_scale : ℚ
  val_sign : Int
  fsm_state : InputState
  deriving DecidableEq

/-- The C expression `key - '0'`. -/
def digitOf (key : Char) : Int := (key.toNat : Int) - 48

/-- Library test `isdigit`. -/
def isdigit (key : Char) : Bool := decide (48 ≤ key.toNat) && decide (key.toNat ≤ 57)

def Act_InitNum (key : Char) (L : Lexer) : TokenType × Lexer :=
  (TOK_NUM, { L with val_sign := 1, current_val := (digitOf key : ℚ) })

def Act_SetSign (_key : Char) (L : Lexer) : TokenType × Lexer :=
  (TOK_NUM, { L with val_sign := -1, current_val := 0 })

def Act_InitDot (_key : Char) (L : Lexer) : TokenType × Lexer :=
  (TOK_NUM, { L with val_sign := 1, current_val := 0, frac_scale := 1 / 10 })

def Act_AddInt (key : Char) (L : Lexer) : TokenType × Lexer :=
  (TOK_NUM, { L with current_val := L.current_val * 10 + (digitOf key : ℚ) })

def Act_ToDot (_key : Char) (L : Lexer) : TokenType × Lexer :=
  (TOK_NUM, { L with frac_scale := 1 / 10 })

def Act_AddFrac (key : Char) (L : Lexer) : TokenType × Lexer :=
  (TOK_NUM, { L with current_val := L.current_val + (digitOf key : ℚ) * L.frac_scale,
                     frac_scale := L.frac_scale * (1 / 10) })

def Act_Ignore (_key : Char) (L : Lexer) : TokenType × Lexer := (TOK_NUM, L)

def Act_OpAdd (_key : Char) (L : Lexer) : TokenType × Lexer := (TOK_ADD, L)
def Act_OpSub (_key : Char) (L : Lexer) : TokenType × Lexer := (TOK_SUB, L)
def Act_OpMul (_key : Char) (L : Lexer) : TokenType × Lexer := (TOK_MUL, L)
def Act_OpDiv (_key : Char) (L : Lexer) : TokenType × Lexer := (TOK_DIV, L)
def Act_OpLPa (_key : Char) (L : Lexer) : TokenType × Lexer := (TOK_LPAREN, L)
def Act_OpRPa (_key : Char) (L : Lexer) : TokenType × Lexer := (TOK_RPAREN, L)
def Act_OpEnd (_key : Char) (L : Lexer) : TokenType × Lexer := (TOK_END, L)
def Act_Error (_key : Char) (L : Lexer) : TokenType × Lexer := (TOK_ERROR, L)

/-- One row of the transition table (`FSM_Item`). -/
structure FSM_Item where
  cur_state : InputState
  evt : EventType
  next_state : InputState
  action : Char → Lexer → TokenType × Lexer

/-- The transition table, row for row. -/
def FSM_Table : List FSM_Item :=
  [ ⟨STATE_IDLE, EVT_DIGIT,  STATE_INT,  Act_InitNum⟩,
    ⟨STATE_IDLE, EVT_DOT,    STATE_DOT,  Act_InitDot⟩,
    ⟨STATE_IDLE, EVT_MINUS,  STATE_INT,  Act_SetSign⟩,
    ⟨STATE_IDLE, EVT_PLUS,   STATE_IDLE, Act_OpAdd⟩,
    ⟨STATE_IDLE, EVT_MUL,    STATE_IDLE, Act_OpMul⟩,
    ⟨STATE_IDLE, EVT_DIV,    STATE_IDLE, Act_OpDiv⟩,
    ⟨STATE_IDLE, EVT_LPAREN, STATE_IDLE, Act_OpLPa⟩,
    ⟨STATE_IDLE, EVT_RPAREN, STATE_IDLE, Act_OpRPa⟩,
    ⟨STATE_IDLE, EVT_END,    STATE_IDLE, Act_OpEnd⟩,
    ⟨STATE_INT,  EVT_DIGIT,  STATE_INT,  Act_AddInt⟩,
    ⟨STATE_INT,  EVT_DOT,    STATE_DOT,  Act_ToDot⟩,
    ⟨STATE_INT,  EVT_MINUS,  STATE_IDLE, Act_OpSub⟩,
    ⟨STATE_INT,  EVT_PLUS,   STATE_IDLE, Act_OpAdd⟩,
    ⟨STATE_INT,  EVT_MUL,    STATE_IDLE, Act_OpMul⟩,
    ⟨STATE_INT,  EVT_DIV,    STATE_IDLE, Act_OpDiv⟩,
    ⟨STATE_INT,  EVT_LPAREN, STATE_IDLE, Act_OpLPa⟩,
    ⟨STATE_INT,  EVT_RPAREN, STATE_IDLE, Act_OpRPa⟩,
    ⟨STATE_INT,  EVT_END,    STATE_IDLE, Act_OpEnd⟩,
    ⟨STATE_DOT,  EVT_DIGIT,  STATE_FRAC, Act_AddFrac⟩,
    ⟨STATE_DOT,  EVT_DOT,    STATE_DOT,  Act_Ignore⟩,
    ⟨STATE_DOT,  EVT_MINUS,  STATE_IDLE, Act_OpSub⟩,
    ⟨STATE_DOT,  EVT_PLUS,   STATE_IDLE, Act_OpAdd⟩,
    ⟨STATE_DOT,  EVT_MUL,    STATE_IDLE, Act_OpMul⟩,
    ⟨STATE_DOT,  EVT_DIV,    STATE_IDLE, Act_OpDiv⟩,
    ⟨STATE_DOT,  EVT_LPAREN, STATE_IDLE, Act_OpLPa⟩,
    ⟨STATE_DOT,  EVT_RPAREN, STATE_IDLE, Act_OpRPa⟩,
    ⟨STATE_DOT,  EVT_END,    STATE_IDLE, Act_OpEnd⟩,
    ⟨STATE_FRAC, EVT_DIGIT,  STATE_FRAC, Act_AddFrac⟩,
    ⟨STATE_FRAC, EVT_DOT,    STATE_FRAC, Act_Ignore⟩,
    ⟨STATE_FRAC, EVT_MINUS,  STATE_IDLE, Act_OpSub⟩,
    ⟨STATE_FRAC, EVT_PLUS,   STATE_IDLE, Act_OpAdd⟩,
    ⟨STATE_FRAC, EVT_MUL,    STATE_IDLE, Act_OpMul⟩,
    ⟨STATE_FRAC, EVT_DIV,    STATE_IDLE, Act_OpDiv⟩,
    ⟨STATE_FRAC, EVT_LPAREN, STATE_IDLE, Act_OpLPa⟩,
    ⟨STATE_FRAC, EVT_RPAREN, STATE_IDLE, Act_OpRPa⟩,
    ⟨STATE_FRAC, EVT_END,    STATE_IDLE, Act_OpEnd⟩ ]

def GetEventType (key : Char) : EventType :=
  if isdigit key then EVT_DIGIT
  else if key = '.' then EVT_DOT
  else if key = '-' then EVT_MINUS
  else if key = '+' then EVT_PLUS
  else if key = '*' then EVT_MUL
  else if key = '/' then EVT_DIV
  else if key = '(' then EVT_LPAREN
  else if key = ')' then EVT_RPAREN
  else if key = '=' then EVT_END
  else EVT_OTHER

/-- The table scan of `Lexer_ProcessChar`: the first row whose state and event match. -/
def FSM_lookup (st : InputState) (evt : EventType) : Option FSM_Item :=
  FSM_Table.find? (fun it => decide (it.cur_state = st) && decide (it.evt = evt))

def Lexer_ProcessChar (key : Char) (L : Lexer) : TokenType × Lexer :=
  match FSM_lookup L.fsm_state (GetEventType key) with
  | some it =>
      let r := it.action key L
      (r.1, { r.2 with fsm_state := it.next_state })
  | none => Act_Error key L

def Lexer_GetCurrentVal (L : Lexer) : ℚ := L.current_val * (L.val_sign : ℚ)

def Lexer_GetState (L : Lexer) : InputState := L.fsm_state

def Lexer_ResetAll (_L : Lexer) : Lexer :=
  { current_val := 0, frac_scale := 1 / 10, val_sign := 1, fsm_state := STATE_IDLE }

def Lexer_ClearCurrent (L : Lexer) : Lexer := Lexer_ResetAll L

/-- The lexer as the C start-up code leaves it (the initialisers of the static variables). -/
def Lexer_init : Lexer :=
  { current_val := 0, frac_scale := 1 / 10, val_sign := 1, fsm_state := STATE_IDLE }

/-- Feed a sequence of characters, collecting the returned tokens. -/
def Lexer_feed : List Char → Lexer → List TokenType × Lexer
  | [], L => ([], L)
  | c :: cs, L =>
      let r := Lexer_ProcessChar c L
      let rest := Lexer_feed cs r.2
      (r.1 :: rest.1, rest.2)

/-! ## Parser.c -/

def MAX_STACK : Nat := 20

/-- The static variables of `Parser.c`: `val_stack` with `val_top`, `op_stack` with
`op_top` (each a list, top entry first) and `sys_error`. -/
structure CalcState where
  val_stack : List ℚ
  op_stack : List TokenType
  sys_error : ErrCode
  deriving DecidableEq

/-- Source: `if (val_top < MAX_STACK-1) val_stack[++val_top] = v;` -/
def push_val (v : ℚ) (s : CalcState) : CalcState :=
  if s.val_stack.length < MAX_STACK then { s with val_stack := v :: s.val_stack } else s

/-- Source: `(val_top >= 0) ? val_stack[val_top--] : 0.0` -/
def pop_val (s : CalcState) : ℚ × CalcState :=
  match s.val_stack with
  | v :: rest => (v, { s with val_stack := rest })
  | [] => (0, s)

/-- Source: `if (op_top < MAX_STACK-1) op_stack[++op_top] = t;` -/
def push_op (t : TokenType) (s : CalcState) : CalcState :=
  if s.op_stack.length < MAX_STACK then { s with op_stack := t :: s.op_stack } else s

/-- Source: `(op_top >= 0) ? op_stack[op_top--] : TOK_END` -/
def pop_op (s : CalcState) : TokenType × CalcState :=
  match s.op_stack with
  | t :: rest => (t, { s with op_stack := rest })
  | [] => (TOK_END, s)

/-- Source: `(op_top >= 0) ? op_stack[op_top] : TOK_END` -/
def peek_op (s : CalcState) : TokenType :=
  match s.op_stack with
  | t :: _ => t
  | [] => TOK_END

def get_idx : TokenType → Nat
  | TOK_ADD => 0
  | TOK_SUB => 0
  | TOK_MUL => 1
  | TOK_DIV => 1
  | TOK_LPAREN => 2
  | TOK_RPAREN => 3
  | TOK_END => 4
  | _ => 5

/-- The relation table; rows are the operator on top of the stack, columns the incoming one. -/
def PriorityTable : List (List Char) :=
  [ ['G', 'L', 'L', 'G', 'G'],
    ['G', 'G', 'L', 'G', 'G'],
    ['L', 'L', 'L', 'E', 'X'],
    ['G', 'G', 'X', 'G', 'G'],
    ['L', 'L', 'L', 'X', 'E'] ]

/-- The read `PriorityTable[row][col]`; `none` outside the 5 by 5 array. -/
def PriorityTable_at (row col : Nat) : Option Char :=
  match PriorityTable.get? row with
  | some r => r.get? col
  | none => none

def do_calculation (s : CalcState) : CalcState :=
  if s.val_stack.length < 2 then { s with sys_error := ERR_SYNTAX }
  else
    let pb := pop_val s
    let pa := pop_val pb.2
    let po := pop_op pa.2
    let b := pb.1
    let a := pa.1
    match po.1 with
    | TOK_ADD => push_val (a + b) po.2
    | TOK_SUB => push_val (a - b) po.2
    | TOK_MUL => push_val (a * b) po.2
    | TOK_DIV =>
        if b = 0 then push_val 0 { po.2 with sys_error := ERR_DIV0 }
        else push_val (a / b) po.2
    | _ => push_val 0 po.2

def Calc_Reset (s : CalcState) : CalcState :=
  push_op TOK_END { s with val_stack := [], op_stack := [], sys_error := ERR_OK }

def Calc_PushNum (val : ℚ) (s : CalcState) : CalcState := push_val val s

/-- What one pass through the body of `while (1)` in `Calc_PushOp` does. -/
inductive LoopStep
  | ret (r : Bool) (s : CalcState)
  | again (s : CalcState)
  | outOfBounds
  deriving DecidableEq

/-- One pass through the body of `while (1)` in `Calc_PushOp`. -/
def Calc_PushOp_body (input_op : TokenType) (s : CalcState) : LoopStep :=
  let stack_top := peek_op s
  match PriorityTable_at (get_idx stack_top) (get_idx input_op) with
  | none => LoopStep.outOfBounds
  | some relation =>
      if relation = 'L' then LoopStep.ret true (push_op input_op s)
      else if relation = 'G' then
        let s1 := do_calculation s
        if s1.sys_error ≠ ERR_OK then LoopStep.ret false s1 else LoopStep.again s1
      else if relation = 'E' then
        if stack_top = TOK_LPAREN then LoopStep.ret true (pop_op s).2
        else if stack_top = TOK_END ∧ input_op = TOK_END then LoopStep.ret true s
        else LoopStep.again s
      else LoopStep.ret false { s with sys_error := ERR_SYNTAX }

/-- The loop of `Calc_PushOp`, run for at most `fuel` passes. -/
def Calc_PushOp_loop : Nat → TokenType → CalcState → Option (Bool × CalcState)
  | 0, _, _ => none
  | fuel + 1, input_op, s =>
      match Calc_PushOp_body input_op s with
      | LoopStep.ret r s1 => some (r, s1)
      | LoopStep.again s1 => Calc_PushOp_loop fuel input_op s1
      | LoopStep.outOfBounds => none

/-- Function `Calc_PushOp`: the returned flag and the new state; `fuel` bounds the passes of the loop. -/
def Calc_PushOp (fuel : Nat) (input_op : TokenType) (s : CalcState) : Option (Bool × CalcState) :=
  if s.sys_error ≠ ERR_OK then some (false, s) else Calc_PushOp_loop fuel input_op s

def Calc_GetResult (s : CalcState) : ℚ :=
  match s.val_stack with
  | v :: _ => v
  | [] => 0

/-- The state at the start of pass number `k` (counted from 0) of the loop of `Calc_PushOp`
when the loop has not returned earlier. -/
def Calc_PushOp_pass : Nat → TokenType → CalcState → Option CalcState
  | 0, _, s => some s
  | k + 1, input_op, s =>
      match Calc_PushOp_body input_op s with
      | LoopStep.again s1 => Calc_PushOp_pass k input_op s1
      | _ => none

/-! ## Decimal numerals (reference definitions) -/

/-- The natural number written by a string of decimal digits, most significant first. -/
def natOfDigits (ds : List Char) : Nat :=
  ds.foldl (fun acc c => acc * 10 + (c.toNat - 48)) 0

/-- The decimal number written `I.F`, for digit strings `I` and `F`. -/
def decimalValue (I F : List Char) : ℚ :=
  (natOfDigits I : ℚ) + (natOfDigits F : ℚ) / 10 ^ F.length

/-- Every character of the string is one of `0` .. `9`. -/
def allDigits (ds : List Char) : Prop := ∀ c ∈ ds, isdigit c = true

/-- The value contributed by the digits after the decimal point. -/
def fracOfDigits : List Char → ℚ
  | [] => 0
  | c :: cs => (((c.toNat - 48 : Nat) : ℚ) + fracOfDigits cs) / 10

/-! ## Evaluator: auxiliary definitions -/

/-- The relation the table gives for the operator `top` on the stack and the incoming `input_op`. -/
def relationOf (top input_op : TokenType) : Option Char :=
  PriorityTable_at (get_idx top) (get_idx input_op)

/-- The four binary operators. -/
def isBinary : TokenType → Bool
  | TOK_ADD => true
  | TOK_SUB => true
  | TOK_MUL => true
  | TOK_DIV => true
  | _ => false

/-- The tokens a caller passes to `Calc_PushOp`: the operators, the parentheses and END. -/
def isOperatorToken : TokenType → Bool
  | TOK_NUM => false
  | TOK_ERROR => false
  | _ => true

/-- The value `do_calculation` computes for operator `op` and operands `a`, `b`. -/
def applyOp (op : TokenType) (a b : ℚ) : ℚ :=
  match op with
  | TOK_ADD => a + b
  | TOK_SUB => a - b
  | TOK_MUL => a * b
  | TOK_DIV => a / b
  | _ => 0

/-- The states the evaluator can be in: after `Calc_Reset`, and after any further call of
`Calc_PushNum` or of `Calc_PushOp` (with an operator token) that returns. -/
inductive Reachable : CalcState → Prop
  | reset (s0 : CalcState) : Reachable (Calc_Reset s0)
  | pushNum (v : ℚ) (s : CalcState) : Reachable s → Reachable (Calc_PushNum v s)
  | pushOp (fuel : Nat) (op : TokenType) (s : CalcState) (r : Bool) (s1 : CalcState) :
      Reachable s → isOperatorToken op = true → Calc_PushOp fuel op s = some (r, s1) →
      Reachable s1

/-- The shape of the operator stack: operators and open parentheses above the END mark. -/
def opStackShape (os : List TokenType) : Prop :=
  ∃ pre : List TokenType,
    os = pre ++ [TOK_END] ∧ ∀ t ∈ pre, isBinary t = true ∨ t = TOK_LPAREN

/-- During `Calc_PushOp(TOK_END)` from state `s`, some pass of the loop reduces a division
whose right operand is 0. -/
def reducesDivByZero (s : CalcState) : Prop :=
  ∃ (k : Nat) (sk : CalcState) (a : ℚ) (vs : List ℚ) (os : List TokenType),
    Calc_PushOp_pass k TOK_END s = some sk ∧ sk.val_stack = 0 :: a :: vs ∧
      sk.op_stack = TOK_DIV :: os

/-! ## Infix formulas (reference definitions) -/

/-- A token with its payload (`Token` of Common.h); `value` matters for `TOK_NUM` only. -/
structure Token where
  type : TokenType
  value : ℚ
  deriving DecidableEq

/-- The four binary operators of a formula. -/
inductive BinOp
  | add
  | sub
  | mul
  | div
  deriving DecidableEq, Repr

/-- The token of a binary operator. -/
def BinOp.tok : BinOp → TokenType
  | BinOp.add => TOK_ADD
  | BinOp.sub => TOK_SUB
  | BinOp.mul => TOK_MUL
  | BinOp.div => TOK_DIV

/-- Binding strength of an operator: 1 for `*` and `/`, 0 for `+` and `-`. -/
def BinOp.level : BinOp → Nat
  | BinOp.add => 0
  | BinOp.sub => 0
  | BinOp.mul => 1
  | BinOp.div => 1

/-- The parse tree of an infix formula: a number, a parenthesised formula, or two formulas
joined by a binary operator. -/
inductive Formula
  | num (v : ℚ)
  | paren (e : Formula)
  | bin (op : BinOp) (l r : Formula)
  deriving DecidableEq

/-- Level of a formula: 2 for a number or a parenthesised formula (a factor), 1 for a product
or quotient (a term), 0 for a sum or difference. -/
def Formula.level : Formula → Nat
  | Formula.num _ => 2
  | Formula.paren _ => 2
  | Formula.bin op _ _ => op.level

/-- The tree is the one standard precedence gives to its token sequence: `*` and `/` bind
tighter than `+` and `-` (no operand of `*` or `/` is an unparenthesised sum), and operators
of equal precedence associate to the left (the right operand of `+` or `-` is a term, the
right operand of `*` or `/` is a factor). -/
def Formula.wellFormed : Formula → Prop
  | Formula.num _ => True
  | Formula.paren e => e.wellFormed
  | Formula.bin op l r =>
      l.wellFormed ∧ r.wellFormed ∧ op.level ≤ l.level ∧ op.level + 1 ≤ r.level

/-- The infix token sequence of a formula. -/
def Formula.tokens : Formula → List Token
  | Formula.num v => [⟨TOK_NUM, v⟩]
  | Formula.paren e => ⟨TOK_LPAREN, 0⟩ :: (e.tokens ++ [⟨TOK_RPAREN, 0⟩])
  | Formula.bin op l r => l.tokens ++ ⟨op.tok, 0⟩ :: r.tokens

/-- The value of a formula; `none` when it divides by zero. -/
def Formula.eval : Formula → Option ℚ
  | Formula.num v => some v
  | Formula.paren e => e.eval
  | Formula.bin op l r =>
      match l.eval, r.eval with
      | some a, some b =>
          match op with
          | BinOp.add => some (a + b)
          | BinOp.sub => some (a - b)
          | BinOp.mul => some (a * b)
          | BinOp.div => if b = 0 then none else some (a / b)
      | _, _ => none

/-- Entries the formula needs on the operator stack, above those already there: an open
parenthesis stays while its content is read, an operator while its right operand is read. -/
def Formula.opNeed : Formula → Nat
  | Formula.num _ => 0
  | Formula.paren e => e.opNeed + 1
  | Formula.bin _ l r => max l.opNeed (r.opNeed + 1)

/-- Entries the formula needs on the value stack, above those already there: the value of
the left operand stays while the right operand is read. -/
def Formula.valNeed : Formula → Nat
  | Formula.num _ => 1
  | Formula.paren e => e.valNeed
  | Formula.bin _ l r => max l.valNeed (r.valNeed + 1)

/-- The call made for one token: `Calc_PushNum` for a number, `Calc_PushOp` for any other
token. The flag records whether every `Calc_PushOp` so far returned success. -/
def feedToken (fuel : Nat) (t : Token) (st : Bool × CalcState) : Option (Bool × CalcState) :=
  if t.type = TOK_NUM then some (st.1, Calc_PushNum t.value st.2)
  else
    match Calc_PushOp fuel t.type st.2 with
    | none => none
    | some (r, s1) => some (st.1 && r, s1)

/-- The calls made for a token sequence, in order. -/
def feedTokens (fuel : Nat) : List Token → Bool × CalcState → Option (Bool × CalcState)
  | [], st => some st
  | t :: ts, st =>
      match feedToken fuel t st with
      | none => none
      | some st1 => feedTokens fuel ts st1

/-- The operator on top of the stack lets a formula of level `lvl` be read above it. -/
def topOK (t : TokenType) (lvl : Nat) : Prop :=
  t = TOK_LPAREN ∨ t = TOK_END ∨ ((t = TOK_ADD ∨ t = TOK_SUB) ∧ 1 ≤ lvl)
    ∨ ((t = TOK_MUL ∨ t = TOK_DIV) ∧ 2 ≤ lvl)

/-- The token `nx` may follow a formula of level `lvl`, and then reduces all of it. -/
def followOK (nx : TokenType) (lvl : Nat) : Prop :=
  nx = TOK_ADD ∨ nx = TOK_SUB ∨ nx = TOK_RPAREN ∨ nx = TOK_END
    ∨ ((nx = TOK_MUL ∨ nx = TOK_DIV) ∧ 1 ≤ lvl)

/-! ## Numeric literals and operator keys (reference definitions) -/

/-- An unsigned numeric literal: the digits before the decimal point and, when the literal
has a decimal point, the digits after it. -/
structure Literal where
  intPart : List Char
  fracPart : Option (List Char)
  deriving DecidableEq

/-- The characters of a literal. -/
def Literal.chars (a : Literal) : List Char :=
  match a.fracPart with
  | none => a.intPart
  | some F => a.intPart ++ '.' :: F

/-- The number a literal denotes. -/
def Literal.value (a : Literal) : ℚ :=
  match a.fracPart with
  | none => decimalValue a.intPart []
  | some F => decimalValue a.intPart F

/-- Digits only, at most one decimal point (by construction), and at least one digit. -/
def Literal.wellFormed (a : Literal) : Prop :=
  allDigits a.intPart ∧
    match a.fracPart with
    | none => a.intPart ≠ []
    | some F => allDigits F ∧ (a.intPart ≠ [] ∨ F ≠ [])

/-- The token of an operator key: `+ - * / ( )` and `=`. -/
def opKey (key : Char) : Option TokenType :=
  if key = '+' then some TOK_ADD
  else if key = '-' then some TOK_SUB
  else if key = '*' then some TOK_MUL
  else if key = '/' then some TOK_DIV
  else if key = '(' then some TOK_LPAREN
  else if key = ')' then some TOK_RPAREN
  else if key = '=' then some TOK_END
  else none

/-! ## Formulas as key sequences (reference definitions) -/

/-- The key of a binary operator. -/
def BinOp.key : BinOp → Char
  | BinOp.add => '+'
  | BinOp.sub => '-'
  | BinOp.mul => '*'
  | BinOp.div => '/'

/-- An infix formula as it is typed: like `Formula`, with unsigned literals as operands. -/
inductive KeyFormula
  | lit (a : Literal)
  | paren (e : KeyFormula)
  | bin (op : BinOp) (l r : KeyFormula)
  deriving DecidableEq

/-- The keys of a typed formula. -/
def KeyFormula.keys : KeyFormula → List Char
  | KeyFormula.lit a => a.chars
  | KeyFormula.paren e => '(' :: (e.keys ++ [')'])
  | KeyFormula.bin op l r => l.keys ++ op.key :: r.keys

/-- The formula a typed formula stands for: each literal replaced by its value. -/
def KeyFormula.toFormula : KeyFormula → Formula
  | KeyFormula.lit a => Formula.num a.value
  | KeyFormula.paren e => Formula.paren e.toFormula
  | KeyFormula.bin op l r => Formula.bin op l.toFormula r.toFormula

/-- Every literal of the typed formula is well formed. -/
def KeyFormula.literalsOK : KeyFormula → Prop
  | KeyFormula.lit a => a.wellFormed
  | KeyFormula.paren e => e.literalsOK
  | KeyFormula.bin _ l r => l.literalsOK ∧ r.literalsOK

/-- The last key of the typed formula is a closing parenthesis. -/
def KeyFormula.endsWithParen : KeyFormula → Bool
  | KeyFormula.lit _ => false
  | KeyFormula.paren _ => true
  | KeyFormula.bin _ _ r => r.endsWithParen

/-- No `-` of the typed formula directly follows a closing parenthesis. -/
def KeyFormula.noMinusAfterParen : KeyFormula → Prop
  | KeyFormula.lit _ => True
  | KeyFormula.paren e => e.noMinusAfterParen
  | KeyFormula.bin op l r =>
      l.noMinusAfterParen ∧ r.noMinusAfterParen ∧ (op = BinOp.sub → l.endsWithParen = false)

/-! ## Double2Str.c -/

def PRECISION : Nat := 6

/-- The conversion `(long) x`: truncation toward zero, undefined (`none`) when the result
does not fit the 32-bit `long`. -/
def toLong (x : ℚ) : Option Int :=
  let t : Int := if 0 ≤ x then ⌊x⌋ else -⌊-x⌋
  if -2147483648 ≤ t ∧ t ≤ 2147483647 then some t else none

/-- Source: `while (num > 0) { num /= 10; len++; }` -/
def get_int_length_loop : Nat → Int → Nat → Nat
  | 0, _, len => len
  | fuel + 1, num, len =>
      if num > 0 then get_int_length_loop fuel (num.tdiv 10) (len + 1) else len

/-- Function `get_int_length`; the loop runs at most `num` times. -/
def get_int_length (num : Int) : Nat :=
  if num = 0 then 1
  else
    let num1 := if num < 0 then -num else num
    get_int_length_loop num1.toNat num1 0

/-- Source: `while (num > 0) { temp_buf[temp_idx++] = (num % 10) + '0'; num /= 10; }`;
`temp` is `temp_buf[0 .. temp_idx-1]`, the character written last first. -/
def long_to_str_digits : Nat → Int → List Char → List Char
  | 0, _, temp => temp
  | fuel + 1, num, temp =>
      if num > 0 then
        long_to_str_digits fuel (num.tdiv 10) (Char.ofNat ((num.tmod 10).toNat + 48) :: temp)
      else temp

/-- Source: `while (temp_idx < min_width) { temp_buf[temp_idx++] = '0'; }` -/
def long_to_str_pad : Nat → Nat → List Char → List Char
  | 0, _, temp => temp
  | fuel + 1, min_width, temp =>
      if temp.length < min_width then long_to_str_pad fuel min_width ('0' :: temp) else temp

/-- Function `long_to_str`: the buffer with the digits of `num` appended, left-padded with zeros to
`min_width`. The last loop copies `temp_buf` from its last character to its first. -/
def long_to_str (num : Int) (buf : List Char) (min_width : Nat) : List Char :=
  let min_width1 := if num = 0 then (if min_width = 0 then 1 else min_width) else min_width
  let temp1 := long_to_str_digits num.toNat num []
  let temp2 := long_to_str_pad min_width1 min_width1 temp1
  let temp3 := if temp2.length = 0 then ['0'] else temp2
  buf ++ temp3

/-- Function `trim_zeros`: drop the trailing `0` characters, then one trailing `.`. -/
def trim_zeros (buf : List Char) : List Char :=
  let r1 := buf.reverse.dropWhile (fun c => c == '0')
  let r2 := match r1 with
    | '.' :: r => r
    | _ => r1
  r2.reverse

/-- Source: `while (temp_f < 0.1 && leading_zeros < 8) { temp_f *= 10.0; leading_zeros++; }` -/
def leading_zeros_loop : Nat → ℚ → Nat → Nat
  | 0, _, leading_zeros => leading_zeros
  | fuel + 1, temp_f, leading_zeros =>
      if temp_f < 1 / 10 ∧ leading_zeros < 8 then
        leading_zeros_loop fuel (temp_f * 10) (leading_zeros + 1)
      else leading_zeros

/-- Source: `for (i = 0; i < decimal_places; i++) multiplier *= 10;` -/
def multiplier_loop : Nat → Int → Int
  | 0, multiplier => multiplier
  | n + 1, multiplier => multiplier_loop n (multiplier * 10)

/-- Step 3 of `Double2String` with the two clamps: the number of decimal places for the
absolute value `f` with integer part `int_part`. -/
def decimal_places (f : ℚ) (int_part : Int) : Nat :=
  let d0 : Int :=
    if int_part = 0 then (PRECISION : Int) + (leading_zeros_loop 8 f 0 : Int)
    else (PRECISION : Int) - (get_int_length int_part : Int)
  let d1 : Int := if d0 < 0 then 0 else d0
  let d2 : Int := if d1 > 8 then 8 else d1
  d2.toNat

/-- Function `Double2String`: the characters written to `buf` before the terminator; `none` when a
conversion to `long` is undefined. -/
def Double2String (f : ℚ) : Option (List Char) :=
  if f = 0 then some ['0']
  else
    let buf0 : List Char := if f < 0 then ['-'] else []
    let f1 : ℚ := if f < 0 then -f else f
    match toLong f1 with
    | none => none
    | some int_part =>
        let places := decimal_places f1 int_part
        let multiplier := multiplier_loop places 1
        match toLong (f1 * (multiplier : ℚ) + 1 / 2) with
        | none => none
        | some scaled_val =>
            let int_part2 := scaled_val.tdiv multiplier
            let frac_part := scaled_val.tmod multiplier
            let buf1 := long_to_str int_part2 buf0 0
            if places > 0 then
              some (trim_zeros (long_to_str frac_part (buf1 ++ ['.']) places))
            else some buf1

/-- A digit string without its trailing zeros. -/
def stripZeros (F : List Char) : List Char :=
  (F.reverse.dropWhile (fun c => c == '0')).reverse

/-- The number of decimal places `Double2String` uses for the absolute value `x`. -/
def placesOf (x : ℚ) : Nat := decimal_places x ⌊x⌋

/-- The scaled and rounded value `(long)(x * 10^places + 0.5)` for the absolute value `x`. -/
def scaledOf (x : ℚ) : Nat := ⌊x * 10 ^ placesOf x + 1 / 2⌋.toNat

/-- The fractional digits `Double2String` writes before trimming: `ds` left-padded with
zeros to `p` characters. -/
def paddedFrac (p : Nat) (ds : List Char) : List Char :=
  List.replicate (p - ds.length) '0' ++ ds

/-- The string `ds` is the decimal representation of `n` without leading zeros (empty
for 0). -/
def isDigitsOf (ds : List Char) (n : Nat) : Prop :=
  allDigits ds ∧ natOfDigits ds = n ∧ (n = 0 → ds = [])
    ∧ (0 < n → 10 ^ (ds.length - 1) ≤ n ∧ n < 10 ^ ds.length ∧ 0 < ds.length)

/-- The string `s` is a decimal numeral (an optional `-`, then an unsigned literal) and
denotes the number `v`. -/
def denotes (s : List Char) (v : ℚ) : Prop :=
  ∃ a : Literal, a.wellFormed ∧ a.intPart ≠ [] ∧
    ((s = a.chars ∧ v = a.value) ∨ (s = '-' :: a.chars ∧ v = -a.value))

/-- Reading a string with the lexer: the current value after feeding its characters to a
freshly reset lexer. -/
def parse (s : List Char) : ℚ :=
  Lexer_GetCurrentVal (Lexer_feed s (Lexer_ResetAll Lexer_init)).2

/-- The sign of a rational number as a rational number. -/
def signOf (f : ℚ) : ℚ := if f < 0 then -1 else if f = 0 then 0 else 1

/-- Every conversion to `long` that `Double2String` makes for `f` is defined. -/
def Double2String_noOverflow (f : ℚ) : Prop :=
  toLong |f| ≠ none ∧ toLong (|f| * 10 ^ placesOf |f| + 1 / 2) ≠ none

/-- The number of decimal digits of the integer part of `x`. -/
def intDigitsSpec (x : ℚ) : Nat := (Nat.digits 10 ⌊x⌋.toNat).length

/-- The number of times `x` must be multiplied by 10 to reach at least 0.1, capped at 8. -/
def leadingZerosSpec (x : ℚ) : Nat :=
  ((List.range 8).find? (fun k => decide (1 / 10 ≤ x * 10 ^ k))).getD 8

/-- The number of decimal places as the specification states it, for the absolute value
`x`: `max(0, 6 - intDigits)` when the integer part is at least 1, `min(8, 6 + leadingZeros)`
when it is 0. -/
def decimalPlacesSpec (x : ℚ) : Nat :=
  if 1 ≤ ⌊x⌋ then (max 0 ((6 : Int) - (intDigitsSpec x : Int))).toNat
  else min 8 (6 + leadingZerosSpec x)

/-- The input alphabet of the lexer. -/
def inputAlphabet : List Char :=
  ['0', '1', '2', '3', '4', '5', '6', '7', '8', '9', '.', '-', '+', '*', '/', '(', ')', '=']

/-! ## Double2Str.c on a build: rounded `f64` arithmetic, conversions out of range -/

/-- What a build of the program adds to the exact reading of `Double2Str.c`: `rnd` rounds the
exact result of a `f64` multiplication or addition, and the constant `0.1`, to a `f64`; and
`ovf x` is the `long` the conversion `(long) x` gives when `x` is outside the range of the
32-bit `long`, which the C standard leaves open (a wider `long` holds the truncated value).
Exact arithmetic is `rnd x = x`. -/
structure Build where
  rnd : ℚ → ℚ
  ovf : ℚ → Int

/-- The conversion `(long) x` on a build: truncation toward zero when it fits the 32-bit
`long`, and `ovf x` otherwise. -/
def toLong_build (B : Build) (x : ℚ) : Int :=
  match toLong x with
  | some t => t
  | none => B.ovf x

/-- Source: `while (temp_f < 0.1 && leading_zeros < 8) { temp_f *= 10.0; leading_zeros++; }`
with the constant and the product rounded. -/
def leading_zeros_loop_build (B : Build) : Nat → ℚ → Nat → Nat
  | 0, _, leading_zeros => leading_zeros
  | fuel + 1, temp_f, leading_zeros =>
      if temp_f < B.rnd (1 / 10) ∧ leading_zeros < 8 then
        leading_zeros_loop_build B fuel (B.rnd (temp_f * 10)) (leading_zeros + 1)
      else leading_zeros

/-- Step 3 of `Double2String` with the two clamps, on a build. -/
def decimal_places_build (B : Build) (f : ℚ) (int_part : Int) : Nat :=
  let d0 : Int :=
    if int_part = 0 then (PRECISION : Int) + (leading_zeros_loop_build B 8 f 0 : Int)
    else (PRECISION : Int) - (get_int_length int_part : Int)
  let d1 : Int := if d0 < 0 then 0 else d0
  let d2 : Int := if d1 > 8 then 8 else d1
  d2.toNat

/-- Function `Double2String` on a build: the characters written to `buf` before the
terminator. The product `f * multiplier` and the sum with `0.5` are rounded; `multiplier`
is a `long` of at most `10^8`, whose conversion to `f64` is exact. -/
def Double2String_build (B : Build) (f : ℚ) : List Char :=
  if f = 0 then ['0']
  else
    let buf0 : List Char := if f < 0 then ['-'] else []
    let f1 : ℚ := if f < 0 then -f else f
    let int_part := toLong_build B f1
    let places := decimal_places_build B f1 int_part
    let multiplier := multiplier_loop places 1
    let scaled_val := toLong_build B (B.rnd (B.rnd (f1 * (multiplier : ℚ)) + 1 / 2))
    let int_part2 := scaled_val.tdiv multiplier
    let frac_part := scaled_val.tmod multiplier
    let buf1 := long_to_str int_part2 buf0 0
    if places > 0 then trim_zeros (long_to_str frac_part (buf1 ++ ['.']) places)
    else buf1

/-- The number of decimal places `Double2String_build` uses for the absolute value `x`. -/
def placesOf_build (B : Build) (x : ℚ) : Nat := decimal_places_build B x (toLong_build B x)

/-- The value of `scaled_val` in `Double2String_build` for the absolute value `x`. -/
def scaledOf_build (B : Build) (x : ℚ) : Int :=
  toLong_build B (B.rnd (B.rnd (x * ((multiplier_loop (placesOf_build B x) 1 : Int) : ℚ)) + 1 / 2))

/-- Powers of two with an integer exponent. -/
def pow2 (e : Int) : ℚ :=
  if 0 ≤ e then ((2 ^ e.toNat : Nat) : ℚ) else 1 / ((2 ^ (-e).toNat : Nat) : ℚ)

/-- The number of halvings that bring `n` below 2. -/
def log2_loop : Nat → Nat → Nat
  | 0, _ => 0
  | fuel + 1, n => if 2 ≤ n then log2_loop fuel (n / 2) + 1 else 0

/-- The binary logarithm of `n`, rounded down (0 for `n = 0`). -/
def log2 (n : Nat) : Nat := log2_loop n n

/-- An exponent `e` with `2^e ≤ |x|`, and `|x| < 2^(e+1)`, for `x` other than 0. -/
def binaryExponent (x : ℚ) : Int :=
  let e0 : Int := (log2 x.num.natAbs : Int) - (log2 x.den : Int)
  if pow2 e0 ≤ |x| then e0 else e0 - 1

/-- Rounding to the nearest integer, a tie to the even one. -/
def roundHalfEven (q : ℚ) : Int :=
  if q - (⌊q⌋ : ℚ) < 1 / 2 then ⌊q⌋
  else if 1 / 2 < q - (⌊q⌋ : ℚ) then ⌊q⌋ + 1
  else if ⌊q⌋ % 2 = 0 then ⌊q⌋ else ⌊q⌋ + 1

/-- Rounding to the nearest IEEE 754 `double` (53 significant bits, ties to even), without
the limits of the exponent range; all values the formatter rounds are far inside it. -/
def roundDouble (x : ℚ) : ℚ :=
  if x = 0 then 0
  else (roundHalfEven (x / pow2 (binaryExponent x - 52)) : ℚ) * pow2 (binaryExponent x - 52)

/-- Exact arithmetic, and 0 for a conversion out of range. -/
def Build_exact : Build := ⟨fun x => x, fun _ => 0⟩

/-- IEEE 754 doubles with a 32-bit `long` whose out-of-range conversion gives `LONG_MIN`,
as on x86. -/
def Build_double32 : Build := ⟨roundDouble, fun _ => -2147483648⟩

/-- IEEE 754 doubles with a 64-bit `long`: a value outside the 32-bit range is truncated
toward zero (values outside the 64-bit range are not distinguished). -/
def Build_double64 : Build := ⟨roundDouble, fun x => if 0 ≤ x then ⌊x⌋ else -⌊-x⌋⟩

/-! ## main.c: `OnKeyPress` -/

def MAX_FORMULA_LEN : Nat := 30

/-- The lexer, the evaluator and the static variables of `main.c` that `OnKeyPress` reads:
`Line1_Buf` is the list of the first `Line1_Len` characters of the C buffer. -/
structure Machine where
  lexer : Lexer
  evaluator : CalcState
  Line1_Buf : List Char
  last_op_index : Nat
  is_calculated : Bool
  deriving DecidableEq

/-- Function `Line1_Append`, without the display. -/
def Line1_Append (c : Char) (m : Machine) : Machine :=
  if m.Line1_Buf.length < MAX_FORMULA_LEN then { m with Line1_Buf := m.Line1_Buf ++ [c] } else m

/-- Function `Replay_Lexer_From_Op`: the characters from `last_op_index` on are read again. -/
def Replay_Lexer_From_Op (m : Machine) : Machine :=
  { m with lexer := (Lexer_feed (m.Line1_Buf.drop m.last_op_index)
      (Lexer_ClearCurrent m.lexer)).2 }

/-- Function `System_Reset`, without the display. -/
def System_Reset (m : Machine) : Machine :=
  { lexer := Lexer_ResetAll m.lexer, evaluator := Calc_Reset m.evaluator, Line1_Buf := [],
    last_op_index := 0, is_calculated := false }

/-- Function `OnKeyPress`, without the display: the new machine and the flag returned by
`Calc_PushOp` when it was called for this key. The result string copied to `Line1_Buf` is the
one `Double2String` writes on the build `B`. The assignment `Line1_Len = last_op_index` of
the key `C` is a truncation, as `last_op_index` is at most `Line1_Len` while a literal is
being read (`Machine_inv`, kept by every key). -/
def OnKeyPress (B : Build) (fuel : Nat) (key : Char) (m0 : Machine) :
    Option (Machine × Option Bool) :=
  let m : Machine :=
    if m0.is_calculated then
      if isdigit key = true ∨ key = '.' ∨ key = 'D' then System_Reset m0
      else if key ≠ 'C' ∧ key ≠ 'B' then
        { m0 with last_op_index := m0.Line1_Buf.length, is_calculated := false }
      else m0
    else m0
  if key = 'C' then
    if Lexer_GetState m.lexer ≠ STATE_IDLE then
      some ({ m with lexer := Lexer_ClearCurrent m.lexer,
                     Line1_Buf := m.Line1_Buf.take m.last_op_index }, none)
    else some (m, none)
  else if key = 'B' then
    if Lexer_GetState m.lexer ≠ STATE_IDLE ∧ m.Line1_Buf.length > m.last_op_index then
      some (Replay_Lexer_From_Op { m with Line1_Buf := m.Line1_Buf.dropLast }, none)
    else some (m, none)
  else
    let lexer_was_busy := decide (Lexer_GetState m.lexer ≠ STATE_IDLE)
    let r := Lexer_ProcessChar key m.lexer
    let token := r.1
    let lx := r.2
    match token with
    | TOK_NUM => some (Line1_Append key { m with lexer := lx }, none)
    | TOK_ERROR => some ({ m with lexer := lx }, none)
    | TOK_END =>
        let c1 := if lexer_was_busy then Calc_PushNum (Lexer_GetCurrentVal lx) m.evaluator
          else m.evaluator
        match Calc_PushOp fuel TOK_END c1 with
        | none => none
        | some (true, c2) =>
            some ({ m with lexer := Lexer_ResetAll lx, evaluator := c2,
                           Line1_Buf := Double2String_build B (Calc_GetResult c2),
                           is_calculated := true }, some true)
        | some (false, c2) =>
            some ({ Line1_Append '=' { m with lexer := lx, evaluator := c2 } with
                      is_calculated := true }, some false)
    | _ =>
        let c1 := if lexer_was_busy then Calc_PushNum (Lexer_GetCurrentVal lx) m.evaluator
          else m.evaluator
        match Calc_PushOp fuel token c1 with
        | none => none
        | some (true, c2) =>
            some ({ Line1_Append key { m with lexer := lx, evaluator := c2 } with
                      last_op_index :=
                        (Line1_Append key { m with lexer := lx, evaluator := c2 }).Line1_Buf.length },
                  some true)
        | some (false, c2) =>
            some ({ Line1_Append key { m with lexer := lx, evaluator := c2 } with
                      is_calculated := true }, some false)

/-- Press the keys one after another; the flag is the one of the last call of `Calc_PushOp`. -/
def pressKeys (B : Build) (fuel : Nat) :
    List Char → Machine × Option Bool → Option (Machine × Option Bool)
  | [], st => some st
  | key :: keys, st =>
      match OnKeyPress B fuel key st.1 with
      | none => none
      | some (m1, none) => pressKeys B fuel keys (m1, st.2)
      | some (m1, some ok) => pressKeys B fuel keys (m1, some ok)

/-- The machine after `System_Reset`. -/
def Machine_init : Machine :=
  { lexer := Lexer_init, evaluator := Calc_Reset ⟨[], [], ERR_OK⟩, Line1_Buf := [],
    last_op_index := 0, is_calculated := false }

/-- The invariant of the static variables of `main.c`: `last_op_index` is at most `Line1_Len`,
except in the state after a result or an error, when the lexer is idle. -/
def Machine_inv (m : Machine) : Prop :=
  m.last_op_index ≤ m.Line1_Buf.length
    ∨ (m.lexer.fsm_state = STATE_IDLE ∧ m.is_calculated = true)

/-! # Theorems -/

/-! ## Lexer: single steps -/

theorem isdigit_iff (c : Char) : isdigit c = true ↔ 48 ≤ c.toNat ∧ c.toNat ≤ 57 := by
  simp [isdigit]

theorem digitOf_of_isdigit {c : Char} (h : isdigit c = true) :
    digitOf c = ((c.toNat - 48 : Nat) : Int) := by
  have h1 := (isdigit_iff c).1 h
  unfold digitOf
  omega

theorem GetEventType_digit {c : Char} (h : isdigit c = true) : GetEventType c = EVT_DIGIT := by
  simp [GetEventType, h]

theorem ProcessChar_digit_IDLE {c : Char} (h : isdigit c = true) (L : Lexer)
    (hs : L.fsm_state = STATE_IDLE) :
    Lexer_ProcessChar c L =
      (TOK_NUM, { L with val_sign := 1, current_val := (digitOf c : ℚ), fsm_state := STATE_INT }) := by
  simp [Lexer_ProcessChar, GetEventType_digit h, hs, FSM_lookup, FSM_Table, Act_InitNum]

theorem ProcessChar_digit_INT {c : Char} (h : isdigit c = true) (L : Lexer)
    (hs : L.fsm_state = STATE_INT) :
    Lexer_ProcessChar c L =
      (TOK_NUM, { L with current_val := L.current_val * 10 + (digitOf c : ℚ) }) := by
  cases L
  simp only at hs
  subst hs
  simp [Lexer_ProcessChar, GetEventType_digit h, FSM_lookup, FSM_Table, Act_AddInt]

theorem ProcessChar_digit_DOT_FRAC {c : Char} (h : isdigit c = true) (L : Lexer)
    (hs : L.fsm_state = STATE_DOT ∨ L.fsm_state = STATE_FRAC) :
    Lexer_ProcessChar c L =
      (TOK_NUM, { L with current_val := L.current_val + (digitOf c : ℚ) * L.frac_scale,
                         frac_scale := L.frac_scale * (1 / 10), fsm_state := STATE_FRAC }) := by
  rcases hs with hs | hs <;>
    simp [Lexer_ProcessChar, GetEventType_digit h, hs, FSM_lookup, FSM_Table, Act_AddFrac]

theorem ProcessChar_dot_INT (L : Lexer) (hs : L.fsm_state = STATE_INT) :
    Lexer_ProcessChar '.' L = (TOK_NUM, { L with frac_scale := 1 / 10, fsm_state := STATE_DOT }) := by
  simp [Lexer_ProcessChar, GetEventType, isdigit, hs, FSM_lookup, FSM_Table, Act_ToDot]

theorem ProcessChar_dot_IDLE (L : Lexer) (hs : L.fsm_state = STATE_IDLE) :
    Lexer_ProcessChar '.' L =
      (TOK_NUM, { L with val_sign := 1, current_val := 0, frac_scale := 1 / 10,
                         fsm_state := STATE_DOT }) := by
  simp [Lexer_ProcessChar, GetEventType, isdigit, hs, FSM_lookup, FSM_Table, Act_InitDot]

theorem ProcessChar_minus_IDLE (L : Lexer) (hs : L.fsm_state = STATE_IDLE) :
    Lexer_ProcessChar '-' L =
      (TOK_NUM, { L with val_sign := -1, current_val := 0, fsm_state := STATE_INT }) := by
  simp [Lexer_ProcessChar, GetEventType, isdigit, hs, FSM_lookup, FSM_Table, Act_SetSign]

/-! ## Lexer: runs of digits -/

theorem Lexer_feed_append (xs ys : List Char) (L : Lexer) :
    Lexer_feed (xs ++ ys) L =
      ((Lexer_feed xs L).1 ++ (Lexer_feed ys (Lexer_feed xs L).2).1,
       (Lexer_feed ys (Lexer_feed xs L).2).2) := by
  induction xs generalizing L with
  | nil => simp [Lexer_feed]
  | cons c cs ih => simp [Lexer_feed, ih]

/-- The digits of the integer part: in state `INT` each digit appends to the accumulator. -/
theorem Lexer_feed_digits_INT (ds : List Char) (hd : allDigits ds) (L : Lexer) (a : Nat)
    (hs : L.fsm_state = STATE_INT) (hv : L.current_val = (a : ℚ)) :
    Lexer_feed ds L =
      (List.replicate ds.length TOK_NUM,
       { L with current_val :=
          ((ds.foldl (fun acc c => acc * 10 + (c.toNat - 48)) a : Nat) : ℚ) }) := by
  induction ds generalizing L a with
  | nil => cases L; simp_all [Lexer_feed]
  | cons c cs ih =>
      have hc : isdigit c = true := hd c (List.mem_cons_self _ _)
      have hcs : allDigits cs := fun x hx => hd x (List.mem_cons_of_mem _ hx)
      rw [Lexer_feed, ProcessChar_digit_INT hc L hs]
      have hv1 : L.current_val * 10 + (digitOf c : ℚ) = ((a * 10 + (c.toNat - 48) : Nat) : ℚ) := by
        rw [hv, digitOf_of_isdigit hc]
        push_cast
        rfl
      simp only
      rw [ih hcs { L with current_val := L.current_val * 10 + (digitOf c : ℚ) }
        (a * 10 + (c.toNat - 48)) hs hv1]
      simp [List.replicate_succ]

theorem foldl_digits_shift (ds : List Char) (a : Nat) :
    ds.foldl (fun acc c => acc * 10 + (c.toNat - 48)) a =
      a * 10 ^ ds.length + natOfDigits ds := by
  unfold natOfDigits
  induction ds generalizing a with
  | nil => simp
  | cons c cs ih =>
      simp only [List.foldl_cons, List.length_cons]
      rw [ih (a * 10 + (c.toNat - 48)), ih (0 * 10 + (c.toNat - 48))]
      ring

theorem fracOfDigits_eq (ds : List Char) :
    fracOfDigits ds = (natOfDigits ds : ℚ) / 10 ^ ds.length := by
  induction ds with
  | nil => simp [fracOfDigits, natOfDigits]
  | cons c cs ih =>
      have h : natOfDigits (c :: cs) = (c.toNat - 48) * 10 ^ cs.length + natOfDigits cs := by
        have h0 := foldl_digits_shift cs (0 * 10 + (c.toNat - 48))
        simpa [natOfDigits] using h0
      have hp : (10 : ℚ) ^ cs.length ≠ 0 := pow_ne_zero _ (by norm_num)
      rw [fracOfDigits, ih, h, List.length_cons, pow_succ]
      push_cast
      field_simp

/-- The digits of the fractional part: in state `DOT` or `FRAC` each digit adds
`digit * frac_scale` and divides `frac_scale` by ten. -/
theorem Lexer_feed_digits_FRAC (ds : List Char) (hd : allDigits ds) (L : Lexer)
    (hs : L.fsm_state = STATE_DOT ∨ L.fsm_state = STATE_FRAC) :
    Lexer_feed ds L =
      (List.replicate ds.length TOK_NUM,
       { L with current_val := L.current_val + L.frac_scale * 10 * fracOfDigits ds,
                frac_scale := L.frac_scale / 10 ^ ds.length,
                fsm_state := if ds = [] then L.fsm_state else STATE_FRAC }) := by
  induction ds generalizing L with
  | nil => cases L; simp [Lexer_feed, fracOfDigits]
  | cons c cs ih =>
      have hc : isdigit c = true := hd c (List.mem_cons_self _ _)
      have hcs : allDigits cs := fun x hx => hd x (List.mem_cons_of_mem _ hx)
      rw [Lexer_feed, ProcessChar_digit_DOT_FRAC hc L hs]
      simp only
      rw [ih hcs _ (Or.inr rfl)]
      simp only [List.replicate_succ, List.length_cons, digitOf_of_isdigit hc, fracOfDigits]
      refine Prod.ext rfl ?_
      simp only [Lexer.mk.injEq]
      refine ⟨?_, ?_, trivial, ?_⟩
      · push_cast
        ring
      · rw [pow_succ]
        field_simp
        left
        ring
      · split <;> simp

/-! ## Lexer: literals -/

/-- C6: for non-empty digit strings `I` and `F`, feeding `I`, then `.`, then `F` into a
freshly reset lexer returns the NUMBER token for every character, ends in state FRAC,
and the current value is exactly the decimal number `I.F`. -/
theorem C6_lexer_reads_decimal_literal (I F : List Char) (hI : I ≠ []) (hF : F ≠ [])
    (hdI : allDigits I) (hdF : allDigits F) (L0 : Lexer) :
    (Lexer_feed (I ++ '.' :: F) (Lexer_ResetAll L0)).1
        = List.replicate (I.length + 1 + F.length) TOK_NUM
      ∧ Lexer_GetState (Lexer_feed (I ++ '.' :: F) (Lexer_ResetAll L0)).2 = STATE_FRAC
      ∧ Lexer_GetCurrentVal (Lexer_feed (I ++ '.' :: F) (Lexer_ResetAll L0)).2
          = decimalValue I F := by
  obtain ⟨c, cs, rfl⟩ := List.exists_cons_of_ne_nil hI
  have hc : isdigit c = true := hdI c (List.mem_cons_self _ _)
  have hcs : allDigits cs := fun x hx => hdI x (List.mem_cons_of_mem _ hx)
  have hv : ((digitOf c : Int) : ℚ) = ((c.toNat - 48 : Nat) : ℚ) := by
    rw [digitOf_of_isdigit hc]; push_cast; rfl
  have hnat : natOfDigits (c :: cs)
      = cs.foldl (fun acc c => acc * 10 + (c.toNat - 48)) (c.toNat - 48) := by
    simp [natOfDigits]
  rw [List.cons_append, Lexer_feed, ProcessChar_digit_IDLE hc _ rfl]
  simp only
  rw [Lexer_feed_append,
    Lexer_feed_digits_INT cs hcs
      { Lexer_ResetAll L0 with val_sign := 1, current_val := (digitOf c : ℚ),
                               fsm_state := STATE_INT } (c.toNat - 48) rfl hv]
  simp only
  rw [Lexer_feed, ProcessChar_dot_INT _ rfl]
  simp only
  rw [Lexer_feed_digits_FRAC F hdF _ (Or.inl rfl)]
  refine ⟨?_, ?_, ?_⟩
  · rw [List.length_cons,
      show cs.length + 1 + 1 + F.length = (cs.length + (F.length + 1)) + 1 by omega,
      List.replicate_succ, List.replicate_add, List.replicate_succ]
  · simp [Lexer_GetState, hF]
  · have hp : (10 : ℚ) ^ F.length ≠ 0 := pow_ne_zero _ (by norm_num)
    simp only [Lexer_GetCurrentVal, decimalValue, hnat, fracOfDigits_eq]
    push_cast
    field_simp

/-- The witness of C6: the characters `1`, `2`, `.`, `5` give 12.5 in state FRAC. -/
theorem C6_witness :
    (Lexer_feed ['1', '2', '.', '5'] (Lexer_ResetAll Lexer_init)).1
        = [TOK_NUM, TOK_NUM, TOK_NUM, TOK_NUM]
      ∧ Lexer_GetState (Lexer_feed ['1', '2', '.', '5'] (Lexer_ResetAll Lexer_init)).2 = STATE_FRAC
      ∧ Lexer_GetCurrentVal (Lexer_feed ['1', '2', '.', '5'] (Lexer_ResetAll Lexer_init)).2
          = 25 / 2 := by
  have h := C6_lexer_reads_decimal_literal ['1', '2'] ['5'] (by simp) (by simp)
    (by intro c hc; simp at hc; rcases hc with rfl | rfl <;> rfl)
    (by intro c hc; simp at hc; subst hc; rfl) Lexer_init
  have e1 : natOfDigits ['1', '2'] = 12 := by decide
  have e2 : natOfDigits ['5'] = 5 := by decide
  refine ⟨h.1, h.2.1, h.2.2.trans ?_⟩
  rw [decimalValue, e1, e2]
  norm_num

theorem relationOf_binary_G {t op : TokenType} (ht : isBinary t = true)
    (h : relationOf t op = some 'G') :
    op = TOK_ADD ∨ op = TOK_SUB ∨ op = TOK_MUL ∨ op = TOK_DIV ∨ op = TOK_RPAREN ∨ op = TOK_END := by
  cases t <;> cases op <;> simp_all [isBinary] <;> revert h <;> decide

theorem Calc_PushOp_body_shift {t op : TokenType} (vs : List ℚ) (os : List TokenType)
    (e : ErrCode) (h : relationOf t op = some 'L') :
    Calc_PushOp_body op ⟨vs, t :: os, e⟩ = LoopStep.ret true (push_op op ⟨vs, t :: os, e⟩) := by
  unfold relationOf at h
  simp [Calc_PushOp_body, peek_op, h]

theorem Calc_PushOp_body_reduce {t op : TokenType} (vs : List ℚ) (os : List TokenType)
    (e : ErrCode) (h : relationOf t op = some 'G') :
    Calc_PushOp_body op ⟨vs, t :: os, e⟩ =
      if (do_calculation ⟨vs, t :: os, e⟩).sys_error ≠ ERR_OK
      then LoopStep.ret false (do_calculation ⟨vs, t :: os, e⟩)
      else LoopStep.again (do_calculation ⟨vs, t :: os, e⟩) := by
  unfold relationOf at h
  simp [Calc_PushOp_body, peek_op, h]

theorem Calc_PushOp_body_reject {t op : TokenType} (vs : List ℚ) (os : List TokenType)
    (e : ErrCode) (h : relationOf t op = some 'X') :
    Calc_PushOp_body op ⟨vs, t :: os, e⟩ = LoopStep.ret false ⟨vs, t :: os, ERR_SYNTAX⟩ := by
  unfold relationOf at h
  simp [Calc_PushOp_body, peek_op, h]

theorem Calc_PushOp_body_unparen (vs : List ℚ) (os : List TokenType) (e : ErrCode) :
    Calc_PushOp_body TOK_RPAREN ⟨vs, TOK_LPAREN :: os, e⟩ = LoopStep.ret true ⟨vs, os, e⟩ := by
  simp [Calc_PushOp_body, peek_op, PriorityTable_at, PriorityTable, get_idx, pop_op]

theorem Calc_PushOp_body_finish (vs : List ℚ) (os : List TokenType) (e : ErrCode) :
    Calc_PushOp_body TOK_END ⟨vs, TOK_END :: os, e⟩ =
      LoopStep.ret true ⟨vs, TOK_END :: os, e⟩ := by
  simp [Calc_PushOp_body, peek_op, PriorityTable_at, PriorityTable, get_idx]

/-- A reduction with both operands present and no division by zero. -/
theorem do_calculation_binary {t : TokenType} (ht : isBinary t = true) (a b : ℚ) (vs : List ℚ)
    (os : List TokenType) (e : ErrCode) (hb : t = TOK_DIV → b ≠ 0) :
    do_calculation ⟨b :: a :: vs, t :: os, e⟩ = push_val (applyOp t a b) ⟨vs, os, e⟩ := by
  cases t <;> simp_all [isBinary, do_calculation, pop_val, pop_op, applyOp]

/-- A reduction of a division by zero. -/
theorem do_calculation_div0 (a : ℚ) (vs : List ℚ) (os : List TokenType) (e : ErrCode) :
    do_calculation ⟨0 :: a :: vs, TOK_DIV :: os, e⟩ = push_val 0 ⟨vs, os, ERR_DIV0⟩ := by
  simp [do_calculation, pop_val, pop_op]

/-- A reduction with fewer than two values on the stack. -/
theorem do_calculation_underflow (vs : List ℚ) (os : List TokenType) (e : ErrCode)
    (h : vs.length < 2) :
    do_calculation ⟨vs, os, e⟩ = ⟨vs, os, ERR_SYNTAX⟩ := by
  simp [do_calculation, h]

theorem push_val_sys_error (v : ℚ) (s : CalcState) : (push_val v s).sys_error = s.sys_error := by
  unfold push_val; split <;> rfl

theorem push_val_op_stack (v : ℚ) (s : CalcState) : (push_val v s).op_stack = s.op_stack := by
  unfold push_val; split <;> rfl

theorem push_op_sys_error (t : TokenType) (s : CalcState) :
    (push_op t s).sys_error = s.sys_error := by
  unfold push_op; split <;> rfl

theorem push_op_val_stack (t : TokenType) (s : CalcState) :
    (push_op t s).val_stack = s.val_stack := by
  unfold push_op; split <;> rfl

theorem push_val_of_lt (v : ℚ) (vs : List ℚ) (os : List TokenType) (e : ErrCode)
    (h : vs.length < MAX_STACK) : push_val v ⟨vs, os, e⟩ = ⟨v :: vs, os, e⟩ := by
  simp [push_val, h]

theorem push_op_of_lt (t : TokenType) (vs : List ℚ) (os : List TokenType) (e : ErrCode)
    (h : os.length < MAX_STACK) : push_op t ⟨vs, os, e⟩ = ⟨vs, t :: os, e⟩ := by
  simp [push_op, h]

/-! ## Evaluator: passes of the loop -/

theorem Calc_PushOp_body_again_error {op : TokenType} {s s1 : CalcState}
    (h : Calc_PushOp_body op s = LoopStep.again s1) (hok : s.sys_error = ERR_OK) :
    s1.sys_error = ERR_OK := by
  unfold Calc_PushOp_body at h
  simp only at h
  split at h
  · cases h
  · split_ifs at h with h1 h2 h3 h4 h5 h6
    · cases h
      exact not_not.mp h3
    · cases h
      exact hok

theorem Calc_PushOp_pass_error (k : Nat) (op : TokenType) (s sk : CalcState)
    (h : Calc_PushOp_pass k op s = some sk) (hok : s.sys_error = ERR_OK) :
    sk.sys_error = ERR_OK := by
  induction k generalizing s with
  | zero =>
      simp only [Calc_PushOp_pass, Option.some.injEq] at h
      exact h ▸ hok
  | succ k ih =>
      rw [Calc_PushOp_pass] at h
      split at h
      · next s1 hb => exact ih s1 h (Calc_PushOp_body_again_error hb hok)
      · cases h

theorem Calc_PushOp_loop_of_pass (k n : Nat) (op : TokenType) (s sk : CalcState)
    (h : Calc_PushOp_pass k op s = some sk) :
    Calc_PushOp_loop (k + n) op s = Calc_PushOp_loop n op sk := by
  induction k generalizing s with
  | zero =>
      simp only [Calc_PushOp_pass, Option.some.injEq] at h
      simp [h]
  | succ k ih =>
      rw [Calc_PushOp_pass] at h
      split at h
      · next s1 hb =>
          rw [show k + 1 + n = (k + n) + 1 by omega, Calc_PushOp_loop, hb]
          exact ih s1 h
      · cases h

/-- C8: whenever a pass of the loop of `Calc_PushOp` reduces (relation `G`) with `TOK_DIV` on
top of the operator stack and right operand 0 on top of the value stack (any left operand
`a` below it), `Calc_PushOp` returns failure and the error is `ERR_DIV0`. -/
theorem C8_division_by_zero_fails (fuel k : Nat) (op : TokenType) (s sk : CalcState) (a : ℚ)
    (vs : List ℚ) (os : List TokenType)
    (hok : s.sys_error = ERR_OK)
    (hpass : Calc_PushOp_pass k op s = some sk)
    (hvals : sk.val_stack = 0 :: a :: vs)
    (hops : sk.op_stack = TOK_DIV :: os)
    (hrel : relationOf TOK_DIV op = some 'G')
    (hfuel : k < fuel) :
    ∃ s1, Calc_PushOp fuel op s = some (false, s1) ∧ s1.sys_error = ERR_DIV0 := by
  obtain ⟨n, rfl⟩ : ∃ n, fuel = k + (n + 1) := ⟨fuel - k - 1, by omega⟩
  have hsk : sk = ⟨0 :: a :: vs, TOK_DIV :: os, ERR_OK⟩ := by
    have he := Calc_PushOp_pass_error k op s sk hpass hok
    cases sk
    simp_all
  refine ⟨push_val 0 ⟨vs, os, ERR_DIV0⟩, ?_, by rw [push_val_sys_error]⟩
  rw [Calc_PushOp, if_neg (by simp [hok]), Calc_PushOp_loop_of_pass k (n + 1) op s sk hpass,
    Calc_PushOp_loop, hsk, Calc_PushOp_body_reduce _ _ _ hrel, do_calculation_div0,
    if_pos (by rw [push_val_sys_error]; simp)]

/-- The witness of C8: the keys `5/0=` end with a failed `Calc_PushOp` and error `ERR_DIV0`;
the final call runs from the state with values 0, 5 and operators `/`, END. -/
theorem C8_witness :
    (∃ s1, Calc_PushOp 2 TOK_END ⟨[0, 5], [TOK_DIV, TOK_END], ERR_OK⟩ = some (false, s1)
        ∧ s1.sys_error = ERR_DIV0)
      ∧ (pressKeys Build_double32 21 ['5', '/', '0', '='] (Machine_init, none)).map
          (fun r => (r.2, r.1.evaluator.sys_error)) = some (some false, ERR_DIV0) := by
  refine ⟨C8_division_by_zero_fails 2 0 TOK_END ⟨[0, 5], [TOK_DIV, TOK_END], ERR_OK⟩
    ⟨[0, 5], [TOK_DIV, TOK_END], ERR_OK⟩ 5 [] [TOK_END] rfl rfl rfl rfl (by decide) (by decide), ?_⟩
  decide!

/-! ## Evaluator: an open parenthesis at termination -/

theorem push_val_eq (v : ℚ) (vs : List ℚ) (os : List TokenType) (e : ErrCode) :
    push_val v ⟨vs, os, e⟩ = ⟨(push_val v ⟨vs, os, e⟩).val_stack, os, e⟩ := by
  unfold push_val; split <;> rfl

theorem relationOf_binary_END {t : TokenType} (ht : isBinary t = true) :
    relationOf t TOK_END = some 'G' := by
  cases t <;> simp_all [isBinary] <;> decide

theorem Calc_PushOp_pass_succ_of_ret {op : TokenType} {s : CalcState} {r : Bool}
    {s1 : CalcState} (h : Calc_PushOp_body op s = LoopStep.ret r s1) (k : Nat) :
    Calc_PushOp_pass (k + 1) op s = none := by
  rw [Calc_PushOp_pass, h]

theorem Calc_PushOp_pass_succ_of_again {op : TokenType} {s s1 : CalcState}
    (h : Calc_PushOp_body op s = LoopStep.again s1) (k : Nat) :
    Calc_PushOp_pass (k + 1) op s = Calc_PushOp_pass k op s1 := by
  rw [Calc_PushOp_pass, h]

/-- With an open parenthesis under a run of binary operators, the final `Calc_PushOp(TOK_END)`
fails: with `ERR_DIV0` when a division by zero is reduced on the way, else with `ERR_SYNTAX`. -/
theorem Calc_PushOp_loop_END_open_paren (bs : List TokenType)
    (hbs : ∀ t ∈ bs, isBinary t = true) (rest : List TokenType) (vs : List ℚ) (fuel : Nat)
    (hfuel : bs.length < fuel) :
    ∃ s1, Calc_PushOp_loop fuel TOK_END ⟨vs, bs ++ TOK_LPAREN :: rest, ERR_OK⟩ = some (false, s1)
      ∧ ((s1.sys_error = ERR_DIV0 ∧ reducesDivByZero ⟨vs, bs ++ TOK_LPAREN :: rest, ERR_OK⟩)
        ∨ (s1.sys_error = ERR_SYNTAX
            ∧ ¬ reducesDivByZero ⟨vs, bs ++ TOK_LPAREN :: rest, ERR_OK⟩)) := by
  induction bs generalizing vs fuel with
  | nil =>
      obtain ⟨n, rfl⟩ : ∃ n, fuel = n + 1 := ⟨fuel - 1, by simp at hfuel; omega⟩
      have hb : Calc_PushOp_body TOK_END ⟨vs, TOK_LPAREN :: rest, ERR_OK⟩
          = LoopStep.ret false ⟨vs, TOK_LPAREN :: rest, ERR_SYNTAX⟩ :=
        Calc_PushOp_body_reject vs rest ERR_OK (by decide)
      refine ⟨⟨vs, TOK_LPAREN :: rest, ERR_SYNTAX⟩, ?_, Or.inr ⟨rfl, ?_⟩⟩
      · rw [List.nil_append, Calc_PushOp_loop, hb]
      · rintro ⟨k, sk, a, vs1, os1, hp, -, ho⟩
        cases k with
        | zero =>
            simp only [Calc_PushOp_pass, Option.some.injEq] at hp
            subst hp
            simp at ho
        | succ k =>
            rw [List.nil_append, Calc_PushOp_pass_succ_of_ret hb] at hp
            cases hp
  | cons t bs ih =>
      obtain ⟨n, rfl⟩ : ∃ n, fuel = n + 1 := ⟨fuel - 1, by simp at hfuel; omega⟩
      have ht : isBinary t = true := hbs t (List.mem_cons_self _ _)
      have hbs1 : ∀ x ∈ bs, isBinary x = true := fun x hx => hbs x (List.mem_cons_of_mem _ hx)
      have hn : bs.length < n := by simp at hfuel; omega
      have hb := @Calc_PushOp_body_reduce t TOK_END vs
        (bs ++ TOK_LPAREN :: rest) ERR_OK (relationOf_binary_END ht)
      rw [List.cons_append, Calc_PushOp_loop]
      by_cases hlen : vs.length < 2
      · -- too few operands
        rw [do_calculation_underflow _ _ _ hlen, if_pos (by simp)] at hb
        refine ⟨_, by rw [hb], Or.inr ⟨rfl, ?_⟩⟩
        rintro ⟨k, sk, a, vs1, os1, hp, hv, -⟩
        cases k with
        | zero =>
            simp only [Calc_PushOp_pass, Option.some.injEq] at hp
            subst hp
            simp only at hv
            rw [hv] at hlen
            simp at hlen
            omega
        | succ k =>
            rw [Calc_PushOp_pass_succ_of_ret hb] at hp
            cases hp
      · obtain ⟨b, a, vs1, rfl⟩ : ∃ b a vs1, vs = b :: a :: vs1 := by
          match vs, hlen with
          | b :: a :: vs1, _ => exact ⟨b, a, vs1, rfl⟩
          | [_], h => simp at h
          | [], h => simp at h
        by_cases hz : t = TOK_DIV ∧ b = 0
        · -- the division by zero
          obtain ⟨rfl, rfl⟩ := hz
          rw [do_calculation_div0, if_pos (by rw [push_val_sys_error]; simp)] at hb
          refine ⟨_, by rw [hb], Or.inl ⟨by rw [push_val_sys_error], ?_⟩⟩
          exact ⟨0, _, a, vs1, bs ++ TOK_LPAREN :: rest, rfl, rfl, rfl⟩
        · -- an ordinary reduction, then the rest of the run
          have hdiv : t = TOK_DIV → b ≠ 0 := fun h1 h2 => hz ⟨h1, h2⟩
          rw [do_calculation_binary ht a b vs1 _ ERR_OK hdiv, push_val_eq,
            if_neg (by simp)] at hb
          obtain ⟨s1, h1, h2⟩ := ih hbs1 _ n hn
          refine ⟨s1, by rw [hb]; exact h1, ?_⟩
          rcases h2 with ⟨he, k, sk, a1, vs2, os2, hp, hv, ho⟩ | ⟨he, hno⟩
          · refine Or.inl ⟨he, k + 1, sk, a1, vs2, os2, ?_, hv, ho⟩
            rw [Calc_PushOp_pass_succ_of_again hb]
            exact hp
          · refine Or.inr ⟨he, ?_⟩
            rintro ⟨k, sk, a1, vs2, os2, hp, hv, ho⟩
            cases k with
            | zero =>
                simp only [Calc_PushOp_pass, Option.some.injEq] at hp
                subst hp
                simp only [List.cons.injEq] at hv ho
                exact hz ⟨ho.1, hv.1⟩
            | succ k =>
                rw [Calc_PushOp_pass_succ_of_again hb] at hp
                exact hno ⟨k, sk, a1, vs2, os2, hp, hv, ho⟩

/-! ## Evaluator: the shape of the operator stack -/

theorem relationOf_cases (t op : TokenType) (ht : isOperatorToken t = true)
    (hop : isOperatorToken op = true) :
    (relationOf t op = some 'L' ∧ (isBinary op = true ∨ op = TOK_LPAREN))
      ∨ (relationOf t op = some 'G' ∧ (isBinary t = true ∨ t = TOK_RPAREN))
      ∨ relationOf t op = some 'X'
      ∨ (t = TOK_LPAREN ∧ op = TOK_RPAREN)
      ∨ (t = TOK_END ∧ op = TOK_END) := by
  revert ht hop
  cases t <;> cases op <;> decide

theorem do_calculation_op_stack (vs : List ℚ) (t : TokenType) (os : List TokenType)
    (e : ErrCode) :
    (do_calculation ⟨vs, t :: os, e⟩).op_stack = t :: os
      ∨ (do_calculation ⟨vs, t :: os, e⟩).op_stack = os := by
  match vs with
  | [] => exact Or.inl (by simp [do_calculation])
  | [_] => exact Or.inl (by simp [do_calculation])
  | b :: a :: vs1 =>
      right
      have hlen : ¬ (vs1.length + 1 + 1 < 2) := by omega
      cases t <;> simp only [do_calculation, pop_val, pop_op, List.length_cons, if_neg hlen]
        <;> (try split) <;> simp only [push_val_op_stack]

theorem opStackShape_cons {t : TokenType} {os : List TokenType} (h : opStackShape os)
    (ht : isBinary t = true ∨ t = TOK_LPAREN) : opStackShape (t :: os) := by
  obtain ⟨pre, rfl, hall⟩ := h
  refine ⟨t :: pre, rfl, ?_⟩
  intro x hx
  rcases List.mem_cons.1 hx with rfl | hx
  · exact ht
  · exact hall x hx

theorem opStackShape_tail {t : TokenType} {os : List TokenType} (h : opStackShape (t :: os))
    (ht : t ≠ TOK_END) : opStackShape os := by
  obtain ⟨pre, hpre, hall⟩ := h
  cases pre with
  | nil =>
      simp only [List.nil_append, List.cons.injEq] at hpre
      exact absurd hpre.1 ht
  | cons x pre =>
      simp only [List.cons_append, List.cons.injEq] at hpre
      exact ⟨pre, hpre.2, fun y hy => hall y (List.mem_cons_of_mem _ hy)⟩

theorem opStackShape_head {t : TokenType} {os : List TokenType} (h : opStackShape (t :: os)) :
    isBinary t = true ∨ t = TOK_LPAREN ∨ t = TOK_END := by
  obtain ⟨pre, hpre, hall⟩ := h
  cases pre with
  | nil =>
      simp only [List.nil_append, List.cons.injEq] at hpre
      exact Or.inr (Or.inr hpre.1)
  | cons x pre =>
      simp only [List.cons_append, List.cons.injEq] at hpre
      rcases hall x (List.mem_cons_self _ _) with h1 | h1
      · exact Or.inl (hpre.1 ▸ h1)
      · exact Or.inr (Or.inl (hpre.1 ▸ h1))

theorem opStackShape_ne_nil {os : List TokenType} (h : opStackShape os) : os ≠ [] := by
  obtain ⟨pre, rfl, -⟩ := h
  simp

/-- One pass of the loop keeps the shape of the operator stack. -/
theorem Calc_PushOp_body_shape (op : TokenType) (hop : isOperatorToken op = true)
    (s : CalcState) (hs : opStackShape s.op_stack) :
    match Calc_PushOp_body op s with
    | LoopStep.ret _ s1 => opStackShape s1.op_stack
    | LoopStep.again s1 => opStackShape s1.op_stack
    | LoopStep.outOfBounds => False := by
  obtain ⟨vs, os, e⟩ := s
  simp only at hs
  obtain ⟨t, os, rfl⟩ := List.exists_cons_of_ne_nil (opStackShape_ne_nil hs)
  have hhead := opStackShape_head hs
  have ht : isOperatorToken t = true := by
    rcases hhead with h | h | h
    · revert h; cases t <;> simp [isBinary, isOperatorToken]
    · subst h; rfl
    · subst h; rfl
  rcases relationOf_cases t op ht hop with ⟨h, hb⟩ | ⟨h, hb⟩ | h | ⟨rfl, rfl⟩ | ⟨rfl, rfl⟩
  · rw [Calc_PushOp_body_shift vs os e h]
    simp only [push_op]
    split
    · exact opStackShape_cons hs hb
    · exact hs
  · rw [Calc_PushOp_body_reduce vs os e h]
    have hne : t ≠ TOK_END := by
      rintro rfl
      rcases hb with hb | hb
      · simp [isBinary] at hb
      · cases hb
    split_ifs <;> simp only <;>
      rcases do_calculation_op_stack vs t os e with h1 | h1 <;> rw [h1] <;>
      first | exact hs | exact opStackShape_tail hs hne
  · rw [Calc_PushOp_body_reject vs os e h]
    exact hs
  · rw [Calc_PushOp_body_unparen]
    exact opStackShape_tail hs (by decide)
  · rw [Calc_PushOp_body_finish]
    exact hs

theorem Calc_PushOp_loop_shape (fuel : Nat) (op : TokenType) (hop : isOperatorToken op = true)
    (s : CalcState) (hs : opStackShape s.op_stack) (r : Bool) (s1 : CalcState)
    (h : Calc_PushOp_loop fuel op s = some (r, s1)) : opStackShape s1.op_stack := by
  induction fuel generalizing s with
  | zero => simp [Calc_PushOp_loop] at h
  | succ n ih =>
      rw [Calc_PushOp_loop] at h
      have hb := Calc_PushOp_body_shape op hop s hs
      split at h
      · next r1 s2 heq =>
          rw [heq] at hb
          simp only [Option.some.injEq, Prod.mk.injEq] at h
          exact h.2 ▸ hb
      · next s2 heq =>
          rw [heq] at hb
          exact ih s2 hb h
      · cases h

/-- Every reachable state has operators and open parentheses above one END mark. -/
theorem Reachable_opStackShape {s : CalcState} (h : Reachable s) : opStackShape s.op_stack := by
  induction h with
  | reset s0 => exact ⟨[], by simp [Calc_Reset, push_op, MAX_STACK], by simp⟩
  | pushNum v s _ ih =>
      rw [Calc_PushNum, push_val_op_stack]
      exact ih
  | pushOp fuel op s r s1 _ hop hpush ih =>
      rw [Calc_PushOp] at hpush
      split at hpush
      · simp only [Option.some.injEq, Prod.mk.injEq] at hpush
        exact hpush.2 ▸ ih
      · exact Calc_PushOp_loop_shape fuel op hop s ih r s1 hpush

theorem opStackShape_first_paren {os : List TokenType} (h : opStackShape os)
    (hlp : TOK_LPAREN ∈ os) :
    ∃ bs rest, os = bs ++ TOK_LPAREN :: rest ∧ ∀ t ∈ bs, isBinary t = true := by
  obtain ⟨pre, rfl, hall⟩ := h
  induction pre with
  | nil => simp at hlp
  | cons x pre ih =>
      rcases hall x (List.mem_cons_self _ _) with hx | hx
      · have hlp1 : TOK_LPAREN ∈ pre ++ [TOK_END] := by
          rcases List.mem_cons.1 hlp with h1 | h1
          · rw [← h1] at hx
            simp [isBinary] at hx
          · exact h1
        obtain ⟨bs, rest, heq, hbs⟩ :=
          ih (fun y hy => hall y (List.mem_cons_of_mem _ hy)) hlp1
        refine ⟨x :: bs, rest, by rw [List.cons_append, heq, List.cons_append], ?_⟩
        intro y hy
        rcases List.mem_cons.1 hy with rfl | hy
        · exact hx
        · exact hbs y hy
      · exact ⟨[], pre ++ [TOK_END], by rw [hx]; rfl, by simp⟩

/-- The state after the calls made for `((1+2)*3` and the pending `Calc_PushNum(3)`. -/
theorem Reachable_two_open_parens :
    Reachable ⟨[3, 3], [TOK_MUL, TOK_LPAREN, TOK_END], ERR_OK⟩ := by
  have h0 : Reachable ⟨[], [TOK_END], ERR_OK⟩ := Reachable.reset ⟨[], [], ERR_OK⟩
  have h1 : Reachable ⟨[], [TOK_LPAREN, TOK_END], ERR_OK⟩ :=
    Reachable.pushOp 21 TOK_LPAREN _ true _ h0 rfl (by decide!)
  have h2 : Reachable ⟨[], [TOK_LPAREN, TOK_LPAREN, TOK_END], ERR_OK⟩ :=
    Reachable.pushOp 21 TOK_LPAREN _ true _ h1 rfl (by decide!)
  have h3 : Reachable ⟨[1], [TOK_LPAREN, TOK_LPAREN, TOK_END], ERR_OK⟩ :=
    Reachable.pushNum 1 _ h2
  have h4 : Reachable ⟨[1], [TOK_ADD, TOK_LPAREN, TOK_LPAREN, TOK_END], ERR_OK⟩ :=
    Reachable.pushOp 21 TOK_ADD _ true _ h3 rfl (by decide!)
  have h5 : Reachable ⟨[2, 1], [TOK_ADD, TOK_LPAREN, TOK_LPAREN, TOK_END], ERR_OK⟩ :=
    Reachable.pushNum 2 _ h4
  have h6 : Reachable ⟨[3], [TOK_LPAREN, TOK_END], ERR_OK⟩ :=
    Reachable.pushOp 21 TOK_RPAREN _ true _ h5 rfl (by decide!)
  have h7 : Reachable ⟨[3], [TOK_MUL, TOK_LPAREN, TOK_END], ERR_OK⟩ :=
    Reachable.pushOp 21 TOK_MUL _ true _ h6 rfl (by decide!)
  exact Reachable.pushNum 3 _ h7

/-- C10: in every state reachable from `Calc_Reset` with error OK whose operator stack contains
an open parenthesis, `Calc_PushOp(TOK_END)` returns failure; the error is `ERR_DIV0` when a
pass of the loop reduces a division by 0 on the way, and `ERR_SYNTAX` otherwise. -/
theorem C10_unmatched_open_paren_rejected (s : CalcState) (hr : Reachable s)
    (hok : s.sys_error = ERR_OK) (hlp : TOK_LPAREN ∈ s.op_stack) (fuel : Nat)
    (hfuel : s.op_stack.length ≤ fuel) :
    ∃ s1, Calc_PushOp fuel TOK_END s = some (false, s1)
      ∧ ((s1.sys_error = ERR_DIV0 ∧ reducesDivByZero s)
        ∨ (s1.sys_error = ERR_SYNTAX ∧ ¬ reducesDivByZero s)) := by
  obtain ⟨bs, rest, heq, hbs⟩ := opStackShape_first_paren (Reachable_opStackShape hr) hlp
  obtain ⟨vs, os, e⟩ := s
  simp only at hok heq hfuel
  subst hok heq
  have hlt : bs.length < fuel := by
    simp only [List.length_append, List.length_cons] at hfuel
    omega
  rw [Calc_PushOp, if_neg (by simp)]
  exact Calc_PushOp_loop_END_open_paren bs hbs rest vs fuel hlt

/-- The witness of C10: `((1+2)*3=` ends with `ERR_SYNTAX` (the final call runs from the state
with values 3, 3 and operators `*`, `(`, END), while `(1+2)*3=` succeeds with result 9. -/
theorem C10_witness :
    (∃ s1, Calc_PushOp 21 TOK_END ⟨[3, 3], [TOK_MUL, TOK_LPAREN, TOK_END], ERR_OK⟩
          = some (false, s1)
        ∧ ((s1.sys_error = ERR_DIV0
            ∧ reducesDivByZero ⟨[3, 3], [TOK_MUL, TOK_LPAREN, TOK_END], ERR_OK⟩)
          ∨ (s1.sys_error = ERR_SYNTAX
            ∧ ¬ reducesDivByZero ⟨[3, 3], [TOK_MUL, TOK_LPAREN, TOK_END], ERR_OK⟩)))
      ∧ (pressKeys Build_double32 21 ['(', '(', '1', '+', '2', ')', '*', '3', '='] (Machine_init, none)).map
          (fun r => (r.2, r.1.evaluator.sys_error)) = some (some false, ERR_SYNTAX)
      ∧ (pressKeys Build_double32 21 ['(', '1', '+', '2', ')', '*', '3', '='] (Machine_init, none)).map
          (fun r => (r.2, r.1.evaluator.sys_error, Calc_GetResult r.1.evaluator))
          = some (some true, ERR_OK, 9) := by
  refine ⟨C10_unmatched_open_paren_rejected _ Reachable_two_open_parens rfl (by simp) 21
    (by simp), ?_, ?_⟩
  · decide!
  · decide!

/-! ## Evaluator: the iteration budget -/

theorem Calc_PushOp_loop_of_ret {op : TokenType} {s s1 : CalcState} {r : Bool}
    (h : Calc_PushOp_body op s = LoopStep.ret r s1) (n : Nat) :
    Calc_PushOp_loop (n + 1) op s = some (r, s1) := by
  rw [Calc_PushOp_loop, h]

theorem Calc_PushOp_loop_of_again {op : TokenType} {s s1 : CalcState}
    (h : Calc_PushOp_body op s = LoopStep.again s1) (n : Nat) :
    Calc_PushOp_loop (n + 1) op s = Calc_PushOp_loop n op s1 := by
  rw [Calc_PushOp_loop, h]

theorem Calc_PushOp_loop_stuck (op : TokenType) (s : CalcState)
    (h : Calc_PushOp_body op s = LoopStep.again s) (n : Nat) :
    Calc_PushOp_loop n op s = none := by
  induction n with
  | zero => rfl
  | succ n ih => rw [Calc_PushOp_loop, h]; exact ih

theorem do_calculation_val_length (s : CalcState) (h : (do_calculation s).sys_error = ERR_OK) :
    (do_calculation s).val_stack.length < s.val_stack.length := by
  obtain ⟨vs, os, e⟩ := s
  match vs with
  | [] => simp [do_calculation] at h
  | [_] => simp [do_calculation] at h
  | b :: a :: vs1 =>
      have hlen : ¬ (vs1.length + 1 + 1 < 2) := by omega
      have hp : ∀ (x : ℚ) (s1 : CalcState), s1.val_stack = vs1 →
          (push_val x s1).val_stack.length < vs1.length + 1 + 1 := by
        intro x s1 hs1
        unfold push_val
        split <;> simp [hs1]
        omega
      simp only [do_calculation, pop_val, List.length_cons, if_neg hlen]
      split <;> (try split) <;> exact hp _ _ (by simp [pop_op]; split <;> rfl)

theorem Calc_PushOp_body_again_cases {op : TokenType} {s s1 : CalcState}
    (h : Calc_PushOp_body op s = LoopStep.again s1) :
    s1 = s ∨ s1.val_stack.length < s.val_stack.length := by
  unfold Calc_PushOp_body at h
  simp only at h
  split at h
  · cases h
  · split_ifs at h with h1 h2 h3 h4 h5 h6
    · cases h
      exact Or.inr (do_calculation_val_length s (not_not.mp h3))
    · cases h
      exact Or.inl rfl

/-- Once the budget exceeds the height of the value stack, its exact size does not matter. -/
theorem Calc_PushOp_loop_fuel (n m : Nat) (op : TokenType) (s : CalcState)
    (hn : s.val_stack.length < n) (hm : s.val_stack.length < m) :
    Calc_PushOp_loop n op s = Calc_PushOp_loop m op s := by
  induction n generalizing m s with
  | zero => omega
  | succ n ih =>
      obtain ⟨m, rfl⟩ : ∃ k, m = k + 1 := ⟨m - 1, by omega⟩
      rw [Calc_PushOp_loop, Calc_PushOp_loop]
      split
      · rfl
      · next s1 heq =>
          rcases Calc_PushOp_body_again_cases heq with h | h
          · subst h
            rw [Calc_PushOp_loop_stuck op s1 heq, Calc_PushOp_loop_stuck op s1 heq]
          · exact ih m s1 (by omega) (by omega)
      · rfl

/-! ## Evaluator: reading a formula -/

theorem feedTokens_cons (fuel : Nat) (t : Token) (ts : List Token) (st : Bool × CalcState) :
    feedTokens fuel (t :: ts) st =
      match feedToken fuel t st with
      | none => none
      | some st1 => feedTokens fuel ts st1 := rfl

theorem feedToken_num (fuel : Nat) (x : ℚ) (ok : Bool) (vs : List ℚ) (os : List TokenType)
    (h : vs.length < MAX_STACK) :
    feedToken fuel ⟨TOK_NUM, x⟩ (ok, ⟨vs, os, ERR_OK⟩) = some (ok, ⟨x :: vs, os, ERR_OK⟩) := by
  simp [feedToken, Calc_PushNum, push_val, h]

theorem feedToken_shift (fuel : Nat) (hfuel : 0 < fuel) {t op : TokenType}
    (hrel : relationOf t op = some 'L') (ok : Bool) (vs : List ℚ) (os : List TokenType)
    (hlen : (t :: os).length < MAX_STACK) :
    feedToken fuel ⟨op, 0⟩ (ok, ⟨vs, t :: os, ERR_OK⟩)
      = some (ok, ⟨vs, op :: t :: os, ERR_OK⟩) := by
  obtain ⟨n, rfl⟩ : ∃ n, fuel = n + 1 := ⟨fuel - 1, by omega⟩
  have hop : op ≠ TOK_NUM := by
    rintro rfl
    revert hrel
    cases t <;> decide
  simp only [feedToken, if_neg hop, Calc_PushOp, Calc_PushOp_loop,
    Calc_PushOp_body_shift vs os ERR_OK hrel, push_op_of_lt op vs (t :: os) ERR_OK hlen]
  simp

theorem feedToken_unparen (fuel : Nat) (hfuel : 0 < fuel) (ok : Bool) (vs : List ℚ)
    (os : List TokenType) :
    feedToken fuel ⟨TOK_RPAREN, 0⟩ (ok, ⟨vs, TOK_LPAREN :: os, ERR_OK⟩)
      = some (ok, ⟨vs, os, ERR_OK⟩) := by
  obtain ⟨n, rfl⟩ : ∃ n, fuel = n + 1 := ⟨fuel - 1, by omega⟩
  simp [feedToken, Calc_PushOp, Calc_PushOp_loop, Calc_PushOp_body_unparen]

/-- A pending binary operator is reduced by the token that follows its right operand. -/
theorem feedToken_reduce (fuel : Nat) {t nx : TokenType} (ht : isBinary t = true)
    (hrel : relationOf t nx = some 'G') (ok : Bool) (a b : ℚ) (vs : List ℚ)
    (os : List TokenType) (hb : t = TOK_DIV → b ≠ 0) (hlen : vs.length + 2 < fuel)
    (hcap : vs.length < MAX_STACK) :
    feedToken fuel ⟨nx, 0⟩ (ok, ⟨b :: a :: vs, t :: os, ERR_OK⟩)
      = feedToken fuel ⟨nx, 0⟩ (ok, ⟨applyOp t a b :: vs, os, ERR_OK⟩) := by
  obtain ⟨n, rfl⟩ : ∃ n, fuel = n + 1 := ⟨fuel - 1, by omega⟩
  have hloop : Calc_PushOp_loop (n + 1) nx ⟨b :: a :: vs, t :: os, ERR_OK⟩
      = Calc_PushOp_loop (n + 1) nx ⟨applyOp t a b :: vs, os, ERR_OK⟩ := by
    rw [Calc_PushOp_loop, Calc_PushOp_body_reduce _ _ _ hrel,
      do_calculation_binary ht a b vs os ERR_OK hb, push_val_of_lt _ _ _ _ hcap,
      if_neg (by simp)]
    exact Calc_PushOp_loop_fuel n (n + 1) nx _ (by simp; omega) (by simp; omega)
  have hnx : nx ≠ TOK_NUM := by
    rintro rfl
    revert hrel
    cases t <;> decide
  simp only [feedToken, Calc_PushOp, hloop, if_neg hnx]
  simp

theorem topOK_shift {t : TokenType} {op : BinOp} (h : topOK t op.level) :
    relationOf t op.tok = some 'L' := by
  cases op <;> rcases h with rfl | rfl | ⟨rfl | rfl, h⟩ | ⟨rfl | rfl, h⟩ <;>
    first
      | rfl
      | (simp [BinOp.level] at h)

theorem topOK_paren {t : TokenType} {lvl : Nat} (h : topOK t lvl) :
    relationOf t TOK_LPAREN = some 'L' := by
  rcases h with rfl | rfl | ⟨rfl | rfl, _⟩ | ⟨rfl | rfl, _⟩ <;> rfl

theorem followOK_reduce {nx : TokenType} {op : BinOp} (h : followOK nx op.level) :
    relationOf op.tok nx = some 'G' := by
  cases op <;> rcases h with rfl | rfl | rfl | rfl | ⟨rfl | rfl, h⟩ <;>
    first
      | rfl
      | (simp [BinOp.level] at h)

theorem BinOp.isBinary_tok (op : BinOp) : isBinary op.tok = true := by
  cases op <;> rfl

theorem Formula.eval_bin {op : BinOp} {l r : Formula} {v : ℚ}
    (h : (Formula.bin op l r).eval = some v) :
    ∃ a b, l.eval = some a ∧ r.eval = some b ∧ (op.tok = TOK_DIV → b ≠ 0)
      ∧ v = applyOp op.tok a b := by
  rw [Formula.eval] at h
  split at h
  · next a b ha hb =>
      refine ⟨a, b, ha, hb, ?_⟩
      cases op <;> simp only [BinOp.tok, applyOp] at h ⊢
      · exact ⟨by simp, by simpa using h.symm⟩
      · exact ⟨by simp, by simpa using h.symm⟩
      · exact ⟨by simp, by simpa using h.symm⟩
      · split at h
        · cases h
        · next hb0 => exact ⟨fun _ => hb0, by simpa using h.symm⟩
  · cases h

theorem topOK_mono {t : TokenType} {a b : Nat} (h : topOK t a) (hab : a ≤ b) : topOK t b := by
  rcases h with h | h | ⟨h, h1⟩ | ⟨h, h1⟩
  · exact Or.inl h
  · exact Or.inr (Or.inl h)
  · exact Or.inr (Or.inr (Or.inl ⟨h, by omega⟩))
  · exact Or.inr (Or.inr (Or.inr ⟨h, by omega⟩))

theorem followOK_mono {t : TokenType} {a b : Nat} (h : followOK t a) (hab : a ≤ b) :
    followOK t b := by
  rcases h with h | h | h | h | ⟨h, h1⟩
  · exact Or.inl h
  · exact Or.inr (Or.inl h)
  · exact Or.inr (Or.inr (Or.inl h))
  · exact Or.inr (Or.inr (Or.inr (Or.inl h)))
  · exact Or.inr (Or.inr (Or.inr (Or.inr ⟨h, by omega⟩)))

theorem topOK_tok (op : BinOp) {lvl : Nat} (h : op.level + 1 ≤ lvl) : topOK op.tok lvl := by
  cases op <;> simp only [BinOp.level] at h <;> simp [topOK, BinOp.tok] <;> omega

theorem followOK_tok (op : BinOp) {lvl : Nat} (h : op.level ≤ lvl) : followOK op.tok lvl := by
  cases op <;> simp only [BinOp.level] at h <;> simp [followOK, BinOp.tok] <;> omega

theorem Formula.valNeed_pos (e : Formula) : 1 ≤ e.valNeed := by
  induction e with
  | num x => simp [Formula.valNeed]
  | paren e ih => simpa [Formula.valNeed] using ih
  | bin op l r ihl _ =>
      simp only [Formula.valNeed]
      exact le_trans ihl (le_max_left _ _)

/-- Reading the tokens of a well-formed formula and then an operator token `nx` that may
follow it has the same effect as having the value of the formula on the value stack when
`nx` arrives. -/
theorem feedTokens_formula (fuel : Nat) (hfuel : MAX_STACK < fuel) (e : Formula) :
    ∀ (v : ℚ) (t : TokenType) (os : List TokenType) (vs : List ℚ) (nx : TokenType)
      (rest : List Token) (ok : Bool),
      e.wellFormed → e.eval = some v → topOK t e.level → followOK nx e.level →
      (t :: os).length + e.opNeed ≤ MAX_STACK → vs.length + e.valNeed ≤ MAX_STACK →
      feedTokens fuel (e.tokens ++ ⟨nx, 0⟩ :: rest) (ok, ⟨vs, t :: os, ERR_OK⟩)
        = feedTokens fuel (⟨nx, 0⟩ :: rest) (ok, ⟨v :: vs, t :: os, ERR_OK⟩) := by
  have hfuel0 : 0 < fuel := by omega
  induction e with
  | num x =>
      intro v t os vs nx rest ok _ hv _ _ _ hvals
      simp only [Formula.eval, Option.some.injEq] at hv
      subst hv
      simp only [Formula.valNeed] at hvals
      rw [Formula.tokens, List.singleton_append, feedTokens_cons,
        feedToken_num fuel x ok vs (t :: os) (by omega)]
  | paren e ih =>
      intro v t os vs nx rest ok hwf hv htop _ hops hvals
      simp only [Formula.opNeed] at hops
      rw [Formula.tokens, List.cons_append, List.append_assoc, List.singleton_append,
        feedTokens_cons, feedToken_shift fuel hfuel0 (topOK_paren htop) ok vs os (by omega)]
      simp only
      rw [ih v TOK_LPAREN (t :: os) vs TOK_RPAREN (⟨nx, 0⟩ :: rest) ok hwf hv
        (Or.inl rfl) (Or.inr (Or.inr (Or.inl rfl)))
        (by simp only [List.length_cons] at hops ⊢; omega) hvals,
        feedTokens_cons, feedToken_unparen fuel hfuel0]
  | bin op l r ihl ihr =>
      intro v t os vs nx rest ok hwf hv htop hnx hops hvals
      obtain ⟨hwl, hwr, hll, hlr⟩ := hwf
      obtain ⟨a, b, hla, hrb, hdiv, rfl⟩ := Formula.eval_bin hv
      simp only [Formula.opNeed, Formula.valNeed, Formula.level] at hops hvals htop hnx
      have hMS : MAX_STACK = 20 := rfl
      rw [Formula.tokens, List.append_assoc, List.cons_append,
        ihl a t os vs op.tok (r.tokens ++ ⟨nx, 0⟩ :: rest) ok hwl hla (topOK_mono htop hll)
          (followOK_tok op hll) (by have := le_max_left l.opNeed (r.opNeed + 1); omega)
          (by have := le_max_left l.valNeed (r.valNeed + 1); omega),
        feedTokens_cons,
        feedToken_shift fuel hfuel0 (topOK_shift htop) ok (a :: vs) os
          (by have := le_max_right l.opNeed (r.opNeed + 1); omega)]
      simp only
      have hvr : vs.length + 1 + r.valNeed ≤ MAX_STACK := by
        have := le_max_right l.valNeed (r.valNeed + 1); omega
      have hr1 : 1 ≤ r.valNeed := r.valNeed_pos
      rw [ihr b op.tok (t :: os) (a :: vs) nx rest ok hwr hrb (topOK_tok op hlr)
          (followOK_mono hnx (by omega))
          (by have := le_max_right l.opNeed (r.opNeed + 1)
              simp only [List.length_cons] at hops ⊢; omega)
          (by simpa using hvr),
        feedTokens_cons, feedTokens_cons,
        feedToken_reduce fuel op.isBinary_tok (followOK_reduce hnx) ok a b vs (t :: os) hdiv
          (by omega) (by omega)]

/-- C2: for every well-formed infix formula that divides by no zero and needs at most 20
entries on either stack, the calls `Calc_Reset`, then `Calc_PushNum` for each number and
`Calc_PushOp` for each operator in order, then `Calc_PushOp(TOK_END)`, all return success,
leave error OK and exactly one value on the value stack, and `Calc_GetResult` is the value of
the formula under standard precedence. -/
theorem C2_token_level_evaluation (e : Formula) (v : ℚ) (hwf : e.wellFormed)
    (hv : e.eval = some v) (hops : e.opNeed + 1 ≤ MAX_STACK) (hvals : e.valNeed ≤ MAX_STACK)
    (fuel : Nat) (hfuel : MAX_STACK < fuel) (s0 : CalcState) :
    ∃ s, feedTokens fuel (e.tokens ++ [⟨TOK_END, 0⟩]) (true, Calc_Reset s0) = some (true, s)
      ∧ s.sys_error = ERR_OK ∧ s.val_stack.length = 1 ∧ Calc_GetResult s = v := by
  have hreset : Calc_Reset s0 = ⟨[], [TOK_END], ERR_OK⟩ := by
    simp [Calc_Reset, push_op, MAX_STACK]
  obtain ⟨n, rfl⟩ : ∃ n, fuel = n + 1 := ⟨fuel - 1, by omega⟩
  refine ⟨⟨[v], [TOK_END], ERR_OK⟩, ?_, rfl, rfl, rfl⟩
  rw [hreset, feedTokens_formula (n + 1) hfuel e v TOK_END [] [] TOK_END [] true hwf hv
    (Or.inr (Or.inl rfl)) (Or.inr (Or.inr (Or.inr (Or.inl rfl))))
    (by simpa [Nat.add_comm] using hops) (by simpa using hvals)]
  simp [feedTokens, feedToken, Calc_PushOp, Calc_PushOp_loop, Calc_PushOp_body_finish]

/-- The witness of C2: the tokens of `(1+2)*3` followed by END give 9. -/
theorem C2_witness :
    ∃ s, feedTokens 21
          ((Formula.bin BinOp.mul
              (Formula.paren (Formula.bin BinOp.add (Formula.num 1) (Formula.num 2)))
              (Formula.num 3)).tokens ++ [⟨TOK_END, 0⟩])
          (true, Calc_Reset ⟨[], [], ERR_OK⟩) = some (true, s)
      ∧ s.sys_error = ERR_OK ∧ s.val_stack.length = 1 ∧ Calc_GetResult s = 9 :=
  C2_token_level_evaluation
    (Formula.bin BinOp.mul
      (Formula.paren (Formula.bin BinOp.add (Formula.num 1) (Formula.num 2))) (Formula.num 3))
    9 (by simp [Formula.wellFormed, Formula.level, BinOp.level])
    (by norm_num [Formula.eval])
    (by decide) (by decide) 21 (by decide) ⟨[], [], ERR_OK⟩

/-! ## Lexer: literals and operator keys -/

theorem opKey_cases {key : Char} {tok : TokenType} (h : opKey key = some tok) :
    (key = '+' ∧ tok = TOK_ADD) ∨ (key = '-' ∧ tok = TOK_SUB) ∨ (key = '*' ∧ tok = TOK_MUL)
      ∨ (key = '/' ∧ tok = TOK_DIV) ∨ (key = '(' ∧ tok = TOK_LPAREN)
      ∨ (key = ')' ∧ tok = TOK_RPAREN) ∨ (key = '=' ∧ tok = TOK_END) := by
  unfold opKey at h
  split_ifs at h <;> simp_all

/-- An operator key while a literal is being read ends the literal: the concrete token is
returned, the state becomes IDLE and the accumulator is untouched. -/
theorem ProcessChar_op_busy {key : Char} {tok : TokenType} (h : opKey key = some tok)
    (L : Lexer) (hs : L.fsm_state ≠ STATE_IDLE) :
    Lexer_ProcessChar key L = (tok, { L with fsm_state := STATE_IDLE }) := by
  obtain ⟨cv, fs, sg, st⟩ := L
  simp only at hs
  rcases opKey_cases h with ⟨rfl, rfl⟩ | ⟨rfl, rfl⟩ | ⟨rfl, rfl⟩ | ⟨rfl, rfl⟩ | ⟨rfl, rfl⟩
      | ⟨rfl, rfl⟩ | ⟨rfl, rfl⟩ <;>
    cases st <;>
    first
      | exact absurd rfl hs
      | rfl

/-- An operator key other than `-` in state IDLE: the token is returned, nothing changes. -/
theorem ProcessChar_op_idle {key : Char} {tok : TokenType} (h : opKey key = some tok)
    (hk : key ≠ '-') (L : Lexer) (hs : L.fsm_state = STATE_IDLE) :
    Lexer_ProcessChar key L = (tok, L) := by
  obtain ⟨cv, fs, sg, st⟩ := L
  simp only at hs
  subst hs
  rcases opKey_cases h with ⟨rfl, rfl⟩ | ⟨rfl, rfl⟩ | ⟨rfl, rfl⟩ | ⟨rfl, rfl⟩ | ⟨rfl, rfl⟩
      | ⟨rfl, rfl⟩ | ⟨rfl, rfl⟩ <;>
    first
      | exact absurd rfl hk
      | rfl

/-- Reading an unsigned literal from state IDLE: every character returns NUMBER, the lexer is
left busy, and the current value is the number the literal denotes. -/
theorem Lexer_feed_literal (a : Literal) (ha : a.wellFormed) (L : Lexer)
    (hs : L.fsm_state = STATE_IDLE) :
    (Lexer_feed a.chars L).1 = List.replicate a.chars.length TOK_NUM
      ∧ (Lexer_feed a.chars L).2.fsm_state ≠ STATE_IDLE
      ∧ Lexer_GetCurrentVal (Lexer_feed a.chars L).2 = a.value := by
  obtain ⟨I, fp⟩ := a
  obtain ⟨hdI, hfp⟩ := ha
  simp only at hdI hfp
  have hnat : ∀ (c : Char) (cs : List Char), natOfDigits (c :: cs)
      = cs.foldl (fun acc c => acc * 10 + (c.toNat - 48)) (c.toNat - 48) := by
    intro c cs; simp [natOfDigits]
  cases fp with
  | none =>
      simp only at hfp
      obtain ⟨c, cs, rfl⟩ := List.exists_cons_of_ne_nil hfp
      have hc : isdigit c = true := hdI c (List.mem_cons_self _ _)
      have hcs : allDigits cs := fun x hx => hdI x (List.mem_cons_of_mem _ hx)
      have hv : ((digitOf c : Int) : ℚ) = ((c.toNat - 48 : Nat) : ℚ) := by
        rw [digitOf_of_isdigit hc]; push_cast; rfl
      simp only [Literal.chars, Literal.value]
      rw [Lexer_feed, ProcessChar_digit_IDLE hc _ hs]
      simp only
      rw [Lexer_feed_digits_INT cs hcs
        { L with val_sign := 1, current_val := (digitOf c : ℚ), fsm_state := STATE_INT }
        (c.toNat - 48) rfl hv]
      refine ⟨by simp [List.replicate_succ], by simp, ?_⟩
      simp [Lexer_GetCurrentVal, decimalValue, hnat, natOfDigits]
  | some F =>
      simp only at hfp
      obtain ⟨hdF, hne⟩ := hfp
      simp only [Literal.chars, Literal.value]
      cases I with
      | nil =>
          rw [List.nil_append, Lexer_feed, ProcessChar_dot_IDLE L hs]
          simp only
          rw [Lexer_feed_digits_FRAC F hdF _ (Or.inl rfl)]
          refine ⟨by simp [List.replicate_succ], ?_, ?_⟩
          · simp only; split <;> simp
          · simp [Lexer_GetCurrentVal, decimalValue, fracOfDigits_eq, natOfDigits]
      | cons c cs =>
          have hc : isdigit c = true := hdI c (List.mem_cons_self _ _)
          have hcs : allDigits cs := fun x hx => hdI x (List.mem_cons_of_mem _ hx)
          have hv : ((digitOf c : Int) : ℚ) = ((c.toNat - 48 : Nat) : ℚ) := by
            rw [digitOf_of_isdigit hc]; push_cast; rfl
          rw [List.cons_append, Lexer_feed, ProcessChar_digit_IDLE hc _ hs]
          simp only
          rw [Lexer_feed_append, Lexer_feed_digits_INT cs hcs
            { L with val_sign := 1, current_val := (digitOf c : ℚ), fsm_state := STATE_INT }
            (c.toNat - 48) rfl hv]
          simp only
          rw [Lexer_feed, ProcessChar_dot_INT _ rfl]
          simp only
          rw [Lexer_feed_digits_FRAC F hdF _ (Or.inl rfl)]
          refine ⟨?_, ?_, ?_⟩
          · simp only [List.length_cons, List.length_append]
            rw [show cs.length + (F.length + 1) + 1 = (cs.length + (F.length + 1)) + 1 by omega,
              List.replicate_succ, List.replicate_add, List.replicate_succ]
          · simp only; split <;> simp
          · have hp : (10 : ℚ) ^ F.length ≠ 0 := pow_ne_zero _ (by norm_num)
            simp only [Lexer_GetCurrentVal, decimalValue, hnat, fracOfDigits_eq]
            push_cast
            field_simp

/-! ## Key dispatch -/

theorem pressKeys_cons (B : Build) (fuel : Nat) (key : Char) (keys : List Char)
    (st : Machine × Option Bool) :
    pressKeys B fuel (key :: keys) st =
      match OnKeyPress B fuel key st.1 with
      | none => none
      | some (m1, none) => pressKeys B fuel keys (m1, st.2)
      | some (m1, some ok) => pressKeys B fuel keys (m1, some ok) := rfl

theorem Line1_Append_fields (c : Char) (m : Machine) :
    (Line1_Append c m).lexer = m.lexer ∧ (Line1_Append c m).evaluator = m.evaluator
      ∧ (Line1_Append c m).is_calculated = m.is_calculated
      ∧ (Line1_Append c m).last_op_index = m.last_op_index := by
  unfold Line1_Append
  split <;> exact ⟨rfl, rfl, rfl, rfl⟩

/-- The keys `C` and `B` are no characters of the lexer. -/
theorem ProcessChar_C_B (key : Char) (h : key = 'C' ∨ key = 'B') (L : Lexer) :
    (Lexer_ProcessChar key L).1 = TOK_ERROR := by
  obtain ⟨cv, fs, sg, st⟩ := L
  rcases h with rfl | rfl <;> cases st <;> rfl

/-- Outside the result state, a key that the lexer answers with NUMBER only moves the lexer
and the display line. -/
theorem OnKeyPress_num (B : Build) (fuel : Nat) (key : Char) (m : Machine)
    (hc : m.is_calculated = false) (h : (Lexer_ProcessChar key m.lexer).1 = TOK_NUM) :
    OnKeyPress B fuel key m
      = some (Line1_Append key { m with lexer := (Lexer_ProcessChar key m.lexer).2 }, none) := by
  have hC : key ≠ 'C' := fun hk => by
    rw [ProcessChar_C_B key (Or.inl hk)] at h
    cases h
  have hB : key ≠ 'B' := fun hk => by
    rw [ProcessChar_C_B key (Or.inr hk)] at h
    cases h
  simp only [OnKeyPress, hc, Bool.false_eq_true, if_false, if_neg hC, if_neg hB, h]

/-- Keys that the lexer answers with NUMBER leave the evaluator and the flag as they are. -/
theorem pressKeys_numbers (B : Build) (fuel : Nat) (w : List Char) (m : Machine)
    (hc : m.is_calculated = false)
    (h : (Lexer_feed w m.lexer).1 = List.replicate w.length TOK_NUM) :
    ∃ m1 : Machine, m1.lexer = (Lexer_feed w m.lexer).2 ∧ m1.evaluator = m.evaluator
      ∧ m1.is_calculated = false
      ∧ ∀ (rest : List Char) (fl : Option Bool),
          pressKeys B fuel (w ++ rest) (m, fl) = pressKeys B fuel rest (m1, fl) := by
  induction w generalizing m with
  | nil => exact ⟨m, rfl, rfl, hc, fun _ _ => rfl⟩
  | cons k ks ih =>
      simp only [Lexer_feed, List.length_cons, List.replicate_succ, List.cons.injEq] at h
      have hf := Line1_Append_fields k { m with lexer := (Lexer_ProcessChar k m.lexer).2 }
      obtain ⟨m1, h1, h2, h3, h4⟩ :=
        ih (Line1_Append k { m with lexer := (Lexer_ProcessChar k m.lexer).2 })
          (by rw [hf.2.2.1]; exact hc) (by rw [hf.1]; exact h.2)
      refine ⟨m1, ?_, ?_, h3, fun rest fl => ?_⟩
      · rw [h1, hf.1]
        rfl
      · rw [h2, hf.2.1]
      · rw [List.cons_append, pressKeys_cons, OnKeyPress_num B fuel k m hc h.1]
        exact h4 rest fl

/-- An operator key pressed outside the result state when it is read as an operator (a
literal is being read, or the key is not `-`): the pending literal is pushed and
`Calc_PushOp` is called; the lexer is left in state IDLE, and the result state is entered
when the call fails and when the key is `=`. -/
theorem OnKeyPress_op (B : Build) (fuel : Nat) {key : Char} {tok : TokenType}
    (h : opKey key = some tok) (m : Machine) (hc : m.is_calculated = false)
    (hk : m.lexer.fsm_state = STATE_IDLE → key ≠ '-') :
    ∃ g : Bool → CalcState → Machine,
      (∀ b c, (g b c).lexer.fsm_state = STATE_IDLE ∧ (g b c).evaluator = c
        ∧ (g b c).is_calculated = (!b || decide (tok = TOK_END))) ∧
      OnKeyPress B fuel key m =
        match Calc_PushOp fuel tok
          (if m.lexer.fsm_state ≠ STATE_IDLE
            then Calc_PushNum (Lexer_GetCurrentVal m.lexer) m.evaluator else m.evaluator) with
        | none => none
        | some (ok, c2) => some (g ok c2, some ok) := by
  have hC : key ≠ 'C' := by
    rcases opKey_cases h with ⟨rfl, -⟩ | ⟨rfl, -⟩ | ⟨rfl, -⟩ | ⟨rfl, -⟩ | ⟨rfl, -⟩
      | ⟨rfl, -⟩ | ⟨rfl, -⟩ <;> decide
  have hB : key ≠ 'B' := by
    rcases opKey_cases h with ⟨rfl, -⟩ | ⟨rfl, -⟩ | ⟨rfl, -⟩ | ⟨rfl, -⟩ | ⟨rfl, -⟩
      | ⟨rfl, -⟩ | ⟨rfl, -⟩ <;> decide
  -- what the lexer does with the key
  obtain ⟨lx, hp, hlx, hval⟩ : ∃ lx, Lexer_ProcessChar key m.lexer = (tok, lx)
      ∧ lx.fsm_state = STATE_IDLE ∧ Lexer_GetCurrentVal lx = Lexer_GetCurrentVal m.lexer := by
    by_cases hs : m.lexer.fsm_state = STATE_IDLE
    · exact ⟨_, ProcessChar_op_idle h (hk hs) m.lexer hs, hs, rfl⟩
    · exact ⟨_, ProcessChar_op_busy h m.lexer hs, rfl, rfl⟩
  by_cases htok : tok = TOK_END
  · subst htok
    refine ⟨fun b c => if b then
        { m with lexer := Lexer_ResetAll lx, evaluator := c,
                 Line1_Buf := Double2String_build B (Calc_GetResult c), is_calculated := true }
      else { Line1_Append '=' { m with lexer := lx, evaluator := c } with
               is_calculated := true }, ?_, ?_⟩
    · intro b c
      have hf := Line1_Append_fields '=' { m with lexer := lx, evaluator := c }
      cases b
      · dsimp only
        rw [if_neg (by decide)]
        exact ⟨hf.1 ▸ hlx, hf.2.1, rfl⟩
      · exact ⟨rfl, rfl, rfl⟩
    · simp only [OnKeyPress, hc, Bool.false_eq_true, if_false, if_neg hC, if_neg hB, hp,
        Lexer_GetState, hval]
      by_cases hs : m.lexer.fsm_state = STATE_IDLE
      · simp only [hs, ne_eq, not_true_eq_false, decide_False, Bool.false_eq_true, if_false]
        rcases Calc_PushOp fuel TOK_END m.evaluator with _ | ⟨ok, c2⟩
        · rfl
        · cases ok <;> rfl
      · simp only [hs, ne_eq, not_false_eq_true, decide_True, if_true]
        rcases Calc_PushOp fuel TOK_END
          (Calc_PushNum (Lexer_GetCurrentVal m.lexer) m.evaluator) with _ | ⟨ok, c2⟩
        · rfl
        · cases ok <;> rfl
  · refine ⟨fun b c => if b then
        { Line1_Append key { m with lexer := lx, evaluator := c } with
            last_op_index :=
              (Line1_Append key { m with lexer := lx, evaluator := c }).Line1_Buf.length }
      else { Line1_Append key { m with lexer := lx, evaluator := c } with
               is_calculated := true }, ?_, ?_⟩
    · intro b c
      have hf := Line1_Append_fields key { m with lexer := lx, evaluator := c }
      cases b
      · dsimp only
        rw [if_neg (by decide)]
        exact ⟨hf.1 ▸ hlx, hf.2.1, by simp [htok]⟩
      · dsimp only
        rw [if_pos rfl]
        refine ⟨hf.1 ▸ hlx, hf.2.1, ?_⟩
        rw [show (!true || decide (tok = TOK_END)) = false by simp [htok]]
        exact hf.2.2.1.trans hc
    · have hne : tok ≠ TOK_NUM ∧ tok ≠ TOK_ERROR := by
        rcases opKey_cases h with ⟨-, rfl⟩ | ⟨-, rfl⟩ | ⟨-, rfl⟩ | ⟨-, rfl⟩ | ⟨-, rfl⟩
          | ⟨-, rfl⟩ | ⟨-, rfl⟩ <;> exact ⟨by decide, by decide⟩
      simp only [OnKeyPress, hc, Bool.false_eq_true, if_false, if_neg hC, if_neg hB, hp,
        Lexer_GetState, hval]
      by_cases hs : m.lexer.fsm_state = STATE_IDLE
      · simp only [hs, ne_eq, not_true_eq_false, decide_False, Bool.false_eq_true, if_false]
        rcases opKey_cases h with ⟨-, rfl⟩ | ⟨-, rfl⟩ | ⟨-, rfl⟩ | ⟨-, rfl⟩ | ⟨-, rfl⟩
          | ⟨-, rfl⟩ | ⟨-, rfl⟩ <;>
          first
            | exact absurd rfl htok
            | (simp only []
               rcases Calc_PushOp fuel _ m.evaluator with _ | ⟨ok, c2⟩
               · rfl
               · cases ok <;> rfl)
      · simp only [hs, ne_eq, not_false_eq_true, decide_True, if_true]
        rcases opKey_cases h with ⟨-, rfl⟩ | ⟨-, rfl⟩ | ⟨-, rfl⟩ | ⟨-, rfl⟩ | ⟨-, rfl⟩
          | ⟨-, rfl⟩ | ⟨-, rfl⟩ <;>
          first
            | exact absurd rfl htok
            | (simp only []
               rcases Calc_PushOp fuel _
                 (Calc_PushNum (Lexer_GetCurrentVal m.lexer) m.evaluator) with _ | ⟨ok, c2⟩
               · rfl
               · cases ok <;> rfl)

/-- The same for a key followed by further keys. -/
theorem pressKeys_op (B : Build) (fuel : Nat) {key : Char} {tok : TokenType}
    (h : opKey key = some tok) (m : Machine) (hc : m.is_calculated = false)
    (hk : m.lexer.fsm_state = STATE_IDLE → key ≠ '-') :
    ∃ g : Bool → CalcState → Machine,
      (∀ b c, (g b c).lexer.fsm_state = STATE_IDLE ∧ (g b c).evaluator = c
        ∧ (g b c).is_calculated = (!b || decide (tok = TOK_END))) ∧
      ∀ (rest : List Char) (fl : Option Bool),
        pressKeys B fuel (key :: rest) (m, fl) =
          match Calc_PushOp fuel tok
            (if m.lexer.fsm_state ≠ STATE_IDLE
              then Calc_PushNum (Lexer_GetCurrentVal m.lexer) m.evaluator
              else m.evaluator) with
          | none => none
          | some (ok, c2) => pressKeys B fuel rest (g ok c2, some ok) := by
  obtain ⟨g, hg, hpress⟩ := OnKeyPress_op B fuel h m hc hk
  refine ⟨g, hg, fun rest fl => ?_⟩
  rw [pressKeys_cons]
  simp only
  rw [hpress]
  rcases Calc_PushOp fuel tok
    (if m.lexer.fsm_state ≠ STATE_IDLE
      then Calc_PushNum (Lexer_GetCurrentVal m.lexer) m.evaluator else m.evaluator)
    with _ | ⟨ok, c2⟩ <;> rfl

/-- In the result state a digit or a decimal point starts over: the key acts as it does
after `System_Reset`. -/
theorem OnKeyPress_restart (B : Build) (fuel : Nat) (key : Char) (m : Machine)
    (hc : m.is_calculated = true) (hk : isdigit key = true ∨ key = '.') :
    OnKeyPress B fuel key m = OnKeyPress B fuel key (System_Reset m) := by
  have hk3 : isdigit key = true ∨ key = '.' ∨ key = 'D' := by
    rcases hk with h | h
    · exact Or.inl h
    · exact Or.inr (Or.inl h)
  have hreset : (System_Reset m).is_calculated = false := rfl
  simp only [OnKeyPress, hc, hreset, if_true, if_pos hk3]
  rfl

/-! ## Evaluator: single calls of `Calc_PushOp` -/

theorem Calc_PushOp_shift (fuel : Nat) (hfuel : 0 < fuel) {t op : TokenType}
    (hrel : relationOf t op = some 'L') (vs : List ℚ) (os : List TokenType)
    (hlen : (t :: os).length < MAX_STACK) :
    Calc_PushOp fuel op ⟨vs, t :: os, ERR_OK⟩ = some (true, ⟨vs, op :: t :: os, ERR_OK⟩) := by
  obtain ⟨n, rfl⟩ : ∃ n, fuel = n + 1 := ⟨fuel - 1, by omega⟩
  rw [Calc_PushOp, if_neg (by simp), Calc_PushOp_loop_of_ret
    (Calc_PushOp_body_shift vs os ERR_OK hrel), push_op_of_lt op vs (t :: os) ERR_OK hlen]

theorem Calc_PushOp_unparen (fuel : Nat) (hfuel : 0 < fuel) (vs : List ℚ)
    (os : List TokenType) :
    Calc_PushOp fuel TOK_RPAREN ⟨vs, TOK_LPAREN :: os, ERR_OK⟩
      = some (true, ⟨vs, os, ERR_OK⟩) := by
  obtain ⟨n, rfl⟩ : ∃ n, fuel = n + 1 := ⟨fuel - 1, by omega⟩
  rw [Calc_PushOp, if_neg (by simp), Calc_PushOp_loop_of_ret
    (Calc_PushOp_body_unparen vs os ERR_OK)]

theorem Calc_PushOp_finish (fuel : Nat) (hfuel : 0 < fuel) (vs : List ℚ)
    (os : List TokenType) :
    Calc_PushOp fuel TOK_END ⟨vs, TOK_END :: os, ERR_OK⟩
      = some (true, ⟨vs, TOK_END :: os, ERR_OK⟩) := by
  obtain ⟨n, rfl⟩ : ∃ n, fuel = n + 1 := ⟨fuel - 1, by omega⟩
  rw [Calc_PushOp, if_neg (by simp), Calc_PushOp_loop_of_ret
    (Calc_PushOp_body_finish vs os ERR_OK)]

theorem Calc_PushOp_reduce (fuel : Nat) {t nx : TokenType} (ht : isBinary t = true)
    (hrel : relationOf t nx = some 'G') (a b : ℚ) (vs : List ℚ) (os : List TokenType)
    (hb : t = TOK_DIV → b ≠ 0) (hlen : vs.length + 2 < fuel) (hcap : vs.length < MAX_STACK) :
    Calc_PushOp fuel nx ⟨b :: a :: vs, t :: os, ERR_OK⟩
      = Calc_PushOp fuel nx ⟨applyOp t a b :: vs, os, ERR_OK⟩ := by
  obtain ⟨n, rfl⟩ : ∃ n, fuel = n + 1 := ⟨fuel - 1, by omega⟩
  have hbody : Calc_PushOp_body nx ⟨b :: a :: vs, t :: os, ERR_OK⟩
      = LoopStep.again ⟨applyOp t a b :: vs, os, ERR_OK⟩ := by
    rw [Calc_PushOp_body_reduce _ _ _ hrel, do_calculation_binary ht a b vs os ERR_OK hb,
      push_val_of_lt _ _ _ _ hcap, if_neg (by simp)]
  rw [Calc_PushOp, if_neg (by simp), Calc_PushOp, if_neg (by simp),
    Calc_PushOp_loop_of_again hbody]
  exact Calc_PushOp_loop_fuel n (n + 1) nx _ (by simp; omega) (by simp; omega)

/-! ## Two adjacent operators -/

theorem relationOf_binary_binary {t op : TokenType} (ht : isBinary t = true)
    (hop : isBinary op = true) :
    relationOf t op = some 'L' ∨ relationOf t op = some 'G' := by
  cases t <;> cases op <;> simp_all [isBinary] <;> decide

theorem relationOf_END_binary {op : TokenType} (hop : isBinary op = true) :
    relationOf TOK_END op = some 'L' := by
  cases op <;> simp_all [isBinary] <;> decide

/-- A second operator of higher precedence is shifted; after a further operand `b` the final
`Calc_PushOp(TOK_END)` reduces it and then fails with `ERR_SYNTAX`. -/
theorem Calc_PushOp_adjacent_shift {tok1 tok2 : TokenType} (h1 : isBinary tok1 = true)
    (h2 : isBinary tok2 = true) (hrel : relationOf tok1 tok2 = some 'L') (va vb : ℚ)
    (hdiv : tok2 = TOK_DIV → vb ≠ 0) (fuel : Nat) (hfuel : 2 ≤ fuel) :
    Calc_PushOp fuel tok2 ⟨[va], [tok1, TOK_END], ERR_OK⟩
        = some (true, ⟨[va], [tok2, tok1, TOK_END], ERR_OK⟩)
      ∧ Calc_PushOp fuel TOK_END (Calc_PushNum vb ⟨[va], [tok2, tok1, TOK_END], ERR_OK⟩)
        = some (false, ⟨[applyOp tok2 va vb], [tok1, TOK_END], ERR_SYNTAX⟩) := by
  obtain ⟨n, rfl⟩ : ∃ n, fuel = n + 1 + 1 := ⟨fuel - 2, by omega⟩
  refine ⟨?_, ?_⟩
  · rw [Calc_PushOp, if_neg (by simp), Calc_PushOp_loop,
      Calc_PushOp_body_shift _ _ _ hrel, push_op_of_lt _ _ _ _ (by simp [MAX_STACK])]
  · have hb1 : Calc_PushOp_body TOK_END ⟨[vb, va], [tok2, tok1, TOK_END], ERR_OK⟩
        = LoopStep.again ⟨[applyOp tok2 va vb], [tok1, TOK_END], ERR_OK⟩ := by
      rw [Calc_PushOp_body_reduce _ _ _ (relationOf_binary_END h2),
        do_calculation_binary h2 va vb [] _ ERR_OK hdiv,
        push_val_of_lt _ _ _ _ (by simp [MAX_STACK]), if_neg (by simp)]
    have hb2 : Calc_PushOp_body TOK_END ⟨[applyOp tok2 va vb], [tok1, TOK_END], ERR_OK⟩
        = LoopStep.ret false ⟨[applyOp tok2 va vb], [tok1, TOK_END], ERR_SYNTAX⟩ := by
      rw [Calc_PushOp_body_reduce _ _ _ (relationOf_binary_END h1),
        do_calculation_underflow _ _ _ (by simp), if_pos (by simp)]
    rw [Calc_PushNum, push_val_of_lt _ _ _ _ (by simp [MAX_STACK]), Calc_PushOp,
      if_neg (by simp), Calc_PushOp_loop_of_again hb1, Calc_PushOp_loop_of_ret hb2]

/-- A second operator of the same or lower precedence reduces at once, finds one value only
and fails with `ERR_SYNTAX`. -/
theorem Calc_PushOp_adjacent_reduce {tok1 tok2 : TokenType}
    (hrel : relationOf tok1 tok2 = some 'G') (va : ℚ) (fuel : Nat) (hfuel : 1 ≤ fuel) :
    Calc_PushOp fuel tok2 ⟨[va], [tok1, TOK_END], ERR_OK⟩
      = some (false, ⟨[va], [tok1, TOK_END], ERR_SYNTAX⟩) := by
  obtain ⟨n, rfl⟩ : ∃ n, fuel = n + 1 := ⟨fuel - 1, by omega⟩
  rw [Calc_PushOp, if_neg (by simp), Calc_PushOp_loop,
    Calc_PushOp_body_reduce _ _ _ hrel, do_calculation_underflow _ _ _ (by simp),
    if_pos (by simp)]

/-- A literal starts with a digit or a decimal point. -/
theorem Literal.chars_head (a : Literal) (ha : a.wellFormed) :
    ∃ (c : Char) (cs : List Char), a.chars = c :: cs ∧ (isdigit c = true ∨ c = '.') := by
  obtain ⟨I, fp⟩ := a
  obtain ⟨hI, hfp⟩ := ha
  simp only at hI hfp
  cases I with
  | nil =>
      cases fp with
      | none => exact absurd rfl hfp
      | some F => exact ⟨'.', F, rfl, Or.inr rfl⟩
  | cons d ds =>
      have hd : isdigit d = true := hI d (List.mem_cons_self _ _)
      cases fp with
      | none => exact ⟨d, ds, rfl, Or.inl hd⟩
      | some F => exact ⟨d, ds ++ '.' :: F, rfl, Or.inl hd⟩

/-- In the result state, keys that begin with a digit or a decimal point act as they do
after `System_Reset`. -/
theorem pressKeys_restart (B : Build) (fuel : Nat) (key : Char) (rest : List Char)
    (m : Machine) (fl : Option Bool) (hc : m.is_calculated = true)
    (hk : isdigit key = true ∨ key = '.') :
    pressKeys B fuel (key :: rest) (m, fl)
      = pressKeys B fuel (key :: rest) (System_Reset m, fl) := by
  rw [pressKeys_cons, pressKeys_cons]
  simp only
  rw [OnKeyPress_restart B fuel key m hc hk]

theorem System_Reset_fields (m0 : Machine) :
    (System_Reset m0).lexer = Lexer_ResetAll m0.lexer
      ∧ (System_Reset m0).evaluator = ⟨[], [TOK_END], ERR_OK⟩
      ∧ (System_Reset m0).is_calculated = false := by
  refine ⟨rfl, ?_, rfl⟩
  simp [System_Reset, Calc_Reset, push_op, MAX_STACK]

/-- A single literal and `=` after a reset: the result is the value of the literal. -/
theorem pressKeys_literal_result (B : Build) (fuel : Nat) (hfuel : 1 ≤ fuel) (b : Literal)
    (hb : b.wellFormed) (m0 : Machine) (fl : Option Bool) :
    ∃ m, pressKeys B fuel (b.chars ++ ['=']) (System_Reset m0, fl) = some (m, some true)
      ∧ m.evaluator.sys_error = ERR_OK ∧ Calc_GetResult m.evaluator = b.value := by
  obtain ⟨hl, he, hc⟩ := System_Reset_fields m0
  obtain ⟨hN, hS, hV⟩ := Lexer_feed_literal b hb (System_Reset m0).lexer (by rw [hl]; rfl)
  obtain ⟨m1, h1, h2, h3, h4⟩ := pressKeys_numbers B fuel b.chars (System_Reset m0) hc hN
  have hS1 : m1.lexer.fsm_state ≠ STATE_IDLE := by rw [h1]; exact hS
  obtain ⟨g, hg, hp⟩ := @pressKeys_op B fuel '=' TOK_END rfl m1 h3 (fun h => absurd h hS1)
  refine ⟨g true ⟨[b.value], [TOK_END], ERR_OK⟩, ?_, ?_, ?_⟩
  · rw [h4, hp, if_pos hS1, h1, hV, h2, he, Calc_PushNum,
      push_val_of_lt _ _ _ _ (by simp [MAX_STACK]),
      Calc_PushOp_finish fuel (by omega)]
    rfl
  · rw [(hg true _).2.1]
  · rw [(hg true _).2.1]
    rfl

/-- The keys `a op1 op2` after a reset, followed by further keys: the literal `a` and `op1`
are shifted, and `Calc_PushOp` is called for `op2` with one value on the stack. -/
theorem pressKeys_adjacent_operators (B : Build) (a : Literal) (ha : a.wellFormed)
    {op1 op2 : Char} {tok1 tok2 : TokenType} (hk1 : opKey op1 = some tok1)
    (hb1 : isBinary tok1 = true) (hk2 : opKey op2 = some tok2) (hne2 : op2 ≠ '-')
    (fuel : Nat) (hfuel : 1 ≤ fuel) (m0 : Machine) :
    ∃ g : Bool → CalcState → Machine,
      (∀ b c, (g b c).lexer.fsm_state = STATE_IDLE ∧ (g b c).evaluator = c
        ∧ (g b c).is_calculated = (!b || decide (tok2 = TOK_END))) ∧
      ∀ rest : List Char,
        pressKeys B fuel (a.chars ++ op1 :: op2 :: rest) (System_Reset m0, none) =
          match Calc_PushOp fuel tok2 ⟨[a.value], [tok1, TOK_END], ERR_OK⟩ with
          | none => none
          | some (ok, c2) => pressKeys B fuel rest (g ok c2, some ok) := by
  have hend1 : tok1 ≠ TOK_END := by
    rintro rfl
    cases hb1
  obtain ⟨hl, he, hc⟩ := System_Reset_fields m0
  obtain ⟨hN, hS, hV⟩ := Lexer_feed_literal a ha (System_Reset m0).lexer (by rw [hl]; rfl)
  obtain ⟨m1, e1, e2, e3, e4⟩ := pressKeys_numbers B fuel a.chars (System_Reset m0) hc hN
  have hS1 : m1.lexer.fsm_state ≠ STATE_IDLE := by rw [e1]; exact hS
  obtain ⟨g1, hg1, hp1⟩ := pressKeys_op B fuel hk1 m1 e3 (fun h => absurd h hS1)
  have hcalc : (g1 true ⟨[a.value], [tok1, TOK_END], ERR_OK⟩).is_calculated = false := by
    rw [(hg1 true _).2.2]
    simp [hend1]
  obtain ⟨g2, hg2, hp2⟩ := pressKeys_op B fuel hk2
    (g1 true ⟨[a.value], [tok1, TOK_END], ERR_OK⟩) hcalc (fun _ => hne2)
  refine ⟨g2, hg2, fun rest => ?_⟩
  rw [e4, hp1, if_pos hS1, e1, hV, e2, he, Calc_PushNum,
    push_val_of_lt _ _ _ _ (by simp [MAX_STACK]),
    Calc_PushOp_shift fuel (by omega) (relationOf_END_binary hb1) [a.value] []
      (by simp [MAX_STACK])]
  simp only
  rw [hp2, if_neg (by simp [(hg1 true _).1]), (hg1 true _).2.1]

/-- C9 (amended): for unsigned literals `a`, `b`, an operator `op1` among `+ - * /` and an
operator `op2` among `+ * /` (with `b` not 0 when `op2` is `/`). The evaluator rejects the
adjacent operators: after a reset, the calls `Calc_PushNum(a)`, `Calc_PushOp(op1)`,
`Calc_PushOp(op2)`, `Calc_PushNum(b)`, `Calc_PushOp(TOK_END)` end with a failed
`Calc_PushOp(TOK_END)` and `ERR_SYNTAX`. The keys `a op1 op2 b =` pressed after a reset make
these calls when `op1` is `+` or `-` and `op2` is `*` or `/`: the second operator is shifted
and the keys end with a failed `Calc_PushOp(TOK_END)` and `ERR_SYNTAX`. Otherwise
`Calc_PushOp` fails for `op2` itself with `ERR_SYNTAX` and `OnKeyPress` sets `is_calculated`;
the first character of `b` then resets lexer and evaluator, and the keys end with a
successful `Calc_PushOp(TOK_END)`, error `ERR_OK` and result `b`. -/
theorem C9_adjacent_operators (B : Build) (a b : Literal) (ha : a.wellFormed)
    (hb : b.wellFormed) (op1 op2 : Char)
    (h1 : op1 = '+' ∨ op1 = '-' ∨ op1 = '*' ∨ op1 = '/')
    (h2 : op2 = '+' ∨ op2 = '*' ∨ op2 = '/')
    (hdiv : op2 = '/' → b.value ≠ 0) (fuel : Nat) (hfuel : 2 ≤ fuel) (m0 : Machine) :
    (∃ (tok1 tok2 : TokenType) (r : Bool) (c1 c2 c3 : CalcState),
        opKey op1 = some tok1 ∧ opKey op2 = some tok2
          ∧ Calc_PushOp fuel tok1 (Calc_PushNum a.value (Calc_Reset m0.evaluator))
              = some (true, c1)
          ∧ Calc_PushOp fuel tok2 c1 = some (r, c2)
          ∧ Calc_PushOp fuel TOK_END (Calc_PushNum b.value c2) = some (false, c3)
          ∧ c3.sys_error = ERR_SYNTAX)
      ∧ (((op1 = '+' ∨ op1 = '-') ∧ (op2 = '*' ∨ op2 = '/')) →
        ∃ m, pressKeys B fuel (a.chars ++ op1 :: op2 :: (b.chars ++ ['=']))
              (System_Reset m0, none) = some (m, some false)
          ∧ m.evaluator.sys_error = ERR_SYNTAX)
      ∧ (¬ ((op1 = '+' ∨ op1 = '-') ∧ (op2 = '*' ∨ op2 = '/')) →
        (∃ m1, pressKeys B fuel (a.chars ++ [op1, op2]) (System_Reset m0, none)
              = some (m1, some false)
          ∧ m1.evaluator.sys_error = ERR_SYNTAX ∧ m1.is_calculated = true)
        ∧ ∃ m, pressKeys B fuel (a.chars ++ op1 :: op2 :: (b.chars ++ ['=']))
              (System_Reset m0, none) = some (m, some true)
          ∧ m.evaluator.sys_error = ERR_OK ∧ Calc_GetResult m.evaluator = b.value) := by
  obtain ⟨tok1, hk1, hb1, hlow1⟩ : ∃ tok1, opKey op1 = some tok1 ∧ isBinary tok1 = true
      ∧ ((op1 = '+' ∨ op1 = '-') ↔ (tok1 = TOK_ADD ∨ tok1 = TOK_SUB)) := by
    rcases h1 with rfl | rfl | rfl | rfl
    · exact ⟨TOK_ADD, rfl, rfl, by decide⟩
    · exact ⟨TOK_SUB, rfl, rfl, by decide⟩
    · exact ⟨TOK_MUL, rfl, rfl, by decide⟩
    · exact ⟨TOK_DIV, rfl, rfl, by decide⟩
  obtain ⟨tok2, hk2, hb2, hne2, hd2, hhigh2⟩ : ∃ tok2, opKey op2 = some tok2
      ∧ isBinary tok2 = true ∧ op2 ≠ '-' ∧ (tok2 = TOK_DIV → op2 = '/')
      ∧ ((op2 = '*' ∨ op2 = '/') ↔ (tok2 = TOK_MUL ∨ tok2 = TOK_DIV)) := by
    rcases h2 with rfl | rfl | rfl
    · exact ⟨TOK_ADD, rfl, rfl, by decide, by decide, by decide⟩
    · exact ⟨TOK_MUL, rfl, rfl, by decide, by decide, by decide⟩
    · exact ⟨TOK_DIV, rfl, rfl, by decide, by decide, by decide⟩
  have hend2 : tok2 ≠ TOK_END := by
    rintro rfl
    cases hb2
  have hrel : ((op1 = '+' ∨ op1 = '-') ∧ (op2 = '*' ∨ op2 = '/') →
        relationOf tok1 tok2 = some 'L')
      ∧ (¬ ((op1 = '+' ∨ op1 = '-') ∧ (op2 = '*' ∨ op2 = '/')) →
        relationOf tok1 tok2 = some 'G') := by
    rw [hlow1, hhigh2]
    revert hb1 hb2
    cases tok1 <;> cases tok2 <;> decide
  obtain ⟨g, hg, hp⟩ := pressKeys_adjacent_operators B a ha hk1 hb1 hk2 hne2 fuel (by omega) m0
  refine ⟨?_, fun hsh => ?_, fun hsh => ⟨?_, ?_⟩⟩
  · -- the calls of the evaluator
    have hreset : Calc_Reset m0.evaluator = ⟨[], [TOK_END], ERR_OK⟩ := by
      simp [Calc_Reset, push_op, MAX_STACK]
    have hc0 : Calc_PushOp fuel tok1 (Calc_PushNum a.value (Calc_Reset m0.evaluator))
        = some (true, ⟨[a.value], [tok1, TOK_END], ERR_OK⟩) := by
      rw [hreset, Calc_PushNum, push_val_of_lt _ _ _ _ (by simp [MAX_STACK]),
        Calc_PushOp_shift fuel (by omega) (relationOf_END_binary hb1) [a.value] []
          (by simp [MAX_STACK])]
    by_cases hsh : (op1 = '+' ∨ op1 = '-') ∧ (op2 = '*' ∨ op2 = '/')
    · obtain ⟨hc1, hc2⟩ := Calc_PushOp_adjacent_shift hb1 hb2 (hrel.1 hsh) a.value b.value
        (fun h => hdiv (hd2 h)) fuel hfuel
      exact ⟨tok1, tok2, true, _, _, _, hk1, hk2, hc0, hc1, hc2, rfl⟩
    · have hc1 := @Calc_PushOp_adjacent_reduce tok1 tok2 (hrel.2 hsh) a.value fuel (by omega)
      refine ⟨tok1, tok2, false, _, _, ⟨[b.value, a.value], [tok1, TOK_END], ERR_SYNTAX⟩,
        hk1, hk2, hc0, hc1, ?_, rfl⟩
      rw [Calc_PushNum, push_val_of_lt _ _ _ _ (by simp [MAX_STACK]), Calc_PushOp,
        if_pos (by simp)]
  · -- the second operator is shifted
    obtain ⟨hc1, hc2⟩ := Calc_PushOp_adjacent_shift hb1 hb2 (hrel.1 hsh) a.value b.value
      (fun h => hdiv (hd2 h)) fuel hfuel
    have hcalc : (g true ⟨[a.value], [tok2, tok1, TOK_END], ERR_OK⟩).is_calculated = false := by
      rw [(hg true _).2.2]
      simp [hend2]
    obtain ⟨hN, hS, hV⟩ := Lexer_feed_literal b hb
      (g true ⟨[a.value], [tok2, tok1, TOK_END], ERR_OK⟩).lexer (hg true _).1
    obtain ⟨m3, e1, e2, e3, e4⟩ := pressKeys_numbers B fuel b.chars _ hcalc hN
    have hS3 : m3.lexer.fsm_state ≠ STATE_IDLE := by rw [e1]; exact hS
    obtain ⟨g3, hg3, hp3⟩ := @pressKeys_op B fuel '=' TOK_END rfl m3 e3
      (fun h => absurd h hS3)
    refine ⟨g3 false ⟨[applyOp tok2 a.value b.value], [tok1, TOK_END], ERR_SYNTAX⟩, ?_, ?_⟩
    · rw [hp, hc1]
      simp only
      rw [e4, hp3, if_pos hS3, e1, hV, e2, (hg true _).2.1, hc2]
      rfl
    · rw [(hg3 false _).2.1]
  · -- the second operator fails
    have hc1 := @Calc_PushOp_adjacent_reduce tok1 tok2 (hrel.2 hsh) a.value fuel (by omega)
    refine ⟨g false ⟨[a.value], [tok1, TOK_END], ERR_SYNTAX⟩, ?_, ?_, ?_⟩
    · rw [hp, hc1]
      rfl
    · rw [(hg false _).2.1]
    · rw [(hg false _).2.2]
      rfl
  · have hc1 := @Calc_PushOp_adjacent_reduce tok1 tok2 (hrel.2 hsh) a.value fuel (by omega)
    obtain ⟨c, cs, hcs, hhead⟩ := b.chars_head hb
    obtain ⟨m, hm, hok, hres⟩ := pressKeys_literal_result B fuel (by omega) b hb
      (g false ⟨[a.value], [tok1, TOK_END], ERR_SYNTAX⟩) (some false)
    refine ⟨m, ?_, hok, hres⟩
    rw [hp, hc1]
    simp only
    rw [← hm, hcs, List.cons_append]
    exact pressKeys_restart B fuel c _ _ _ (by rw [(hg false _).2.2]; rfl) hhead

/-- The witness of C9: the keys `2+*3=` end with a failed `Calc_PushOp` and `ERR_SYNTAX`. -/
theorem C9_witness :
    ∃ m, pressKeys Build_double32 21 ['2', '+', '*', '3', '=']
          (System_Reset Machine_init, none) = some (m, some false)
      ∧ m.evaluator.sys_error = ERR_SYNTAX :=
  (C9_adjacent_operators Build_double32 ⟨['2'], none⟩ ⟨['3'], none⟩
    ⟨by intro c hc; simp at hc; subst hc; rfl, by simp⟩
    ⟨by intro c hc; simp at hc; subst hc; rfl, by simp⟩
    '+' '*' (Or.inl rfl) (Or.inr (Or.inl rfl)) (by decide) 21 (by decide) Machine_init).2.1
    ⟨Or.inl rfl, Or.inl rfl⟩

/-- C9 fails as stated: the keys `2*+3=` pressed after a reset end with a successful
`Calc_PushOp(TOK_END)`, error `ERR_OK` and result 3. `Calc_PushOp` fails for `+` with
`ERR_SYNTAX` and sets `is_calculated`, and the digit `3` then calls `System_Reset`. -/
theorem C9_counterexample :
    (pressKeys Build_double32 21 ['2', '*', '+'] (System_Reset Machine_init, none)).map
        (fun r => (r.2, r.1.evaluator.sys_error, r.1.is_calculated))
        = some (some false, ERR_SYNTAX, true)
      ∧ (pressKeys Build_double32 21 ['2', '*', '+', '3'] (System_Reset Machine_init, none)).map
        (fun r => (r.1.evaluator, r.1.is_calculated))
        = some (⟨[], [TOK_END], ERR_OK⟩, false)
      ∧ (pressKeys Build_double32 21 ['2', '*', '+', '3', '=']
          (System_Reset Machine_init, none)).map
        (fun r => (r.2, r.1.evaluator.sys_error, Calc_GetResult r.1.evaluator))
        = some (some true, ERR_OK, 3) := by
  refine ⟨by decide!, by decide!, by decide!⟩

/-! ## Key dispatch: restart, CE and BS -/

/-- Runs of `OnKeyPress` through the branches of a finished calculation, CE and BS: a digit
after a result starts a new calculation (`1+2=5=` gives 5), CE clears the literal being
typed (`12C3=` gives 3), BS removes its last character (`12B3=` gives 13, `1.5B=` gives 1),
and an operator after a result continues with it (`1+2=+3=` gives 6). -/
theorem pressKeys_examples :
    (pressKeys Build_double32 21 ['1', '+', '2', '=', '5', '='] (Machine_init, none)).map
        (fun r => (r.2, r.1.evaluator.sys_error, Calc_GetResult r.1.evaluator, r.1.Line1_Buf))
        = some (some true, ERR_OK, 5, ['5'])
      ∧ (pressKeys Build_double32 21 ['1', '2', 'C', '3', '='] (Machine_init, none)).map
        (fun r => (r.2, r.1.evaluator.sys_error, Calc_GetResult r.1.evaluator, r.1.Line1_Buf))
        = some (some true, ERR_OK, 3, ['3'])
      ∧ (pressKeys Build_double32 21 ['1', '2', 'B', '3', '='] (Machine_init, none)).map
        (fun r => (r.2, r.1.evaluator.sys_error, Calc_GetResult r.1.evaluator, r.1.Line1_Buf))
        = some (some true, ERR_OK, 13, ['1', '3'])
      ∧ (pressKeys Build_double32 21 ['1', '.', '5', 'B', '='] (Machine_init, none)).map
        (fun r => (r.2, r.1.evaluator.sys_error, Calc_GetResult r.1.evaluator, r.1.Line1_Buf))
        = some (some true, ERR_OK, 1, ['1'])
      ∧ (pressKeys Build_double32 21 ['1', '+', '2', '=', '+', '3', '='] (Machine_init, none)).map
        (fun r => (r.2, r.1.evaluator.sys_error, Calc_GetResult r.1.evaluator, r.1.Line1_Buf))
        = some (some true, ERR_OK, 6, ['6']) := by
  refine ⟨by decide!, by decide!, by decide!, by decide!, by decide!⟩

/-! ## main.c: the line buffer and `last_op_index` -/

theorem Line1_Append_length (c : Char) (m : Machine) :
    m.Line1_Buf.length ≤ (Line1_Append c m).Line1_Buf.length
      ∧ (Line1_Append c m).last_op_index = m.last_op_index := by
  unfold Line1_Append
  split
  · simp
  · simp

theorem Line1_Append_inv (c : Char) (m : Machine)
    (h : m.last_op_index ≤ m.Line1_Buf.length) :
    (Line1_Append c m).last_op_index ≤ (Line1_Append c m).Line1_Buf.length := by
  obtain ⟨h1, h2⟩ := Line1_Append_length c m
  omega

theorem System_Reset_inv (m : Machine) : Machine_inv (System_Reset m) :=
  Or.inl (Nat.zero_le _)

/-- Function `OnKeyPress` keeps the invariant, so the key `C` always truncates the line. -/
theorem OnKeyPress_inv (B : Build) (fuel : Nat) (key : Char) (m0 m1 : Machine)
    (fl : Option Bool) (h : OnKeyPress B fuel key m0 = some (m1, fl)) (hi : Machine_inv m0) :
    Machine_inv m1 := by
  have hm : ∀ m : Machine,
      (if m0.is_calculated = true then
          if isdigit key = true ∨ key = '.' ∨ key = 'D' then System_Reset m0
          else if key ≠ 'C' ∧ key ≠ 'B' then
            { m0 with last_op_index := m0.Line1_Buf.length, is_calculated := false }
          else m0
        else m0) = m →
      m.last_op_index ≤ m.Line1_Buf.length
        ∨ ((key = 'C' ∨ key = 'B') ∧ m.lexer.fsm_state = STATE_IDLE
            ∧ m.is_calculated = true) := by
    intro m hm
    subst hm
    by_cases hc : m0.is_calculated = true
    · rw [if_pos hc]
      by_cases hd : isdigit key = true ∨ key = '.' ∨ key = 'D'
      · rw [if_pos hd]
        exact Or.inl (Nat.zero_le _)
      · rw [if_neg hd]
        by_cases hk : key ≠ 'C' ∧ key ≠ 'B'
        · rw [if_pos hk]
          exact Or.inl le_rfl
        · rw [if_neg hk]
          rcases hi with hi | hi
          · exact Or.inl hi
          · refine Or.inr ⟨?_, hi⟩
            by_contra hcon
            exact hk ⟨fun h => hcon (Or.inl h), fun h => hcon (Or.inr h)⟩
    · rw [if_neg hc]
      rcases hi with hi | hi
      · exact Or.inl hi
      · exact absurd hi.2 hc
  simp only [OnKeyPress] at h
  generalize hm0 : (if m0.is_calculated = true then
          if isdigit key = true ∨ key = '.' ∨ key = 'D' then System_Reset m0
          else if key ≠ 'C' ∧ key ≠ 'B' then
            { m0 with last_op_index := m0.Line1_Buf.length, is_calculated := false }
          else m0
        else m0) = m at h
  have hm := hm m hm0
  clear hm0
  by_cases hC : key = 'C'
  · rw [if_pos hC] at h
    by_cases hs : Lexer_GetState m.lexer ≠ STATE_IDLE
    · rw [if_pos hs] at h
      cases h
      rcases hm with hm | hm
      · left
        simp [List.length_take, hm]
      · exact absurd hm.2.1 hs
    · rw [if_neg hs] at h
      cases h
      rcases hm with hm | hm
      · exact Or.inl hm
      · exact Or.inr hm.2
  · rw [if_neg hC] at h
    by_cases hB : key = 'B'
    · rw [if_pos hB] at h
      by_cases hs : Lexer_GetState m.lexer ≠ STATE_IDLE ∧ m.Line1_Buf.length > m.last_op_index
      · rw [if_pos hs] at h
        cases h
        left
        simp only [Replay_Lexer_From_Op, List.length_dropLast]
        omega
      · rw [if_neg hs] at h
        cases h
        rcases hm with hm | hm
        · exact Or.inl hm
        · exact Or.inr hm.2
    · rw [if_neg hB] at h
      have hm1 : m.last_op_index ≤ m.Line1_Buf.length := by
        rcases hm with hm | hm
        · exact hm
        · rcases hm.1 with h1 | h1
          · exact absurd h1 hC
          · exact absurd h1 hB
      generalize Lexer_ProcessChar key m.lexer = r at h
      obtain ⟨token, lx⟩ := r
      simp only at h
      generalize (if decide (Lexer_GetState m.lexer ≠ STATE_IDLE) = true then
          Calc_PushNum (Lexer_GetCurrentVal lx) m.evaluator else m.evaluator) = c1 at h
      cases token with
      | TOK_NUM =>
          simp only at h
          cases h
          exact Or.inl (Line1_Append_inv key _ hm1)
      | TOK_ERROR =>
          simp only at h
          cases h
          exact Or.inl hm1
      | TOK_END =>
          simp only at h
          rcases hP : Calc_PushOp fuel TOK_END c1 with _ | ⟨ok, c2⟩
          · rw [hP] at h
            cases h
          · rw [hP] at h
            cases ok
            · simp only at h
              cases h
              exact Or.inl (Line1_Append_inv '=' _ hm1)
            · simp only at h
              cases h
              exact Or.inr ⟨rfl, rfl⟩
      | _ =>
          simp only at h
          rcases hP : Calc_PushOp fuel _ c1 with _ | ⟨ok, c2⟩
          · rw [hP] at h
            cases h
          · rw [hP] at h
            cases ok
            · simp only at h
              cases h
              exact Or.inl (Line1_Append_inv key _ hm1)
            · simp only at h
              cases h
              exact Or.inl le_rfl

theorem pressKeys_inv (B : Build) (fuel : Nat) (keys : List Char) :
    ∀ st st1 : Machine × Option Bool, pressKeys B fuel keys st = some st1 →
      Machine_inv st.1 → Machine_inv st1.1 := by
  induction keys with
  | nil =>
      intro st st1 h hi
      cases h
      exact hi
  | cons key keys ih =>
      intro st st1 h hi
      rw [pressKeys_cons] at h
      rcases hK : OnKeyPress B fuel key st.1 with _ | ⟨m1, fl⟩
      · rw [hK] at h
        cases h
      · rw [hK] at h
        have h1 := OnKeyPress_inv B fuel key st.1 m1 fl hK hi
        cases fl with
        | none => exact ih _ _ h h1
        | some ok => exact ih _ _ h h1

/-! ## End to end: the keys of a formula -/

/-- C1 at its failing input: the keys `(1+2)-3=` are the well-formed formula `(1+2)-3`, whose
value is 0 and which needs two entries per stack; pressed after a reset, the final
`Calc_PushOp(TOK_END)` succeeds with error OK, but `Calc_GetResult` is -3: the `-` after `)`
finds the lexer in state IDLE and is absorbed as the sign of the literal 3. -/
theorem C1_minus_after_paren_wrong_result :
    (KeyFormula.bin BinOp.sub
        (KeyFormula.paren (KeyFormula.bin BinOp.add (KeyFormula.lit ⟨['1'], none⟩)
          (KeyFormula.lit ⟨['2'], none⟩)))
        (KeyFormula.lit ⟨['3'], none⟩)).keys ++ ['=']
        = ['(', '1', '+', '2', ')', '-', '3', '=']
      ∧ (KeyFormula.bin BinOp.sub
          (KeyFormula.paren (KeyFormula.bin BinOp.add (KeyFormula.lit ⟨['1'], none⟩)
            (KeyFormula.lit ⟨['2'], none⟩)))
          (KeyFormula.lit ⟨['3'], none⟩)).toFormula.eval = some 0
      ∧ (pressKeys Build_double32 21 ['(', '1', '+', '2', ')', '-', '3', '='] (System_Reset Machine_init, none)).map
          (fun r => (r.2, r.1.evaluator.sys_error, r.1.evaluator.val_stack,
            Calc_GetResult r.1.evaluator))
          = some (some true, ERR_OK, [-3, 3], -3)
      ∧ (Lexer_feed ['(', '1', '+', '2', ')', '-'] Lexer_init).1
          = [TOK_LPAREN, TOK_NUM, TOK_ADD, TOK_NUM, TOK_RPAREN, TOK_NUM] := by
  refine ⟨by decide, ?_, by decide!, by decide⟩
  have e1 : natOfDigits ['1'] = 1 := by decide
  have e2 : natOfDigits ['2'] = 2 := by decide
  have e3 : natOfDigits ['3'] = 3 := by decide
  have e0 : natOfDigits [] = 0 := by decide
  simp only [KeyFormula.toFormula, Formula.eval, Literal.value, decimalValue, e1, e2, e3, e0]
  norm_num

/-! ## Formatter: digits of a `long` -/

theorem digit_char_toNat (d : Nat) (hd : d < 10) : (Char.ofNat (d + 48)).toNat = d + 48 := by
  interval_cases d <;> rfl

theorem digit_char_isdigit (d : Nat) (hd : d < 10) : isdigit (Char.ofNat (d + 48)) = true := by
  rw [isdigit_iff, digit_char_toNat d hd]
  omega

theorem natOfDigits_append (xs ys : List Char) :
    natOfDigits (xs ++ ys) = natOfDigits xs * 10 ^ ys.length + natOfDigits ys := by
  unfold natOfDigits
  rw [List.foldl_append, foldl_digits_shift]
  rfl

theorem natOfDigits_replicate_zero (k : Nat) : natOfDigits (List.replicate k '0') = 0 := by
  induction k with
  | zero => rfl
  | succ k ih =>
      rw [List.replicate_succ, show '0' :: List.replicate k '0' = ['0'] ++ List.replicate k '0'
        from rfl, natOfDigits_append, ih]
      simp [natOfDigits]

theorem allDigits_append {xs ys : List Char} (hx : allDigits xs) (hy : allDigits ys) :
    allDigits (xs ++ ys) := by
  intro c hc
  rcases List.mem_append.1 hc with h | h
  · exact hx c h
  · exact hy c h

theorem allDigits_replicate_zero (k : Nat) : allDigits (List.replicate k '0') := by
  intro c hc
  rw [(List.mem_replicate.1 hc).2]
  rfl

/-- The digit loop of `long_to_str` for a natural number `n`: it puts the decimal digits of
`n`, most significant first, in front of what was there. -/
theorem long_to_str_digits_nat (n : Nat) :
    ∀ (fuel : Nat) (temp : List Char), n ≤ fuel →
      ∃ ds : List Char, long_to_str_digits fuel (n : Int) temp = ds ++ temp
        ∧ allDigits ds ∧ natOfDigits ds = n ∧ (n = 0 → ds = [])
        ∧ (0 < n → 10 ^ (ds.length - 1) ≤ n ∧ n < 10 ^ ds.length ∧ 0 < ds.length) := by
  induction n using Nat.strong_induction_on with
  | _ n ih =>
      intro fuel temp hfuel
      rcases Nat.eq_zero_or_pos n with rfl | hn
      · refine ⟨[], ?_, fun c hc => (by cases hc), rfl, fun _ => rfl,
          fun h => absurd h (by omega)⟩
        cases fuel <;> simp [long_to_str_digits]
      · obtain ⟨fuel, rfl⟩ : ∃ k, fuel = k + 1 := ⟨fuel - 1, by omega⟩
        have hdiv : n / 10 < n := Nat.div_lt_self hn (by decide)
        have hmod : n % 10 < 10 := Nat.mod_lt _ (by decide)
        obtain ⟨ds, hds, hall, hval, hzero, hpos⟩ :=
          ih (n / 10) hdiv fuel (Char.ofNat (n % 10 + 48) :: temp) (by omega)
        have hstep : long_to_str_digits (fuel + 1) (n : Int) temp
            = long_to_str_digits fuel ((n / 10 : Nat) : Int)
                (Char.ofNat (n % 10 + 48) :: temp) := by
          have h1 : (n : Int).tdiv 10 = ((n / 10 : Nat) : Int) := (Int.ofNat_tdiv n 10).symm
          have h2 : (n : Int).tmod 10 = ((n % 10 : Nat) : Int) := (Int.ofNat_tmod n 10).symm
          rw [long_to_str_digits, if_pos (by exact_mod_cast hn), h1, h2]
          rfl
        refine ⟨ds ++ [Char.ofNat (n % 10 + 48)], ?_, ?_, ?_, fun h => absurd h (by omega),
          fun _ => ?_⟩
        · rw [hstep, hds, List.append_assoc, List.singleton_append]
        · exact allDigits_append hall (by
            intro c hc
            rw [List.mem_singleton.1 hc]
            exact digit_char_isdigit _ hmod)
        · rw [natOfDigits_append, hval]
          simp only [List.length_singleton, pow_one, natOfDigits, List.foldl_cons,
            List.foldl_nil, digit_char_toNat _ hmod]
          omega
        · rw [List.length_append, List.length_singleton, Nat.add_sub_cancel]
          refine ⟨?_, ?_, by omega⟩
          · rcases Nat.eq_zero_or_pos (n / 10) with h0 | h0
            · rw [hzero h0]
              simpa using hn
            · obtain ⟨h1, -, h3⟩ := hpos h0
              calc 10 ^ ds.length = 10 ^ (ds.length - 1) * 10 := by
                    rw [← pow_succ, Nat.sub_add_cancel h3]
                _ ≤ n / 10 * 10 := Nat.mul_le_mul_right _ h1
                _ ≤ n := Nat.div_mul_le_self n 10
          · rcases Nat.eq_zero_or_pos (n / 10) with h0 | h0
            · rw [hzero h0]
              simp only [List.length_nil, zero_add, pow_one]
              omega
            · obtain ⟨-, h2, -⟩ := hpos h0
              rw [pow_succ]
              omega

/-- The loop of `get_int_length` for a natural number: it adds the number of decimal digits. -/
theorem get_int_length_loop_nat (n : Nat) :
    ∀ (fuel len : Nat), n ≤ fuel →
      ∃ k : Nat, get_int_length_loop fuel (n : Int) len = len + k ∧ (n = 0 → k = 0)
        ∧ (0 < n → 10 ^ (k - 1) ≤ n ∧ n < 10 ^ k ∧ 0 < k) := by
  induction n using Nat.strong_induction_on with
  | _ n ih =>
      intro fuel len hfuel
      rcases Nat.eq_zero_or_pos n with rfl | hn
      · refine ⟨0, ?_, fun _ => rfl, fun h => absurd h (by omega)⟩
        cases fuel <;> simp [get_int_length_loop]
      · obtain ⟨fuel, rfl⟩ : ∃ k, fuel = k + 1 := ⟨fuel - 1, by omega⟩
        have hdiv : n / 10 < n := Nat.div_lt_self hn (by decide)
        obtain ⟨k, hk, hzero, hpos⟩ := ih (n / 10) hdiv fuel (len + 1) (by omega)
        refine ⟨k + 1, ?_, fun h => absurd h (by omega), fun _ => ?_⟩
        · have h1 : (n : Int).tdiv 10 = ((n / 10 : Nat) : Int) := (Int.ofNat_tdiv n 10).symm
          rw [get_int_length_loop, if_pos (by exact_mod_cast hn), h1, hk]
          omega
        · rw [Nat.add_sub_cancel]
          refine ⟨?_, ?_, by omega⟩
          · rcases Nat.eq_zero_or_pos (n / 10) with h0 | h0
            · rw [hzero h0]
              simpa using hn
            · obtain ⟨h1, -, h3⟩ := hpos h0
              calc 10 ^ k = 10 ^ (k - 1) * 10 := by
                    rw [← pow_succ, Nat.sub_add_cancel h3]
                _ ≤ n / 10 * 10 := Nat.mul_le_mul_right _ h1
                _ ≤ n := Nat.div_mul_le_self n 10
          · rcases Nat.eq_zero_or_pos (n / 10) with h0 | h0
            · rw [hzero h0]
              simp only [zero_add, pow_one]
              omega
            · obtain ⟨-, h2, -⟩ := hpos h0
              rw [pow_succ]
              omega

theorem long_to_str_pad_eq (fuel min_width : Nat) (temp : List Char)
    (h : min_width - temp.length ≤ fuel) :
    long_to_str_pad fuel min_width temp
      = List.replicate (min_width - temp.length) '0' ++ temp := by
  induction fuel generalizing temp with
  | zero =>
      rw [long_to_str_pad, Nat.le_zero.1 h]
      rfl
  | succ fuel ih =>
      rw [long_to_str_pad]
      split
      · next hlt =>
          rw [ih ('0' :: temp) (by simp only [List.length_cons]; omega)]
          simp only [List.length_cons]
          rw [show min_width - temp.length = (min_width - (temp.length + 1)) + 1 by omega,
            List.replicate_succ']
          simp
      · next hge =>
          rw [show min_width - temp.length = 0 by omega]
          rfl

/-- Function `long_to_str` with width 0 appends the decimal digits of `n`, a single `0` for 0. -/
theorem long_to_str_int (n : Nat) (buf : List Char) :
    ∃ I : List Char, long_to_str (n : Int) buf 0 = buf ++ I ∧ I ≠ [] ∧ allDigits I
      ∧ natOfDigits I = n ∧ (n = 0 → I = ['0'])
      ∧ (0 < n → 10 ^ (I.length - 1) ≤ n ∧ n < 10 ^ I.length) := by
  obtain ⟨ds, hds, hall, hval, hzero, hpos⟩ := long_to_str_digits_nat n n [] le_rfl
  rw [List.append_nil] at hds
  rcases Nat.eq_zero_or_pos n with rfl | hn
  · refine ⟨['0'], ?_, by simp, fun c hc => ?_, rfl, fun _ => rfl, fun h => absurd h (by omega)⟩
    · rfl
    · rw [List.mem_singleton.1 hc]; rfl
  · obtain ⟨h1, h2, h3⟩ := hpos hn
    have hne : ds ≠ [] := List.ne_nil_of_length_pos h3
    refine ⟨ds, ?_, hne, hall, hval, fun h => absurd h (by omega), fun _ => ⟨h1, h2⟩⟩
    have hn0 : ¬ ((n : Int) = 0) := by exact_mod_cast (by omega : n ≠ 0)
    simp only [long_to_str, Int.toNat_ofNat, hds, if_neg hn0, long_to_str_pad]
    rw [if_neg (by omega)]

/-- Function `long_to_str` with a positive width `w` and `n < 10^w` appends exactly `w` characters:
zeros, then the decimal digits of `n`. -/
theorem long_to_str_frac (n w : Nat) (hw : 0 < w) (hn : n < 10 ^ w) (buf : List Char) :
    ∃ ds : List Char,
      long_to_str (n : Int) buf w = buf ++ (List.replicate (w - ds.length) '0' ++ ds)
        ∧ ds.length ≤ w ∧ allDigits ds ∧ natOfDigits ds = n ∧ (n = 0 → ds = [])
        ∧ (0 < n → 10 ^ (ds.length - 1) ≤ n ∧ n < 10 ^ ds.length ∧ 0 < ds.length) := by
  obtain ⟨ds, hds, hall, hval, hzero, hpos⟩ := long_to_str_digits_nat n n [] le_rfl
  rw [List.append_nil] at hds
  have hlen : ds.length ≤ w := by
    rcases Nat.eq_zero_or_pos n with h0 | h0
    · rw [hzero h0]; exact Nat.zero_le _
    · obtain ⟨h1, -, h3⟩ := hpos h0
      by_contra hcon
      have : 10 ^ w ≤ 10 ^ (ds.length - 1) := Nat.pow_le_pow_right (by decide) (by omega)
      omega
  refine ⟨ds, ?_, hlen, hall, hval, hzero, hpos⟩
  have hw0 : ¬ (w = 0) := by omega
  have hmw : (if (n : Int) = 0 then (if w = 0 then 1 else w) else w) = w := by
    simp [hw0]
  simp only [long_to_str, Int.toNat_ofNat, hds, hmw]
  rw [long_to_str_pad_eq w w ds (Nat.sub_le _ _), if_neg (by
    simp only [List.length_append, List.length_replicate]; omega)]

/-! ## Formatter: trimming -/

theorem dropWhile_append_of_ne_nil {α : Type} (p : α → Bool) (xs ys : List α)
    (h : xs.dropWhile p ≠ []) : (xs ++ ys).dropWhile p = xs.dropWhile p ++ ys := by
  induction xs with
  | nil => simp at h
  | cons x xs ih =>
      simp only [List.cons_append, List.dropWhile_cons] at h ⊢
      split
      · next hx =>
          rw [if_pos hx] at h
          exact ih h
      · rfl

theorem dropWhile_append_of_eq_nil {α : Type} (p : α → Bool) (xs ys : List α)
    (h : xs.dropWhile p = []) : (xs ++ ys).dropWhile p = ys.dropWhile p := by
  induction xs with
  | nil => rfl
  | cons x xs ih =>
      simp only [List.cons_append, List.dropWhile_cons] at h ⊢
      split
      · next hx =>
          rw [if_pos hx] at h
          exact ih h
      · next hx =>
          rw [if_neg hx] at h
          cases h

theorem stripZeros_subset (F : List Char) : ∀ c ∈ stripZeros F, c ∈ F := by
  intro c hc
  unfold stripZeros at hc
  rw [List.mem_reverse] at hc
  exact List.mem_reverse.1 ((List.dropWhile_sublist _).subset hc)

theorem allDigits_stripZeros {F : List Char} (h : allDigits F) : allDigits (stripZeros F) :=
  fun c hc => h c (stripZeros_subset F c hc)

/-- Function `trim_zeros` on `pre.F` with digits `F`: the trailing zeros of `F` go, and the point too
when nothing of `F` is left; `pre` is untouched. -/
theorem trim_zeros_frac (pre F : List Char) (hF : allDigits F) :
    trim_zeros (pre ++ '.' :: F)
      = if stripZeros F = [] then pre else pre ++ '.' :: stripZeros F := by
  have hrev : (pre ++ '.' :: F).reverse = F.reverse ++ '.' :: pre.reverse := by simp
  unfold trim_zeros
  simp only [hrev]
  by_cases h : F.reverse.dropWhile (fun c => c == '0') = []
  · have hs : stripZeros F = [] := by simp [stripZeros, h]
    rw [dropWhile_append_of_eq_nil _ _ _ h, if_pos hs]
    simp [List.dropWhile_cons]
  · have hs : stripZeros F ≠ [] := by simpa [stripZeros] using h
    rw [dropWhile_append_of_ne_nil _ _ _ h, if_neg hs]
    obtain ⟨c, r, hcr⟩ := List.exists_cons_of_ne_nil h
    have hc : c ≠ '.' := by
      have hmem : c ∈ F := by
        have : c ∈ F.reverse.dropWhile (fun c => c == '0') := by rw [hcr]; exact List.mem_cons_self _ _
        exact List.mem_reverse.1 ((List.dropWhile_sublist _).subset this)
      have := hF c hmem
      rintro rfl
      revert this
      decide
    rw [hcr]
    simp only [List.cons_append]
    split
    · next heq =>
        simp only [List.cons.injEq] at heq
        exact absurd heq.1 hc
    · simp [stripZeros, hcr]

theorem stripZeros_append_zeros (F : List Char) :
    ∃ k, F = stripZeros F ++ List.replicate k '0' := by
  have h := List.takeWhile_append_dropWhile (fun c => c == '0') F.reverse
  have htw : ∀ c ∈ F.reverse.takeWhile (fun c => c == '0'), c = '0' := by
    intro c hc
    simpa using List.mem_takeWhile_imp hc
  refine ⟨(F.reverse.takeWhile (fun c => c == '0')).length, ?_⟩
  have h2 : F = (F.reverse.dropWhile (fun c => c == '0')).reverse
      ++ (F.reverse.takeWhile (fun c => c == '0')).reverse := by
    rw [← List.reverse_append, h, List.reverse_reverse]
  rw [List.eq_replicate_of_mem htw] at h2
  simpa [stripZeros] using h2

theorem fracOfDigits_replicate_zero (k : Nat) : fracOfDigits (List.replicate k '0') = 0 := by
  rw [fracOfDigits_eq, natOfDigits_replicate_zero]
  simp

theorem fracOfDigits_append_zeros (xs : List Char) (k : Nat) :
    fracOfDigits (xs ++ List.replicate k '0') = fracOfDigits xs := by
  induction xs with
  | nil => simpa [fracOfDigits] using fracOfDigits_replicate_zero k
  | cons c cs ih =>
      rw [List.cons_append, fracOfDigits, fracOfDigits, ih]

theorem fracOfDigits_stripZeros (F : List Char) :
    fracOfDigits (stripZeros F) = fracOfDigits F := by
  obtain ⟨k, hk⟩ := stripZeros_append_zeros F
  conv_rhs => rw [hk]
  rw [fracOfDigits_append_zeros]

/-! ## Formatter: the number of decimal places -/

theorem toLong_of_nonneg (x : ℚ) (h0 : 0 ≤ x) (h : x < 2147483648) :
    toLong x = some ⌊x⌋ := by
  have h1 : (0 : Int) ≤ ⌊x⌋ := Int.floor_nonneg.2 h0
  have h2 : ⌊x⌋ < 2147483648 := by
    have : (⌊x⌋ : ℚ) < 2147483648 := lt_of_le_of_lt (Int.floor_le x) h
    exact_mod_cast this
  simp only [toLong, if_pos h0]
  rw [if_pos ⟨by omega, by omega⟩]

theorem multiplier_loop_eq (n : Nat) (m : Int) : multiplier_loop n m = m * 10 ^ n := by
  induction n generalizing m with
  | zero => simp [multiplier_loop]
  | succ n ih => rw [multiplier_loop, ih, pow_succ]; ring

theorem decimal_places_le (x : ℚ) (ip : Int) : decimal_places x ip ≤ 8 := by
  unfold decimal_places
  simp only
  split_ifs <;> omega

/-- The loop that counts leading zeros: its result `z` is the least count with
`temp_f * 10^(z - leading_zeros) ≥ 0.1`, capped at 8. -/
theorem leading_zeros_loop_spec (fuel : Nat) :
    ∀ (t : ℚ) (lz : Nat), lz ≤ 8 → 8 ≤ fuel + lz →
      lz ≤ leading_zeros_loop fuel t lz ∧ leading_zeros_loop fuel t lz ≤ 8
        ∧ (∀ j, j < leading_zeros_loop fuel t lz - lz → t * 10 ^ j < 1 / 10)
        ∧ (leading_zeros_loop fuel t lz < 8 →
            1 / 10 ≤ t * 10 ^ (leading_zeros_loop fuel t lz - lz)) := by
  induction fuel with
  | zero =>
      intro t lz h1 h2
      have h8 : lz = 8 := by omega
      subst h8
      simp [leading_zeros_loop]
  | succ fuel ih =>
      intro t lz h1 h2
      rw [leading_zeros_loop]
      split
      · next hc =>
          obtain ⟨ha, hb, hc1, hd⟩ := ih (t * 10) (lz + 1) (by omega) (by omega)
          refine ⟨by omega, hb, ?_, ?_⟩
          · intro j hj
            cases j with
            | zero => simpa using hc.1
            | succ j =>
                have := hc1 j (by omega)
                rw [pow_succ]
                linarith
          · intro hlt
            have := hd hlt
            rw [show leading_zeros_loop fuel (t * 10) (lz + 1) - lz
              = (leading_zeros_loop fuel (t * 10) (lz + 1) - (lz + 1)) + 1 by omega, pow_succ]
            linarith
      · next hc =>
          refine ⟨le_rfl, h1, ?_, ?_⟩
          · intro j hj
            omega
          · intro hlt
            have hnot : ¬ (t < 1 / 10) := fun h => hc ⟨h, hlt⟩
            simpa using not_lt.1 hnot

/-- Decimal places for an integer part `n ≥ 1` with `k` digits: `6 - k`, at least 0. -/
theorem decimal_places_big (x : ℚ) (n : Nat) (hn : 0 < n) :
    ∃ k : Nat, 0 < k ∧ 10 ^ (k - 1) ≤ n ∧ n < 10 ^ k
      ∧ decimal_places x (n : Int) = PRECISION - k := by
  obtain ⟨k, hk, -, hpos⟩ := get_int_length_loop_nat n n 0 le_rfl
  obtain ⟨h1, h2, h3⟩ := hpos hn
  refine ⟨k, h3, h1, h2, ?_⟩
  have hn0 : ¬ ((n : Int) = 0) := by exact_mod_cast (by omega : n ≠ 0)
  have hneg : ¬ ((n : Int) < 0) := by omega
  have hlen : get_int_length (n : Int) = k := by
    simp only [get_int_length, if_neg hn0, if_neg hneg, Int.toNat_ofNat, hk, zero_add]
  simp only [decimal_places, if_neg hn0, hlen, PRECISION]
  split_ifs <;> omega

/-- Decimal places for integer part 0: `6 + z`, at most 8, for the count `z` of leading
zeros found by the loop. -/
theorem decimal_places_small (x : ℚ) :
    ∃ z : Nat, z ≤ 8 ∧ (∀ j, j < z → x * 10 ^ j < 1 / 10) ∧ (z < 8 → 1 / 10 ≤ x * 10 ^ z)
      ∧ decimal_places x 0 = min 8 (PRECISION + z) := by
  obtain ⟨-, h2, h3, h4⟩ := leading_zeros_loop_spec 8 x 0 (by omega) (by omega)
  refine ⟨leading_zeros_loop 8 x 0, h2, by simpa using h3, by simpa using h4, ?_⟩
  simp only [decimal_places, if_true, PRECISION]
  split_ifs <;> omega

/-! ## Formatter: the shape of the output -/

theorem scaled_fits (x : ℚ) (hx : 0 < x) (hov : x + 1 / 2 < 2147483648) :
    x * 10 ^ placesOf x + 1 / 2 < 2147483648 := by
  have h0 : (0 : Int) ≤ ⌊x⌋ := Int.floor_nonneg.2 hx.le
  obtain ⟨n, hn⟩ : ∃ n : Nat, ⌊x⌋ = (n : Int) := ⟨⌊x⌋.toNat, (Int.toNat_of_nonneg h0).symm⟩
  have hlt : x < (n : ℚ) + 1 := by
    have := Int.lt_floor_add_one x
    rw [hn] at this
    exact_mod_cast this
  unfold placesOf
  rw [hn]
  rcases Nat.eq_zero_or_pos n with rfl | hpos
  · rw [Nat.cast_zero]
    have hp := decimal_places_le x 0
    have hx1 : x < 1 := by simpa using hlt
    have hpow : (10 : ℚ) ^ decimal_places x 0 ≤ 10 ^ 8 :=
      pow_le_pow_right₀ (by norm_num) hp
    have hpos10 : (0 : ℚ) < 10 ^ decimal_places x 0 := by positivity
    have hmul : x * 10 ^ decimal_places x 0 < 10 ^ decimal_places x 0 :=
      mul_lt_of_lt_one_left hpos10 hx1
    have h8 : (10 : ℚ) ^ 8 = 100000000 := by norm_num
    rw [h8] at hpow
    linarith
  · obtain ⟨k, hk0, hk1, hk2, hdp⟩ := decimal_places_big x n hpos
    rw [hdp]
    have hxk : x < 10 ^ k := by
      have : (n : ℚ) + 1 ≤ 10 ^ k := by exact_mod_cast hk2
      linarith
    by_cases hk6 : 6 ≤ k
    · rw [show PRECISION - k = 0 by simp [PRECISION]; omega]
      simpa using hov
    · have hk6 : k ≤ 6 := by omega
      have hmul : x * 10 ^ (PRECISION - k) < 10 ^ 6 := by
        have h1 : (10 : ℚ) ^ k * 10 ^ (PRECISION - k) = 10 ^ 6 := by
          rw [← pow_add, show k + (PRECISION - k) = 6 by simp [PRECISION]; omega]
        have hpos10 : (0 : ℚ) < 10 ^ (PRECISION - k) := by positivity
        calc x * 10 ^ (PRECISION - k) < 10 ^ k * 10 ^ (PRECISION - k) :=
              mul_lt_mul_of_pos_right hxk hpos10
          _ = 10 ^ 6 := h1
      norm_num at hmul ⊢
      linarith

/-- The output of `Double2String` for a nonzero `f` whose scaled value fits a `long`: an
optional `-`, the digits `I` of the integer part of the scaled value, and, when there are
decimal places and the fractional digits are not all zero, a point and the fractional digits
(padded to the number of places) without their trailing zeros. -/
theorem Double2String_struct (f : ℚ) (hf : f ≠ 0) (hov : |f| + 1 / 2 < 2147483648) :
    ∃ I ds : List Char,
      I ≠ [] ∧ allDigits I ∧ natOfDigits I = scaledOf |f| / 10 ^ placesOf |f|
        ∧ (scaledOf |f| / 10 ^ placesOf |f| = 0 → I = ['0'])
        ∧ (0 < scaledOf |f| / 10 ^ placesOf |f| →
            10 ^ (I.length - 1) ≤ scaledOf |f| / 10 ^ placesOf |f|
              ∧ scaledOf |f| / 10 ^ placesOf |f| < 10 ^ I.length)
        ∧ ds.length ≤ placesOf |f|
        ∧ isDigitsOf ds (scaledOf |f| % 10 ^ placesOf |f|)
        ∧ Double2String f = some ((if f < 0 then ['-'] else []) ++
            (if placesOf |f| = 0 ∨ stripZeros (paddedFrac (placesOf |f|) ds) = [] then I
             else I ++ '.' :: stripZeros (paddedFrac (placesOf |f|) ds))) := by
  have hx : 0 < |f| := abs_pos.2 hf
  have hf1 : (if f < 0 then -f else f) = |f| := by
    split
    · next h => exact (abs_of_neg h).symm
    · next h => exact (abs_of_nonneg (not_lt.1 h)).symm
  have hlong1 : toLong |f| = some ⌊|f|⌋ := toLong_of_nonneg _ hx.le (by linarith)
  have hfit := scaled_fits |f| hx hov
  have hS0 : (0 : Int) ≤ ⌊|f| * 10 ^ placesOf |f| + 1 / 2⌋ :=
    Int.floor_nonneg.2 (by positivity)
  have hS : ⌊|f| * 10 ^ placesOf |f| + 1 / 2⌋ = ((scaledOf |f| : Nat) : Int) :=
    (Int.toNat_of_nonneg hS0).symm
  have hmult : ((multiplier_loop (placesOf |f|) 1 : Int) : ℚ) = 10 ^ placesOf |f| := by
    rw [multiplier_loop_eq]; push_cast; ring
  have hmultN : multiplier_loop (placesOf |f|) 1 = ((10 ^ placesOf |f| : Nat) : Int) := by
    rw [multiplier_loop_eq]; push_cast; ring
  have hlong2 : toLong (|f| * ((multiplier_loop (placesOf |f|) 1 : Int) : ℚ) + 1 / 2)
      = some ((scaledOf |f| : Nat) : Int) := by
    rw [hmult, toLong_of_nonneg _ (by positivity) hfit, hS]
  have hdiv : ((scaledOf |f| : Nat) : Int).tdiv (multiplier_loop (placesOf |f|) 1)
      = ((scaledOf |f| / 10 ^ placesOf |f| : Nat) : Int) := by
    rw [hmultN]; exact (Int.ofNat_tdiv _ _).symm
  have hmod : ((scaledOf |f| : Nat) : Int).tmod (multiplier_loop (placesOf |f|) 1)
      = ((scaledOf |f| % 10 ^ placesOf |f| : Nat) : Int) := by
    rw [hmultN]; exact (Int.ofNat_tmod _ _).symm
  obtain ⟨I, hI, hIne, hIall, hIval, hIzero, hIpos⟩ :=
    long_to_str_int (scaledOf |f| / 10 ^ placesOf |f|) (if f < 0 then ['-'] else [])
  have hout : Double2String f =
      if placesOf |f| > 0 then
        some (trim_zeros (long_to_str ((scaledOf |f| % 10 ^ placesOf |f| : Nat) : Int)
          (((if f < 0 then ['-'] else []) ++ I) ++ ['.']) (placesOf |f|)))
      else some ((if f < 0 then ['-'] else []) ++ I) := by
    unfold Double2String
    rw [if_neg hf]
    simp only [hf1, hlong1]
    rw [show decimal_places |f| ⌊|f|⌋ = placesOf |f| from rfl]
    simp only [hlong2, hdiv, hmod, hI]
  rcases Nat.eq_zero_or_pos (placesOf |f|) with hp0 | hp
  · refine ⟨I, [], hIne, hIall, hIval, hIzero, hIpos, by simp, ?_, ?_⟩
    · rw [hp0]
      exact ⟨fun c hc => (by cases hc), by simp [natOfDigits, Nat.mod_one],
        fun _ => rfl, fun h => absurd h (by simp [Nat.mod_one])⟩
    · rw [hout, if_neg (by omega), if_pos (Or.inl hp0)]
  · obtain ⟨ds, hds, hlen, hall, hval, hzero, hpos⟩ :=
      long_to_str_frac (scaledOf |f| % 10 ^ placesOf |f|) (placesOf |f|) hp
        (Nat.mod_lt _ (by positivity)) (((if f < 0 then ['-'] else []) ++ I) ++ ['.'])
    refine ⟨I, ds, hIne, hIall, hIval, hIzero, hIpos, hlen, ⟨hall, hval, hzero, hpos⟩, ?_⟩
    have hFall : allDigits (paddedFrac (placesOf |f|) ds) :=
      allDigits_append (allDigits_replicate_zero _) hall
    rw [hout, if_pos hp, hds, List.append_assoc ((if f < 0 then ['-'] else []) ++ I),
      List.singleton_append,
      show List.replicate (placesOf |f| - ds.length) '0' ++ ds = paddedFrac (placesOf |f|) ds
        from rfl,
      trim_zeros_frac _ _ hFall]
    have hp0 : ¬ (placesOf |f| = 0) := by omega
    by_cases hs : stripZeros (paddedFrac (placesOf |f|) ds) = []
    · rw [if_pos hs, if_pos (Or.inr hs)]
    · have e1 : (if placesOf |f| = 0 ∨ stripZeros (paddedFrac (placesOf |f|) ds) = [] then I
          else I ++ '.' :: stripZeros (paddedFrac (placesOf |f|) ds))
          = I ++ '.' :: stripZeros (paddedFrac (placesOf |f|) ds) :=
        if_neg (by simp [hp0, hs])
      rw [if_neg hs, e1, List.append_assoc]

theorem natOfDigits_paddedFrac (p : Nat) (ds : List Char) :
    natOfDigits (paddedFrac p ds) = natOfDigits ds := by
  rw [paddedFrac, natOfDigits_append, natOfDigits_replicate_zero]
  simp

theorem length_paddedFrac (p : Nat) (ds : List Char) (h : ds.length ≤ p) :
    (paddedFrac p ds).length = p := by
  simp only [paddedFrac, List.length_append, List.length_replicate]
  omega

theorem natOfDigits_eq_zero_of_stripZeros_nil {F : List Char} (h : stripZeros F = []) :
    natOfDigits F = 0 := by
  obtain ⟨k, hk⟩ := stripZeros_append_zeros F
  rw [h, List.nil_append] at hk
  rw [hk, natOfDigits_replicate_zero]

/-- The output of `Double2String` is a decimal numeral that denotes the scaled and rounded
value divided by `10^places`, with the sign of `f`. -/
theorem Double2String_denotes (f : ℚ) (hf : f ≠ 0) (hov : |f| + 1 / 2 < 2147483648) :
    ∃ s, Double2String f = some s
      ∧ denotes s (signOf f * ((scaledOf |f| : ℚ) / 10 ^ placesOf |f|)) := by
  obtain ⟨I, ds, hIne, hIall, hIval, -, -, hlen, ⟨hall, hval, -, -⟩, hout⟩ :=
    Double2String_struct f hf hov
  have hFall : allDigits (paddedFrac (placesOf |f|) ds) :=
    allDigits_append (allDigits_replicate_zero _) hall
  have hp10 : (10 : ℚ) ^ placesOf |f| ≠ 0 := pow_ne_zero _ (by norm_num)
  have hsplit : (scaledOf |f| : ℚ)
      = ((scaledOf |f| / 10 ^ placesOf |f| : Nat) : ℚ) * 10 ^ placesOf |f|
        + ((scaledOf |f| % 10 ^ placesOf |f| : Nat) : ℚ) := by
    have := Nat.div_add_mod (scaledOf |f|) (10 ^ placesOf |f|)
    have h2 : ((10 ^ placesOf |f| * (scaledOf |f| / 10 ^ placesOf |f|)
        + scaledOf |f| % 10 ^ placesOf |f| : Nat) : ℚ) = (scaledOf |f| : ℚ) := by rw [this]
    rw [← h2]
    push_cast
    ring
  -- the literal written after the sign, and its value
  have hlit : ∃ a : Literal, a.wellFormed ∧ a.intPart ≠ []
      ∧ a.chars = (if placesOf |f| = 0 ∨ stripZeros (paddedFrac (placesOf |f|) ds) = [] then I
          else I ++ '.' :: stripZeros (paddedFrac (placesOf |f|) ds))
      ∧ a.value = (scaledOf |f| : ℚ) / 10 ^ placesOf |f| := by
    by_cases hc : placesOf |f| = 0 ∨ stripZeros (paddedFrac (placesOf |f|) ds) = []
    · refine ⟨⟨I, none⟩, ⟨hIall, hIne⟩, hIne, by rw [if_pos hc]; rfl, ?_⟩
      have hmod0 : scaledOf |f| % 10 ^ placesOf |f| = 0 := by
        rcases hc with h | h
        · rw [h]; simp [Nat.mod_one]
        · rw [← hval, ← natOfDigits_paddedFrac (placesOf |f|) ds]
          exact natOfDigits_eq_zero_of_stripZeros_nil h
      simp only [Literal.value, decimalValue, hIval]
      rw [hsplit, hmod0]
      simp [natOfDigits]
    · have hs : stripZeros (paddedFrac (placesOf |f|) ds) ≠ [] := fun h => hc (Or.inr h)
      refine ⟨⟨I, some (stripZeros (paddedFrac (placesOf |f|) ds))⟩,
        ⟨hIall, allDigits_stripZeros hFall, Or.inl hIne⟩, hIne, by rw [if_neg hc]; rfl, ?_⟩
      simp only [Literal.value, decimalValue, hIval]
      rw [← fracOfDigits_eq, fracOfDigits_stripZeros, fracOfDigits_eq,
        natOfDigits_paddedFrac, length_paddedFrac _ _ hlen, hval]
      conv_rhs => rw [hsplit]
      field_simp
  obtain ⟨a, hwf, hne, hchars, hvalue⟩ := hlit
  refine ⟨_, hout, a, hwf, hne, ?_⟩
  rw [← hchars, ← hvalue]
  by_cases hneg : f < 0
  · right
    simp [hneg, signOf]
  · left
    simp [hneg, signOf, hf]

/-- The lexer reads a decimal numeral as the number it denotes. -/
theorem parse_of_denotes {s : List Char} {v : ℚ} (h : denotes s v) : parse s = v := by
  obtain ⟨a, hwf, hne, h1 | h1⟩ := h
  · obtain ⟨rfl, rfl⟩ := h1
    exact (Lexer_feed_literal a hwf _ rfl).2.2
  · obtain ⟨rfl, rfl⟩ := h1
    obtain ⟨I, fp⟩ := a
    obtain ⟨hdI, hfp⟩ := hwf
    simp only at hdI hfp hne
    unfold parse
    rw [Lexer_feed, ProcessChar_minus_IDLE _ rfl]
    simp only
    cases fp with
    | none =>
        simp only [Literal.chars, Literal.value]
        rw [Lexer_feed_digits_INT I hdI _ 0 rfl (by simp)]
        simp [Lexer_GetCurrentVal, decimalValue, natOfDigits]
    | some F =>
        simp only at hfp
        simp only [Literal.chars, Literal.value]
        rw [Lexer_feed_append, Lexer_feed_digits_INT I hdI _ 0 rfl (by simp)]
        simp only
        rw [Lexer_feed, ProcessChar_dot_INT _ rfl]
        simp only
        rw [Lexer_feed_digits_FRAC F hfp.1 _ (Or.inl rfl)]
        have hp : (10 : ℚ) ^ F.length ≠ 0 := pow_ne_zero _ (by norm_num)
        simp only [Lexer_GetCurrentVal, decimalValue, fracOfDigits_eq, natOfDigits]
        push_cast
        field_simp

/-! ## Formatter: the decimal places of the specification -/

theorem find_range_eight (P : Nat → Bool) (z : Nat) (hz : z ≤ 8)
    (h1 : ∀ j, j < z → P j = false) (h2 : z < 8 → P z = true) :
    ((List.range 8).find? P).getD 8 = z := by
  have hr : List.range 8 = [0, 1, 2, 3, 4, 5, 6, 7] := by decide
  rw [hr]
  interval_cases z <;> simp_all [List.find?]

theorem placesOf_eq_spec (x : ℚ) (hx : 0 ≤ x) : placesOf x = decimalPlacesSpec x := by
  have h0 : (0 : Int) ≤ ⌊x⌋ := Int.floor_nonneg.2 hx
  obtain ⟨n, hn⟩ : ∃ n : Nat, ⌊x⌋ = (n : Int) := ⟨⌊x⌋.toNat, (Int.toNat_of_nonneg h0).symm⟩
  unfold placesOf decimalPlacesSpec
  rcases Nat.eq_zero_or_pos n with h | h
  · subst h
    rw [hn, Nat.cast_zero, if_neg (by decide)]
    obtain ⟨z, hz, hlow, hhigh, hdp⟩ := decimal_places_small x
    rw [hdp]
    have hspec : leadingZerosSpec x = z := by
      unfold leadingZerosSpec
      apply find_range_eight _ z hz
      · intro j hj
        simpa using hlow j hj
      · intro hlt
        simpa using hhigh hlt
    rw [hspec]
    rfl
  · obtain ⟨k, hk0, hk1, hk2, hdp⟩ := decimal_places_big x n h
    have hlen : intDigitsSpec x = k := by
      unfold intDigitsSpec
      rw [hn, Int.toNat_ofNat, Nat.digits_len 10 n (by decide) (by omega),
        Nat.log_eq_of_pow_le_of_lt_pow hk1 (by rwa [Nat.sub_add_cancel hk0])]
      omega
    rw [hn, hdp, if_pos (by exact_mod_cast h), hlen]
    simp only [PRECISION]
    omega

theorem Double2String_noOverflow_bound (f : ℚ) (h : Double2String_noOverflow f) :
    |f| + 1 / 2 < 2147483648 := by
  have h2 := h.2
  have hpos : (0 : ℚ) ≤ |f| * 10 ^ placesOf |f| + 1 / 2 := by positivity
  have hfl : ⌊|f| * 10 ^ placesOf |f| + 1 / 2⌋ ≤ 2147483647 := by
    by_contra hcon
    apply h2
    simp only [toLong, if_pos hpos]
    rw [if_neg (fun hh => hcon hh.2)]
  have hlt : |f| * 10 ^ placesOf |f| + 1 / 2 < 2147483648 := by
    have h3 := Int.lt_floor_add_one (|f| * 10 ^ placesOf |f| + 1 / 2)
    have h4 : ((⌊|f| * 10 ^ placesOf |f| + 1 / 2⌋ : Int) : ℚ) ≤ 2147483647 := by
      exact_mod_cast hfl
    linarith
  have h1 : (1 : ℚ) ≤ 10 ^ placesOf |f| := one_le_pow₀ (by norm_num)
  have habs : 0 ≤ |f| := abs_nonneg f
  nlinarith

theorem Double2String_noOverflow_of_bound (f : ℚ) (h : |f| + 1 / 2 < 2147483648) :
    Double2String_noOverflow f := by
  rcases eq_or_ne f 0 with rfl | hf
  · constructor
    · rw [toLong_of_nonneg _ (abs_nonneg _) (by norm_num)]
      simp
    · rw [toLong_of_nonneg _ (by positivity) (by norm_num)]
      simp
  · have hx : 0 < |f| := abs_pos.2 hf
    constructor
    · rw [toLong_of_nonneg _ hx.le (by linarith)]
      simp
    · rw [toLong_of_nonneg _ (by positivity) (scaled_fits |f| hx h)]
      simp

/-- C3: for every nonzero `f` with `|f| < 2^31`, in exact arithmetic and when no conversion
to the 32-bit `long` overflows, `Double2String f` is a decimal numeral that denotes
`sign(f) * floor(|f| * 10^dp + 1/2) / 10^dp`, with `dp = max(0, 6 - intDigits)` when the
integer part of `|f|` is at least 1 and `dp = min(8, 6 + leadingZeros)` when it is 0; and
`Double2String 0` is `0`. -/
theorem C3_format_denotes_rounded_value :
    (∀ f : ℚ, f ≠ 0 → |f| < 2 ^ 31 → Double2String_noOverflow f →
      ∃ s, Double2String f = some s
        ∧ denotes s (signOf f *
            ((⌊|f| * 10 ^ decimalPlacesSpec |f| + 1 / 2⌋ : Int) : ℚ)
              / 10 ^ decimalPlacesSpec |f|))
      ∧ Double2String 0 = some ['0'] := by
  refine ⟨fun f hf _ hno => ?_, by simp [Double2String]⟩
  have hov := Double2String_noOverflow_bound f hno
  obtain ⟨s, hs, hden⟩ := Double2String_denotes f hf hov
  refine ⟨s, hs, ?_⟩
  have hS0 : (0 : Int) ≤ ⌊|f| * 10 ^ placesOf |f| + 1 / 2⌋ :=
    Int.floor_nonneg.2 (by positivity)
  have hS : ((scaledOf |f| : Nat) : ℚ) = ((⌊|f| * 10 ^ placesOf |f| + 1 / 2⌋ : Int) : ℚ) := by
    have := Int.toNat_of_nonneg hS0
    unfold scaledOf
    exact_mod_cast this
  rw [hS, placesOf_eq_spec |f| (abs_nonneg f), ← mul_div_assoc] at hden
  exact hden

/-- The witness of C3: 3.14159265 has one integer digit, so five decimal places, and is
written `3.14159`, which denotes `floor(314159.265 + 1/2) / 10^5`. -/
theorem C3_witness :
    ∃ s, Double2String (314159265 / 100000000) = some s
      ∧ denotes s (signOf (314159265 / 100000000) *
          ((⌊|(314159265 / 100000000 : ℚ)| * 10 ^ decimalPlacesSpec |(314159265 / 100000000 : ℚ)|
              + 1 / 2⌋ : Int) : ℚ)
            / 10 ^ decimalPlacesSpec |(314159265 / 100000000 : ℚ)|) :=
  C3_format_denotes_rounded_value.1 (314159265 / 100000000) (by norm_num)
    (by rw [abs_of_pos (by norm_num)]; norm_num)
    (Double2String_noOverflow_of_bound _ (by rw [abs_of_pos (by norm_num)]; norm_num))

/-! ## Formatter: accuracy -/

/-- Rounding to `places` decimals moves the value by at most half a unit of the last place. -/
theorem scaledOf_error (x : ℚ) (hx : 0 ≤ x) :
    |(scaledOf x : ℚ) / 10 ^ placesOf x - x| ≤ 1 / 2 / 10 ^ placesOf x := by
  have hp : (0 : ℚ) < 10 ^ placesOf x := by positivity
  have hS0 : (0 : Int) ≤ ⌊x * 10 ^ placesOf x + 1 / 2⌋ := Int.floor_nonneg.2 (by positivity)
  have hS : ((scaledOf x : Nat) : ℚ) = ((⌊x * 10 ^ placesOf x + 1 / 2⌋ : Int) : ℚ) := by
    have := Int.toNat_of_nonneg hS0
    unfold scaledOf
    exact_mod_cast this
  have h1 := Int.floor_le (x * 10 ^ placesOf x + 1 / 2)
  have h2 := Int.lt_floor_add_one (x * 10 ^ placesOf x + 1 / 2)
  rw [← hS] at h1 h2
  rw [abs_le]
  constructor
  · rw [le_sub_iff_add_le, neg_add_eq_sub, le_div_iff₀ hp, sub_mul, div_mul_cancel₀ _ hp.ne']
    linarith
  · rw [sub_le_iff_le_add, div_le_iff₀ hp, add_mul, div_mul_cancel₀ _ hp.ne']
    linarith

/-- Either six significant digits fit the decimal places, or the places are clamped to 8 for
a value below 0.001. -/
theorem placesOf_bound (x : ℚ) (hx : 0 < x) :
    10 ^ 5 ≤ x * 10 ^ placesOf x ∨ (placesOf x = 8 ∧ x < 1 / 1000) := by
  have h0 : (0 : Int) ≤ ⌊x⌋ := Int.floor_nonneg.2 hx.le
  obtain ⟨n, hn⟩ : ∃ n : Nat, ⌊x⌋ = (n : Int) := ⟨⌊x⌋.toNat, (Int.toNat_of_nonneg h0).symm⟩
  have hle : (n : ℚ) ≤ x := by
    have := Int.floor_le x
    rw [hn] at this
    exact_mod_cast this
  unfold placesOf
  rw [hn]
  rcases Nat.eq_zero_or_pos n with rfl | hpos
  · rw [Nat.cast_zero]
    obtain ⟨z, hz, hlow, hhigh, hdp⟩ := decimal_places_small x
    rw [hdp]
    by_cases hz2 : z ≤ 2
    · left
      have h1 := hhigh (by omega)
      rw [show min 8 (PRECISION + z) = z + 6 by simp [PRECISION]; omega, pow_add]
      have : x * (10 ^ z * 10 ^ 6) = (x * 10 ^ z) * 10 ^ 6 := by ring
      rw [this]
      nlinarith
    · right
      have h1 := hlow 2 (by omega)
      refine ⟨by simp [PRECISION]; omega, ?_⟩
      norm_num at h1 ⊢
      linarith
  · left
    obtain ⟨k, hk0, hk1, hk2, hdp⟩ := decimal_places_big x n hpos
    rw [hdp]
    have hxk : (10 : ℚ) ^ (k - 1) ≤ x := by
      have : ((10 ^ (k - 1) : Nat) : ℚ) ≤ (n : ℚ) := by exact_mod_cast hk1
      push_cast at this
      linarith
    by_cases hk6 : k ≤ 6
    · have h1 : (10 : ℚ) ^ 5 = 10 ^ (k - 1) * 10 ^ (PRECISION - k) := by
        rw [← pow_add, show k - 1 + (PRECISION - k) = 5 by simp [PRECISION]; omega]
      rw [h1]
      exact mul_le_mul_of_nonneg_right hxk (by positivity)
    · rw [show PRECISION - k = 0 by simp [PRECISION]; omega, pow_zero, mul_one]
      have : (10 : ℚ) ^ 5 ≤ 10 ^ (k - 1) := pow_le_pow_right₀ (by norm_num) (by omega)
      linarith

theorem signOf_mul_abs (f : ℚ) : signOf f * |f| = f := by
  unfold signOf
  split_ifs with h1 h2
  · rw [abs_of_neg h1]; ring
  · rw [h2]; simp
  · rw [abs_of_pos (lt_of_le_of_ne (not_lt.1 h1) (Ne.symm h2))]; ring

theorem abs_signOf (f : ℚ) (hf : f ≠ 0) : |signOf f| = 1 := by
  unfold signOf
  split_ifs <;> simp

/-- The value `Double2String` writes for `f` differs from `f` by at most half a unit of the
last decimal place. -/
theorem format_error (f : ℚ) :
    |signOf f * ((scaledOf |f| : ℚ) / 10 ^ placesOf |f|) - f| ≤ 1 / 2 / 10 ^ placesOf |f| := by
  rcases eq_or_ne f 0 with rfl | hf
  · simp only [signOf, lt_self_iff_false, if_false, if_true, zero_mul, sub_zero, abs_zero]
    positivity
  · have h := scaledOf_error |f| (abs_nonneg f)
    have e : signOf f * ((scaledOf |f| : ℚ) / 10 ^ placesOf |f|) - f
        = signOf f * ((scaledOf |f| : ℚ) / 10 ^ placesOf |f| - |f|) := by
      rw [mul_sub, signOf_mul_abs]
    rw [e, abs_mul, abs_signOf f hf, one_mul]
    exact h

/-! ## Formatter: significant digits -/

theorem stripZeros_append_of_ne_nil (pre ds : List Char) (h : stripZeros ds ≠ []) :
    stripZeros (pre ++ ds) = pre ++ stripZeros ds := by
  have h1 : ds.reverse.dropWhile (fun c => c == '0') ≠ [] := by
    simpa [stripZeros] using h
  unfold stripZeros
  rw [List.reverse_append, dropWhile_append_of_ne_nil _ _ _ h1, List.reverse_append,
    List.reverse_reverse]

theorem scaledOf_pos (x : ℚ) (h1 : 1 / 10 ^ 8 ≤ x) : 0 < scaledOf x := by
  have hx : 0 < x := lt_of_lt_of_le (by norm_num) h1
  have hone : (1 : ℚ) ≤ x * 10 ^ placesOf x := by
    rcases placesOf_bound x hx with hb | ⟨hb, -⟩
    · exact le_trans (by norm_num) hb
    · rw [hb]
      have : (1 : ℚ) = 1 / 10 ^ 8 * 10 ^ 8 := by norm_num
      rw [this]
      exact mul_le_mul_of_nonneg_right h1 (by norm_num)
  have hfl : (1 : Int) ≤ ⌊x * 10 ^ placesOf x + 1 / 2⌋ :=
    Int.le_floor.2 (by push_cast; linarith)
  unfold scaledOf
  omega

/-- Leading zeros are written: when the scaled value is positive and below `10^(p - z)`,
the output is `0.` followed by `z` zeros and at least one more character. -/
theorem Double2String_leading_zeros (f : ℚ) (hf : f ≠ 0) (hov : |f| + 1 / 2 < 2147483648)
    (z : Nat) (hs0 : 0 < scaledOf |f|) (hz : z < placesOf |f|)
    (hs : scaledOf |f| < 10 ^ (placesOf |f| - z)) :
    ∃ rest : List Char, rest ≠ [] ∧ Double2String f
      = some ((if f < 0 then ['-'] else []) ++ '0' :: '.' :: (List.replicate z '0' ++ rest)) := by
  obtain ⟨I, ds, -, -, -, hIzero, -, hlen, ⟨hall, hval, -, hpos⟩, hout⟩ :=
    Double2String_struct f hf hov
  have hlt : scaledOf |f| < 10 ^ placesOf |f| :=
    lt_of_lt_of_le hs (Nat.pow_le_pow_right (by decide) (Nat.sub_le _ _))
  have hI : I = ['0'] := hIzero (Nat.div_eq_of_lt hlt)
  rw [Nat.mod_eq_of_lt hlt] at hval hpos
  obtain ⟨hd1, -, hd3⟩ := hpos hs0
  have hdlen : ds.length ≤ placesOf |f| - z := by
    by_contra hcon
    have : 10 ^ (placesOf |f| - z) ≤ 10 ^ (ds.length - 1) :=
      Nat.pow_le_pow_right (by decide) (by omega)
    omega
  have hstrip : stripZeros ds ≠ [] := by
    intro h
    have := natOfDigits_eq_zero_of_stripZeros_nil h
    omega
  have hpad : paddedFrac (placesOf |f|) ds
      = List.replicate z '0' ++ (List.replicate (placesOf |f| - ds.length - z) '0' ++ ds) := by
    rw [paddedFrac, ← List.append_assoc, ← List.replicate_add]
    congr 2
    omega
  have hstrip2 : stripZeros (paddedFrac (placesOf |f|) ds)
      = List.replicate z '0'
          ++ (List.replicate (placesOf |f| - ds.length - z) '0' ++ stripZeros ds) := by
    rw [hpad, ← List.append_assoc, stripZeros_append_of_ne_nil _ _ hstrip, List.append_assoc]
  have hne : stripZeros (paddedFrac (placesOf |f|) ds) ≠ [] := by
    rw [hstrip2]
    simp [hstrip]
  refine ⟨List.replicate (placesOf |f| - ds.length - z) '0' ++ stripZeros ds,
    by simp [hstrip], ?_⟩
  have e1 : (if placesOf |f| = 0 ∨ stripZeros (paddedFrac (placesOf |f|) ds) = [] then I
      else I ++ '.' :: stripZeros (paddedFrac (placesOf |f|) ds))
      = I ++ '.' :: stripZeros (paddedFrac (placesOf |f|) ds) :=
    if_neg (by simp [hne]; omega)
  rw [hout, e1, hI, hstrip2]
  rfl

theorem half_unit_bound (x : ℚ) (p : Nat) (e : Int) (hb : 10 ^ 5 ≤ x * 10 ^ p)
    (hx : x < 10 ^ (e + 1)) : 1 / 2 / 10 ^ p ≤ 1 / 2 * (10 : ℚ) ^ (e - 5) := by
  have h10 : (1 : ℚ) < 10 := by norm_num
  have hp : (0 : ℚ) < 10 ^ p := by positivity
  have hlt : (10 : ℚ) ^ (5 : Int) < 10 ^ (e + 1 + (p : Int)) := by
    rw [zpow_add₀ (by norm_num : (10 : ℚ) ≠ 0), zpow_natCast]
    calc (10 : ℚ) ^ (5 : Int) = 10 ^ 5 := by norm_num
      _ ≤ x * 10 ^ p := hb
      _ < 10 ^ (e + 1) * 10 ^ p := mul_lt_mul_of_pos_right hx hp
  have hexp : (5 : Int) < e + 1 + p := (zpow_lt_zpow_iff_right₀ h10).1 hlt
  have hle : (10 : ℚ) ^ (-(p : Int)) ≤ 10 ^ (e - 5) :=
    zpow_le_zpow_right₀ h10.le (by omega)
  have e1 : 1 / 2 / (10 : ℚ) ^ p = 1 / 2 * 10 ^ (-(p : Int)) := by
    rw [zpow_neg, zpow_natCast]
    field_simp
  rw [e1]
  exact mul_le_mul_of_nonneg_left hle (by norm_num)

theorem BinOp.opKey_key (op : BinOp) : opKey op.key = some op.tok := by
  cases op <;> rfl

theorem BinOp.key_minus {op : BinOp} (h : op.key = '-') : op = BinOp.sub := by
  cases op <;> first | rfl | (revert h; decide)

theorem BinOp.tok_ne_END (op : BinOp) : op.tok ≠ TOK_END := by
  cases op <;> decide

/-- Pressing the keys of a typed formula in which no `-` follows `)` and then an operator
key has the same effect as having the value of the formula on the value stack when that
key's operator arrives. -/
theorem pressKeys_formula (B : Build) (fuel : Nat) (hfuel : MAX_STACK < fuel)
    (e : KeyFormula) :
    ∀ (v : ℚ) (t : TokenType) (os : List TokenType) (vs : List ℚ) (k : Char)
      (nx : TokenType) (m : Machine),
      e.literalsOK → e.noMinusAfterParen → e.toFormula.wellFormed →
      e.toFormula.eval = some v → topOK t e.toFormula.level → followOK nx e.toFormula.level →
      opKey k = some nx → (k = '-' → e.endsWithParen = false) →
      m.lexer.fsm_state = STATE_IDLE → m.evaluator = ⟨vs, t :: os, ERR_OK⟩ →
      m.is_calculated = false →
      (t :: os).length + e.toFormula.opNeed ≤ MAX_STACK →
      vs.length + e.toFormula.valNeed ≤ MAX_STACK →
      ∃ g : Bool → CalcState → Machine,
        (∀ b c, (g b c).lexer.fsm_state = STATE_IDLE ∧ (g b c).evaluator = c
          ∧ (g b c).is_calculated = (!b || decide (nx = TOK_END))) ∧
        ∀ (rest : List Char) (fl : Option Bool),
          pressKeys B fuel (e.keys ++ k :: rest) (m, fl) =
            match Calc_PushOp fuel nx ⟨v :: vs, t :: os, ERR_OK⟩ with
            | none => none
            | some (ok, c2) => pressKeys B fuel rest (g ok c2, some ok) := by
  have hfuel0 : 0 < fuel := by omega
  have hMS : MAX_STACK = 20 := rfl
  induction e with
  | lit a =>
      intro v t os vs k nx m hlit _ _ hv _ _ hk _ hlx hev hcalc _ hvals
      simp only [KeyFormula.toFormula, Formula.eval, Option.some.injEq, Formula.valNeed]
        at hv hvals
      subst hv
      obtain ⟨hN, hS, hV⟩ := Lexer_feed_literal a hlit m.lexer hlx
      obtain ⟨m1, e1, e2, e3, e4⟩ := pressKeys_numbers B fuel a.chars m hcalc hN
      have hS1 : m1.lexer.fsm_state ≠ STATE_IDLE := by rw [e1]; exact hS
      obtain ⟨g, hg, hpress⟩ := pressKeys_op B fuel hk m1 e3 (fun h => absurd h hS1)
      refine ⟨g, hg, fun rest fl => ?_⟩
      rw [KeyFormula.keys, e4, hpress, if_pos hS1, e1, hV, e2, hev,
        Calc_PushNum, push_val_of_lt _ _ _ _ (by omega)]
  | paren e ih =>
      intro v t os vs k nx m hlit hnm hwf hv htop _ hk hkm hlx hev hcalc hops hvals
      simp only [KeyFormula.toFormula, Formula.opNeed, Formula.valNeed, Formula.eval,
        Formula.wellFormed, KeyFormula.literalsOK, KeyFormula.noMinusAfterParen,
        KeyFormula.endsWithParen, List.length_cons] at hops hvals hv hwf hlit hnm hkm
      have hkne : k ≠ '-' := fun h => by simpa using hkm h
      obtain ⟨g0, hg0, hp0⟩ := @pressKeys_op B fuel '(' TOK_LPAREN rfl m hcalc
        (fun _ => by decide)
      obtain ⟨g1, hg1, hp1⟩ := ih v TOK_LPAREN (t :: os) vs ')' TOK_RPAREN
        (g0 true ⟨vs, TOK_LPAREN :: t :: os, ERR_OK⟩)
        hlit hnm hwf hv (Or.inl rfl) (Or.inr (Or.inr (Or.inl rfl))) rfl
        (fun h => absurd h (by decide)) (hg0 true _).1 (hg0 true _).2.1
        (by rw [(hg0 true _).2.2]; rfl)
        (by simp only [List.length_cons]; omega) hvals
      obtain ⟨g2, hg2, hp2⟩ := pressKeys_op B fuel hk (g1 true ⟨v :: vs, t :: os, ERR_OK⟩)
        (by rw [(hg1 true _).2.2]; rfl) (fun _ => hkne)
      refine ⟨g2, hg2, fun rest fl => ?_⟩
      rw [KeyFormula.keys, List.cons_append, List.append_assoc, List.singleton_append, hp0,
        if_neg (by simp [hlx]), hev,
        Calc_PushOp_shift fuel hfuel0 (topOK_paren htop) vs os
          (by simp only [List.length_cons]; omega)]
      simp only
      rw [hp1, Calc_PushOp_unparen fuel hfuel0]
      simp only
      rw [hp2, if_neg (by simp [(hg1 true _).1]), (hg1 true _).2.1]
  | bin op l r ihl ihr =>
      intro v t os vs k nx m hlit hnm hwf hv htop hnx hk hkm hlx hev hcalc hops hvals
      simp only [KeyFormula.toFormula, KeyFormula.literalsOK, KeyFormula.noMinusAfterParen,
        KeyFormula.endsWithParen] at hlit hnm hwf hv htop hnx hkm hops hvals
      obtain ⟨hwl, hwr, hll, hlr⟩ := hwf
      obtain ⟨a, b, hla, hrb, hdiv, rfl⟩ := Formula.eval_bin hv
      simp only [Formula.opNeed, Formula.valNeed, Formula.level, List.length_cons]
        at hops hvals htop hnx
      have hr1 : 1 ≤ r.toFormula.valNeed := r.toFormula.valNeed_pos
      have hm1 := le_max_left l.toFormula.opNeed (r.toFormula.opNeed + 1)
      have hm2 := le_max_right l.toFormula.opNeed (r.toFormula.opNeed + 1)
      have hm3 := le_max_left l.toFormula.valNeed (r.toFormula.valNeed + 1)
      have hm4 := le_max_right l.toFormula.valNeed (r.toFormula.valNeed + 1)
      obtain ⟨g1, hg1, hp1⟩ := ihl a t os vs op.key op.tok m hlit.1 hnm.1 hwl hla
        (topOK_mono htop hll) (followOK_tok op hll) op.opKey_key
        (fun h => hnm.2.2 (BinOp.key_minus h)) hlx hev hcalc
        (by simp only [List.length_cons]; omega) (by omega)
      obtain ⟨g2, hg2, hp2⟩ := ihr b op.tok (t :: os) (a :: vs) k nx
        (g1 true ⟨a :: vs, op.tok :: t :: os, ERR_OK⟩) hlit.2 hnm.2.1
        hwr hrb (topOK_tok op hlr) (followOK_mono hnx (by omega)) hk hkm (hg1 true _).1
        (hg1 true _).2.1 (by rw [(hg1 true _).2.2]; simp [op.tok_ne_END])
        (by simp only [List.length_cons]; omega) (by simp only [List.length_cons]; omega)
      refine ⟨g2, hg2, fun rest fl => ?_⟩
      rw [KeyFormula.keys, List.append_assoc, List.cons_append, hp1,
        Calc_PushOp_shift fuel hfuel0 (topOK_shift htop) (a :: vs) os
          (by simp only [List.length_cons]; omega)]
      simp only
      rw [hp2, Calc_PushOp_reduce fuel op.isBinary_tok (followOK_reduce hnx) a b vs (t :: os)
        hdiv (by omega) (by omega)]

/-- End to end, apart from the defect of C1: for every well-formed typed formula over unsigned
literals in which no `-` directly follows `)`, that divides by no zero and stays within the
stack capacity, pressing its keys and then `=` after a reset makes the final
`Calc_PushOp(TOK_END)` succeed with `Calc_GetResult` equal to the value of the formula. -/
theorem pressKeys_formula_result (B : Build) (e : KeyFormula) (v : ℚ) (hlit : e.literalsOK)
    (hnm : e.noMinusAfterParen) (hwf : e.toFormula.wellFormed)
    (hv : e.toFormula.eval = some v) (hops : e.toFormula.opNeed + 1 ≤ MAX_STACK)
    (hvals : e.toFormula.valNeed ≤ MAX_STACK) (fuel : Nat) (hfuel : MAX_STACK < fuel)
    (m0 : Machine) :
    ∃ m, pressKeys B fuel (e.keys ++ ['=']) (System_Reset m0, none) = some (m, some true)
      ∧ m.evaluator.sys_error = ERR_OK ∧ Calc_GetResult m.evaluator = v := by
  obtain ⟨hl, he, hc⟩ := System_Reset_fields m0
  obtain ⟨g, hg, hp⟩ := pressKeys_formula B fuel hfuel e v TOK_END [] [] '=' TOK_END
    (System_Reset m0) hlit hnm hwf hv (Or.inr (Or.inl rfl))
    (Or.inr (Or.inr (Or.inr (Or.inl rfl)))) rfl (fun h => absurd h (by decide))
    (by rw [hl]; rfl) he hc
    (by simpa [Nat.add_comm] using hops) (by simpa using hvals)
  refine ⟨g true ⟨[v], [TOK_END], ERR_OK⟩, ?_, ?_, ?_⟩
  · rw [hp, Calc_PushOp_finish fuel (by omega)]
    rfl
  · rw [(hg true _).2.1]
  · rw [(hg true _).2.1]
    rfl

/-! ## Evaluator: reset and sticky errors -/

/-- C11: from every evaluator state, after `Calc_Reset` the value stack is empty, the
operator stack is exactly END, the error is OK, and `Calc_GetResult` returns 0. -/
theorem C11_reset_state (s : CalcState) :
    (Calc_Reset s).val_stack = [] ∧ (Calc_Reset s).op_stack = [TOK_END]
      ∧ (Calc_Reset s).sys_error = ERR_OK ∧ Calc_GetResult (Calc_Reset s) = 0 := by
  have h : Calc_Reset s = ⟨[], [TOK_END], ERR_OK⟩ := by
    simp [Calc_Reset, push_op, MAX_STACK]
  rw [h]
  exact ⟨rfl, rfl, rfl, rfl⟩

/-- C12: in every state with an error, `Calc_PushOp` returns failure for every token (and any
budget) and leaves the whole state unchanged, and `Calc_PushNum` leaves the error code and the
operator stack unchanged; `Calc_GetResult` only reads. So no call other than `Calc_Reset`
changes a non-OK error. -/
theorem C12_errors_are_sticky (s : CalcState) (herr : s.sys_error ≠ ERR_OK) :
    (∀ (fuel : Nat) (op : TokenType), Calc_PushOp fuel op s = some (false, s))
      ∧ (∀ v : ℚ, (Calc_PushNum v s).sys_error = s.sys_error
          ∧ (Calc_PushNum v s).op_stack = s.op_stack) := by
  refine ⟨fun fuel op => ?_, fun v => ⟨push_val_sys_error v s, push_val_op_stack v s⟩⟩
  rw [Calc_PushOp, if_pos herr]

/-- The witness of C12: after `5/0=` has failed, a further number and a further operator leave
the error at `ERR_DIV0`. -/
theorem C12_witness :
    (∀ (fuel : Nat) (op : TokenType),
        Calc_PushOp fuel op ⟨[0], [TOK_END], ERR_DIV0⟩ = some (false, ⟨[0], [TOK_END], ERR_DIV0⟩))
      ∧ (∀ v : ℚ, (Calc_PushNum v ⟨[0], [TOK_END], ERR_DIV0⟩).sys_error = ERR_DIV0
          ∧ (Calc_PushNum v ⟨[0], [TOK_END], ERR_DIV0⟩).op_stack = [TOK_END]) :=
  C12_errors_are_sticky ⟨[0], [TOK_END], ERR_DIV0⟩ (by decide)

/-! ## Lexer: the alphabet -/

theorem isdigit_iff_mem (c : Char) :
    isdigit c = true ↔ c ∈ ['0', '1', '2', '3', '4', '5', '6', '7', '8', '9'] := by
  constructor
  · intro h
    obtain ⟨h1, h2⟩ := (isdigit_iff c).1 h
    have hc : c = Char.ofNat c.toNat := (Char.ofNat_toNat c).symm
    generalize c.toNat = n at h1 h2 hc
    subst hc
    interval_cases n <;> decide
  · intro h
    simp only [List.mem_cons, List.mem_singleton, List.not_mem_nil, or_false] at h
    rcases h with rfl | rfl | rfl | rfl | rfl | rfl | rfl | rfl | rfl | rfl <;> rfl

theorem GetEventType_other_iff (c : Char) :
    GetEventType c = EVT_OTHER ↔ c ∉ inputAlphabet := by
  constructor
  · intro h hmem
    simp only [inputAlphabet, List.mem_cons, List.mem_singleton, List.not_mem_nil,
      or_false] at hmem
    rcases hmem with rfl | rfl | rfl | rfl | rfl | rfl | rfl | rfl | rfl | rfl | rfl | rfl
      | rfl | rfl | rfl | rfl | rfl | rfl <;> exact absurd h (by decide)
  · intro h
    simp only [inputAlphabet, List.mem_cons, List.mem_singleton, List.not_mem_nil, or_false,
      not_or] at h
    obtain ⟨h0, h1, h2, h3, h4, h5, h6, h7, h8, h9, ha, hb, hc, hd, he, hf, hg, hh⟩ := h
    have hdig : ¬ (isdigit c = true) := by
      intro hx
      have hm := (isdigit_iff_mem c).1 hx
      simp only [List.mem_cons, List.mem_singleton, List.not_mem_nil, or_false] at hm
      tauto
    unfold GetEventType
    rw [if_neg hdig, if_neg ha, if_neg hb, if_neg hc, if_neg hd, if_neg he, if_neg hf,
      if_neg hg, if_neg hh]

theorem FSM_lookup_isSome (st : InputState) (evt : EventType) :
    (FSM_lookup st evt).isSome = true ↔ evt ≠ EVT_OTHER := by
  cases st <;> cases evt <;> decide

theorem ProcessChar_error_iff (c : Char) (L : Lexer) :
    (Lexer_ProcessChar c L).1 = TOK_ERROR ↔ GetEventType c = EVT_OTHER := by
  obtain ⟨cv, fs, sg, st⟩ := L
  unfold Lexer_ProcessChar
  generalize GetEventType c = evt
  cases st <;> cases evt <;>
    simp [FSM_lookup, FSM_Table, Act_InitNum, Act_SetSign, Act_InitDot, Act_AddInt, Act_ToDot,
      Act_AddFrac, Act_Ignore, Act_OpAdd, Act_OpSub, Act_OpMul, Act_OpDiv, Act_OpLPa,
      Act_OpRPa, Act_OpEnd, Act_Error]

theorem ProcessChar_other (c : Char) (L : Lexer) (h : GetEventType c = EVT_OTHER) :
    Lexer_ProcessChar c L = (TOK_ERROR, L) := by
  obtain ⟨cv, fs, sg, st⟩ := L
  unfold Lexer_ProcessChar
  rw [h]
  cases st <;> simp [FSM_lookup, FSM_Table, Act_Error]

/-- C13: in every lexer state, `Lexer_ProcessChar c` returns `TOK_ERROR` exactly when `c` is
outside the alphabet of digits, `.`, `-`, `+`, `*`, `/`, `(`, `)`, `=`; then the state and
the accumulator are unchanged; and the transition table has a row for every state and every
event other than `EVT_OTHER`, and none for `EVT_OTHER`. -/
theorem C13_error_token_iff_outside_alphabet (c : Char) (L : Lexer) :
    ((Lexer_ProcessChar c L).1 = TOK_ERROR ↔ c ∉ inputAlphabet)
      ∧ ((Lexer_ProcessChar c L).1 = TOK_ERROR → (Lexer_ProcessChar c L).2 = L)
      ∧ (∀ (st : InputState) (evt : EventType),
          (FSM_lookup st evt).isSome = true ↔ evt ≠ EVT_OTHER) := by
  refine ⟨?_, fun h => ?_, FSM_lookup_isSome⟩
  · rw [ProcessChar_error_iff, GetEventType_other_iff]
  · rw [ProcessChar_other c L ((ProcessChar_error_iff c L).1 h)]

/-- The witness of C13: the character `a` is outside the alphabet, so it returns `TOK_ERROR`
and leaves the lexer as it was, here in the middle of the literal `12.`. -/
theorem C13_witness :
    (Lexer_ProcessChar 'a' ⟨12, 1 / 10, 1, STATE_DOT⟩).1 = TOK_ERROR
      ∧ (Lexer_ProcessChar 'a' ⟨12, 1 / 10, 1, STATE_DOT⟩).2 = ⟨12, 1 / 10, 1, STATE_DOT⟩ := by
  have h := C13_error_token_iff_outside_alphabet 'a' ⟨12, 1 / 10, 1, STATE_DOT⟩
  have h1 := h.1.2 (by decide)
  exact ⟨h1, h.2.1 h1⟩

/-! ## Lexer: operator characters end a literal -/

/-- C14: for an operator or END character `c` (with token `tok` by `opKey`: `+` ADD, `-` SUB,
`*` MUL, `/` DIV, `(` LPAREN, `)` RPAREN, `=` END), in a state INT, DOT or FRAC, or in state
IDLE when `c` is not `-`: `Lexer_ProcessChar c` returns `tok`, the state afterwards is IDLE
and `Lexer_GetCurrentVal` is the same as before the call; and `-` yields `TOK_SUB` exactly
when the state was not IDLE. -/
theorem C14_operator_ends_literal (c : Char) (tok : TokenType) (L : Lexer)
    (hc : opKey c = some tok) (hst : L.fsm_state ≠ STATE_IDLE ∨ c ≠ '-') :
    (Lexer_ProcessChar c L).1 = tok
      ∧ Lexer_GetState (Lexer_ProcessChar c L).2 = STATE_IDLE
      ∧ Lexer_GetCurrentVal (Lexer_ProcessChar c L).2 = Lexer_GetCurrentVal L
      ∧ ((Lexer_ProcessChar '-' L).1 = TOK_SUB ↔ L.fsm_state ≠ STATE_IDLE) := by
  have hminus : (Lexer_ProcessChar '-' L).1 = TOK_SUB ↔ L.fsm_state ≠ STATE_IDLE := by
    constructor
    · intro h hs
      rw [ProcessChar_minus_IDLE L hs] at h
      cases h
    · intro hs
      rw [@ProcessChar_op_busy '-' TOK_SUB rfl L hs]
  by_cases hs : L.fsm_state = STATE_IDLE
  · have hk : c ≠ '-' := hst.resolve_left (fun h => h hs)
    rw [ProcessChar_op_idle hc hk L hs]
    exact ⟨rfl, hs, rfl, hminus⟩
  · rw [ProcessChar_op_busy hc L hs]
    exact ⟨rfl, rfl, rfl, hminus⟩

/-- The witness of C14: `-` after the literal `12.5` is the subtraction token, and the value
12.5 can still be read. -/
theorem C14_witness :
    (Lexer_ProcessChar '-' ⟨12 + 1 / 2, 1 / 100, 1, STATE_FRAC⟩).1 = TOK_SUB
      ∧ Lexer_GetState (Lexer_ProcessChar '-' ⟨12 + 1 / 2, 1 / 100, 1, STATE_FRAC⟩).2
          = STATE_IDLE
      ∧ Lexer_GetCurrentVal (Lexer_ProcessChar '-' ⟨12 + 1 / 2, 1 / 100, 1, STATE_FRAC⟩).2
          = Lexer_GetCurrentVal ⟨12 + 1 / 2, 1 / 100, 1, STATE_FRAC⟩
      ∧ ((Lexer_ProcessChar '-' ⟨12 + 1 / 2, 1 / 100, 1, STATE_FRAC⟩).1 = TOK_SUB
          ↔ (⟨12 + 1 / 2, 1 / 100, 1, STATE_FRAC⟩ : Lexer).fsm_state ≠ STATE_IDLE) :=
  C14_operator_ends_literal '-' TOK_SUB ⟨12 + 1 / 2, 1 / 100, 1, STATE_FRAC⟩ rfl
    (Or.inl (by decide))

/-! ## Evaluator: pushes onto a full stack -/

theorem push_op_full (t : TokenType) (s : CalcState) (h : s.op_stack.length = MAX_STACK) :
    push_op t s = s := by
  unfold push_op
  rw [if_neg (by omega)]

theorem push_val_full (v : ℚ) (s : CalcState) (h : s.val_stack.length = MAX_STACK) :
    push_val v s = s := by
  unfold push_val
  rw [if_neg (by omega)]

/-- A pass of the loop that shifts while the operator stack is full returns success and
leaves the state as it is. -/
theorem Calc_PushOp_shift_full (fuel k : Nat) (op : TokenType) (s sk : CalcState)
    (hok : s.sys_error = ERR_OK) (hpass : Calc_PushOp_pass k op s = some sk) (hk : k < fuel)
    (hfull : sk.op_stack.length = MAX_STACK) (hrel : relationOf (peek_op sk) op = some 'L') :
    Calc_PushOp_body op sk = LoopStep.ret true sk
      ∧ Calc_PushOp fuel op s = some (true, sk) ∧ sk.sys_error = ERR_OK := by
  obtain ⟨vs, os, e⟩ := sk
  cases os with
  | nil => simp [MAX_STACK] at hfull
  | cons t os =>
    have hrel1 : relationOf t op = some 'L' := hrel
    have hb : Calc_PushOp_body op ⟨vs, t :: os, e⟩ = LoopStep.ret true ⟨vs, t :: os, e⟩ := by
      rw [Calc_PushOp_body_shift vs os e hrel1, push_op_full op _ hfull]
    refine ⟨hb, ?_, Calc_PushOp_pass_error k op s _ hpass hok⟩
    obtain ⟨n, rfl⟩ : ∃ n, fuel = k + (n + 1) := ⟨fuel - k - 1, by omega⟩
    unfold Calc_PushOp
    rw [if_neg (by simp [hok]), Calc_PushOp_loop_of_pass k (n + 1) op s _ hpass,
      Calc_PushOp_loop_of_ret hb n]

/-- C15: a push onto a full stack is dropped. With fewer than 20 values `Calc_PushNum v` puts
`v` on top of the value stack, with 20 values it changes nothing, and in both cases the
operator stack and the error code are unchanged. When a pass of the loop of `Calc_PushOp`
decides to shift (relation `L`) while the operator stack holds 20 entries, that pass returns
success with the state unchanged: the operator is discarded, both stacks are as they were
and the error code is `ERR_OK`. -/
theorem C15_push_on_full_stack_dropped (v : ℚ) (s : CalcState) :
    (s.val_stack.length < 20 → Calc_PushNum v s = { s with val_stack := v :: s.val_stack })
      ∧ (s.val_stack.length = 20 → Calc_PushNum v s = s)
      ∧ (Calc_PushNum v s).op_stack = s.op_stack
      ∧ (Calc_PushNum v s).sys_error = s.sys_error
      ∧ (∀ (fuel k : Nat) (op : TokenType) (sk : CalcState),
          s.sys_error = ERR_OK → Calc_PushOp_pass k op s = some sk → k < fuel →
          sk.op_stack.length = 20 → relationOf (peek_op sk) op = some 'L' →
          Calc_PushOp_body op sk = LoopStep.ret true sk
            ∧ Calc_PushOp fuel op s = some (true, sk) ∧ sk.sys_error = ERR_OK) := by
  refine ⟨fun h => ?_, fun h => push_val_full v s h, push_val_op_stack v s,
    push_val_sys_error v s, ?_⟩
  · unfold Calc_PushNum push_val
    rw [if_pos (by simpa [MAX_STACK] using h)]
  · intro fuel k op sk hok hpass hk hfull hrel
    exact Calc_PushOp_shift_full fuel k op s sk hok hpass hk hfull hrel

/-- The witness of C15: a twentieth value is stored and a twenty-first is dropped; after
nineteen open parentheses the operator stack is full, and a twentieth open parenthesis is
discarded with success. -/
theorem C15_witness :
    Calc_PushNum 7 ⟨List.replicate 19 1, [TOK_END], ERR_OK⟩
        = ⟨7 :: List.replicate 19 1, [TOK_END], ERR_OK⟩
      ∧ Calc_PushNum 7 ⟨List.replicate 20 1, [TOK_END], ERR_OK⟩
        = ⟨List.replicate 20 1, [TOK_END], ERR_OK⟩
      ∧ Calc_PushOp 1 TOK_LPAREN ⟨[], List.replicate 19 TOK_LPAREN ++ [TOK_END], ERR_OK⟩
        = some (true, ⟨[], List.replicate 19 TOK_LPAREN ++ [TOK_END], ERR_OK⟩) :=
  ⟨(C15_push_on_full_stack_dropped 7 ⟨List.replicate 19 1, [TOK_END], ERR_OK⟩).1
      (by simp),
    (C15_push_on_full_stack_dropped 7 ⟨List.replicate 20 1, [TOK_END], ERR_OK⟩).2.1
      (by simp),
    ((C15_push_on_full_stack_dropped 7
        ⟨[], List.replicate 19 TOK_LPAREN ++ [TOK_END], ERR_OK⟩).2.2.2.2 1 0 TOK_LPAREN
        ⟨[], List.replicate 19 TOK_LPAREN ++ [TOK_END], ERR_OK⟩ rfl rfl (by decide)
        (by simp) (by decide)).2.1⟩

/-! ## Evaluator: the operator-stack invariant -/

theorem isBinary_cases {t : TokenType} (h : isBinary t = true) :
    t = TOK_ADD ∨ t = TOK_SUB ∨ t = TOK_MUL ∨ t = TOK_DIV := by
  cases t <;> simp_all [isBinary]

/-- C16: in every state reachable from `Calc_Reset` by calls of `Calc_PushNum` and of
`Calc_PushOp` with operator tokens, the operator stack is non-empty, its bottom entry is
`TOK_END`, and every entry above the bottom is ADD, SUB, MUL, DIV or LPAREN: `TOK_END` is
nowhere else on the stack and `TOK_RPAREN` is never on it. -/
theorem C16_operator_stack_invariant (s : CalcState) (h : Reachable s) :
    s.op_stack ≠ []
      ∧ s.op_stack.getLast? = some TOK_END
      ∧ TOK_RPAREN ∉ s.op_stack
      ∧ ∃ pre : List TokenType, s.op_stack = pre ++ [TOK_END]
          ∧ TOK_END ∉ pre
          ∧ ∀ t ∈ pre, t = TOK_ADD ∨ t = TOK_SUB ∨ t = TOK_MUL ∨ t = TOK_DIV
              ∨ t = TOK_LPAREN := by
  obtain ⟨pre, hpre, hall⟩ := Reachable_opStackShape h
  have hall1 : ∀ t ∈ pre, t = TOK_ADD ∨ t = TOK_SUB ∨ t = TOK_MUL ∨ t = TOK_DIV
      ∨ t = TOK_LPAREN := by
    intro t ht
    rcases hall t ht with hb | hl
    · rcases isBinary_cases hb with h1 | h1 | h1 | h1 <;> simp [h1]
    · simp [hl]
  refine ⟨?_, ?_, ?_, pre, hpre, ?_, hall1⟩
  · rw [hpre]; simp
  · rw [hpre]; simp
  · rw [hpre]
    intro hmem
    rcases List.mem_append.1 hmem with hm | hm
    · rcases hall1 _ hm with h1 | h1 | h1 | h1 | h1 <;> cases h1
    · simp at hm
  · intro hm
    rcases hall1 _ hm with h1 | h1 | h1 | h1 | h1 <;> cases h1

/-- The witness of C16: the state after `((1+2)*3`, with operators `*`, `(`, END. -/
theorem C16_witness :
    (⟨[3, 3], [TOK_MUL, TOK_LPAREN, TOK_END], ERR_OK⟩ : CalcState).op_stack ≠ []
      ∧ (⟨[3, 3], [TOK_MUL, TOK_LPAREN, TOK_END], ERR_OK⟩ : CalcState).op_stack.getLast?
          = some TOK_END
      ∧ TOK_RPAREN ∉ (⟨[3, 3], [TOK_MUL, TOK_LPAREN, TOK_END], ERR_OK⟩ : CalcState).op_stack
      ∧ ∃ pre : List TokenType,
          (⟨[3, 3], [TOK_MUL, TOK_LPAREN, TOK_END], ERR_OK⟩ : CalcState).op_stack
              = pre ++ [TOK_END]
          ∧ TOK_END ∉ pre
          ∧ ∀ t ∈ pre, t = TOK_ADD ∨ t = TOK_SUB ∨ t = TOK_MUL ∨ t = TOK_DIV
              ∨ t = TOK_LPAREN :=
  C16_operator_stack_invariant _ Reachable_two_open_parens

/-! ## Evaluator: stack sizes -/

theorem push_val_length (v : ℚ) (s : CalcState) :
    (push_val v s).val_stack.length ≤ s.val_stack.length + 1
      ∧ (s.val_stack.length ≤ MAX_STACK → (push_val v s).val_stack.length ≤ MAX_STACK) := by
  unfold push_val
  split
  · exact ⟨by simp, fun _ => by simp only [List.length_cons]; omega⟩
  · exact ⟨by omega, fun h => h⟩

theorem push_op_length (t : TokenType) (s : CalcState) :
    (push_op t s).op_stack.length ≤ s.op_stack.length + 1
      ∧ (s.op_stack.length ≤ MAX_STACK → (push_op t s).op_stack.length ≤ MAX_STACK) := by
  unfold push_op
  split
  · exact ⟨by simp, fun _ => by simp only [List.length_cons]; omega⟩
  · exact ⟨by omega, fun h => h⟩

/-- Function `do_calculation` never makes a stack longer. -/
theorem do_calculation_lengths (s : CalcState) :
    (do_calculation s).val_stack.length ≤ s.val_stack.length
      ∧ (do_calculation s).op_stack.length ≤ s.op_stack.length := by
  obtain ⟨vs, os, e⟩ := s
  match vs with
  | [] => simp [do_calculation]
  | [_] => simp [do_calculation]
  | b :: a :: vs1 =>
      have hlen : ¬ (vs1.length + 1 + 1 < 2) := by omega
      have key : ∀ (v : ℚ) (os1 : List TokenType) (e1 : ErrCode), os1.length ≤ os.length →
          (push_val v ⟨vs1, os1, e1⟩).val_stack.length ≤ (b :: a :: vs1).length
            ∧ (push_val v ⟨vs1, os1, e1⟩).op_stack.length ≤ os.length := by
        intro v os1 e1 h
        have h1 := (push_val_length v ⟨vs1, os1, e1⟩).1
        rw [push_val_op_stack]
        simp only [List.length_cons] at h1 ⊢
        exact ⟨by omega, h⟩
      cases os with
      | nil =>
          simp only [do_calculation, pop_val, pop_op, List.length_cons, if_neg hlen]
          exact key _ _ _ (le_refl _)
      | cons t os1 =>
          cases t <;> simp only [do_calculation, pop_val, pop_op, List.length_cons, if_neg hlen]
            <;> (try split) <;> exact key _ _ _ (by simp)

/-- A reduction that leaves the error code OK pops one operator. -/
theorem do_calculation_pops_op (vs : List ℚ) (t : TokenType) (os : List TokenType)
    (e : ErrCode) (h : (do_calculation ⟨vs, t :: os, e⟩).sys_error = ERR_OK) :
    (do_calculation ⟨vs, t :: os, e⟩).op_stack = os := by
  match vs, h with
  | [], h => simp [do_calculation] at h
  | [_], h => simp [do_calculation] at h
  | b :: a :: vs1, _ =>
      have hlen : ¬ (vs1.length + 1 + 1 < 2) := by omega
      cases t <;> simp only [do_calculation, pop_val, pop_op, List.length_cons, if_neg hlen]
        <;> (try split) <;> simp only [push_val_op_stack]

/-- One pass of the loop keeps both stacks within their arrays. -/
theorem Calc_PushOp_body_bounds (op : TokenType) (s : CalcState)
    (hv : s.val_stack.length ≤ MAX_STACK) (ho : s.op_stack.length ≤ MAX_STACK)
    (r : Bool) (s1 : CalcState)
    (h : Calc_PushOp_body op s = LoopStep.ret r s1 ∨ Calc_PushOp_body op s = LoopStep.again s1) :
    s1.val_stack.length ≤ MAX_STACK ∧ s1.op_stack.length ≤ MAX_STACK := by
  have hd := do_calculation_lengths s
  have hpo : (pop_op s).2.val_stack = s.val_stack
      ∧ (pop_op s).2.op_stack.length ≤ s.op_stack.length := by
    unfold pop_op
    split
    · next t rest heq => simp [heq]
    · simp
  unfold Calc_PushOp_body at h
  simp only at h
  split at h
  · rcases h with h | h <;> cases h
  · split_ifs at h <;> rcases h with h | h <;>
      simp only [LoopStep.ret.injEq, LoopStep.again.injEq, reduceCtorEq] at h
    · rw [← h.2, push_op_val_stack]
      exact ⟨hv, (push_op_length op s).2 ho⟩
    · rw [← h.2]
      exact ⟨by omega, by omega⟩
    · rw [← h]
      exact ⟨by omega, by omega⟩
    · rw [← h.2, hpo.1]
      exact ⟨hv, by omega⟩
    · rw [← h.2]
      exact ⟨hv, ho⟩
    · rw [← h]
      exact ⟨hv, ho⟩
    · rw [← h.2]
      exact ⟨hv, ho⟩

theorem Calc_PushOp_loop_bounds (fuel : Nat) (op : TokenType) (s : CalcState)
    (hv : s.val_stack.length ≤ MAX_STACK) (ho : s.op_stack.length ≤ MAX_STACK)
    (r : Bool) (s1 : CalcState) (h : Calc_PushOp_loop fuel op s = some (r, s1)) :
    s1.val_stack.length ≤ MAX_STACK ∧ s1.op_stack.length ≤ MAX_STACK := by
  induction fuel generalizing s with
  | zero => simp [Calc_PushOp_loop] at h
  | succ n ih =>
      rw [Calc_PushOp_loop] at h
      split at h
      · next r1 s2 heq =>
          simp only [Option.some.injEq, Prod.mk.injEq] at h
          obtain ⟨rfl, rfl⟩ := h
          exact Calc_PushOp_body_bounds op s hv ho r1 s2 (Or.inl heq)
      · next s2 heq =>
          have hb := Calc_PushOp_body_bounds op s hv ho true s2 (Or.inr heq)
          exact ih s2 hb.1 hb.2 h
      · cases h

theorem Calc_PushOp_pass_bounds (k : Nat) (op : TokenType) (s sk : CalcState)
    (hv : s.val_stack.length ≤ MAX_STACK) (ho : s.op_stack.length ≤ MAX_STACK)
    (h : Calc_PushOp_pass k op s = some sk) :
    sk.val_stack.length ≤ MAX_STACK ∧ sk.op_stack.length ≤ MAX_STACK := by
  induction k generalizing s with
  | zero =>
      simp only [Calc_PushOp_pass, Option.some.injEq] at h
      subst h
      exact ⟨hv, ho⟩
  | succ n ih =>
      rw [Calc_PushOp_pass] at h
      split at h
      · next s2 heq =>
          have hb := Calc_PushOp_body_bounds op s hv ho true s2 (Or.inr heq)
          exact ih s2 hb.1 hb.2 h
      · cases h

/-- Every reachable state keeps both stacks within their arrays of `MAX_STACK` entries. -/
theorem Reachable_bounds {s : CalcState} (h : Reachable s) :
    s.val_stack.length ≤ MAX_STACK ∧ s.op_stack.length ≤ MAX_STACK := by
  induction h with
  | reset s0 => simp [Calc_Reset, push_op, MAX_STACK]
  | pushNum v s _ ih =>
      rw [Calc_PushNum, push_val_op_stack]
      exact ⟨(push_val_length v s).2 ih.1, ih.2⟩
  | pushOp fuel op s r s1 _ hop hpush ih =>
      rw [Calc_PushOp] at hpush
      split at hpush
      · simp only [Option.some.injEq, Prod.mk.injEq] at hpush
        rw [← hpush.2]
        exact ih
      · exact Calc_PushOp_loop_bounds fuel op s ih.1 ih.2 r s1 hpush

/-! ## Evaluator: termination of the loop of `Calc_PushOp` -/

theorem opStackShape_top_operator {t : TokenType} {os : List TokenType}
    (h : opStackShape (t :: os)) : isOperatorToken t = true := by
  rcases opStackShape_head h with h1 | h1 | h1
  · revert h1; cases t <;> simp [isBinary, isOperatorToken]
  · subst h1; rfl
  · subst h1; rfl

/-- The relation `E` stands in the table only for an open parenthesis met by a closing one and
for END met by END. -/
theorem relationOf_E {t op : TokenType} (h : relationOf t op = some 'E') :
    (t = TOK_LPAREN ∧ op = TOK_RPAREN) ∨ (t = TOK_END ∧ op = TOK_END) := by
  revert h
  cases t <;> cases op <;> decide

/-- A pass whose relation is `E` returns success: it never falls through to the next pass. -/
theorem Calc_PushOp_body_E (op : TokenType) (s : CalcState)
    (h : relationOf (peek_op s) op = some 'E') :
    Calc_PushOp_body op s
      = LoopStep.ret true (if peek_op s = TOK_LPAREN then (pop_op s).2 else s) := by
  have hc := relationOf_E h
  unfold relationOf at h
  unfold Calc_PushOp_body
  simp only [h]
  rcases hc with ⟨h1, _⟩ | ⟨h1, h2⟩
  · rw [if_neg (by decide), if_neg (by decide), if_pos trivial, if_pos h1, if_pos h1]
  · have h3 : ¬ (peek_op s = TOK_LPAREN) := by rw [h1]; decide
    rw [if_neg (by decide), if_neg (by decide), if_pos trivial, if_neg h3, if_pos ⟨h1, h2⟩,
      if_neg h3]

/-- A pass that goes on to the next pass is a reduction, and it pops one operator. -/
theorem Calc_PushOp_body_again (op : TokenType) (hop : isOperatorToken op = true)
    (s : CalcState) (hs : opStackShape s.op_stack) (s1 : CalcState)
    (h : Calc_PushOp_body op s = LoopStep.again s1) :
    relationOf (peek_op s) op = some 'G' ∧ s1 = do_calculation s
      ∧ s1.op_stack.length + 1 = s.op_stack.length ∧ opStackShape s1.op_stack := by
  have hshape := Calc_PushOp_body_shape op hop s hs
  rw [h] at hshape
  obtain ⟨vs, os, e⟩ := s
  simp only at hs
  obtain ⟨t, os, rfl⟩ := List.exists_cons_of_ne_nil (opStackShape_ne_nil hs)
  have ht := opStackShape_top_operator hs
  rcases relationOf_cases t op ht hop with ⟨h1, _⟩ | ⟨h1, _⟩ | h1 | ⟨rfl, rfl⟩ | ⟨rfl, rfl⟩
  · rw [Calc_PushOp_body_shift vs os e h1] at h
    cases h
  · rw [Calc_PushOp_body_reduce vs os e h1] at h
    split_ifs at h with herr
    simp only [LoopStep.again.injEq] at h
    have hok : (do_calculation ⟨vs, t :: os, e⟩).sys_error = ERR_OK := by
      simpa using herr
    refine ⟨h1, h.symm, ?_, hshape⟩
    rw [← h, do_calculation_pops_op vs t os e hok]
    rfl
  · rw [Calc_PushOp_body_reject vs os e h1] at h
    cases h
  · rw [Calc_PushOp_body_unparen] at h
    cases h
  · rw [Calc_PushOp_body_finish] at h
    cases h

/-- The passes of the loop: pass `k` starts with `k` operators fewer on the stack. -/
theorem Calc_PushOp_pass_length (k : Nat) (op : TokenType) (hop : isOperatorToken op = true)
    (s sk : CalcState) (hs : opStackShape s.op_stack)
    (h : Calc_PushOp_pass k op s = some sk) :
    k + sk.op_stack.length = s.op_stack.length ∧ opStackShape sk.op_stack := by
  induction k generalizing s with
  | zero =>
      simp only [Calc_PushOp_pass, Option.some.injEq] at h
      subst h
      exact ⟨by omega, hs⟩
  | succ n ih =>
      rw [Calc_PushOp_pass] at h
      split at h
      · next s2 heq =>
          obtain ⟨-, -, hlen, hs2⟩ := Calc_PushOp_body_again op hop s hs s2 heq
          obtain ⟨h1, h2⟩ := ih s2 hs2 h
          exact ⟨by omega, h2⟩
      · cases h

theorem opStackShape_length_pos {os : List TokenType} (h : opStackShape os) : 0 < os.length :=
  List.length_pos.2 (opStackShape_ne_nil h)

/-- The loop returns in some pass `k` below the length of the operator stack. -/
theorem Calc_PushOp_loop_returns (op : TokenType) (hop : isOperatorToken op = true)
    (s : CalcState) (hs : opStackShape s.op_stack) :
    ∃ (k : Nat) (sk : CalcState) (r : Bool) (s1 : CalcState),
      k < s.op_stack.length ∧ Calc_PushOp_pass k op s = some sk
        ∧ Calc_PushOp_body op sk = LoopStep.ret r s1
        ∧ ∀ fuel : Nat, k < fuel → Calc_PushOp_loop fuel op s = some (r, s1) := by
  generalize hn : s.op_stack.length = n
  induction n generalizing s with
  | zero => exact absurd hn (by have := opStackShape_length_pos hs; omega)
  | succ n ih =>
      cases hb : Calc_PushOp_body op s with
      | ret r s1 =>
          refine ⟨0, s, r, s1, by omega, rfl, hb, ?_⟩
          intro fuel hf
          obtain ⟨m, rfl⟩ : ∃ m, fuel = m + 1 := ⟨fuel - 1, by omega⟩
          exact Calc_PushOp_loop_of_ret hb m
      | again s2 =>
          obtain ⟨-, -, hlen, hs2⟩ := Calc_PushOp_body_again op hop s hs s2 hb
          obtain ⟨k, sk, r, s1, hk, hp, hbk, hloop⟩ := ih s2 hs2 (by omega)
          refine ⟨k + 1, sk, r, s1, by omega, ?_, hbk, ?_⟩
          · rw [Calc_PushOp_pass_succ_of_again hb]
            exact hp
          · intro fuel hf
            obtain ⟨m, rfl⟩ : ∃ m, fuel = m + 1 := ⟨fuel - 1, by omega⟩
            rw [Calc_PushOp_loop_of_again hb]
            exact hloop m (by omega)
      | outOfBounds =>
          have hshape := Calc_PushOp_body_shape op hop s hs
          rw [hb] at hshape
          exact hshape.elim

/-- C17: in every state reachable from `Calc_Reset` and for every operator token, the loop of
`Calc_PushOp` returns in a pass `k` below the length of the operator stack, so with at least
that much fuel `Calc_PushOp` gives a result; every pass that goes on to the next one is a
reduction (relation `G`), hence at most (operator-stack length) reductions are made; and a
pass with relation `E` occurs only for an open parenthesis met by a closing one and for END
met by END, and it returns success instead of falling through. -/
theorem C17_push_operator_terminates (s : CalcState) (hr : Reachable s) (op : TokenType)
    (hop : isOperatorToken op = true) :
    (∀ fuel : Nat, s.op_stack.length ≤ fuel → ∃ r s1, Calc_PushOp fuel op s = some (r, s1))
      ∧ (∃ (k : Nat) (sk : CalcState) (r : Bool) (s1 : CalcState),
          k < s.op_stack.length ∧ Calc_PushOp_pass k op s = some sk
            ∧ Calc_PushOp_body op sk = LoopStep.ret r s1
            ∧ ∀ fuel : Nat, k < fuel → Calc_PushOp_loop fuel op s = some (r, s1))
      ∧ (∀ (k : Nat) (sk : CalcState), Calc_PushOp_pass k op s = some sk →
          k < s.op_stack.length
            ∧ (∀ s1, Calc_PushOp_body op sk = LoopStep.again s1 →
                relationOf (peek_op sk) op = some 'G' ∧ s1 = do_calculation sk)
            ∧ (relationOf (peek_op sk) op = some 'E' →
                ((peek_op sk = TOK_LPAREN ∧ op = TOK_RPAREN)
                    ∨ (peek_op sk = TOK_END ∧ op = TOK_END))
                  ∧ ∃ s1, Calc_PushOp_body op sk = LoopStep.ret true s1)) := by
  have hs := Reachable_opStackShape hr
  obtain ⟨k, sk, r, s1, hk, hp, hb, hloop⟩ := Calc_PushOp_loop_returns op hop s hs
  refine ⟨?_, ⟨k, sk, r, s1, hk, hp, hb, hloop⟩, ?_⟩
  · intro fuel hf
    unfold Calc_PushOp
    split
    · exact ⟨false, s, rfl⟩
    · exact ⟨r, s1, hloop fuel (by omega)⟩
  · intro k1 sk1 hp1
    obtain ⟨hlen, hsk⟩ := Calc_PushOp_pass_length k1 op hop s sk1 hs hp1
    have hpos := opStackShape_length_pos hsk
    refine ⟨by omega, ?_, ?_⟩
    · intro s2 h2
      obtain ⟨h3, h4, -, -⟩ := Calc_PushOp_body_again op hop sk1 hsk s2 h2
      exact ⟨h3, h4⟩
    · intro hE
      exact ⟨relationOf_E hE, _, Calc_PushOp_body_E op sk1 hE⟩

/-- The witness of C17: from the state after `((1+2)*3`, with three entries on the operator
stack, `Calc_PushOp(TOK_RPAREN)` returns with fuel 3. -/
theorem C17_witness :
    ∃ r s1, Calc_PushOp 3 TOK_RPAREN ⟨[3, 3], [TOK_MUL, TOK_LPAREN, TOK_END], ERR_OK⟩
      = some (r, s1) :=
  (C17_push_operator_terminates ⟨[3, 3], [TOK_MUL, TOK_LPAREN, TOK_END], ERR_OK⟩
    Reachable_two_open_parens TOK_RPAREN rfl).1 3 (by decide)

/-! ## Evaluator: array accesses -/

theorem get_idx_operator {t : TokenType} (h : isOperatorToken t = true) : get_idx t < 5 := by
  revert h
  cases t <;> decide

theorem PriorityTable_at_isSome (row col : Nat) (hr : row < 5) (hc : col < 5) :
    (PriorityTable_at row col).isSome = true := by
  interval_cases row <;> interval_cases col <;> decide

theorem peek_op_operator (s : CalcState) (hs : opStackShape s.op_stack) :
    isOperatorToken (peek_op s) = true := by
  obtain ⟨vs, os, e⟩ := s
  simp only at hs
  obtain ⟨t, os, rfl⟩ := List.exists_cons_of_ne_nil (opStackShape_ne_nil hs)
  exact opStackShape_top_operator hs

/-- C18: in every state reachable from `Calc_Reset` both stacks hold at most 20 entries, and
in every pass of the loop of `Calc_PushOp` with an operator token the lookup in
`PriorityTable` has row and column below 5 (so the entry exists and `get_idx` gives its
default 5 for neither of them), and the stacks still hold at most 20 entries at the start of
the pass and after a reduction made in it. -/
theorem C18_array_accesses_in_bounds (s : CalcState) (hr : Reachable s) :
    s.val_stack.length ≤ 20 ∧ s.op_stack.length ≤ 20
      ∧ ∀ (op : TokenType), isOperatorToken op = true →
          get_idx op < 5
            ∧ ∀ (k : Nat) (sk : CalcState), Calc_PushOp_pass k op s = some sk →
                get_idx (peek_op sk) < 5
                  ∧ (PriorityTable_at (get_idx (peek_op sk)) (get_idx op)).isSome = true
                  ∧ Calc_PushOp_body op sk ≠ LoopStep.outOfBounds
                  ∧ sk.val_stack.length ≤ 20 ∧ sk.op_stack.length ≤ 20
                  ∧ (do_calculation sk).val_stack.length ≤ 20
                  ∧ (do_calculation sk).op_stack.length ≤ 20 := by
  have hb := Reachable_bounds hr
  have hs := Reachable_opStackShape hr
  refine ⟨hb.1, hb.2, ?_⟩
  intro op hop
  refine ⟨get_idx_operator hop, ?_⟩
  intro k sk hp
  have hbk := Calc_PushOp_pass_bounds k op s sk hb.1 hb.2 hp
  have hsk := (Calc_PushOp_pass_length k op hop s sk hs hp).2
  have hd := do_calculation_lengths sk
  have hrow := get_idx_operator (peek_op_operator sk hsk)
  have hshape := Calc_PushOp_body_shape op hop sk hsk
  refine ⟨hrow, PriorityTable_at_isSome _ _ hrow (get_idx_operator hop), ?_, hbk.1, hbk.2, ?_, ?_⟩
  · intro h
    rw [h] at hshape
    exact hshape
  · exact le_trans hd.1 hbk.1
  · exact le_trans hd.2 hbk.2

/-- The witness of C18: the state after `((1+2)*3` and a closing parenthesis arriving. -/
theorem C18_witness :
    get_idx TOK_RPAREN < 5
      ∧ get_idx (peek_op ⟨[3, 3], [TOK_MUL, TOK_LPAREN, TOK_END], ERR_OK⟩) < 5
      ∧ (PriorityTable_at (get_idx (peek_op ⟨[3, 3], [TOK_MUL, TOK_LPAREN, TOK_END], ERR_OK⟩))
          (get_idx TOK_RPAREN)).isSome = true :=
  have h := (C18_array_accesses_in_bounds ⟨[3, 3], [TOK_MUL, TOK_LPAREN, TOK_END], ERR_OK⟩
    Reachable_two_open_parens).2.2 TOK_RPAREN rfl
  have h0 := h.2 0 ⟨[3, 3], [TOK_MUL, TOK_LPAREN, TOK_END], ERR_OK⟩ rfl
  ⟨h.1, h0.1, h0.2.1⟩

/-! ## Evaluator: what a division by zero leaves on the value stack -/

/-- Function `do_calculation` sets `ERR_DIV0` only when it divides by 0, and then it pushes
the initial value 0 of `res`. -/
theorem do_calculation_div0_inv (s : CalcState) (hok : s.sys_error = ERR_OK)
    (h : (do_calculation s).sys_error = ERR_DIV0) :
    ∃ (a : ℚ) (vs : List ℚ) (os : List TokenType),
      s.val_stack = 0 :: a :: vs ∧ s.op_stack = TOK_DIV :: os
        ∧ do_calculation s = push_val 0 ⟨vs, os, ERR_DIV0⟩ := by
  obtain ⟨vs, os, e⟩ := s
  simp only at hok
  subst hok
  match vs, h with
  | [], h => simp [do_calculation] at h
  | [_], h => simp [do_calculation] at h
  | b :: a :: vs1, h =>
      have hlen : ¬ (vs1.length + 1 + 1 < 2) := by omega
      cases os with
      | nil =>
          simp only [do_calculation, pop_val, pop_op, List.length_cons, if_neg hlen,
            push_val_sys_error] at h
          cases h
      | cons t os1 =>
          by_cases hz : t = TOK_DIV ∧ b = 0
          · obtain ⟨rfl, rfl⟩ := hz
            exact ⟨a, vs1, os1, rfl, rfl, do_calculation_div0 a vs1 os1 ERR_OK⟩
          · exfalso
            cases t <;>
              simp only [do_calculation, pop_val, pop_op, List.length_cons, if_neg hlen] at h
              <;> (try split at h) <;> simp only [push_val_sys_error] at h <;>
              first
                | exact hz ⟨rfl, by assumption⟩
                | cases h

/-- A pass that returns with `ERR_DIV0` from a state without error is a failed reduction of a
division by 0. -/
theorem Calc_PushOp_body_div0_inv (op : TokenType) (s : CalcState) (hok : s.sys_error = ERR_OK)
    (r : Bool) (s1 : CalcState) (h : Calc_PushOp_body op s = LoopStep.ret r s1)
    (herr : s1.sys_error = ERR_DIV0) :
    r = false ∧ relationOf (peek_op s) op = some 'G'
      ∧ ∃ (a : ℚ) (vs : List ℚ) (os : List TokenType),
          s.val_stack = 0 :: a :: vs ∧ s.op_stack = TOK_DIV :: os
            ∧ s1 = push_val 0 ⟨vs, os, ERR_DIV0⟩ := by
  unfold Calc_PushOp_body at h
  simp only at h
  split at h
  · cases h
  · next rel hrel =>
    split_ifs at h with h1 h2 h3 h4 h5 h6 <;>
      simp only [LoopStep.ret.injEq, reduceCtorEq] at h
    · rw [← h.2, push_op_sys_error, hok] at herr
      cases herr
    · rw [← h.2] at herr
      obtain ⟨a, vs, os, hv, ho, hd⟩ := do_calculation_div0_inv s hok herr
      refine ⟨h.1.symm, ?_, a, vs, os, hv, ho, ?_⟩
      · rw [relationOf, hrel, h2]
      · rw [← h.2, hd]
    · rw [← h.2] at herr
      have hpo : (pop_op s).2.sys_error = s.sys_error := by
        unfold pop_op
        split <;> rfl
      rw [hpo, hok] at herr
      cases herr
    · rw [← h.2, hok] at herr
      cases herr
    · rw [← h.2] at herr
      cases herr

/-- When the loop ends with `ERR_DIV0`, the pass that returned was a division by 0. -/
theorem Calc_PushOp_loop_div0_inv (fuel : Nat) (op : TokenType) (s : CalcState)
    (hok : s.sys_error = ERR_OK) (r : Bool) (s1 : CalcState)
    (h : Calc_PushOp_loop fuel op s = some (r, s1)) (herr : s1.sys_error = ERR_DIV0) :
    r = false
      ∧ ∃ (k : Nat) (sk : CalcState) (a : ℚ) (vs : List ℚ) (os : List TokenType),
          Calc_PushOp_pass k op s = some sk ∧ relationOf (peek_op sk) op = some 'G'
            ∧ sk.val_stack = 0 :: a :: vs ∧ sk.op_stack = TOK_DIV :: os
            ∧ s1 = push_val 0 ⟨vs, os, ERR_DIV0⟩ := by
  induction fuel generalizing s with
  | zero => simp [Calc_PushOp_loop] at h
  | succ n ih =>
      rw [Calc_PushOp_loop] at h
      split at h
      · next r1 s2 heq =>
          simp only [Option.some.injEq, Prod.mk.injEq] at h
          obtain ⟨rfl, rfl⟩ := h
          obtain ⟨hr, hrel, a, vs, os, hv, ho, hs⟩ :=
            Calc_PushOp_body_div0_inv op s hok r1 s2 heq herr
          exact ⟨hr, 0, s, a, vs, os, rfl, hrel, hv, ho, hs⟩
      · next s2 heq =>
          obtain ⟨hr, k, sk, a, vs, os, hp, hrel, hv, ho, hs⟩ :=
            ih s2 (Calc_PushOp_body_again_error heq hok) h
          refine ⟨hr, k + 1, sk, a, vs, os, ?_, hrel, hv, ho, hs⟩
          rw [Calc_PushOp_pass_succ_of_again heq]
          exact hp
      · cases h

/-- The state after the calls made for `5/0` and the pending `Calc_PushNum(0)`. -/
theorem Reachable_five_div_zero : Reachable ⟨[0, 5], [TOK_DIV, TOK_END], ERR_OK⟩ := by
  have h0 : Reachable ⟨[], [TOK_END], ERR_OK⟩ := Reachable.reset ⟨[], [], ERR_OK⟩
  have h1 : Reachable ⟨[5], [TOK_END], ERR_OK⟩ := Reachable.pushNum 5 _ h0
  have h2 : Reachable ⟨[5], [TOK_DIV, TOK_END], ERR_OK⟩ :=
    Reachable.pushOp 21 TOK_DIV _ true _ h1 rfl (by decide!)
  exact Reachable.pushNum 0 _ h2

/-- C19 (amended): when `Calc_PushOp`, called in a reachable state without error, ends with
`ERR_DIV0`, it returns failure, and the value stack afterwards is the stack of the pass that
divided (0 on top, the dividend `a` below it, `TOK_DIV` on the operator stack) with the two
operands removed and the value 0 pushed in their place; the operator is popped. A quotient
`a / b` is pushed only when `b` is not 0. -/
theorem C19_div0_pushes_zero (s : CalcState) (hr : Reachable s) (hok : s.sys_error = ERR_OK)
    (fuel : Nat) (op : TokenType) (r : Bool) (s1 : CalcState)
    (h : Calc_PushOp fuel op s = some (r, s1)) (herr : s1.sys_error = ERR_DIV0) :
    r = false
      ∧ (∃ (k : Nat) (sk : CalcState) (a : ℚ) (vs : List ℚ) (os : List TokenType),
          Calc_PushOp_pass k op s = some sk ∧ relationOf (peek_op sk) op = some 'G'
            ∧ sk.val_stack = 0 :: a :: vs ∧ sk.op_stack = TOK_DIV :: os
            ∧ s1 = ⟨0 :: vs, os, ERR_DIV0⟩)
      ∧ (∀ (a b : ℚ) (vs : List ℚ) (os : List TokenType) (e : ErrCode),
          (b :: a :: vs).length ≤ 20 →
          do_calculation ⟨b :: a :: vs, TOK_DIV :: os, e⟩
            = if b = 0 then ⟨0 :: vs, os, ERR_DIV0⟩ else ⟨a / b :: vs, os, e⟩) := by
  have hpush : ∀ (v : ℚ) (vs : List ℚ) (os : List TokenType) (e : ErrCode),
      vs.length + 2 ≤ 20 → push_val v ⟨vs, os, e⟩ = ⟨v :: vs, os, e⟩ := by
    intro v vs os e hlen
    unfold push_val
    rw [if_pos (by simp only [MAX_STACK]; omega)]
  rw [Calc_PushOp, if_neg (by simp [hok])] at h
  obtain ⟨hfalse, k, sk, a, vs, os, hp, hrel, hv, ho, hs1⟩ :=
    Calc_PushOp_loop_div0_inv fuel op s hok r s1 h herr
  have hb := Reachable_bounds hr
  have hbk := (Calc_PushOp_pass_bounds k op s sk hb.1 hb.2 hp).1
  rw [hv] at hbk
  simp only [List.length_cons, MAX_STACK] at hbk
  refine ⟨hfalse, ⟨k, sk, a, vs, os, hp, hrel, hv, ho, ?_⟩, ?_⟩
  · rw [hs1, hpush 0 vs os ERR_DIV0 (by omega)]
  · intro a1 b1 vs1 os1 e1 hlen
    simp only [List.length_cons] at hlen
    split_ifs with hz
    · subst hz
      rw [do_calculation_div0, hpush 0 vs1 os1 ERR_DIV0 (by omega)]
    · rw [@do_calculation_binary TOK_DIV rfl a1 b1 vs1 os1 e1 (fun _ => hz),
        hpush _ vs1 os1 e1 (by omega)]
      rfl

/-- The witness of C19: `Calc_PushOp(TOK_END)` after `5/0` fails with `ERR_DIV0` and leaves
the single value 0 on the value stack. -/
theorem C19_witness :
    ∃ (k : Nat) (sk : CalcState) (a : ℚ) (vs : List ℚ) (os : List TokenType),
      Calc_PushOp_pass k TOK_END ⟨[0, 5], [TOK_DIV, TOK_END], ERR_OK⟩ = some sk
        ∧ relationOf (peek_op sk) TOK_END = some 'G'
        ∧ sk.val_stack = 0 :: a :: vs ∧ sk.op_stack = TOK_DIV :: os
        ∧ (⟨[0], [TOK_END], ERR_DIV0⟩ : CalcState) = ⟨0 :: vs, os, ERR_DIV0⟩ :=
  (C19_div0_pushes_zero ⟨[0, 5], [TOK_DIV, TOK_END], ERR_OK⟩ Reachable_five_div_zero rfl 2
    TOK_END false ⟨[0], [TOK_END], ERR_DIV0⟩ (by decide!) rfl).2.1

/-- C19 fails as stated: in the reachable state after `5/0`, with values 0, 5 and operators
`/`, END, the call `Calc_PushOp(TOK_END)` fails with `ERR_DIV0` and the value stack afterwards
holds the value 0; it is not the stack before the reduction with the two operands removed,
which is empty. The keys `5/0=` end in the same way. -/
theorem C19_counterexample :
    Reachable ⟨[0, 5], [TOK_DIV, TOK_END], ERR_OK⟩
      ∧ Calc_PushOp 2 TOK_END ⟨[0, 5], [TOK_DIV, TOK_END], ERR_OK⟩
          = some (false, ⟨[0], [TOK_END], ERR_DIV0⟩)
      ∧ (⟨[0], [TOK_END], ERR_DIV0⟩ : CalcState).val_stack ≠ ([0, 5] : List ℚ).drop 2
      ∧ (pressKeys Build_double32 21 ['5', '/', '0', '='] (Machine_init, none)).map
          (fun r => (r.2, r.1.evaluator.sys_error, r.1.evaluator.val_stack))
          = some (some false, ERR_DIV0, [0]) := by
  refine ⟨Reachable_five_div_zero, by decide!, by simp, by decide!⟩

/-! ## Lexer: leaving a literal -/

theorem GetEventType_digit_iff (c : Char) : GetEventType c = EVT_DIGIT ↔ isdigit c = true := by
  constructor
  · intro h
    by_contra hd
    unfold GetEventType at h
    rw [if_neg hd] at h
    split_ifs at h
  · exact GetEventType_digit

theorem GetEventType_dot {c : Char} (h : GetEventType c = EVT_DOT) : c = '.' := by
  unfold GetEventType at h
  split_ifs at h
  assumption

theorem GetEventType_minus {c : Char} (h : GetEventType c = EVT_MINUS) : c = '-' := by
  unfold GetEventType at h
  split_ifs at h
  assumption

/-- Leaving IDLE: the character is a digit, or it is `.` or `-` and the accumulator is 0. -/
theorem ProcessChar_leave_IDLE (c : Char) (L : Lexer) (hs : L.fsm_state = STATE_IDLE)
    (h : (Lexer_ProcessChar c L).2.fsm_state ≠ STATE_IDLE) :
    isdigit c = true ∨ ((c = '-' ∨ c = '.') ∧ (Lexer_ProcessChar c L).2.current_val = 0) := by
  obtain ⟨cv, fs, sg, st⟩ := L
  simp only at hs
  subst hs
  have key : GetEventType c = EVT_DIGIT
      ∨ ((GetEventType c = EVT_MINUS ∨ GetEventType c = EVT_DOT)
        ∧ (Lexer_ProcessChar c ⟨cv, fs, sg, STATE_IDLE⟩).2.current_val = 0) := by
    revert h
    unfold Lexer_ProcessChar
    generalize GetEventType c = evt
    cases evt <;>
      simp [FSM_lookup, FSM_Table, Act_InitNum, Act_SetSign, Act_InitDot, Act_OpAdd, Act_OpMul,
        Act_OpDiv, Act_OpLPa, Act_OpRPa, Act_OpEnd, Act_Error]
  rcases key with h1 | ⟨h1 | h1, h2⟩
  · exact Or.inl ((GetEventType_digit_iff c).1 h1)
  · exact Or.inr ⟨Or.inl (GetEventType_minus h1), h2⟩
  · exact Or.inr ⟨Or.inr (GetEventType_dot h1), h2⟩

/-- Staying inside a literal without a digit: the character is `.` or it is outside the
alphabet, and the accumulator is untouched. -/
theorem ProcessChar_stay_busy (c : Char) (L : Lexer) (hs : L.fsm_state ≠ STATE_IDLE)
    (h : (Lexer_ProcessChar c L).2.fsm_state ≠ STATE_IDLE) (hd : isdigit c = false) :
    (c = '.' ∨ c ∉ inputAlphabet)
      ∧ (Lexer_ProcessChar c L).2.current_val = L.current_val := by
  obtain ⟨cv, fs, sg, st⟩ := L
  simp only at hs
  have hnd : GetEventType c ≠ EVT_DIGIT := by
    intro h1
    rw [(GetEventType_digit_iff c).1 h1] at hd
    cases hd
  have key : (GetEventType c = EVT_DOT ∨ GetEventType c = EVT_OTHER)
      ∧ (Lexer_ProcessChar c ⟨cv, fs, sg, st⟩).2.current_val = cv := by
    revert h hnd
    unfold Lexer_ProcessChar
    generalize GetEventType c = evt
    cases st <;> cases evt <;>
      simp [FSM_lookup, FSM_Table, Act_ToDot, Act_Ignore, Act_OpAdd, Act_OpSub, Act_OpMul,
        Act_OpDiv, Act_OpLPa, Act_OpRPa, Act_OpEnd, Act_Error] at hs ⊢
  rcases key with ⟨h1 | h1, h2⟩
  · exact ⟨Or.inl (GetEventType_dot h1), h2⟩
  · exact ⟨Or.inr ((GetEventType_other_iff c).1 h1), h2⟩

/-- The call that ends a literal returns an operator token. -/
theorem ProcessChar_to_IDLE (c : Char) (L : Lexer) (hs : L.fsm_state ≠ STATE_IDLE)
    (h : (Lexer_ProcessChar c L).2.fsm_state = STATE_IDLE) :
    isOperatorToken (Lexer_ProcessChar c L).1 = true := by
  obtain ⟨cv, fs, sg, st⟩ := L
  simp only at hs
  revert h
  unfold Lexer_ProcessChar
  generalize GetEventType c = evt
  cases st <;> cases evt <;>
    simp [FSM_lookup, FSM_Table, Act_AddInt, Act_AddFrac, Act_ToDot, Act_Ignore, Act_OpAdd,
      Act_OpSub, Act_OpMul, Act_OpDiv, Act_OpLPa, Act_OpRPa, Act_OpEnd, Act_Error,
      isOperatorToken] at hs ⊢

theorem Lexer_feed_cons (c : Char) (cs : List Char) (L : Lexer) :
    (Lexer_feed (c :: cs) L).2 = (Lexer_feed cs (Lexer_ProcessChar c L).2).2 := rfl

/-- Characters read inside a literal, none of them a digit, leave the accumulator as it is. -/
theorem Lexer_feed_busy_no_digit (cs : List Char) (L : Lexer) (hs : L.fsm_state ≠ STATE_IDLE)
    (hbusy : ∀ n : Nat, 0 < n → n ≤ cs.length →
      (Lexer_feed (cs.take n) L).2.fsm_state ≠ STATE_IDLE)
    (hnd : ∀ d ∈ cs, isdigit d = false) :
    (∀ x ∈ cs, x = '.' ∨ x ∉ inputAlphabet)
      ∧ (Lexer_feed cs L).2.current_val = L.current_val := by
  induction cs generalizing L with
  | nil => exact ⟨by simp, rfl⟩
  | cons c cs ih =>
      have h1 : (Lexer_ProcessChar c L).2.fsm_state ≠ STATE_IDLE := by
        have := hbusy 1 (by omega) (by simp)
        simpa [Lexer_feed] using this
      obtain ⟨hc, hv⟩ := ProcessChar_stay_busy c L hs h1 (hnd c (List.mem_cons_self _ _))
      have h2 := ih (Lexer_ProcessChar c L).2 h1
        (fun n hn hle => by
          have := hbusy (n + 1) (by omega) (by simp only [List.length_cons]; omega)
          rwa [List.take_succ_cons, Lexer_feed_cons] at this)
        (fun d hd => hnd d (List.mem_cons_of_mem _ hd))
      refine ⟨?_, ?_⟩
      · intro x hx
        rcases List.mem_cons.1 hx with rfl | hx
        · exact hc
        · exact h2.1 x hx
      · rw [Lexer_feed_cons, h2.2, hv]

/-- A literal that is left: from a lexer in state IDLE, the characters `seg` keep the state
away from IDLE; then `seg` holds a digit, or it is `-` or `.` followed only by `.` and by
characters outside the alphabet, and the accumulator is 0. -/
theorem Lexer_feed_segment (L : Lexer) (hs : L.fsm_state = STATE_IDLE) (seg : List Char)
    (hne : seg ≠ [])
    (hbusy : ∀ n : Nat, 0 < n → n ≤ seg.length →
      (Lexer_feed (seg.take n) L).2.fsm_state ≠ STATE_IDLE) :
    (Lexer_feed seg L).2.fsm_state ≠ STATE_IDLE
      ∧ ((∃ d ∈ seg, isdigit d = true)
        ∨ ((seg.head? = some '-' ∨ seg.head? = some '.')
          ∧ (∀ x ∈ seg.tail, x = '.' ∨ x ∉ inputAlphabet)
          ∧ Lexer_GetCurrentVal (Lexer_feed seg L).2 = 0)) := by
  have hlast : (Lexer_feed seg L).2.fsm_state ≠ STATE_IDLE := by
    have := hbusy seg.length (List.length_pos.2 hne) (le_refl _)
    rwa [List.take_length] at this
  refine ⟨hlast, ?_⟩
  by_cases hd : ∃ d ∈ seg, isdigit d = true
  · exact Or.inl hd
  · right
    have hnd : ∀ d ∈ seg, isdigit d = false := by
      intro d hmem
      cases hx : isdigit d with
      | false => rfl
      | true => exact absurd ⟨d, hmem, hx⟩ hd
    cases seg with
    | nil => exact absurd rfl hne
    | cons c cs =>
        have h1 : (Lexer_ProcessChar c L).2.fsm_state ≠ STATE_IDLE := by
          have := hbusy 1 (by omega) (by simp)
          simpa [Lexer_feed] using this
        have hc := ProcessChar_leave_IDLE c L hs h1
        rw [hnd c (List.mem_cons_self _ _)] at hc
        obtain ⟨hc1, hc2⟩ := hc.resolve_left (by decide)
        have h2 := Lexer_feed_busy_no_digit cs (Lexer_ProcessChar c L).2 h1
          (fun n hn hle => by
            have := hbusy (n + 1) (by omega) (by simp only [List.length_cons]; omega)
            rwa [List.take_succ_cons, Lexer_feed_cons] at this)
          (fun d hmem => hnd d (List.mem_cons_of_mem _ hmem))
        refine ⟨?_, h2.1, ?_⟩
        · rcases hc1 with rfl | rfl
          · exact Or.inl rfl
          · exact Or.inr rfl
        · rw [Lexer_feed_cons, Lexer_GetCurrentVal, h2.2, hc2, zero_mul]

/-- C20 (amended): the characters `pre`, `seg`, `c` are fed after `Lexer_ResetAll`; the state
is IDLE after `pre`, it is INT, DOT or FRAC after every non-empty part of `seg`, and `c`
moves it to IDLE. Then `c` returns an operator or END token, and either `seg` holds a digit,
or no digit was read at all: `seg` is a `-` or a `.` followed only by `.` characters and
characters outside the alphabet, and `Lexer_GetCurrentVal` is 0. -/
theorem C20_literal_left_with_digit_or_zero (L0 : Lexer) (pre seg : List Char) (c : Char)
    (hidle : (Lexer_feed pre (Lexer_ResetAll L0)).2.fsm_state = STATE_IDLE)
    (hne : seg ≠ [])
    (hbusy : ∀ n : Nat, 0 < n → n ≤ seg.length →
      (Lexer_feed (pre ++ seg.take n) (Lexer_ResetAll L0)).2.fsm_state ≠ STATE_IDLE)
    (hleave : (Lexer_feed (pre ++ seg ++ [c]) (Lexer_ResetAll L0)).2.fsm_state = STATE_IDLE) :
    isOperatorToken (Lexer_ProcessChar c (Lexer_feed (pre ++ seg) (Lexer_ResetAll L0)).2).1
        = true
      ∧ ((∃ d ∈ seg, isdigit d = true)
        ∨ ((seg.head? = some '-' ∨ seg.head? = some '.')
          ∧ (∀ x ∈ seg.tail, x = '.' ∨ x ∉ inputAlphabet)
          ∧ Lexer_GetCurrentVal (Lexer_feed (pre ++ seg) (Lexer_ResetAll L0)).2 = 0)) := by
  have hfeed : ∀ xs : List Char, (Lexer_feed (pre ++ xs) (Lexer_ResetAll L0)).2
      = (Lexer_feed xs (Lexer_feed pre (Lexer_ResetAll L0)).2).2 := by
    intro xs
    rw [Lexer_feed_append]
  have hb : ∀ n : Nat, 0 < n → n ≤ seg.length →
      (Lexer_feed (seg.take n) (Lexer_feed pre (Lexer_ResetAll L0)).2).2.fsm_state
        ≠ STATE_IDLE := by
    intro n h1 h2
    rw [← hfeed]
    exact hbusy n h1 h2
  obtain ⟨hlast, hseg⟩ := Lexer_feed_segment _ hidle seg hne hb
  rw [hfeed seg]
  refine ⟨ProcessChar_to_IDLE c _ hlast ?_, hseg⟩
  rw [Lexer_feed_append, hfeed seg] at hleave
  exact hleave

/-- The witness of C20: after `1+`, the literal `-.` is left by `=` without a digit, with
value 0. -/
theorem C20_witness :
    isOperatorToken
        (Lexer_ProcessChar '=' (Lexer_feed (['1', '+'] ++ ['-', '.'])
          (Lexer_ResetAll Lexer_init)).2).1 = true
      ∧ ((∃ d ∈ ['-', '.'], isdigit d = true)
        ∨ ((['-', '.'].head? = some '-' ∨ ['-', '.'].head? = some '.')
          ∧ (∀ x ∈ ['-', '.'].tail, x = '.' ∨ x ∉ inputAlphabet)
          ∧ Lexer_GetCurrentVal
              (Lexer_feed (['1', '+'] ++ ['-', '.']) (Lexer_ResetAll Lexer_init)).2 = 0)) :=
  C20_literal_left_with_digit_or_zero Lexer_init ['1', '+'] ['-', '.'] '=' (by decide!)
    (by simp)
    (fun n h1 h2 => by
      have h3 : n ≤ 2 := h2
      interval_cases n <;> decide!)
    (by decide!)

/-- C20 fails as stated: after `Lexer_ResetAll` the character `-` moves the state from IDLE
to INT, and the next character `+` moves it from INT to IDLE and returns `TOK_ADD`, while no
digit has been read; the same happens with `.` followed by `=`, from state DOT. -/
theorem C20_counterexample :
    (Lexer_ResetAll Lexer_init).fsm_state = STATE_IDLE
      ∧ (Lexer_ProcessChar '-' (Lexer_ResetAll Lexer_init)).2.fsm_state = STATE_INT
      ∧ (Lexer_ProcessChar '+' (Lexer_ProcessChar '-' (Lexer_ResetAll Lexer_init)).2).1
          = TOK_ADD
      ∧ (Lexer_ProcessChar '+'
          (Lexer_ProcessChar '-' (Lexer_ResetAll Lexer_init)).2).2.fsm_state = STATE_IDLE
      ∧ isdigit '-' = false
      ∧ (Lexer_ProcessChar '.' (Lexer_ResetAll Lexer_init)).2.fsm_state = STATE_DOT
      ∧ (Lexer_ProcessChar '=' (Lexer_ProcessChar '.' (Lexer_ResetAll Lexer_init)).2).1
          = TOK_END
      ∧ (Lexer_ProcessChar '='
          (Lexer_ProcessChar '.' (Lexer_ResetAll Lexer_init)).2).2.fsm_state = STATE_IDLE
      ∧ isdigit '.' = false
      ∧ Lexer_feed ['-', '+'] (Lexer_ResetAll Lexer_init)
          = ([TOK_NUM, TOK_ADD], ⟨0, 1 / 10, -1, STATE_IDLE⟩) := by
  refine ⟨rfl, ?_, ?_, ?_, ?_, ?_, ?_, ?_, ?_, ?_⟩ <;> decide!

/-! ## Lexer: a repeated decimal point -/

theorem ProcessChar_dot_DOT_FRAC (L : Lexer)
    (hs : L.fsm_state = STATE_DOT ∨ L.fsm_state = STATE_FRAC) :
    Lexer_ProcessChar '.' L = (TOK_NUM, L) := by
  obtain ⟨cv, fs, sg, st⟩ := L
  simp only at hs
  rcases hs with rfl | rfl <;>
    simp [Lexer_ProcessChar, GetEventType, isdigit, FSM_lookup, FSM_Table, Act_Ignore]

/-- Digits and decimal points read after a decimal point: the decimal points change nothing. -/
theorem Lexer_feed_drop_dots (w : List Char) (L : Lexer)
    (hs : L.fsm_state = STATE_DOT ∨ L.fsm_state = STATE_FRAC)
    (hw : ∀ c ∈ w, isdigit c = true ∨ c = '.') :
    (Lexer_feed w L).2 = (Lexer_feed (w.filter (fun c => c != '.')) L).2
      ∧ (Lexer_feed w L).1 = List.replicate w.length TOK_NUM := by
  induction w generalizing L with
  | nil => exact ⟨rfl, rfl⟩
  | cons c w ih =>
      have hw1 : ∀ x ∈ w, isdigit x = true ∨ x = '.' :=
        fun x hx => hw x (List.mem_cons_of_mem _ hx)
      by_cases hc : c = '.'
      · subst hc
        have h1 := ProcessChar_dot_DOT_FRAC L hs
        have h2 := ih L hs hw1
        refine ⟨?_, ?_⟩
        · rw [Lexer_feed_cons, h1, List.filter_cons_of_neg (by decide)]
          exact h2.1
        · simp only [Lexer_feed, h1, h2.2, List.length_cons, List.replicate_succ]
      · have hd : isdigit c = true := (hw c (List.mem_cons_self _ _)).resolve_right hc
        have h1 := ProcessChar_digit_DOT_FRAC hd L hs
        have h2 := ih (Lexer_ProcessChar c L).2 (by rw [h1]; exact Or.inr rfl) hw1
        refine ⟨?_, ?_⟩
        · rw [Lexer_feed_cons, List.filter_cons_of_pos (by simpa using hc), Lexer_feed_cons]
          exact h2.1
        · simp only [Lexer_feed, h2.2, List.length_cons, List.replicate_succ]
          rw [h1]

/-- C21: in state DOT or FRAC, `Lexer_ProcessChar '.'` returns `TOK_NUM` and leaves the state
and the whole accumulator unchanged; hence for digits and decimal points `w` read in such a
state, every character returns `TOK_NUM` and the lexer ends as it does for `w` without its
decimal points, so `Lexer_GetCurrentVal` is the same with and without them. -/
theorem C21_repeated_dot_is_noop (L : Lexer)
    (hs : L.fsm_state = STATE_DOT ∨ L.fsm_state = STATE_FRAC) :
    Lexer_ProcessChar '.' L = (TOK_NUM, L)
      ∧ ∀ w : List Char, (∀ c ∈ w, isdigit c = true ∨ c = '.') →
          (Lexer_feed w L).2 = (Lexer_feed (w.filter (fun c => c != '.')) L).2
            ∧ Lexer_GetCurrentVal (Lexer_feed w L).2
                = Lexer_GetCurrentVal (Lexer_feed (w.filter (fun c => c != '.')) L).2
            ∧ (Lexer_feed w L).1 = List.replicate w.length TOK_NUM := by
  refine ⟨ProcessChar_dot_DOT_FRAC L hs, ?_⟩
  intro w hw
  obtain ⟨h1, h2⟩ := Lexer_feed_drop_dots w L hs hw
  exact ⟨h1, by rw [h1], h2⟩

/-- The witness of C21: after `1.` the characters `2.3` read as `23` does, and `1.2.3` reads
as 1.23. -/
theorem C21_witness :
    (Lexer_feed ['2', '.', '3'] (Lexer_feed ['1', '.'] Lexer_init).2).2
        = (Lexer_feed ['2', '3'] (Lexer_feed ['1', '.'] Lexer_init).2).2
      ∧ Lexer_GetCurrentVal (Lexer_feed ['1', '.', '2', '.', '3'] Lexer_init).2 = 123 / 100
      ∧ Lexer_GetCurrentVal (Lexer_feed ['1', '.', '2', '3'] Lexer_init).2 = 123 / 100 := by
  refine ⟨((C21_repeated_dot_is_noop (Lexer_feed ['1', '.'] Lexer_init).2
    (Or.inl (by decide!))).2 ['2', '.', '3'] ?_).1, by decide!, by decide!⟩
  intro c hc
  simp only [List.mem_cons, List.mem_singleton, List.not_mem_nil, or_false] at hc
  rcases hc with rfl | rfl | rfl
  · exact Or.inl (by decide)
  · exact Or.inr rfl
  · exact Or.inl (by decide)

/-- The state after the calls made for `1+2` and the pending `Calc_PushNum(2)`. -/
theorem Reachable_one_plus_two : Reachable ⟨[2, 1], [TOK_ADD, TOK_END], ERR_OK⟩ := by
  have h0 : Reachable ⟨[], [TOK_END], ERR_OK⟩ := Reachable.reset ⟨[], [], ERR_OK⟩
  have h1 : Reachable ⟨[1], [TOK_END], ERR_OK⟩ := Reachable.pushNum 1 _ h0
  have h2 : Reachable ⟨[1], [TOK_ADD, TOK_END], ERR_OK⟩ :=
    Reachable.pushOp 21 TOK_ADD _ true _ h1 rfl (by decide!)
  exact Reachable.pushNum 2 _ h2

/-! ## Evaluator: the operator stack after a successful END -/

theorem relationOf_END_ne_L (t : TokenType) : relationOf t TOK_END ≠ some 'L' := by
  cases t <;> decide

/-- Under END the operator stack of the reachable shape is the single END mark, when END is
on top. -/
theorem opStackShape_END_top {os : List TokenType} (h : opStackShape (TOK_END :: os)) :
    os = [] := by
  obtain ⟨pre, hpre, hall⟩ := h
  cases pre with
  | nil =>
      simp only [List.nil_append, List.cons.injEq] at hpre
      exact hpre.2
  | cons x pre =>
      simp only [List.cons_append, List.cons.injEq] at hpre
      rcases hall x (List.mem_cons_self _ _) with h1 | h1
      · rw [← hpre.1] at h1
        cases h1
      · rw [← hpre.1] at h1
        cases h1

/-- A pass of the loop for END that returns success found END alone on the operator stack and
changed nothing. -/
theorem Calc_PushOp_body_END_success (s : CalcState) (hs : opStackShape s.op_stack)
    (s1 : CalcState) (h : Calc_PushOp_body TOK_END s = LoopStep.ret true s1) :
    s1 = s ∧ s.op_stack = [TOK_END] := by
  obtain ⟨vs, os, e⟩ := s
  simp only at hs
  obtain ⟨t, os, rfl⟩ := List.exists_cons_of_ne_nil (opStackShape_ne_nil hs)
  have ht := opStackShape_top_operator hs
  rcases relationOf_cases t TOK_END ht rfl with ⟨h1, _⟩ | ⟨h1, _⟩ | h1 | ⟨_, h2⟩ | ⟨rfl, _⟩
  · exact absurd h1 (relationOf_END_ne_L t)
  · rw [Calc_PushOp_body_reduce vs os e h1] at h
    split_ifs at h
    cases h
  · rw [Calc_PushOp_body_reject vs os e h1] at h
    cases h
  · cases h2
  · rw [Calc_PushOp_body_finish] at h
    simp only [LoopStep.ret.injEq, true_and] at h
    refine ⟨h.symm, ?_⟩
    rw [opStackShape_END_top hs]

theorem Calc_PushOp_loop_END_success (fuel : Nat) (s : CalcState)
    (hs : opStackShape s.op_stack) (hok : s.sys_error = ERR_OK) (s1 : CalcState)
    (h : Calc_PushOp_loop fuel TOK_END s = some (true, s1)) :
    s1.op_stack = [TOK_END] ∧ s1.sys_error = ERR_OK
      ∧ ∃ k : Nat, Calc_PushOp_pass k TOK_END s = some s1 := by
  induction fuel generalizing s with
  | zero => simp [Calc_PushOp_loop] at h
  | succ n ih =>
      rw [Calc_PushOp_loop] at h
      split at h
      · next r1 s2 heq =>
          simp only [Option.some.injEq, Prod.mk.injEq] at h
          obtain ⟨rfl, rfl⟩ := h
          obtain ⟨h1, h2⟩ := Calc_PushOp_body_END_success s hs s2 heq
          subst h1
          exact ⟨h2, hok, 0, rfl⟩
      · next s2 heq =>
          obtain ⟨-, -, -, hs2⟩ := Calc_PushOp_body_again TOK_END rfl s hs s2 heq
          obtain ⟨h1, h2, k, h3⟩ := ih s2 hs2 (Calc_PushOp_body_again_error heq hok) h
          refine ⟨h1, h2, k + 1, ?_⟩
          rw [Calc_PushOp_pass_succ_of_again heq]
          exact h3
      · cases h

/-- C26: in every state reachable from `Calc_Reset`, if `Calc_PushOp(TOK_END)` returns
success, then afterwards the operator stack is exactly `[TOK_END]` and the error code is
`ERR_OK`: the state is the one `Calc_Reset` gives, except for the value stack, and it is
reachable, so further calls can follow without `Calc_Reset`. -/
theorem C26_success_restores_operator_stack (s : CalcState) (hr : Reachable s) (fuel : Nat)
    (s1 : CalcState) (h : Calc_PushOp fuel TOK_END s = some (true, s1)) :
    s1.op_stack = [TOK_END] ∧ s1.sys_error = ERR_OK
      ∧ s1 = { Calc_Reset s with val_stack := s1.val_stack } ∧ Reachable s1 := by
  have hreach : Reachable s1 := Reachable.pushOp fuel TOK_END s true s1 hr rfl h
  have hs := Reachable_opStackShape hr
  unfold Calc_PushOp at h
  split at h
  · cases h
  · next hok =>
    have hok1 : s.sys_error = ERR_OK := by
      by_contra hne
      exact hok hne
    obtain ⟨h1, h2, -⟩ := Calc_PushOp_loop_END_success fuel s hs hok1 s1 h
    refine ⟨h1, h2, ?_, hreach⟩
    obtain ⟨vs, os, e⟩ := s1
    simp only at h1 h2
    subst h1 h2
    simp [Calc_Reset, push_op, MAX_STACK]

/-- The witness of C26: after `1+2`, with values 2, 1 and operators `+`, END, the call
`Calc_PushOp(TOK_END)` succeeds and leaves the value 3 and the operator stack `[TOK_END]`. -/
theorem C26_witness :
    Calc_PushOp 2 TOK_END ⟨[2, 1], [TOK_ADD, TOK_END], ERR_OK⟩
        = some (true, ⟨[3], [TOK_END], ERR_OK⟩)
      ∧ (⟨[3], [TOK_END], ERR_OK⟩ : CalcState).op_stack = [TOK_END]
      ∧ (⟨[3], [TOK_END], ERR_OK⟩ : CalcState).sys_error = ERR_OK := by
  have hc : Calc_PushOp 2 TOK_END ⟨[2, 1], [TOK_ADD, TOK_END], ERR_OK⟩
      = some (true, ⟨[3], [TOK_END], ERR_OK⟩) := by decide!
  have h := C26_success_restores_operator_stack ⟨[2, 1], [TOK_ADD, TOK_END], ERR_OK⟩
    Reachable_one_plus_two 2 ⟨[3], [TOK_END], ERR_OK⟩ hc
  exact ⟨hc, h.1, h.2.1⟩

/-! ## Lexer: stale accumulator contents -/

/-- Two lexers in the same state with the same value and sign, and the same fraction scale
once a decimal point has been read, return the same token for a character and agree in the
same way afterwards. -/
theorem ProcessChar_agree (c : Char) (L1 L2 : Lexer)
    (hst : L1.fsm_state = L2.fsm_state) (hv : L1.current_val = L2.current_val)
    (hsg : L1.val_sign = L2.val_sign)
    (hfs : L1.fsm_state = STATE_DOT ∨ L1.fsm_state = STATE_FRAC →
      L1.frac_scale = L2.frac_scale) :
    (Lexer_ProcessChar c L1).1 = (Lexer_ProcessChar c L2).1
      ∧ (Lexer_ProcessChar c L1).2.fsm_state = (Lexer_ProcessChar c L2).2.fsm_state
      ∧ (Lexer_ProcessChar c L1).2.current_val = (Lexer_ProcessChar c L2).2.current_val
      ∧ (Lexer_ProcessChar c L1).2.val_sign = (Lexer_ProcessChar c L2).2.val_sign
      ∧ ((Lexer_ProcessChar c L1).2.fsm_state = STATE_DOT
          ∨ (Lexer_ProcessChar c L1).2.fsm_state = STATE_FRAC →
        (Lexer_ProcessChar c L1).2.frac_scale = (Lexer_ProcessChar c L2).2.frac_scale) := by
  obtain ⟨cv1, fs1, sg1, st1⟩ := L1
  obtain ⟨cv2, fs2, sg2, st2⟩ := L2
  simp only at hst hv hsg hfs
  subst hst hv hsg
  unfold Lexer_ProcessChar
  generalize GetEventType c = evt
  cases st1 <;> cases evt <;>
    simp [FSM_lookup, FSM_Table, Act_InitNum, Act_SetSign, Act_InitDot, Act_AddInt, Act_ToDot,
      Act_AddFrac, Act_Ignore, Act_OpAdd, Act_OpSub, Act_OpMul, Act_OpDiv, Act_OpLPa,
      Act_OpRPa, Act_OpEnd, Act_Error] at hfs ⊢ <;>
    simp [hfs]

theorem Lexer_feed_agree (w : List Char) (L1 L2 : Lexer)
    (hst : L1.fsm_state = L2.fsm_state) (hv : L1.current_val = L2.current_val)
    (hsg : L1.val_sign = L2.val_sign)
    (hfs : L1.fsm_state = STATE_DOT ∨ L1.fsm_state = STATE_FRAC →
      L1.frac_scale = L2.frac_scale) :
    (Lexer_feed w L1).1 = (Lexer_feed w L2).1
      ∧ (Lexer_feed w L1).2.fsm_state = (Lexer_feed w L2).2.fsm_state
      ∧ (Lexer_feed w L1).2.current_val = (Lexer_feed w L2).2.current_val
      ∧ (Lexer_feed w L1).2.val_sign = (Lexer_feed w L2).2.val_sign := by
  induction w generalizing L1 L2 with
  | nil => exact ⟨rfl, hst, hv, hsg⟩
  | cons c w ih =>
      obtain ⟨h1, h2, h3, h4, h5⟩ := ProcessChar_agree c L1 L2 hst hv hsg hfs
      obtain ⟨i1, i2, i3, i4⟩ := ih _ _ h2 h3 h4 h5
      refine ⟨?_, ?_, ?_, ?_⟩
      · simp only [Lexer_feed, h1, i1]
      · simpa only [Lexer_feed_cons] using i2
      · simpa only [Lexer_feed_cons] using i3
      · simpa only [Lexer_feed_cons] using i4

/-- The first character of a literal sets value and sign anew, whatever the accumulator held. -/
theorem ProcessChar_first_agree (c : Char) (L : Lexer) (hs : L.fsm_state = STATE_IDLE)
    (hc : isdigit c = true ∨ c = '.' ∨ c = '-') :
    (Lexer_ProcessChar c L).1 = (Lexer_ProcessChar c (Lexer_ResetAll L)).1
      ∧ (Lexer_ProcessChar c L).2.fsm_state
          = (Lexer_ProcessChar c (Lexer_ResetAll L)).2.fsm_state
      ∧ (Lexer_ProcessChar c L).2.current_val
          = (Lexer_ProcessChar c (Lexer_ResetAll L)).2.current_val
      ∧ (Lexer_ProcessChar c L).2.val_sign = (Lexer_ProcessChar c (Lexer_ResetAll L)).2.val_sign
      ∧ ((Lexer_ProcessChar c L).2.fsm_state = STATE_DOT
          ∨ (Lexer_ProcessChar c L).2.fsm_state = STATE_FRAC →
        (Lexer_ProcessChar c L).2.frac_scale
          = (Lexer_ProcessChar c (Lexer_ResetAll L)).2.frac_scale) := by
  have hr : (Lexer_ResetAll L).fsm_state = STATE_IDLE := rfl
  rcases hc with hd | rfl | rfl
  · rw [ProcessChar_digit_IDLE hd L hs, ProcessChar_digit_IDLE hd _ hr]
    refine ⟨rfl, rfl, rfl, rfl, ?_⟩
    intro h
    rcases h with h | h <;> cases h
  · rw [ProcessChar_dot_IDLE L hs, ProcessChar_dot_IDLE _ hr]
    exact ⟨rfl, rfl, rfl, rfl, fun _ => rfl⟩
  · rw [ProcessChar_minus_IDLE L hs, ProcessChar_minus_IDLE _ hr]
    refine ⟨rfl, rfl, rfl, rfl, ?_⟩
    intro h
    rcases h with h | h <;> cases h

/-- C25: for every accumulator content with state IDLE and every character sequence whose
first character is a digit, `.` or `-`, feeding the sequence returns the same tokens as
feeding it directly after `Lexer_ResetAll`, and after every non-empty prefix `Lexer_GetState`
and `Lexer_GetCurrentVal` are the same in both runs. The characters that follow the first
one are arbitrary: characters outside the alphabet change nothing in either run. -/
theorem C25_new_literal_ignores_stale_accumulator (L : Lexer)
    (hs : L.fsm_state = STATE_IDLE) (c : Char) (cs : List Char)
    (hc : isdigit c = true ∨ c = '.' ∨ c = '-') :
    (Lexer_feed (c :: cs) L).1 = (Lexer_feed (c :: cs) (Lexer_ResetAll L)).1
      ∧ ∀ n : Nat, 0 < n →
          Lexer_GetState (Lexer_feed ((c :: cs).take n) L).2
              = Lexer_GetState (Lexer_feed ((c :: cs).take n) (Lexer_ResetAll L)).2
            ∧ Lexer_GetCurrentVal (Lexer_feed ((c :: cs).take n) L).2
              = Lexer_GetCurrentVal (Lexer_feed ((c :: cs).take n) (Lexer_ResetAll L)).2 := by
  obtain ⟨h1, h2, h3, h4, h5⟩ := ProcessChar_first_agree c L hs hc
  refine ⟨?_, ?_⟩
  · obtain ⟨i1, -⟩ := Lexer_feed_agree cs _ _ h2 h3 h4 h5
    simp only [Lexer_feed, h1, i1]
  · intro n hn
    obtain ⟨m, rfl⟩ : ∃ m, n = m + 1 := ⟨n - 1, by omega⟩
    obtain ⟨-, i2, i3, i4⟩ := Lexer_feed_agree (cs.take m) _ _ h2 h3 h4 h5
    rw [List.take_succ_cons, Lexer_feed_cons, Lexer_feed_cons]
    exact ⟨i2, by unfold Lexer_GetCurrentVal; rw [i3, i4]⟩

/-- The witness of C25: with the stale contents 5, sign -1 and scale 0.001, the characters
`2.5+-1` return the same tokens as after a reset, and after `2.5` the value is 2.5. -/
theorem C25_witness :
    (Lexer_feed ['2', '.', '5', '+', '-', '1'] ⟨5, 1 / 1000, -1, STATE_IDLE⟩).1
        = (Lexer_feed ['2', '.', '5', '+', '-', '1']
            (Lexer_ResetAll ⟨5, 1 / 1000, -1, STATE_IDLE⟩)).1
      ∧ Lexer_GetCurrentVal (Lexer_feed ['2', '.', '5'] ⟨5, 1 / 1000, -1, STATE_IDLE⟩).2
        = Lexer_GetCurrentVal
            (Lexer_feed ['2', '.', '5'] (Lexer_ResetAll ⟨5, 1 / 1000, -1, STATE_IDLE⟩)).2
      ∧ Lexer_GetCurrentVal (Lexer_feed ['2', '.', '5'] ⟨5, 1 / 1000, -1, STATE_IDLE⟩).2
        = 5 / 2 :=
  have h := C25_new_literal_ignores_stale_accumulator ⟨5, 1 / 1000, -1, STATE_IDLE⟩ rfl '2'
    ['.', '5', '+', '-', '1'] (Or.inl (by decide))
  ⟨h.1, (h.2 3 (by decide)).2, by decide!⟩

/-! ## Formatter: the rounding carry -/

/-- The steps of `Double2String` for a positive value, given the results of its two
conversions to `long`. -/
theorem Double2String_pos (f : ℚ) (hf : 0 < f) (ip sc : Int) (p : Nat)
    (h1 : toLong f = some ip) (hp : decimal_places f ip = p)
    (h2 : toLong (f * ((10 ^ p : Int) : ℚ) + 1 / 2) = some sc) :
    Double2String f = some
      (if p > 0 then
        trim_zeros (long_to_str (sc.tmod (10 ^ p)) (long_to_str (sc.tdiv (10 ^ p)) [] 0 ++ ['.']) p)
      else long_to_str (sc.tdiv (10 ^ p)) [] 0) := by
  have hm : multiplier_loop p 1 = 10 ^ p := by rw [multiplier_loop_eq, one_mul]
  unfold Double2String
  rw [if_neg hf.ne', if_neg (not_lt.2 hf.le), if_neg (not_lt.2 hf.le)]
  simp only [h1, hp, hm, h2]
  split_ifs <;> rfl

/-- With a non-zero integer part the number of decimal places depends on it alone. -/
theorem decimal_places_of_ne_zero (x y : ℚ) (ip : Int) (h : ip ≠ 0) :
    decimal_places x ip = decimal_places y ip := by
  unfold decimal_places
  simp only [if_neg h]

/-- C24: for every `k` from 1 to 5 and every `x` with `10^k - (1/2) * 10^(k-6) ≤ x < 10^k`,
the integer part of `x` is `10^k - 1` with `k` digits, so `6 - k` decimal places are fixed
before rounding; the scaled value rounds to `10^6`, and `Double2String x` is the digit `1`
followed by `k` zeros, without a decimal point. -/
theorem C24_rounding_carry_not_renormalized (k : Nat) (hk1 : 1 ≤ k) (hk5 : k ≤ 5) (x : ℚ)
    (h1 : 10 ^ k - 1 / 2 * (10 ^ k / 10 ^ 6) ≤ x) (h2 : x < 10 ^ k) :
    toLong x = some (10 ^ k - 1)
      ∧ decimal_places x (10 ^ k - 1) = 6 - k
      ∧ toLong (x * ((10 ^ (6 - k) : Int) : ℚ) + 1 / 2) = some 1000000
      ∧ Double2String x = some ('1' :: List.replicate k '0') := by
  have hx : 0 < x := by
    interval_cases k <;> linarith
  have hfl : ⌊x⌋ = 10 ^ k - 1 := by
    rw [Int.floor_eq_iff]
    interval_cases k <;> constructor <;> push_cast <;> linarith
  have hip : toLong x = some (10 ^ k - 1) := by
    rw [toLong_of_nonneg x hx.le (by interval_cases k <;> linarith), hfl]
  have hp : decimal_places x (10 ^ k - 1) = 6 - k := by
    interval_cases k <;> rw [decimal_places_of_ne_zero x 0 _ (by decide)] <;> decide!
  have hsc : toLong (x * ((10 ^ (6 - k) : Int) : ℚ) + 1 / 2) = some 1000000 := by
    have hfl2 : ⌊x * ((10 ^ (6 - k) : Int) : ℚ) + 1 / 2⌋ = 1000000 := by
      rw [Int.floor_eq_iff]
      interval_cases k <;> constructor <;> push_cast <;> linarith
    rw [toLong_of_nonneg _ (by positivity)
      (by interval_cases k <;> push_cast <;> linarith), hfl2]
  refine ⟨hip, hp, hsc, ?_⟩
  rw [Double2String_pos x hx (10 ^ k - 1) 1000000 (6 - k) hip hp hsc]
  interval_cases k <;> decide

/-- The witness of C24: `9.9999995` is written `10`. -/
theorem C24_witness : Double2String (99999995 / 10000000) = some ['1', '0'] :=
  (C24_rounding_carry_not_renormalized 1 (by decide) (by decide) (99999995 / 10000000)
    (by norm_num) (by norm_num)).2.2.2

/-! ## Formatter: the shape of the output, in characters -/

theorem natOfDigits_snoc (xs : List Char) (c : Char) :
    natOfDigits (xs ++ [c]) = natOfDigits xs * 10 + (c.toNat - 48) := by
  simp [natOfDigits]

theorem natOfDigits_lt_pow (ds : List Char) (h : allDigits ds) :
    natOfDigits ds < 10 ^ ds.length := by
  induction ds using List.reverseRecOn with
  | nil => simp [natOfDigits]
  | append_singleton xs c ih =>
      have hxs : allDigits xs := fun x hx => h x (List.mem_append_left _ hx)
      have hc := (isdigit_iff c).1 (h c (by simp))
      have := ih hxs
      rw [natOfDigits_snoc, List.length_append, List.length_singleton, pow_succ]
      omega

/-- A digit string that is as long as its value needs does not start with `0`. -/
theorem head_ne_zero_of_le (I : List Char) (hall : allDigits I)
    (h : 10 ^ (I.length - 1) ≤ natOfDigits I) : I.head? ≠ some '0' := by
  cases I with
  | nil => simp
  | cons c rest =>
      intro hc
      simp only [List.head?_cons, Option.some.injEq] at hc
      subst hc
      have hrest : allDigits rest := fun x hx => hall x (List.mem_cons_of_mem _ hx)
      have hlt := natOfDigits_lt_pow rest hrest
      have hval : natOfDigits ('0' :: rest) = natOfDigits rest := by
        simp [natOfDigits]
      rw [hval] at h
      simp only [List.length_cons, Nat.add_sub_cancel] at h
      omega

/-- What is left of the fractional digits after trimming ends in a digit other than `0`. -/
theorem stripZeros_getLast (F : List Char) (h : stripZeros F ≠ []) :
    ∃ c, (stripZeros F).getLast? = some c ∧ c ≠ '0' := by
  unfold stripZeros at h ⊢
  rw [List.getLast?_reverse]
  have hne : F.reverse.dropWhile (fun c => c == '0') ≠ [] := by
    intro h0
    rw [h0] at h
    exact h rfl
  have hd := List.head_dropWhile_not (fun c => c == '0') F.reverse hne
  refine ⟨(F.reverse.dropWhile (fun c => c == '0')).head hne, List.head?_eq_head hne, ?_⟩
  intro h0
  rw [h0] at hd
  exact absurd hd (by decide)

/-! ## Formatter: the size of the output -/

/-- Function `long_to_str` puts at most 12 characters into `temp_buf`, for every value of a
32-bit `long` and every width up to 12. -/
theorem long_to_str_length (num : Int) (buf : List Char) (w : Nat)
    (hnum : num ≤ 2147483647) (hw : w ≤ 12) :
    ∃ temp : List Char, long_to_str num buf w = buf ++ temp ∧ 0 < temp.length
      ∧ temp.length ≤ 12 := by
  have h1 : ∃ ds : List Char, long_to_str_digits num.toNat num [] = ds ∧ ds.length ≤ 10 := by
    rcases le_or_lt num 0 with hneg | hpos
    · have h0 : num.toNat = 0 := Int.toNat_eq_zero.2 hneg
      exact ⟨[], by rw [h0]; rfl, by simp⟩
    · obtain ⟨n, rfl⟩ : ∃ n : Nat, num = (n : Int) :=
        ⟨num.toNat, (Int.toNat_of_nonneg hpos.le).symm⟩
      have hn : 0 < n := by exact_mod_cast hpos
      obtain ⟨ds, hds, -, -, -, hp⟩ := long_to_str_digits_nat n n [] le_rfl
      obtain ⟨hlo, -, -⟩ := hp hn
      refine ⟨ds, by rw [Int.toNat_ofNat, hds, List.append_nil], ?_⟩
      by_contra hlen
      have h11 : 10 ^ 10 ≤ 10 ^ (ds.length - 1) :=
        Nat.pow_le_pow_right (by omega) (by omega)
      have hn2 : n ≤ 2147483647 := by exact_mod_cast hnum
      omega
  obtain ⟨ds, hds, hlen⟩ := h1
  have hw1 : (if num = 0 then (if w = 0 then 1 else w) else w) ≤ 12 := by
    split_ifs <;> omega
  unfold long_to_str
  simp only [hds]
  generalize (if num = 0 then (if w = 0 then 1 else w) else w) = w1 at hw1
  rw [long_to_str_pad_eq _ _ _ (Nat.sub_le _ _)]
  refine ⟨_, rfl, ?_⟩
  by_cases hz : (List.replicate (w1 - ds.length) '0' ++ ds).length = 0
  · rw [if_pos hz]
    simp
  · rw [if_neg hz]
    simp only [List.length_append, List.length_replicate] at hz ⊢
    omega

theorem length_stripZeros_le (F : List Char) : (stripZeros F).length ≤ F.length := by
  obtain ⟨k, hk⟩ := stripZeros_append_zeros F
  have h := congrArg List.length hk
  rw [List.length_append] at h
  omega

theorem scaledOf_lt (x : ℚ) (hx : 0 < x) (hov : x + 1 / 2 < 2147483648) :
    scaledOf x < 2147483648 := by
  have hfit := scaled_fits x hx hov
  have h0 : (0 : Int) ≤ ⌊x * 10 ^ placesOf x + 1 / 2⌋ := Int.floor_nonneg.2 (by positivity)
  have h1 : ⌊x * 10 ^ placesOf x + 1 / 2⌋ < 2147483648 := by
    rw [Int.floor_lt]
    exact_mod_cast hfit
  unfold scaledOf
  omega

/-- The integer digits and the decimal places together take at most 10 characters. -/
theorem intDigits_places_le (I : List Char) (n p s : Nat) (hs : s < 2147483648)
    (hn : n = s / 10 ^ p) (hp : p ≤ 8) (hzero : n = 0 → I = ['0'])
    (hpos : 0 < n → 10 ^ (I.length - 1) ≤ n) : I.length + p ≤ 10 := by
  rcases Nat.eq_zero_or_pos n with h0 | h1
  · rw [hzero h0]
    simp only [List.length_singleton]
    omega
  · have hlo := hpos h1
    by_contra hlen
    have h10 : 10 ^ 10 ≤ 10 ^ (I.length - 1 + p) := Nat.pow_le_pow_right (by omega) (by omega)
    have hmul : 10 ^ (I.length - 1 + p) ≤ n * 10 ^ p := by
      rw [pow_add]
      exact Nat.mul_le_mul_right _ hlo
    have hle : n * 10 ^ p ≤ s := by
      rw [hn]
      exact Nat.div_mul_le_self s (10 ^ p)
    omega

/-- The output of `Double2String` has at most 12 characters when no conversion overflows. -/
theorem Double2String_length (f : ℚ) (hov : |f| + 1 / 2 < 2147483648) :
    ∃ s : List Char, Double2String f = some s ∧ 0 < s.length ∧ s.length ≤ 12 := by
  by_cases hf : f = 0
  · subst hf
    exact ⟨['0'], by simp [Double2String], by simp, by simp⟩
  · obtain ⟨I, ds, hIne, hIall, hIval, hIzero, hIpos, hlen, hds, hout⟩ :=
      Double2String_struct f hf hov
    have hp8 : placesOf |f| ≤ 8 := decimal_places_le _ _
    have hs := scaledOf_lt |f| (abs_pos.2 hf) hov
    have hIp : I.length + placesOf |f| ≤ 10 :=
      intDigits_places_le I (natOfDigits I) (placesOf |f|) (scaledOf |f|) hs hIval hp8
        (fun h => hIzero (hIval ▸ h))
        (fun h => by rw [hIval] at h ⊢; exact (hIpos h).1)
    have hF : (stripZeros (paddedFrac (placesOf |f|) ds)).length ≤ placesOf |f| :=
      le_of_le_of_eq (length_stripZeros_le _) (length_paddedFrac _ _ hlen)
    have hI0 : 0 < I.length := List.length_pos.2 hIne
    have hsign : (if f < 0 then ['-'] else ([] : List Char)).length ≤ 1 := by
      split <;> simp
    refine ⟨_, hout, ?_, ?_⟩
    · rw [List.length_append]
      by_cases hc : placesOf |f| = 0 ∨ stripZeros (paddedFrac (placesOf |f|) ds) = []
      · rw [if_pos hc]
        omega
      · rw [if_neg hc, List.length_append, List.length_cons]
        omega
    · rw [List.length_append]
      by_cases hc : placesOf |f| = 0 ∨ stripZeros (paddedFrac (placesOf |f|) ds) = []
      · rw [if_pos hc]
        omega
      · rw [if_neg hc, List.length_append, List.length_cons]
        omega

/-! ## Formatter on a build: the shape of the output -/

/-- A `long` that is not positive is written like 0: the digit loop of `long_to_str` does
not run. -/
theorem long_to_str_nonpos (num : Int) (h : num ≤ 0) (buf : List Char) (w : Nat) :
    long_to_str num buf w = long_to_str 0 buf w := by
  have h0 : num.toNat = 0 := Int.toNat_eq_zero.2 h
  rcases eq_or_lt_of_le h with rfl | hneg
  · rfl
  · have hne : num ≠ 0 := by omega
    unfold long_to_str
    simp only [h0, long_to_str_digits, if_neg hne, if_true, Int.toNat_zero]
    rw [long_to_str_pad_eq _ _ _ (Nat.sub_le _ _), long_to_str_pad_eq _ _ _ (Nat.sub_le _ _)]
    by_cases hw : w = 0
    · subst hw
      simp
    · simp [hw]

theorem tdiv_tmod_neg (n : Nat) (m : Int) (hm : 0 ≤ m) :
    (-(n : Int)).tdiv m ≤ 0 ∧ (-(n : Int)).tmod m ≤ 0 := by
  have h1 : 0 ≤ (n : Int).tdiv m := Int.tdiv_nonneg (by omega) hm
  have h2 : 0 ≤ (n : Int).tmod m := Int.tmod_nonneg m (by omega)
  have h3 := Int.tmod_def (n : Int) m
  have h4 := Int.tmod_def (-(n : Int)) m
  rw [Int.neg_tdiv] at h4 ⊢
  constructor
  · omega
  · rw [h4, Int.mul_neg]
    omega

/-- The two calls of `long_to_str` in `Double2String` write the quotient and the remainder of
the scaled value taken as a natural number, 0 when it is negative. -/
theorem long_to_str_scaled (S : Int) (p : Nat) (buf : List Char) (w : Nat) :
    long_to_str (S.tdiv (multiplier_loop p 1)) buf w
        = long_to_str ((S.toNat / 10 ^ p : Nat) : Int) buf w
      ∧ long_to_str (S.tmod (multiplier_loop p 1)) buf w
        = long_to_str ((S.toNat % 10 ^ p : Nat) : Int) buf w := by
  have hmultN : multiplier_loop p 1 = ((10 ^ p : Nat) : Int) := by
    rw [multiplier_loop_eq]; push_cast; ring
  rw [hmultN]
  rcases le_or_lt 0 S with h | h
  · obtain ⟨n, rfl⟩ : ∃ n : Nat, S = (n : Int) := ⟨S.toNat, (Int.toNat_of_nonneg h).symm⟩
    rw [Int.toNat_ofNat]
    exact ⟨by rw [← Int.ofNat_tdiv], by rw [← Int.ofNat_tmod]⟩
  · obtain ⟨n, rfl⟩ : ∃ n : Nat, S = -(n : Int) := ⟨(-S).toNat, by omega⟩
    have h0 : (-(n : Int)).toNat = 0 := by omega
    obtain ⟨h1, h2⟩ := tdiv_tmod_neg n ((10 ^ p : Nat) : Int) (by positivity)
    rw [h0, Nat.zero_div, Nat.zero_mod, long_to_str_nonpos _ h1, long_to_str_nonpos _ h2]
    exact ⟨rfl, rfl⟩

theorem decimal_places_build_le (B : Build) (x : ℚ) (ip : Int) :
    decimal_places_build B x ip ≤ 8 := by
  unfold decimal_places_build
  simp only
  split_ifs <;> omega

theorem abs_eq_ite (f : ℚ) : (if f < 0 then -f else f) = |f| := by
  split
  · next h => exact (abs_of_neg h).symm
  · next h => exact (abs_of_nonneg (not_lt.1 h)).symm

/-- The output of `Double2String` on a build for a nonzero `f`, in terms of the number of
places `p` and the scaled value `S` (taken as 0 when negative): an optional `-`, the digits
`I` of `S / 10^p`, and, when there are decimal places and the fractional digits are not all
zero, a point and the digits of `S % 10^p` (padded to `p` places) without their trailing
zeros. -/
theorem Double2String_build_struct (B : Build) (f : ℚ) (hf : f ≠ 0) :
    ∃ I ds : List Char,
      I ≠ [] ∧ allDigits I
        ∧ natOfDigits I = (scaledOf_build B |f|).toNat / 10 ^ placesOf_build B |f|
        ∧ ((scaledOf_build B |f|).toNat / 10 ^ placesOf_build B |f| = 0 → I = ['0'])
        ∧ (0 < (scaledOf_build B |f|).toNat / 10 ^ placesOf_build B |f| →
            10 ^ (I.length - 1) ≤ (scaledOf_build B |f|).toNat / 10 ^ placesOf_build B |f|
              ∧ (scaledOf_build B |f|).toNat / 10 ^ placesOf_build B |f| < 10 ^ I.length)
        ∧ ds.length ≤ placesOf_build B |f|
        ∧ isDigitsOf ds ((scaledOf_build B |f|).toNat % 10 ^ placesOf_build B |f|)
        ∧ long_to_str ((scaledOf_build B |f|).tdiv (multiplier_loop (placesOf_build B |f|) 1))
            (if f < 0 then ['-'] else []) 0 = (if f < 0 then ['-'] else []) ++ I
        ∧ Double2String_build B f = (if f < 0 then ['-'] else []) ++
            (if placesOf_build B |f| = 0
                ∨ stripZeros (paddedFrac (placesOf_build B |f|) ds) = [] then I
             else I ++ '.' :: stripZeros (paddedFrac (placesOf_build B |f|) ds)) := by
  generalize hp : placesOf_build B |f| = p
  generalize hN : (scaledOf_build B |f|).toNat = N
  obtain ⟨I, hI, hIne, hIall, hIval, hIzero, hIpos⟩ :=
    long_to_str_int (N / 10 ^ p) (if f < 0 then ['-'] else [])
  have hI2 : long_to_str ((scaledOf_build B |f|).tdiv (multiplier_loop p 1))
      (if f < 0 then ['-'] else []) 0 = (if f < 0 then ['-'] else []) ++ I := by
    rw [(long_to_str_scaled _ p _ 0).1, hN, hI]
  have hout : Double2String_build B f =
      if p > 0 then
        trim_zeros (long_to_str ((N % 10 ^ p : Nat) : Int)
          (((if f < 0 then ['-'] else []) ++ I) ++ ['.']) p)
      else (if f < 0 then ['-'] else []) ++ I := by
    unfold Double2String_build
    rw [if_neg hf]
    simp only [abs_eq_ite]
    rw [show decimal_places_build B |f| (toLong_build B |f|) = placesOf_build B |f| from rfl,
      show toLong_build B (B.rnd (B.rnd (|f| * ((multiplier_loop (placesOf_build B |f|) 1 : Int)
        : ℚ)) + 1 / 2)) = scaledOf_build B |f| from rfl, hp, hI2,
      (long_to_str_scaled _ p _ p).2, hN]
  rcases Nat.eq_zero_or_pos p with hp0 | hpp
  · refine ⟨I, [], hIne, hIall, hIval, hIzero, hIpos, by simp, ?_, hI2, ?_⟩
    · rw [hp0]
      exact ⟨fun c hc => (by cases hc), by simp [natOfDigits, Nat.mod_one],
        fun _ => rfl, fun h => absurd h (by simp [Nat.mod_one])⟩
    · rw [hout, if_neg (by omega), if_pos (Or.inl hp0)]
  · obtain ⟨ds, hds, hlen, hall, hval, hzero, hpos⟩ :=
      long_to_str_frac (N % 10 ^ p) p hpp
        (Nat.mod_lt _ (by positivity)) (((if f < 0 then ['-'] else []) ++ I) ++ ['.'])
    refine ⟨I, ds, hIne, hIall, hIval, hIzero, hIpos, hlen, ⟨hall, hval, hzero, hpos⟩, hI2, ?_⟩
    have hFall : allDigits (paddedFrac p ds) :=
      allDigits_append (allDigits_replicate_zero _) hall
    rw [hout, if_pos hpp, hds, List.append_assoc ((if f < 0 then ['-'] else []) ++ I),
      List.singleton_append,
      show List.replicate (p - ds.length) '0' ++ ds = paddedFrac p ds from rfl,
      trim_zeros_frac _ _ hFall]
    have hp0 : ¬ (p = 0) := by omega
    by_cases hs : stripZeros (paddedFrac p ds) = []
    · rw [if_pos hs, if_pos (Or.inr hs)]
    · have e1 : (if p = 0 ∨ stripZeros (paddedFrac p ds) = [] then I
          else I ++ '.' :: stripZeros (paddedFrac p ds))
          = I ++ '.' :: stripZeros (paddedFrac p ds) :=
        if_neg (by simp [hp0, hs])
      rw [if_neg hs, e1, List.append_assoc]
theorem toLong_build_of_nonneg (B : Build) (x : ℚ) (h0 : 0 ≤ x) (h : x < 2147483648) :
    toLong_build B x = ⌊x⌋ := by
  unfold toLong_build
  rw [toLong_of_nonneg x h0 h]

theorem toLong_range (x : ℚ) (t : Int) (h : toLong x = some t) :
    -2147483648 ≤ t ∧ t ≤ 2147483647 := by
  unfold toLong at h
  simp only at h
  by_cases hc : -2147483648 ≤ (if 0 ≤ x then ⌊x⌋ else -⌊-x⌋)
      ∧ (if 0 ≤ x then ⌊x⌋ else -⌊-x⌋) ≤ 2147483647
  · rw [if_pos hc] at h
    cases h
    exact hc
  · rw [if_neg hc] at h
    cases h

theorem decimal_places_build_of_ne_zero (B : Build) (x : ℚ) (ip : Int) (h : ip ≠ 0) :
    decimal_places_build B x ip = decimal_places x ip := by
  unfold decimal_places_build decimal_places
  simp only [if_neg h]

/-- The scaled value before rounding is below `2^31` when `x` is: with decimal places the
integer part has at most six digits. -/
theorem scaled_build_fits (B : Build) (x : ℚ) (hx : 0 < x) (hov : x < 2147483648) :
    x * 10 ^ placesOf_build B x < 2147483648 := by
  have h0 : (0 : Int) ≤ ⌊x⌋ := Int.floor_nonneg.2 hx.le
  obtain ⟨n, hn⟩ : ∃ n : Nat, ⌊x⌋ = (n : Int) := ⟨⌊x⌋.toNat, (Int.toNat_of_nonneg h0).symm⟩
  have hlt : x < (n : ℚ) + 1 := by
    have := Int.lt_floor_add_one x
    rw [hn] at this
    exact_mod_cast this
  unfold placesOf_build
  rw [toLong_build_of_nonneg B x hx.le hov, hn]
  rcases Nat.eq_zero_or_pos n with rfl | hpos
  · rw [Nat.cast_zero]
    have hp := decimal_places_build_le B x 0
    have hx1 : x < 1 := by simpa using hlt
    have hpow : (10 : ℚ) ^ decimal_places_build B x 0 ≤ 10 ^ 8 :=
      pow_le_pow_right₀ (by norm_num) hp
    have hpos10 : (0 : ℚ) < 10 ^ decimal_places_build B x 0 := by positivity
    have hmul : x * 10 ^ decimal_places_build B x 0 < 10 ^ decimal_places_build B x 0 :=
      mul_lt_of_lt_one_left hpos10 hx1
    have h8 : (10 : ℚ) ^ 8 = 100000000 := by norm_num
    rw [h8] at hpow
    linarith
  · rw [decimal_places_build_of_ne_zero B x n (by exact_mod_cast (by omega : n ≠ 0))]
    obtain ⟨k, hk0, hk1, hk2, hdp⟩ := decimal_places_big x n hpos
    rw [hdp]
    have hxk : x < 10 ^ k := by
      have : (n : ℚ) + 1 ≤ 10 ^ k := by exact_mod_cast hk2
      linarith
    by_cases hk6 : 6 ≤ k
    · rw [show PRECISION - k = 0 by simp [PRECISION]; omega]
      simpa using hov
    · have hk6 : k ≤ 6 := by omega
      have hmul : x * 10 ^ (PRECISION - k) < 10 ^ 6 := by
        have h1 : (10 : ℚ) ^ k * 10 ^ (PRECISION - k) = 10 ^ 6 := by
          rw [← pow_add, show k + (PRECISION - k) = 6 by simp [PRECISION]; omega]
        have hpos10 : (0 : ℚ) < 10 ^ (PRECISION - k) := by positivity
        calc x * 10 ^ (PRECISION - k) < 10 ^ k * 10 ^ (PRECISION - k) :=
              mul_lt_mul_of_pos_right hxk hpos10
          _ = 10 ^ 6 := h1
      norm_num at hmul ⊢
      linarith

/-- C22: on every build and for every `f` with `|f| < 2^31`, the conversion of the integer
part does not overflow, and the output of `Double2String` is not empty and consists of an
optional `-`, then the digits `I` that `long_to_str` writes for the integer part, without a
leading zero (`0` alone when that part is zero), then either nothing or a `.` and at least
one digit, the last of them not `0`. So an output with a `.` ends in a non-zero digit, and
trimming removes no digit of the integer part. -/
theorem C22_output_shape (B : Build) (f : ℚ) (hf : |f| < 2 ^ 31) :
    toLong_build B |f| = ⌊|f|⌋
      ∧ ∃ sg I F : List Char,
        Double2String_build B f = sg ++ I ++ F
        ∧ (sg = [] ∨ sg = ['-'])
        ∧ sg ++ I ++ F ≠ []
        ∧ I ≠ [] ∧ allDigits I ∧ (I = ['0'] ∨ I.head? ≠ some '0')
        ∧ (natOfDigits I = 0 → I = ['0'])
        ∧ (f ≠ 0 → long_to_str
            ((scaledOf_build B |f|).tdiv (multiplier_loop (placesOf_build B |f|) 1)) sg 0
              = sg ++ I)
        ∧ (F = [] ∨ ∃ G : List Char, F = '.' :: G ∧ G ≠ [] ∧ allDigits G
            ∧ ∃ c, G.getLast? = some c ∧ c ≠ '0')
        ∧ ('.' ∈ sg ++ I ++ F →
            ∃ c, (sg ++ I ++ F).getLast? = some c ∧ isdigit c = true ∧ c ≠ '0') := by
  refine ⟨toLong_build_of_nonneg B _ (abs_nonneg f) (by norm_num at hf ⊢; exact hf), ?_⟩
  have hsg : (if f < 0 then ['-'] else ([] : List Char)) = []
      ∨ (if f < 0 then ['-'] else ([] : List Char)) = ['-'] := by
    split
    · exact Or.inr rfl
    · exact Or.inl rfl
  have main : ∃ I F : List Char,
      Double2String_build B f = (if f < 0 then ['-'] else []) ++ I ++ F
        ∧ I ≠ [] ∧ allDigits I ∧ (I = ['0'] ∨ I.head? ≠ some '0')
        ∧ (natOfDigits I = 0 → I = ['0'])
        ∧ (f ≠ 0 → long_to_str
            ((scaledOf_build B |f|).tdiv (multiplier_loop (placesOf_build B |f|) 1))
              (if f < 0 then ['-'] else []) 0 = (if f < 0 then ['-'] else []) ++ I)
        ∧ (F = [] ∨ ∃ G : List Char, F = '.' :: G ∧ G ≠ [] ∧ allDigits G
            ∧ ∃ c, G.getLast? = some c ∧ c ≠ '0') := by
    by_cases hf0 : f = 0
    · subst hf0
      exact ⟨['0'], [], by simp [Double2String_build], by simp, allDigits_replicate_zero 1,
        Or.inl rfl, fun _ => rfl, fun h => absurd rfl h, Or.inl rfl⟩
    · obtain ⟨I, ds, hIne, hIall, hIval, hIzero, hIpos, hlen, hds, hI2, hout⟩ :=
        Double2String_build_struct B f hf0
      generalize placesOf_build B |f| = p at hIval hIzero hIpos hlen hds hI2 hout
      generalize (scaledOf_build B |f|).toNat = N at hIval hIzero hIpos hds hout
      have hhead : I = ['0'] ∨ I.head? ≠ some '0' := by
        rcases Nat.eq_zero_or_pos (N / 10 ^ p) with h0 | hpos
        · exact Or.inl (hIzero h0)
        · exact Or.inr (head_ne_zero_of_le I hIall (by rw [hIval]; exact (hIpos hpos).1))
      have hz : natOfDigits I = 0 → I = ['0'] := fun h => hIzero (hIval ▸ h)
      by_cases hc : p = 0 ∨ stripZeros (paddedFrac p ds) = []
      · rw [if_pos hc] at hout
        exact ⟨I, [], by rw [hout, List.append_nil], hIne, hIall, hhead, hz, fun _ => hI2,
          Or.inl rfl⟩
      · rw [if_neg hc] at hout
        have hs : stripZeros (paddedFrac p ds) ≠ [] := fun h => hc (Or.inr h)
        have hall : allDigits (stripZeros (paddedFrac p ds)) :=
          allDigits_stripZeros (allDigits_append (allDigits_replicate_zero _) hds.1)
        refine ⟨I, '.' :: stripZeros (paddedFrac p ds),
          by rw [hout, List.append_assoc], hIne, hIall, hhead, hz, fun _ => hI2, Or.inr ?_⟩
        exact ⟨_, rfl, hs, hall, stripZeros_getLast _ hs⟩
  obtain ⟨I, F, hout, hIne, hIall, hhead, hz, hI2, hF⟩ := main
  refine ⟨_, I, F, hout, hsg, by simp [hIne], hIne, hIall, hhead, hz, hI2, hF, ?_⟩
  intro hdot
  have hnI : '.' ∉ I := fun h => absurd (hIall '.' h) (by decide)
  have hnS : '.' ∉ (if f < 0 then ['-'] else []) := by
    split <;> decide
  rcases hF with rfl | ⟨G, rfl, hG, hGall, c, hc, hc0⟩
  · simp only [List.append_nil, List.mem_append] at hdot
    rcases hdot with h | h
    · exact absurd h hnS
    · exact absurd h hnI
  · refine ⟨c, ?_, hGall c (List.mem_of_mem_getLast? hc), hc0⟩
    obtain ⟨g, G1, rfl⟩ := List.exists_cons_of_ne_nil hG
    rw [List.getLast?_append, List.getLast?_cons_cons, hc]
    rfl

/-- The witness of C22: `2147483647.75` is below `2^31` and its rounding step converts
`2147483648.25`; with IEEE doubles it is written `0` on the build with a 32-bit `long`
whose conversion out of range gives `LONG_MIN`, and `2147483648` on the build with a 64-bit
`long`, and both outputs have the shape. And `-12.5` is written `-12.5`. -/
theorem C22_witness :
    (Double2String_build Build_double32 (8589934591 / 4) = ['0']
        ∧ ∃ sg I F : List Char,
          Double2String_build Build_double32 (8589934591 / 4) = sg ++ I ++ F
            ∧ (sg = [] ∨ sg = ['-']) ∧ sg ++ I ++ F ≠ [] ∧ I ≠ [] ∧ allDigits I)
      ∧ (Double2String_build Build_double64 (8589934591 / 4)
          = ['2', '1', '4', '7', '4', '8', '3', '6', '4', '8']
        ∧ ∃ sg I F : List Char,
          Double2String_build Build_double64 (8589934591 / 4) = sg ++ I ++ F
            ∧ (sg = [] ∨ sg = ['-']) ∧ sg ++ I ++ F ≠ [] ∧ I ≠ [] ∧ allDigits I)
      ∧ Double2String_build Build_double32 (-25 / 2) = ['-', '1', '2', '.', '5'] :=
  have h32 := (C22_output_shape Build_double32 (8589934591 / 4)
    (by rw [abs_of_pos (by norm_num)]; norm_num)).2
  have h64 := (C22_output_shape Build_double64 (8589934591 / 4)
    (by rw [abs_of_pos (by norm_num)]; norm_num)).2
  ⟨⟨by decide!, h32.elim fun sg h1 => h1.elim fun I h2 => h2.elim fun F hF =>
      ⟨sg, I, F, hF.1, hF.2.1, hF.2.2.1, hF.2.2.2.1, hF.2.2.2.2.1⟩⟩,
    ⟨by decide!, h64.elim fun sg h1 => h1.elim fun I h2 => h2.elim fun F hF =>
      ⟨sg, I, F, hF.1, hF.2.1, hF.2.2.1, hF.2.2.2.1, hF.2.2.2.2.1⟩⟩,
    by decide!⟩

/-! ## Rounding to a double -/

theorem log2_loop_spec (fuel : Nat) :
    ∀ n : Nat, 0 < n → n ≤ fuel →
      2 ^ log2_loop fuel n ≤ n ∧ n < 2 ^ (log2_loop fuel n + 1) := by
  induction fuel with
  | zero =>
      intro n hn hle
      omega
  | succ fuel ih =>
      intro n hn hle
      rw [log2_loop]
      split
      · next h2 =>
          obtain ⟨h3, h4⟩ := ih (n / 2) (by omega) (by omega)
          rw [pow_succ] at h4 ⊢
          rw [pow_succ]
          constructor <;> omega
      · next h2 =>
          have h1 : n = 1 := by omega
          subst h1
          simp

theorem log2_spec (n : Nat) (hn : 0 < n) : 2 ^ log2 n ≤ n ∧ n < 2 ^ (log2 n + 1) :=
  log2_loop_spec n n hn le_rfl

theorem pow2_eq (e : Int) : pow2 e = (2 : ℚ) ^ e := by
  unfold pow2
  split
  · next h =>
      obtain ⟨n, rfl⟩ : ∃ n : Nat, e = (n : Int) := ⟨e.toNat, (Int.toNat_of_nonneg h).symm⟩
      rw [Int.toNat_ofNat, zpow_natCast]
      push_cast
      rfl
  · next h =>
      obtain ⟨n, rfl⟩ : ∃ n : Nat, e = -(n : Int) := ⟨(-e).toNat, by omega⟩
      rw [neg_neg, Int.toNat_ofNat, zpow_neg, zpow_natCast]
      push_cast
      rw [one_div]

theorem abs_eq_natAbs_div_den (x : ℚ) : |x| = (x.num.natAbs : ℚ) / (x.den : ℚ) := by
  have h := Rat.num_div_den x
  have hd : (0 : ℚ) < (x.den : ℚ) := by exact_mod_cast x.den_pos
  conv_lhs => rw [← h]
  rw [abs_div, abs_of_pos hd]
  rw [Nat.cast_natAbs, Int.cast_abs]

/-- The binary exponent of a nonzero `x`: `2^e ≤ |x| < 2^(e+1)`. -/
theorem binaryExponent_spec (x : ℚ) (hx : x ≠ 0) :
    (2 : ℚ) ^ binaryExponent x ≤ |x| ∧ |x| < (2 : ℚ) ^ (binaryExponent x + 1) := by
  have hnum : 0 < x.num.natAbs := Int.natAbs_pos.2 (Rat.num_ne_zero.2 hx)
  obtain ⟨ha1, ha2⟩ := log2_spec x.num.natAbs hnum
  obtain ⟨hb1, hb2⟩ := log2_spec x.den x.den_pos
  have hd : (0 : ℚ) < (x.den : ℚ) := by exact_mod_cast x.den_pos
  have ha1q : (2 : ℚ) ^ log2 x.num.natAbs ≤ (x.num.natAbs : ℚ) := by exact_mod_cast ha1
  have ha2q : (x.num.natAbs : ℚ) < (2 : ℚ) ^ (log2 x.num.natAbs + 1) := by exact_mod_cast ha2
  have hb1q : (2 : ℚ) ^ log2 x.den ≤ (x.den : ℚ) := by exact_mod_cast hb1
  have hb2q : (x.den : ℚ) < (2 : ℚ) ^ (log2 x.den + 1) := by exact_mod_cast hb2
  have h2 : (2 : ℚ) ≠ 0 := by norm_num
  have habs := abs_eq_natAbs_div_den x
  have hpa : (0 : ℚ) < (2 : ℚ) ^ log2 x.num.natAbs := by positivity
  have hpb : (0 : ℚ) < (2 : ℚ) ^ log2 x.den := by positivity
  have hlow : (2 : ℚ) ^ ((log2 x.num.natAbs : Int) - (log2 x.den : Int) - 1) ≤ |x| := by
    rw [habs, le_div_iff₀ hd, zpow_sub₀ h2, zpow_sub₀ h2, zpow_natCast, zpow_natCast, zpow_one]
    rw [pow_succ] at hb2q
    have e1 : (2 : ℚ) ^ log2 x.num.natAbs / 2 ^ log2 x.den / 2 * (x.den : ℚ)
        = 2 ^ log2 x.num.natAbs * ((x.den : ℚ) / (2 ^ log2 x.den * 2)) := by
      field_simp
    rw [e1]
    have e2 : (x.den : ℚ) / (2 ^ log2 x.den * 2) ≤ 1 := by
      rw [div_le_one (by positivity)]
      exact hb2q.le
    calc (2 : ℚ) ^ log2 x.num.natAbs * ((x.den : ℚ) / (2 ^ log2 x.den * 2))
        ≤ 2 ^ log2 x.num.natAbs * 1 := mul_le_mul_of_nonneg_left e2 hpa.le
      _ = 2 ^ log2 x.num.natAbs := mul_one _
      _ ≤ (x.num.natAbs : ℚ) := ha1q
  have hhigh : |x| < (2 : ℚ) ^ ((log2 x.num.natAbs : Int) - (log2 x.den : Int) + 1) := by
    rw [habs, div_lt_iff₀ hd, zpow_add₀ h2, zpow_sub₀ h2, zpow_natCast, zpow_natCast, zpow_one]
    rw [pow_succ] at ha2q
    have e1 : (2 : ℚ) ^ log2 x.num.natAbs / 2 ^ log2 x.den * 2 * (x.den : ℚ)
        = 2 ^ log2 x.num.natAbs * 2 * ((x.den : ℚ) / 2 ^ log2 x.den) := by
      field_simp
    rw [e1]
    have e2 : 1 ≤ (x.den : ℚ) / 2 ^ log2 x.den := by
      rw [one_le_div hpb]
      exact hb1q
    calc (x.num.natAbs : ℚ) < 2 ^ log2 x.num.natAbs * 2 := ha2q
      _ = 2 ^ log2 x.num.natAbs * 2 * 1 := (mul_one _).symm
      _ ≤ 2 ^ log2 x.num.natAbs * 2 * ((x.den : ℚ) / 2 ^ log2 x.den) :=
          mul_le_mul_of_nonneg_left e2 (by positivity)
  unfold binaryExponent
  simp only
  rw [pow2_eq]
  split
  · next h => exact ⟨h, hhigh⟩
  · next h =>
      refine ⟨hlow, ?_⟩
      rw [sub_add_cancel]
      exact not_le.1 h

theorem roundHalfEven_error (q : ℚ) : |((roundHalfEven q : Int) : ℚ) - q| ≤ 1 / 2 := by
  have h1 := Int.floor_le q
  have h2 := Int.lt_floor_add_one q
  unfold roundHalfEven
  rw [abs_le]
  split_ifs <;> push_cast <;> constructor <;> linarith

/-- Rounding to a double changes a number by at most `2^-53` of its size. -/
theorem roundDouble_error (x : ℚ) : |roundDouble x - x| ≤ |x| / 2 ^ 53 := by
  unfold roundDouble
  split
  · next h =>
      rw [h]
      simp
  · next h =>
      obtain ⟨hlo, -⟩ := binaryExponent_spec x h
      rw [pow2_eq]
      generalize binaryExponent x = e at hlo
      have hP : (0 : ℚ) < (2 : ℚ) ^ (e - 52) := by positivity
      have hR := roundHalfEven_error (x / (2 : ℚ) ^ (e - 52))
      have e1 : ((roundHalfEven (x / (2 : ℚ) ^ (e - 52)) : Int) : ℚ) * (2 : ℚ) ^ (e - 52) - x
          = (((roundHalfEven (x / (2 : ℚ) ^ (e - 52)) : Int) : ℚ) - x / (2 : ℚ) ^ (e - 52))
              * (2 : ℚ) ^ (e - 52) := by
        field_simp
      rw [e1, abs_mul, abs_of_pos hP]
      have e2 : (2 : ℚ) ^ (e - 52) = (2 : ℚ) ^ e / 2 ^ 52 := by
        rw [zpow_sub₀ (by norm_num : (2 : ℚ) ≠ 0)]
        norm_num
      calc |((roundHalfEven (x / (2 : ℚ) ^ (e - 52)) : Int) : ℚ) - x / (2 : ℚ) ^ (e - 52)|
              * (2 : ℚ) ^ (e - 52)
          ≤ 1 / 2 * (2 : ℚ) ^ (e - 52) := mul_le_mul_of_nonneg_right hR hP.le
        _ = (2 : ℚ) ^ e / 2 ^ 53 := by rw [e2]; ring
        _ ≤ |x| / 2 ^ 53 := div_le_div_of_nonneg_right hlo (by positivity)
/-! ## Formatter on a build: the size of the output -/

/-- Function `long_to_str` puts at most 12 characters into `temp_buf`, for every number
below `10^10` and every width up to 12. -/
theorem long_to_str_length_of_lt (num : Int) (buf : List Char) (w : Nat)
    (hnum : num < 10 ^ 10) (hw : w ≤ 12) :
    ∃ temp : List Char, long_to_str num buf w = buf ++ temp ∧ 0 < temp.length
      ∧ temp.length ≤ 12 := by
  have h1 : ∃ ds : List Char, long_to_str_digits num.toNat num [] = ds ∧ ds.length ≤ 10 := by
    rcases le_or_lt num 0 with hneg | hpos
    · have h0 : num.toNat = 0 := Int.toNat_eq_zero.2 hneg
      exact ⟨[], by rw [h0]; rfl, by simp⟩
    · obtain ⟨n, rfl⟩ : ∃ n : Nat, num = (n : Int) :=
        ⟨num.toNat, (Int.toNat_of_nonneg hpos.le).symm⟩
      have hn : 0 < n := by exact_mod_cast hpos
      obtain ⟨ds, hds, -, -, -, hp⟩ := long_to_str_digits_nat n n [] le_rfl
      obtain ⟨hlo, -, -⟩ := hp hn
      refine ⟨ds, by rw [Int.toNat_ofNat, hds, List.append_nil], ?_⟩
      by_contra hlen
      have h11 : 10 ^ 10 ≤ 10 ^ (ds.length - 1) :=
        Nat.pow_le_pow_right (by omega) (by omega)
      have hn2 : n < 10 ^ 10 := by exact_mod_cast hnum
      omega
  obtain ⟨ds, hds, hlen⟩ := h1
  have hw1 : (if num = 0 then (if w = 0 then 1 else w) else w) ≤ 12 := by
    split_ifs <;> omega
  unfold long_to_str
  simp only [hds]
  generalize (if num = 0 then (if w = 0 then 1 else w) else w) = w1 at hw1
  rw [long_to_str_pad_eq _ _ _ (Nat.sub_le _ _)]
  refine ⟨_, rfl, ?_⟩
  by_cases hz : (List.replicate (w1 - ds.length) '0' ++ ds).length = 0
  · rw [if_pos hz]
    simp
  · rw [if_neg hz]
    simp only [List.length_append, List.length_replicate] at hz ⊢
    omega

/-- The integer digits and the decimal places together take at most 10 characters. -/
theorem intDigits_places_le_of_lt (I : List Char) (n p s : Nat) (hs : s < 10 ^ 10)
    (hn : n = s / 10 ^ p) (hp : p ≤ 8) (hzero : n = 0 → I = ['0'])
    (hpos : 0 < n → 10 ^ (I.length - 1) ≤ n) : I.length + p ≤ 10 := by
  rcases Nat.eq_zero_or_pos n with h0 | h1
  · rw [hzero h0]
    simp only [List.length_singleton]
    omega
  · have hlo := hpos h1
    by_contra hlen
    have h10 : 10 ^ 10 ≤ 10 ^ (I.length - 1 + p) := Nat.pow_le_pow_right (by omega) (by omega)
    have hmul : 10 ^ (I.length - 1 + p) ≤ n * 10 ^ p := by
      rw [pow_add]
      exact Nat.mul_le_mul_right _ hlo
    have hle : n * 10 ^ p ≤ s := by
      rw [hn]
      exact Nat.div_mul_le_self s (10 ^ p)
    omega

/-- The scaled value is below `10^10`: on a build with a 32-bit `long` it is a 32-bit value,
and on a build that rounds to within a thousandth and converts out of range to no more than
the converted number, it is about `2^31` at most. -/
theorem scaledOf_build_lt (B : Build) (x : ℚ) (hx : 0 < x) (hov : x < 2147483648)
    (hB : (∀ y, -2147483648 ≤ B.ovf y ∧ B.ovf y ≤ 2147483647)
      ∨ ((∀ y, |B.rnd y - y| ≤ |y| / 1000) ∧ ∀ y, |(B.ovf y : ℚ)| ≤ |y|)) :
    scaledOf_build B x < 10 ^ 10 := by
  have hfit := scaled_build_fits B x hx hov
  have hmult : ((multiplier_loop (placesOf_build B x) 1 : Int) : ℚ)
      = 10 ^ placesOf_build B x := by
    rw [multiplier_loop_eq]; push_cast; ring
  unfold scaledOf_build toLong_build
  rw [hmult]
  generalize hy : B.rnd (B.rnd (x * 10 ^ placesOf_build B x) + 1 / 2) = y
  cases h : toLong y with
  | some t =>
      have := (toLong_range y t h).2
      simp only
      omega
  | none =>
      simp only
      rcases hB with h32 | ⟨hr, ho⟩
      · have := (h32 y).2
        omega
      · have hpos : 0 < x * 10 ^ placesOf_build B x := by positivity
        have h1 := hr (x * 10 ^ placesOf_build B x)
        rw [abs_of_pos hpos] at h1
        have h1a := (abs_le.1 h1).1
        have h1b := (abs_le.1 h1).2
        have h2 := hr (B.rnd (x * 10 ^ placesOf_build B x) + 1 / 2)
        have hpos2 : 0 < B.rnd (x * 10 ^ placesOf_build B x) + 1 / 2 := by linarith
        rw [abs_of_pos hpos2, hy] at h2
        have h2b := (abs_le.1 h2).2
        have h2a := (abs_le.1 h2).1
        have hypos : 0 ≤ y := by linarith
        have h3 := ho y
        rw [abs_of_nonneg hypos] at h3
        have h4 : ((B.ovf y : Int) : ℚ) < 10 ^ 10 := by
          have := (abs_le.1 h3).2
          norm_num
          linarith
        exact_mod_cast h4

/-- C23: for every `f` with `|f| < 2^31`, on every build whose `long` has 32 bits, and on
every build that rounds to within a thousandth and whose conversion out of range gives no
more than the converted number, the output of `Double2String` has at most 12 characters,
hence at most 14, and with the terminator it fits the buffer of 15 bytes; the number of
decimal places is at most 8; and each of the two calls of `long_to_str` puts between 1 and
12 characters into `temp_buf`. -/
theorem C23_bounded_output (B : Build) (f : ℚ) (hf : |f| < 2 ^ 31)
    (hB : (∀ y, -2147483648 ≤ B.ovf y ∧ B.ovf y ≤ 2147483647)
      ∨ ((∀ y, |B.rnd y - y| ≤ |y| / 1000) ∧ ∀ y, |(B.ovf y : ℚ)| ≤ |y|)) :
    (Double2String_build B f).length ≤ 12
      ∧ (Double2String_build B f).length ≤ 14
      ∧ (Double2String_build B f).length + 1 ≤ 15
      ∧ placesOf_build B |f| ≤ 8
      ∧ (f ≠ 0 → ∀ buf : List Char, ∃ temp : List Char,
          long_to_str ((scaledOf_build B |f|).tdiv (multiplier_loop (placesOf_build B |f|) 1))
              buf 0 = buf ++ temp
            ∧ 0 < temp.length ∧ temp.length ≤ 12)
      ∧ (f ≠ 0 → ∀ buf : List Char, ∃ temp : List Char,
          long_to_str ((scaledOf_build B |f|).tmod (multiplier_loop (placesOf_build B |f|) 1))
              buf (placesOf_build B |f|) = buf ++ temp
            ∧ 0 < temp.length ∧ temp.length ≤ 12) := by
  have hp8 : placesOf_build B |f| ≤ 8 := decimal_places_build_le _ _ _
  have hlen : (Double2String_build B f).length ≤ 12 := by
    by_cases hf0 : f = 0
    · subst hf0
      simp [Double2String_build]
    · obtain ⟨I, ds, hIne, hIall, hIval, hIzero, hIpos, hlen, hds, -, hout⟩ :=
        Double2String_build_struct B f hf0
      have hs := scaledOf_build_lt B |f| (abs_pos.2 hf0) (by norm_num at hf ⊢; exact hf) hB
      have hsN : (scaledOf_build B |f|).toNat < 10 ^ 10 := by omega
      have hIp : I.length + placesOf_build B |f| ≤ 10 :=
        intDigits_places_le_of_lt I (natOfDigits I) (placesOf_build B |f|)
          (scaledOf_build B |f|).toNat hsN hIval hp8
          (fun h => hIzero (hIval ▸ h))
          (fun h => by rw [hIval] at h ⊢; exact (hIpos h).1)
      have hF : (stripZeros (paddedFrac (placesOf_build B |f|) ds)).length
          ≤ placesOf_build B |f| :=
        le_of_le_of_eq (length_stripZeros_le _) (length_paddedFrac _ _ hlen)
      have hsign : (if f < 0 then ['-'] else ([] : List Char)).length ≤ 1 := by
        split <;> simp
      rw [hout, List.length_append]
      by_cases hc : placesOf_build B |f| = 0
          ∨ stripZeros (paddedFrac (placesOf_build B |f|) ds) = []
      · rw [if_pos hc]
        omega
      · rw [if_neg hc, List.length_append, List.length_cons]
        omega
  refine ⟨hlen, by omega, by omega, hp8, fun hf0 buf => ?_, fun hf0 buf => ?_⟩
  · have hs := scaledOf_build_lt B |f| (abs_pos.2 hf0) (by norm_num at hf ⊢; exact hf) hB
    have hsN : (scaledOf_build B |f|).toNat < 10 ^ 10 := by omega
    rw [(long_to_str_scaled _ _ buf 0).1]
    refine long_to_str_length_of_lt _ buf 0 ?_ (by omega)
    have : (scaledOf_build B |f|).toNat / 10 ^ placesOf_build B |f| < 10 ^ 10 :=
      lt_of_le_of_lt (Nat.div_le_self _ _) hsN
    exact_mod_cast this
  · rw [(long_to_str_scaled _ _ buf _).2]
    refine long_to_str_length_of_lt _ buf _ ?_ (by omega)
    have h1 : (scaledOf_build B |f|).toNat % 10 ^ placesOf_build B |f|
        < 10 ^ placesOf_build B |f| := Nat.mod_lt _ (by positivity)
    have h2 : 10 ^ placesOf_build B |f| ≤ 10 ^ 8 := Nat.pow_le_pow_right (by omega) hp8
    have : (scaledOf_build B |f|).toNat % 10 ^ placesOf_build B |f| < 10 ^ 10 := by omega
    exact_mod_cast this

theorem Build_double32_long (y : ℚ) :
    -2147483648 ≤ Build_double32.ovf y ∧ Build_double32.ovf y ≤ 2147483647 := by
  show (-2147483648 : Int) ≤ -2147483648 ∧ (-2147483648 : Int) ≤ 2147483647
  exact ⟨le_refl _, by decide⟩

theorem Build_double64_rnd (y : ℚ) : |Build_double64.rnd y - y| ≤ |y| / 1000 := by
  refine le_trans (roundDouble_error y) ?_
  exact div_le_div_of_nonneg_left (abs_nonneg y) (by norm_num) (by norm_num)

theorem Build_double64_long (y : ℚ) : |(Build_double64.ovf y : ℚ)| ≤ |y| := by
  unfold Build_double64
  simp only
  split
  · next h =>
      have h0 : (0 : Int) ≤ ⌊y⌋ := Int.floor_nonneg.2 h
      rw [abs_of_nonneg (by exact_mod_cast h0), abs_of_nonneg h]
      exact Int.floor_le y
  · next h =>
      have hneg : 0 ≤ -y := by linarith
      have h0 : (0 : Int) ≤ ⌊-y⌋ := Int.floor_nonneg.2 hneg
      push_cast
      rw [abs_neg, abs_of_nonneg (by exact_mod_cast h0), abs_of_neg (not_le.1 h)]
      exact Int.floor_le (-y)

/-- The witness of C23: `-2147483647.5` is written `-0` on the build with a 32-bit `long`
whose conversion out of range gives `LONG_MIN`, and `-2147483648` on the build with a 64-bit
`long`; both have at most 14 characters. -/
theorem C23_witness :
    (Double2String_build Build_double32 (-4294967295 / 2) = ['-', '0']
        ∧ (Double2String_build Build_double32 (-4294967295 / 2)).length ≤ 14)
      ∧ (Double2String_build Build_double64 (-4294967295 / 2)
          = ['-', '2', '1', '4', '7', '4', '8', '3', '6', '4', '8']
        ∧ (Double2String_build Build_double64 (-4294967295 / 2)).length ≤ 14) :=
  ⟨⟨by decide!, (C23_bounded_output Build_double32 (-4294967295 / 2)
      (by rw [abs_of_neg (by norm_num)]; norm_num) (Or.inl Build_double32_long)).2.1⟩,
    ⟨by decide!, (C23_bounded_output Build_double64 (-4294967295 / 2)
      (by rw [abs_of_neg (by norm_num)]; norm_num)
      (Or.inr ⟨Build_double64_rnd, Build_double64_long⟩)).2.1⟩⟩

/-! ## Formatter on a build: exact arithmetic -/

theorem leading_zeros_loop_build_exact (fuel : Nat) :
    ∀ (t : ℚ) (lz : Nat),
      leading_zeros_loop_build Build_exact fuel t lz = leading_zeros_loop fuel t lz := by
  induction fuel with
  | zero => intro t lz; rfl
  | succ fuel ih =>
      intro t lz
      rw [leading_zeros_loop_build, leading_zeros_loop, ih]
      rfl

theorem decimal_places_build_exact (x : ℚ) (ip : Int) :
    decimal_places_build Build_exact x ip = decimal_places x ip := by
  unfold decimal_places_build decimal_places
  rw [leading_zeros_loop_build_exact]

/-- The exact reading of `Double2String` is the build without rounding: where the exact
reading has an output, the build `Build_exact` has the same. -/
theorem Double2String_build_exact (f : ℚ) (s : List Char) (h : Double2String f = some s) :
    Double2String_build Build_exact f = s := by
  unfold Double2String at h
  unfold Double2String_build
  by_cases hf : f = 0
  · rw [if_pos hf] at h ⊢
    exact Option.some.inj h
  · rw [if_neg hf] at h ⊢
    simp only at h ⊢
    generalize (if f < 0 then -f else f) = f1 at h ⊢
    cases h1 : toLong f1 with
    | none => rw [h1] at h; cases h
    | some ip =>
        rw [h1] at h
        simp only at h
        have e1 : toLong_build Build_exact f1 = ip := by
          unfold toLong_build
          rw [h1]
        rw [e1, decimal_places_build_exact]
        generalize decimal_places f1 ip = p at h ⊢
        have e2 : Build_exact.rnd (Build_exact.rnd (f1 * ((multiplier_loop p 1 : Int) : ℚ))
            + 1 / 2) = f1 * ((multiplier_loop p 1 : Int) : ℚ) + 1 / 2 := rfl
        rw [e2]
        cases h2 : toLong (f1 * ((multiplier_loop p 1 : Int) : ℚ) + 1 / 2) with
        | none => rw [h2] at h; cases h
        | some sv =>
            rw [h2] at h
            simp only at h
            have e3 : toLong_build Build_exact (f1 * ((multiplier_loop p 1 : Int) : ℚ) + 1 / 2)
                = sv := by
              unfold toLong_build
              rw [h2]
            rw [e3]
            by_cases hp : p > 0
            · rw [if_pos hp] at h ⊢
              exact Option.some.inj h
            · rw [if_neg hp] at h ⊢
              exact Option.some.inj h

theorem Build_exact_rnd (y : ℚ) : |Build_exact.rnd y - y| ≤ 0 * |y| := by
  show |y - y| ≤ 0 * |y|
  simp

/-! ## Formatter on a build: the number written -/

/-- The output of `Double2String` on a build is a decimal numeral that denotes the scaled
value (0 when negative) divided by `10^places`, with the sign of `f`. -/
theorem Double2String_build_denotes (B : Build) (f : ℚ) (hf : f ≠ 0) :
    denotes (Double2String_build B f)
      (signOf f * (((scaledOf_build B |f|).toNat : ℚ) / 10 ^ placesOf_build B |f|)) := by
  obtain ⟨I, ds, hIne, hIall, hIval, -, -, hlen, ⟨hall, hval, -, -⟩, -, hout⟩ :=
    Double2String_build_struct B f hf
  generalize placesOf_build B |f| = p at hIval hlen hval hout ⊢
  generalize (scaledOf_build B |f|).toNat = N at hIval hval hout ⊢
  have hFall : allDigits (paddedFrac p ds) :=
    allDigits_append (allDigits_replicate_zero _) hall
  have hp10 : (10 : ℚ) ^ p ≠ 0 := pow_ne_zero _ (by norm_num)
  have hsplit : (N : ℚ) = ((N / 10 ^ p : Nat) : ℚ) * 10 ^ p + ((N % 10 ^ p : Nat) : ℚ) := by
    have := Nat.div_add_mod N (10 ^ p)
    have h2 : ((10 ^ p * (N / 10 ^ p) + N % 10 ^ p : Nat) : ℚ) = (N : ℚ) := by rw [this]
    rw [← h2]
    push_cast
    ring
  have hlit : ∃ a : Literal, a.wellFormed ∧ a.intPart ≠ []
      ∧ a.chars = (if p = 0 ∨ stripZeros (paddedFrac p ds) = [] then I
          else I ++ '.' :: stripZeros (paddedFrac p ds))
      ∧ a.value = (N : ℚ) / 10 ^ p := by
    by_cases hc : p = 0 ∨ stripZeros (paddedFrac p ds) = []
    · refine ⟨⟨I, none⟩, ⟨hIall, hIne⟩, hIne, by rw [if_pos hc]; rfl, ?_⟩
      have hmod0 : N % 10 ^ p = 0 := by
        rcases hc with h | h
        · rw [h]; simp [Nat.mod_one]
        · rw [← hval, ← natOfDigits_paddedFrac p ds]
          exact natOfDigits_eq_zero_of_stripZeros_nil h
      simp only [Literal.value, decimalValue, hIval]
      rw [hsplit, hmod0]
      simp [natOfDigits]
    · have hs : stripZeros (paddedFrac p ds) ≠ [] := fun h => hc (Or.inr h)
      refine ⟨⟨I, some (stripZeros (paddedFrac p ds))⟩,
        ⟨hIall, allDigits_stripZeros hFall, Or.inl hIne⟩, hIne, by rw [if_neg hc]; rfl, ?_⟩
      simp only [Literal.value, decimalValue, hIval]
      rw [← fracOfDigits_eq, fracOfDigits_stripZeros, fracOfDigits_eq,
        natOfDigits_paddedFrac, length_paddedFrac _ _ hlen, hval]
      conv_rhs => rw [hsplit]
      field_simp
  obtain ⟨a, hwf, hne, hchars, hvalue⟩ := hlit
  refine ⟨a, hwf, hne, ?_⟩
  rw [hout, ← hchars, ← hvalue]
  by_cases hneg : f < 0
  · right
    simp [hneg, signOf]
  · left
    simp [hneg, signOf, hf]

/-- Leading zeros are written on a build: when the scaled value is positive and below
`10^(p - z)`, the output is `0.` followed by `z` zeros and at least one more character. -/
theorem Double2String_build_leading_zeros (B : Build) (f : ℚ) (hf : f ≠ 0) (z : Nat)
    (hs0 : 0 < (scaledOf_build B |f|).toNat) (hz : z < placesOf_build B |f|)
    (hs : (scaledOf_build B |f|).toNat < 10 ^ (placesOf_build B |f| - z)) :
    ∃ rest : List Char, rest ≠ [] ∧ Double2String_build B f
      = (if f < 0 then ['-'] else []) ++ '0' :: '.' :: (List.replicate z '0' ++ rest) := by
  obtain ⟨I, ds, -, -, -, hIzero, -, hlen, ⟨hall, hval, -, hpos⟩, -, hout⟩ :=
    Double2String_build_struct B f hf
  generalize placesOf_build B |f| = p at hz hs hIzero hlen hval hpos hout
  generalize (scaledOf_build B |f|).toNat = N at hs0 hs hIzero hval hpos hout
  have hlt : N < 10 ^ p :=
    lt_of_lt_of_le hs (Nat.pow_le_pow_right (by decide) (Nat.sub_le _ _))
  have hI : I = ['0'] := hIzero (Nat.div_eq_of_lt hlt)
  rw [Nat.mod_eq_of_lt hlt] at hval hpos
  obtain ⟨hd1, -, hd3⟩ := hpos hs0
  have hdlen : ds.length ≤ p - z := by
    by_contra hcon
    have : 10 ^ (p - z) ≤ 10 ^ (ds.length - 1) :=
      Nat.pow_le_pow_right (by decide) (by omega)
    omega
  have hstrip : stripZeros ds ≠ [] := by
    intro h
    have := natOfDigits_eq_zero_of_stripZeros_nil h
    omega
  have hpad : paddedFrac p ds
      = List.replicate z '0' ++ (List.replicate (p - ds.length - z) '0' ++ ds) := by
    rw [paddedFrac, ← List.append_assoc, ← List.replicate_add]
    congr 2
    omega
  have hstrip2 : stripZeros (paddedFrac p ds)
      = List.replicate z '0' ++ (List.replicate (p - ds.length - z) '0' ++ stripZeros ds) := by
    rw [hpad, ← List.append_assoc, stripZeros_append_of_ne_nil _ _ hstrip, List.append_assoc]
  have hne : stripZeros (paddedFrac p ds) ≠ [] := by
    rw [hstrip2]
    simp [hstrip]
  refine ⟨List.replicate (p - ds.length - z) '0' ++ stripZeros ds, by simp [hstrip], ?_⟩
  have e1 : (if p = 0 ∨ stripZeros (paddedFrac p ds) = [] then I
      else I ++ '.' :: stripZeros (paddedFrac p ds))
      = I ++ '.' :: stripZeros (paddedFrac p ds) :=
    if_neg (by simp [hne]; omega)
  rw [hout, e1, hI, hstrip2]
  rfl

/-! ## Formatter on a build: rounding errors -/

theorem rnd_bounds (B : Build) (u : ℚ) (hr : ∀ y, |B.rnd y - y| ≤ u * |y|) (y : ℚ)
    (hy : 0 ≤ y) : y * (1 - u) ≤ B.rnd y ∧ B.rnd y ≤ y * (1 + u) := by
  have h := hr y
  rw [abs_of_nonneg hy] at h
  obtain ⟨h1, h2⟩ := abs_le.1 h
  constructor <;> linarith

theorem leading_zeros_loop_build_range (B : Build) (fuel : Nat) :
    ∀ (t : ℚ) (lz : Nat), lz ≤ 8 →
      lz ≤ leading_zeros_loop_build B fuel t lz ∧ leading_zeros_loop_build B fuel t lz ≤ 8 := by
  induction fuel with
  | zero =>
      intro t lz h
      exact ⟨le_rfl, h⟩
  | succ fuel ih =>
      intro t lz h
      rw [leading_zeros_loop_build]
      split
      · next hc =>
          obtain ⟨h1, h2⟩ := ih (B.rnd (t * 10)) (lz + 1) (by omega)
          exact ⟨by omega, h2⟩
      · exact ⟨le_rfl, h⟩

/-- The decimal places for integer part 0 on a build: 6 when `x` is not below the rounded
`0.1`, 7 when the rounded `x * 10` is not below it, and 8 otherwise. -/
theorem decimal_places_build_zero (B : Build) (x : ℚ) :
    (¬ x < B.rnd (1 / 10) ∧ decimal_places_build B x 0 = 6)
      ∨ (x < B.rnd (1 / 10) ∧ ¬ B.rnd (x * 10) < B.rnd (1 / 10)
          ∧ decimal_places_build B x 0 = 7)
      ∨ (x < B.rnd (1 / 10) ∧ B.rnd (x * 10) < B.rnd (1 / 10)
          ∧ decimal_places_build B x 0 = 8) := by
  have hdp : ∀ z : Nat, leading_zeros_loop_build B 8 x 0 = z →
      decimal_places_build B x 0 = min 8 (6 + z) := by
    intro z hz
    simp only [decimal_places_build, if_true, PRECISION, hz]
    split_ifs <;> omega
  by_cases h1 : x < B.rnd (1 / 10)
  · by_cases h2 : B.rnd (x * 10) < B.rnd (1 / 10)
    · obtain ⟨h3, h4⟩ := leading_zeros_loop_build_range B 6 (B.rnd (B.rnd (x * 10) * 10)) 2
        (by omega)
      have hz : leading_zeros_loop_build B 8 x 0
          = leading_zeros_loop_build B 6 (B.rnd (B.rnd (x * 10) * 10)) 2 := by
        rw [leading_zeros_loop_build, if_pos ⟨h1, by omega⟩, leading_zeros_loop_build,
          if_pos ⟨h2, by omega⟩]
      refine Or.inr (Or.inr ⟨h1, h2, ?_⟩)
      rw [hdp _ hz]
      omega
    · have hz : leading_zeros_loop_build B 8 x 0 = 1 := by
        rw [leading_zeros_loop_build, if_pos ⟨h1, by omega⟩, leading_zeros_loop_build,
          if_neg (fun h => h2 h.1)]
      exact Or.inr (Or.inl ⟨h1, h2, by rw [hdp _ hz]; rfl⟩)
  · have hz : leading_zeros_loop_build B 8 x 0 = 0 := by
      rw [leading_zeros_loop_build, if_neg (fun h => h1 h.1)]
    exact Or.inl ⟨h1, by rw [hdp _ hz]; rfl⟩

/-- On a build that rounds with relative error at most `u`, either six significant digits fit
the decimal places up to the rounding of the loop that counts leading zeros, or the places
are clamped to 8 for a value below 0.001; and below 0.001 the places are 8. -/
theorem placesOf_build_bound (B : Build) (u : ℚ) (hu0 : 0 ≤ u) (hu : u ≤ 1 / 10 ^ 6)
    (hr : ∀ y, |B.rnd y - y| ≤ u * |y|) (x : ℚ) (hx : 0 < x) (hov : x < 2147483648) :
    (10 ^ 5 * (1 - 2 * u) ≤ x * 10 ^ placesOf_build B x
        ∨ (placesOf_build B x = 8 ∧ x < 1 / 1000))
      ∧ (x < 1 / 1000 → placesOf_build B x = 8) := by
  have h0 : (0 : Int) ≤ ⌊x⌋ := Int.floor_nonneg.2 hx.le
  obtain ⟨n, hn⟩ : ∃ n : Nat, ⌊x⌋ = (n : Int) := ⟨⌊x⌋.toNat, (Int.toNat_of_nonneg h0).symm⟩
  have hle : (n : ℚ) ≤ x := by
    have := Int.floor_le x
    rw [hn] at this
    exact_mod_cast this
  have hu' : u ≤ 1 / 1000000 := by norm_num at hu ⊢; exact hu
  unfold placesOf_build
  rw [toLong_build_of_nonneg B x hx.le hov, hn]
  rcases Nat.eq_zero_or_pos n with rfl | hpos
  · rw [Nat.cast_zero]
    obtain ⟨hc1, hc2⟩ := rnd_bounds B u hr (1 / 10) (by norm_num)
    have hxu : x * u ≤ x * (1 / 1000000) := mul_le_mul_of_nonneg_left hu' hx.le
    have hxu0 : 0 ≤ x * u := mul_nonneg hx.le hu0
    rcases decimal_places_build_zero B x with ⟨h1, hp⟩ | ⟨h1, h2, hp⟩ | ⟨h1, h2, hp⟩
    · rw [hp]
      have hxc : B.rnd (1 / 10) ≤ x := not_lt.1 h1
      refine ⟨Or.inl ?_, fun hlt => ?_⟩
      · norm_num
        linarith
      · exfalso
        linarith
    · rw [hp]
      have hTc : B.rnd (1 / 10) ≤ B.rnd (x * 10) := not_lt.1 h2
      obtain ⟨-, hT⟩ := rnd_bounds B u hr (x * 10) (by positivity)
      have hkey : 1 / 10 * (1 - u) ≤ x * 10 * (1 + u) := by linarith
      refine ⟨Or.inl ?_, fun hlt => ?_⟩
      · have h1u : (0 : ℚ) < 1 + u := by linarith
        have huu : 0 ≤ u * u := mul_nonneg hu0 hu0
        refine le_of_mul_le_mul_right ?_ h1u
        have e1 : x * 10 ^ 7 * (1 + u) = 10 ^ 6 * (x * 10 * (1 + u)) := by ring
        have e2 : (10 : ℚ) ^ 5 * (1 - 2 * u) * (1 + u)
            = 10 ^ 6 * (1 / 10 * (1 - u)) - 2 * 10 ^ 5 * (u * u) := by ring
        rw [e1, e2]
        have : (10 : ℚ) ^ 6 * (1 / 10 * (1 - u)) ≤ 10 ^ 6 * (x * 10 * (1 + u)) :=
          mul_le_mul_of_nonneg_left hkey (by norm_num)
        have h5 : (0 : ℚ) ≤ 2 * 10 ^ 5 * (u * u) := by positivity
        linarith
      · exfalso
        have : x * 10 * (1 + u) = 10 * x + 10 * (x * u) := by ring
        rw [this] at hkey
        linarith
    · rw [hp]
      by_cases hlt : x < 1 / 1000
      · exact ⟨Or.inr ⟨rfl, hlt⟩, fun _ => rfl⟩
      · refine ⟨Or.inl ?_, fun h => absurd h hlt⟩
        have := not_lt.1 hlt
        norm_num at this ⊢
        linarith
  · rw [decimal_places_build_of_ne_zero B x n (by exact_mod_cast (by omega : n ≠ 0))]
    obtain ⟨k, hk0, hk1, hk2, hdp⟩ := decimal_places_big x n hpos
    rw [hdp]
    have hx1 : (1 : ℚ) ≤ x := by
      have : (1 : ℚ) ≤ (n : ℚ) := by exact_mod_cast hpos
      linarith
    have hxk : (10 : ℚ) ^ (k - 1) ≤ x := by
      have : ((10 ^ (k - 1) : Nat) : ℚ) ≤ (n : ℚ) := by exact_mod_cast hk1
      push_cast at this
      linarith
    have hb : (10 : ℚ) ^ 5 ≤ x * 10 ^ (PRECISION - k) := by
      by_cases hk6 : k ≤ 6
      · have h1 : (10 : ℚ) ^ 5 = 10 ^ (k - 1) * 10 ^ (PRECISION - k) := by
          rw [← pow_add, show k - 1 + (PRECISION - k) = 5 by simp [PRECISION]; omega]
        rw [h1]
        exact mul_le_mul_of_nonneg_right hxk (by positivity)
      · rw [show PRECISION - k = 0 by simp [PRECISION]; omega, pow_zero, mul_one]
        have : (10 : ℚ) ^ 5 ≤ 10 ^ (k - 1) := pow_le_pow_right₀ (by norm_num) (by omega)
        linarith
    refine ⟨Or.inl ?_, fun hlt => ?_⟩
    · have : (10 : ℚ) ^ 5 * (1 - 2 * u) ≤ 10 ^ 5 := by
        have : (0 : ℚ) ≤ 10 ^ 5 * (2 * u) := by positivity
        linarith
      linarith
    · exfalso
      linarith

/-- With decimal places the scaled value before rounding is below `10^8`. -/
theorem scaled_build_lt_or (B : Build) (x : ℚ) (hx : 0 < x) (hov : x < 2147483648) :
    x * 10 ^ placesOf_build B x < 10 ^ 8 ∨ placesOf_build B x = 0 := by
  have h0 : (0 : Int) ≤ ⌊x⌋ := Int.floor_nonneg.2 hx.le
  obtain ⟨n, hn⟩ : ∃ n : Nat, ⌊x⌋ = (n : Int) := ⟨⌊x⌋.toNat, (Int.toNat_of_nonneg h0).symm⟩
  have hlt : x < (n : ℚ) + 1 := by
    have := Int.lt_floor_add_one x
    rw [hn] at this
    exact_mod_cast this
  unfold placesOf_build
  rw [toLong_build_of_nonneg B x hx.le hov, hn]
  rcases Nat.eq_zero_or_pos n with rfl | hpos
  · rw [Nat.cast_zero]
    left
    have hp := decimal_places_build_le B x 0
    have hx1 : x < 1 := by simpa using hlt
    have hpow : (10 : ℚ) ^ decimal_places_build B x 0 ≤ 10 ^ 8 :=
      pow_le_pow_right₀ (by norm_num) hp
    have hpos10 : (0 : ℚ) < 10 ^ decimal_places_build B x 0 := by positivity
    have hmul : x * 10 ^ decimal_places_build B x 0 < 10 ^ decimal_places_build B x 0 :=
      mul_lt_of_lt_one_left hpos10 hx1
    linarith
  · rw [decimal_places_build_of_ne_zero B x n (by exact_mod_cast (by omega : n ≠ 0))]
    obtain ⟨k, hk0, hk1, hk2, hdp⟩ := decimal_places_big x n hpos
    rw [hdp]
    have hxk : x < 10 ^ k := by
      have : (n : ℚ) + 1 ≤ 10 ^ k := by exact_mod_cast hk2
      linarith
    by_cases hk6 : 6 ≤ k
    · right
      simp [PRECISION]
      omega
    · left
      have hk6 : k ≤ 6 := by omega
      have h1 : (10 : ℚ) ^ k * 10 ^ (PRECISION - k) = 10 ^ 6 := by
        rw [← pow_add, show k + (PRECISION - k) = 6 by simp [PRECISION]; omega]
      have hpos10 : (0 : ℚ) < 10 ^ (PRECISION - k) := by positivity
      calc x * 10 ^ (PRECISION - k) < 10 ^ k * 10 ^ (PRECISION - k) :=
            mul_lt_mul_of_pos_right hxk hpos10
        _ = 10 ^ 6 := h1
        _ < 10 ^ 8 := by norm_num

/-- The scaled value on a build that rounds with relative error at most `u`, for
`0 < x ≤ 10^8`: no conversion overflows, and the scaled value is the floor of the twice
rounded `x * 10^p + 1/2`. -/
theorem scaledOf_build_floor (B : Build) (u : ℚ) (hu0 : 0 ≤ u) (hu : u ≤ 1 / 10 ^ 6)
    (hr : ∀ y, |B.rnd y - y| ≤ u * |y|) (x : ℚ) (hx : 0 < x) (hx8 : x ≤ 10 ^ 8) :
    ∃ N : Nat, scaledOf_build B x = (N : Int)
      ∧ (x * 10 ^ placesOf_build B x * (1 - u) + 1 / 2) * (1 - u) - 1 < (N : ℚ)
      ∧ (N : ℚ) ≤ (x * 10 ^ placesOf_build B x * (1 + u) + 1 / 2) * (1 + u) := by
  have hov : x < 2147483648 := by norm_num at hx8 ⊢; linarith
  have hu' : u ≤ 1 / 1000000 := by norm_num at hu ⊢; exact hu
  have ha8 : x * 10 ^ placesOf_build B x ≤ 10 ^ 8 := by
    rcases scaled_build_lt_or B x hx hov with h | h
    · exact h.le
    · rw [h, pow_zero, mul_one]
      exact hx8
  have hmult : ((multiplier_loop (placesOf_build B x) 1 : Int) : ℚ)
      = 10 ^ placesOf_build B x := by
    rw [multiplier_loop_eq]; push_cast; ring
  have ha0 : 0 < x * 10 ^ placesOf_build B x := by positivity
  unfold scaledOf_build
  rw [hmult]
  generalize x * 10 ^ placesOf_build B x = a at ha8 ha0
  obtain ⟨h1a, h1b⟩ := rnd_bounds B u hr a ha0.le
  have h1u : 0 ≤ 1 - u := by linarith
  have hau : a * u ≤ 10 ^ 8 * (1 / 1000000) :=
    mul_le_mul ha8 hu' hu0 (by norm_num)
  have hau0 : 0 ≤ a * u := mul_nonneg ha0.le hu0
  have hy1 : 0 ≤ B.rnd a := le_trans (mul_nonneg ha0.le h1u) h1a
  obtain ⟨h2a, h2b⟩ := rnd_bounds B u hr (B.rnd a + 1 / 2) (by linarith)
  generalize B.rnd (B.rnd a + 1 / 2) = y at h2a h2b
  generalize B.rnd a = y1 at h1a h1b hy1 h2a h2b
  have hy1le : y1 ≤ 10 ^ 8 + 100 := by
    have : a * (1 + u) = a + a * u := by ring
    rw [this] at h1b
    norm_num at hau ha8 ⊢
    linarith
  have hy1u : (y1 + 1 / 2) * u ≤ (10 ^ 8 + 100 + 1 / 2) * (1 / 1000000) :=
    mul_le_mul (by linarith) hu' hu0 (by norm_num)
  have hy1u0 : 0 ≤ (y1 + 1 / 2) * u := mul_nonneg (by linarith) hu0
  have hy0 : 0 ≤ y := le_trans (mul_nonneg (by linarith) h1u) h2a
  have hylt : y < 2147483648 := by
    have : (y1 + 1 / 2) * (1 + u) = (y1 + 1 / 2) + (y1 + 1 / 2) * u := by ring
    rw [this] at h2b
    norm_num at hy1u hy1le ⊢
    linarith
  rw [toLong_build_of_nonneg B y hy0 hylt]
  have hfl0 : (0 : Int) ≤ ⌊y⌋ := Int.floor_nonneg.2 hy0
  refine ⟨⌊y⌋.toNat, (Int.toNat_of_nonneg hfl0).symm, ?_, ?_⟩
  · have hN : ((⌊y⌋.toNat : Nat) : ℚ) = ((⌊y⌋ : Int) : ℚ) := by
      exact_mod_cast Int.toNat_of_nonneg hfl0
    rw [hN]
    have h3 := Int.lt_floor_add_one y
    have h4 : (a * (1 - u) + 1 / 2) * (1 - u) ≤ (y1 + 1 / 2) * (1 - u) :=
      mul_le_mul_of_nonneg_right (by linarith) h1u
    linarith
  · have hN : ((⌊y⌋.toNat : Nat) : ℚ) = ((⌊y⌋ : Int) : ℚ) := by
      exact_mod_cast Int.toNat_of_nonneg hfl0
    rw [hN]
    have h3 := Int.floor_le y
    have h4 : (y1 + 1 / 2) * (1 + u) ≤ (a * (1 + u) + 1 / 2) * (1 + u) :=
      mul_le_mul_of_nonneg_right (by linarith) (by linarith)
    linarith

/-- The scaled value differs from `x * 10^p` by at most a half and the rounding errors. -/
theorem scaledOf_build_error (B : Build) (u : ℚ) (hu0 : 0 ≤ u) (hu : u ≤ 1 / 10 ^ 6)
    (hr : ∀ y, |B.rnd y - y| ≤ u * |y|) (x : ℚ) (hx : 0 < x) (hx8 : x ≤ 10 ^ 8) :
    |((scaledOf_build B x).toNat : ℚ) - x * 10 ^ placesOf_build B x|
      ≤ 1 / 2 + u * (3 * (x * 10 ^ placesOf_build B x) + 1 / 2) := by
  obtain ⟨N, hN, hlo, hhi⟩ := scaledOf_build_floor B u hu0 hu hr x hx hx8
  rw [hN, Int.toNat_ofNat]
  have ha0 : 0 < x * 10 ^ placesOf_build B x := by positivity
  generalize x * 10 ^ placesOf_build B x = a at hlo hhi ha0 ⊢
  have hu1 : u ≤ 1 := by
    have : (1 : ℚ) / 10 ^ 6 ≤ 1 := by norm_num
    linarith
  have hau0 : 0 ≤ a * u := mul_nonneg ha0.le hu0
  have hauu : a * u * u ≤ a * u := by
    calc a * u * u ≤ a * u * 1 := mul_le_mul_of_nonneg_left hu1 hau0
      _ = a * u := mul_one _
  have hauu0 : 0 ≤ a * u * u := mul_nonneg hau0 hu0
  have e1 : (a * (1 + u) + 1 / 2) * (1 + u) = a + 2 * (a * u) + a * u * u + 1 / 2 + u / 2 := by
    ring
  have e2 : (a * (1 - u) + 1 / 2) * (1 - u) = a - 2 * (a * u) + a * u * u + 1 / 2 - u / 2 := by
    ring
  rw [e1] at hhi
  rw [e2] at hlo
  rw [abs_le]
  constructor <;> linarith

theorem Build_double32_rnd (y : ℚ) : |Build_double32.rnd y - y| ≤ 1 / 2 ^ 53 * |y| :=
  le_of_le_of_eq (roundDouble_error y) (by ring)

/-- The distance between `f` and the number `Double2String` writes for it on a build. -/
theorem format_build_diff (B : Build) (f : ℚ) (hf : f ≠ 0) :
    |signOf f * (((scaledOf_build B |f|).toNat : ℚ) / 10 ^ placesOf_build B |f|) - f|
      = abs (((scaledOf_build B |f|).toNat : ℚ) - |f| * 10 ^ placesOf_build B |f|)
          / 10 ^ placesOf_build B |f| := by
  have hp : (0 : ℚ) < 10 ^ placesOf_build B |f| := by positivity
  have e : signOf f * (((scaledOf_build B |f|).toNat : ℚ) / 10 ^ placesOf_build B |f|) - f
      = signOf f * ((((scaledOf_build B |f|).toNat : ℚ) - |f| * 10 ^ placesOf_build B |f|)
          / 10 ^ placesOf_build B |f|) := by
    rw [sub_div, mul_div_assoc, div_self hp.ne', mul_one, mul_sub, signOf_mul_abs]
  rw [e, abs_mul, abs_signOf f hf, one_mul, abs_div, abs_of_pos hp]

/-- The number `Double2String` writes on a build for a nonzero `f` of size at most `10^8`
differs from `f` by at most half a unit of the last decimal place and the rounding errors. -/
theorem format_build_error (B : Build) (u : ℚ) (hu0 : 0 ≤ u) (hu : u ≤ 1 / 10 ^ 6)
    (hr : ∀ y, |B.rnd y - y| ≤ u * |y|) (f : ℚ) (hf : f ≠ 0) (h8 : |f| ≤ 10 ^ 8) :
    |signOf f * (((scaledOf_build B |f|).toNat : ℚ) / 10 ^ placesOf_build B |f|) - f|
      ≤ (1 / 2 + u * (3 * (|f| * 10 ^ placesOf_build B |f|) + 1 / 2))
          / 10 ^ placesOf_build B |f| := by
  rw [format_build_diff B f hf]
  exact div_le_div_of_nonneg_right (scaledOf_build_error B u hu0 hu hr |f| (abs_pos.2 hf) h8)
    (by positivity)

/-- C4 (amended): on a build whose `f64` operations round with relative error at most `u`,
`u ≤ 1e-6` (`u = 2^-53` for IEEE doubles, `u = 0` in exact arithmetic), for `1e-8 ≤ |x| ≤ 1e8`
the output of `Double2String` is a decimal numeral; the number `v` it denotes, which the
lexer reads back from it, is within relative error `5e-6 * (1 + 1e7 * u)` of `x` when
`|x| ≥ 1e-3`, and within `5e-9 * (1 + 1e7 * u)` of `x` (half a unit of the eighth decimal
place, and the rounding) when `|x| < 1e-3`. -/
theorem C4_format_error_bounds (B : Build) (u : ℚ) (hu0 : 0 ≤ u) (hu : u ≤ 1 / 10 ^ 6)
    (hr : ∀ y, |B.rnd y - y| ≤ u * |y|) (x : ℚ) (h1 : 1 / 10 ^ 8 ≤ |x|)
    (h2 : |x| ≤ 10 ^ 8) :
    ∃ v : ℚ, denotes (Double2String_build B x) v ∧ parse (Double2String_build B x) = v
      ∧ (1 / 1000 ≤ |x| → |v - x| ≤ 5 / 10 ^ 6 * (1 + 10 ^ 7 * u) * |x|)
      ∧ (|x| < 1 / 1000 → |v - x| ≤ 5 / 10 ^ 9 * (1 + 10 ^ 7 * u)) := by
  have hx : 0 < |x| := lt_of_lt_of_le (by norm_num) h1
  have hf : x ≠ 0 := abs_pos.1 hx
  have hov : |x| < 2147483648 := by norm_num at h2 ⊢; linarith
  have hu' : u ≤ 1 / 1000000 := by norm_num at hu ⊢; exact hu
  have hden := Double2String_build_denotes B x hf
  have herr := format_build_error B u hu0 hu hr x hf h2
  obtain ⟨hb, hsm⟩ := placesOf_build_bound B u hu0 hu hr |x| hx hov
  have hp : (0 : ℚ) < 10 ^ placesOf_build B |x| := by positivity
  refine ⟨_, hden, parse_of_denotes hden, fun hbig => ?_, fun hsmall => ?_⟩
  · have ha : 10 ^ 5 * (1 - 2 * u) ≤ |x| * 10 ^ placesOf_build B |x| := by
      rcases hb with hb | ⟨-, hb⟩
      · exact hb
      · linarith
    refine le_trans herr ?_
    rw [div_le_iff₀ hp]
    have e1 : 5 / 10 ^ 6 * (1 + 10 ^ 7 * u) * |x| * 10 ^ placesOf_build B |x|
        = 5 / 10 ^ 6 * (1 + 10 ^ 7 * u) * (|x| * 10 ^ placesOf_build B |x|) := by ring
    rw [e1]
    generalize |x| * 10 ^ placesOf_build B |x| = a at ha
    have ha1 : 1 ≤ a := by
      norm_num at ha ⊢
      linarith
    have hua : u * 1 ≤ u * a := mul_le_mul_of_nonneg_left ha1 hu0
    have e2 : 1 / 2 + u * (3 * a + 1 / 2) = 1 / 2 + 3 * (u * a) + u / 2 := by ring
    have e3 : 5 / 10 ^ 6 * (1 + 10 ^ 7 * u) * a = 5 / 10 ^ 6 * a + 50 * (u * a) := by ring
    rw [e2, e3]
    norm_num at ha ⊢
    linarith
  · have hp8 := hsm hsmall
    refine le_trans herr ?_
    rw [hp8]
    have ha : |x| * 10 ^ 8 ≤ 10 ^ 5 := by
      norm_num at hsmall ⊢
      linarith
    generalize |x| * 10 ^ 8 = a at ha
    have hua : u * a ≤ u * 10 ^ 5 := mul_le_mul_of_nonneg_left ha hu0
    have e2 : (1 / 2 + u * (3 * a + 1 / 2)) / 10 ^ 8
        = 5 / 10 ^ 9 + (3 * (u * a) + u / 2) / 10 ^ 8 := by ring
    rw [e2]
    norm_num at hua ⊢
    linarith

/-- The witness of C4 on IEEE doubles, at the double nearest to `2.5e-8`, which is written
`0.00000003`. -/
theorem C4_witness :
    Double2String_build Build_double32 (roundDouble (25 / 1000000000))
        = ['0', '.', '0', '0', '0', '0', '0', '0', '0', '3']
      ∧ ∃ v : ℚ, denotes (Double2String_build Build_double32 (roundDouble (25 / 1000000000))) v
        ∧ parse (Double2String_build Build_double32 (roundDouble (25 / 1000000000))) = v
        ∧ (1 / 1000 ≤ |roundDouble (25 / 1000000000)| →
            |v - roundDouble (25 / 1000000000)|
              ≤ 5 / 10 ^ 6 * (1 + 10 ^ 7 * (1 / 2 ^ 53)) * |roundDouble (25 / 1000000000)|)
        ∧ (|roundDouble (25 / 1000000000)| < 1 / 1000 →
            |v - roundDouble (25 / 1000000000)| ≤ 5 / 10 ^ 9 * (1 + 10 ^ 7 * (1 / 2 ^ 53))) :=
  ⟨by decide!,
    C4_format_error_bounds Build_double32 (1 / 2 ^ 53) (by norm_num) (by norm_num)
      Build_double32_rnd (roundDouble (25 / 1000000000))
      (by
        rw [show roundDouble (25 / 1000000000)
          = 944473296573929 / 37778931862957161709568 by decide!, abs_of_pos (by norm_num)]
        norm_num)
      (by
        rw [show roundDouble (25 / 1000000000)
          = 944473296573929 / 37778931862957161709568 by decide!, abs_of_pos (by norm_num)]
        norm_num)⟩

/-- C4 fails as stated, also on IEEE doubles: the double nearest to `1.000004` lies in
`[1e-8, 1e8]` and is written `1`, which is off by about `4e-6`, more than `1e-6` of it; and the
double nearest to `1.4e-8` is written `0.00000001`, off by about `4e-9`, more than `1e-6` of
it. In exact arithmetic `1.000004` and `1.4e-8` are written the same way. The double nearest
to `2.5e-8` is written `0.00000003`: its product with `10^8` rounds to `2.5`, and the output
is off by a little more than `5e-9`, half a unit of the eighth decimal place. -/
theorem C4_counterexample :
    (1 / 10 ^ 8 ≤ |roundDouble (1000004 / 1000000)| ∧ |roundDouble (1000004 / 1000000)| ≤ 10 ^ 8
        ∧ Double2String_build Build_double32 (roundDouble (1000004 / 1000000)) = ['1']
        ∧ parse ['1'] = 1
        ∧ ¬ (|(1 : ℚ) - roundDouble (1000004 / 1000000)|
              ≤ 1 / 10 ^ 6 * |roundDouble (1000004 / 1000000)|))
      ∧ (1 / 10 ^ 8 ≤ |roundDouble (14 / 1000000000)| ∧ |roundDouble (14 / 1000000000)| ≤ 10 ^ 8
        ∧ Double2String_build Build_double32 (roundDouble (14 / 1000000000))
            = ['0', '.', '0', '0', '0', '0', '0', '0', '0', '1']
        ∧ parse ['0', '.', '0', '0', '0', '0', '0', '0', '0', '1'] = 1 / 100000000
        ∧ ¬ (|(1 / 100000000 : ℚ) - roundDouble (14 / 1000000000)|
              ≤ 1 / 10 ^ 6 * |roundDouble (14 / 1000000000)|))
      ∧ Double2String (1000004 / 1000000) = some ['1']
      ∧ Double2String (14 / 1000000000)
          = some ['0', '.', '0', '0', '0', '0', '0', '0', '0', '1']
      ∧ (1 / 10 ^ 8 ≤ |roundDouble (25 / 1000000000)| ∧ |roundDouble (25 / 1000000000)| ≤ 10 ^ 8
        ∧ roundDouble (roundDouble (25 / 1000000000) * 10 ^ 8) = 5 / 2
        ∧ Double2String_build Build_double32 (roundDouble (25 / 1000000000))
            = ['0', '.', '0', '0', '0', '0', '0', '0', '0', '3']
        ∧ parse ['0', '.', '0', '0', '0', '0', '0', '0', '0', '3'] = 3 / 100000000
        ∧ ¬ (|(3 / 100000000 : ℚ) - roundDouble (25 / 1000000000)|
              ≤ 1 / 10 ^ 6 * |roundDouble (25 / 1000000000)|)
        ∧ ¬ (|(3 / 100000000 : ℚ) - roundDouble (25 / 1000000000)| ≤ 5 / 10 ^ 9)) := by
  have hx1 : roundDouble (1000004 / 1000000) = 4503617641769005 / 4503599627370496 := by
    decide!
  have hx2 : roundDouble (14 / 1000000000)
      = 2115620184325601 / 151115727451828646838272 := by decide!
  have hx3 : roundDouble (25 / 1000000000)
      = 944473296573929 / 37778931862957161709568 := by decide!
  refine ⟨⟨?_, ?_, by decide!, by decide!, ?_⟩, ⟨?_, ?_, by decide!, by decide!, ?_⟩,
    by decide!, by decide!, ⟨?_, ?_, by decide!, by decide!, by decide!, ?_, ?_⟩⟩
  · rw [hx1, abs_of_pos (by norm_num)]; norm_num
  · rw [hx1, abs_of_pos (by norm_num)]; norm_num
  · rw [hx1, abs_of_neg (by norm_num), abs_of_pos (by norm_num)]; norm_num
  · rw [hx2, abs_of_pos (by norm_num)]; norm_num
  · rw [hx2, abs_of_pos (by norm_num)]; norm_num
  · rw [hx2, abs_of_neg (by norm_num), abs_of_pos (by norm_num)]; norm_num
  · rw [hx3, abs_of_pos (by norm_num)]; norm_num
  · rw [hx3, abs_of_pos (by norm_num)]; norm_num
  · rw [hx3, abs_of_pos (by norm_num), abs_of_pos (by norm_num)]; norm_num
  · rw [hx3, abs_of_pos (by norm_num)]; norm_num

/-! ## Formatter on a build: significant digits -/

/-- On a build that rounds with relative error at most `u`, a scaled value before rounding
of at least 1 gives a positive `scaled_val`. -/
theorem scaledOf_build_pos (B : Build) (u : ℚ) (hu0 : 0 ≤ u) (hu : u ≤ 1 / 10 ^ 6)
    (hr : ∀ y, |B.rnd y - y| ≤ u * |y|) (x : ℚ) (hx : 0 < x) (hx8 : x ≤ 10 ^ 8)
    (ha : 1 ≤ x * 10 ^ placesOf_build B x) : 0 < (scaledOf_build B x).toNat := by
  obtain ⟨N, hN, hlo, -⟩ := scaledOf_build_floor B u hu0 hu hr x hx hx8
  rw [hN, Int.toNat_ofNat]
  have hu' : u ≤ 1 / 1000000 := by norm_num at hu ⊢; exact hu
  generalize x * 10 ^ placesOf_build B x = a at hlo ha
  have h1u : 0 ≤ 1 - u := by linarith
  have h1 : (1 * (1 - u) + 1 / 2) * (1 - u) ≤ (a * (1 - u) + 1 / 2) * (1 - u) :=
    mul_le_mul_of_nonneg_right (by nlinarith) h1u
  have e1 : (1 * (1 - u) + 1 / 2) * (1 - u) = 3 / 2 - 5 / 2 * u + u * u := by ring
  rw [e1] at h1
  have huu : 0 ≤ u * u := mul_nonneg hu0 hu0
  have hNpos : (0 : ℚ) < (N : ℚ) := by linarith
  exact_mod_cast hNpos

/-- In the sliver below `10^5` that the rounding of the loop that counts leading zeros
leaves, the scaled value is exactly `10^5`. -/
theorem scaledOf_build_sliver (B : Build) (u : ℚ) (hu0 : 0 ≤ u) (hu : u ≤ 1 / 10 ^ 6)
    (hr : ∀ y, |B.rnd y - y| ≤ u * |y|) (x : ℚ) (hx : 0 < x) (hx8 : x ≤ 10 ^ 8)
    (ha : 10 ^ 5 * (1 - 2 * u) ≤ x * 10 ^ placesOf_build B x)
    (ha5 : x * 10 ^ placesOf_build B x < 10 ^ 5) :
    (scaledOf_build B x).toNat = 10 ^ 5 := by
  obtain ⟨N, hN, hlo, hhi⟩ := scaledOf_build_floor B u hu0 hu hr x hx hx8
  rw [hN, Int.toNat_ofNat]
  have hu' : u ≤ 1 / 1000000 := by norm_num at hu ⊢; exact hu
  have ha0 : 0 < x * 10 ^ placesOf_build B x := by positivity
  generalize x * 10 ^ placesOf_build B x = a at hlo hhi ha ha5 ha0
  have hau0 : 0 ≤ a * u := mul_nonneg ha0.le hu0
  have hau : a * u ≤ 10 ^ 5 * (1 / 1000000) := mul_le_mul ha5.le hu' hu0 (by norm_num)
  have huu1 : a * u * u ≤ a * u := by
    calc a * u * u ≤ a * u * 1 := mul_le_mul_of_nonneg_left (by linarith) hau0
      _ = a * u := mul_one _
  have hauu0 : 0 ≤ a * u * u := mul_nonneg hau0 hu0
  have e1 : (a * (1 + u) + 1 / 2) * (1 + u) = a + 2 * (a * u) + a * u * u + 1 / 2 + u / 2 := by
    ring
  have e2 : (a * (1 - u) + 1 / 2) * (1 - u) = a - 2 * (a * u) + a * u * u + 1 / 2 - u / 2 := by
    ring
  rw [e1] at hhi
  rw [e2] at hlo
  have h1 : (99999 : ℚ) < (N : ℚ) := by
    norm_num at ha hau
    linarith
  have h2 : (N : ℚ) < (100001 : ℚ) := by
    norm_num at ha5 hau
    linarith
  have h3 : 99999 < N := by exact_mod_cast h1
  have h4 : N < 100001 := by exact_mod_cast h2
  norm_num
  omega

/-- A positive `N` with `N / 10^p < 1 / 10^z` has `z < p` and `N < 10^(p - z)`. -/
theorem lt_pow_sub_of_div_lt (N p z : Nat) (hN : 0 < N)
    (hv : (N : ℚ) / 10 ^ p < 1 / 10 ^ z) : z < p ∧ N < 10 ^ (p - z) := by
  have hp : (0 : ℚ) < 10 ^ p := by positivity
  rw [div_lt_iff₀ hp] at hv
  have hz10 : (0 : ℚ) < 10 ^ z := by positivity
  have hv2 : (N : ℚ) * 10 ^ z < 10 ^ p := by
    calc (N : ℚ) * 10 ^ z < 1 / 10 ^ z * 10 ^ p * 10 ^ z :=
          mul_lt_mul_of_pos_right hv hz10
      _ = 10 ^ p := by field_simp
  have hvN : N * 10 ^ z < 10 ^ p := by exact_mod_cast hv2
  have hzp : z < p := by
    by_contra hcon
    have h3 : 10 ^ p ≤ 10 ^ z := Nat.pow_le_pow_right (by decide) (by omega)
    have h4 : 10 ^ z ≤ N * 10 ^ z := Nat.le_mul_of_pos_left _ hN
    omega
  refine ⟨hzp, ?_⟩
  have h5 : 10 ^ p = 10 ^ (p - z) * 10 ^ z := by
    rw [← pow_add, Nat.sub_add_cancel hzp.le]
  rw [h5] at hvN
  exact Nat.lt_of_mul_lt_mul_right hvN

/-- C5 (amended): on a build whose `f64` operations round with relative error at most `u`,
`u ≤ 1e-6` (`u = 2^-53` for IEEE doubles, `u = 0` in exact arithmetic), for `1e-8 ≤ |x| < 1e8`
the output of `Double2String` is a decimal numeral whose value `v` is within
`(1 + 1e7 * u)` times half a unit of the sixth significant digit of `x` when `|x| ≥ 1e-3`, and
within `(1 + 1e7 * u)` times half a unit of the eighth decimal place when `|x| < 1e-3`; when
`x` has `z` zeros directly after the decimal point and rounding does not carry `v` up to
`10^-z`, the output is `0.` followed by these `z` zeros and further digits. With IEEE doubles
`3.14159265` is written `3.14159` and `0.00012345` is written `0.00012345`. -/
theorem C5_six_significant_digits :
    (∀ (B : Build) (u : ℚ), 0 ≤ u → u ≤ 1 / 10 ^ 6 → (∀ y, |B.rnd y - y| ≤ u * |y|) →
      ∀ x : ℚ, 1 / 10 ^ 8 ≤ |x| → |x| < 10 ^ 8 →
      ∃ v : ℚ, denotes (Double2String_build B x) v
        ∧ (∀ e : Int, -3 ≤ e → (10 : ℚ) ^ e ≤ |x| → |x| < 10 ^ (e + 1) →
            |v - x| ≤ 1 / 2 * (1 + 10 ^ 7 * u) * (10 : ℚ) ^ (e - 5))
        ∧ (|x| < 1 / 1000 → |v - x| ≤ 1 / 2 / 10 ^ 8 * (1 + 10 ^ 7 * u))
        ∧ (∀ z : Nat, |x| < 1 / 10 ^ z → |v| < 1 / 10 ^ z →
            ∃ rest : List Char, rest ≠ [] ∧
              Double2String_build B x
                = (if x < 0 then ['-'] else []) ++ '0' :: '.' :: (List.replicate z '0' ++ rest)))
      ∧ Double2String_build Build_double32 (roundDouble (314159265 / 100000000))
          = ['3', '.', '1', '4', '1', '5', '9']
      ∧ Double2String_build Build_double32 (roundDouble (12345 / 100000000))
          = ['0', '.', '0', '0', '0', '1', '2', '3', '4', '5'] := by
  refine ⟨fun B u hu0 hu hr x h1 h2 => ?_, by decide!, by decide!⟩
  have hx : 0 < |x| := lt_of_lt_of_le (by norm_num) h1
  have hf : x ≠ 0 := abs_pos.1 hx
  have hov : |x| < 2147483648 := by norm_num at h2 ⊢; linarith
  have hu' : u ≤ 1 / 1000000 := by norm_num at hu ⊢; exact hu
  have hden := Double2String_build_denotes B x hf
  have herr := format_build_error B u hu0 hu hr x hf h2.le
  have hdiff := format_build_diff B x hf
  obtain ⟨hb, hsm⟩ := placesOf_build_bound B u hu0 hu hr |x| hx hov
  have hp : (0 : ℚ) < 10 ^ placesOf_build B |x| := by positivity
  have h10 : (1 : ℚ) < 10 := by norm_num
  have h10ne : (10 : ℚ) ≠ 0 := by norm_num
  refine ⟨_, hden, fun e he hlo hhi => ?_, fun hsmall => ?_, fun z _ hv => ?_⟩
  · -- half a unit of the sixth significant digit
    have ha : 10 ^ 5 * (1 - 2 * u) ≤ |x| * 10 ^ placesOf_build B |x| := by
      rcases hb with hb | ⟨-, hb⟩
      · exact hb
      · exfalso
        have hlt : (10 : ℚ) ^ e < 10 ^ (-3 : Int) := by
          have : (10 : ℚ) ^ (-3 : Int) = 1 / 1000 := by norm_num
          rw [this]
          exact lt_of_le_of_lt hlo hb
        have := (zpow_lt_zpow_iff_right₀ h10).1 hlt
        omega
    have hU : (0 : ℚ) < (10 : ℚ) ^ (e - 5) := by positivity
    have hak : |x| * 10 ^ placesOf_build B |x|
        < (10 : ℚ) ^ (e + 1 + (placesOf_build B |x| : Int)) := by
      rw [zpow_add₀ h10ne, zpow_natCast]
      exact mul_lt_mul_of_pos_right hhi hp
    have hk5 : (4 : Int) < e + 1 + (placesOf_build B |x| : Int) := by
      have hlt : (10 : ℚ) ^ (4 : Int) < 10 ^ (e + 1 + (placesOf_build B |x| : Int)) := by
        refine lt_of_lt_of_le ?_ (le_trans ha hak.le)
        norm_num
        linarith
      exact (zpow_lt_zpow_iff_right₀ h10).1 hlt
    have hX : |x| < 10 ^ 6 * (10 : ℚ) ^ (e - 5) := by
      have : (10 : ℚ) ^ (e + 1) = 10 ^ 6 * (10 : ℚ) ^ (e - 5) := by
        rw [show e + 1 = 6 + (e - 5) by ring, zpow_add₀ h10ne]
        norm_num
      rw [← this]
      exact hhi
    by_cases hk : (6 : Int) ≤ e + 1 + (placesOf_build B |x| : Int)
    · -- the last decimal place is no more than the sixth significant digit
      refine le_trans herr ?_
      have hP : 1 / (10 : ℚ) ^ placesOf_build B |x| ≤ (10 : ℚ) ^ (e - 5) := by
        have hle : (10 : ℚ) ^ (-(placesOf_build B |x| : Int)) ≤ 10 ^ (e - 5) :=
          zpow_le_zpow_right₀ h10.le (by omega)
        rw [zpow_neg, zpow_natCast] at hle
        rw [one_div]
        exact hle
      have e1 : (1 / 2 + u * (3 * (|x| * 10 ^ placesOf_build B |x|) + 1 / 2))
          / 10 ^ placesOf_build B |x|
          = (1 / 2 + u / 2) * (1 / (10 : ℚ) ^ placesOf_build B |x|) + 3 * (u * |x|) := by
        field_simp
        ring
      rw [e1]
      have hA : (1 / 2 + u / 2) * (1 / (10 : ℚ) ^ placesOf_build B |x|)
          ≤ (1 / 2 + u / 2) * (10 : ℚ) ^ (e - 5) :=
        mul_le_mul_of_nonneg_left hP (by linarith)
      have hB2 : u * |x| ≤ u * (10 ^ 6 * (10 : ℚ) ^ (e - 5)) :=
        mul_le_mul_of_nonneg_left hX.le hu0
      have hUu : 0 ≤ u * (10 : ℚ) ^ (e - 5) := mul_nonneg hu0 hU.le
      have e2 : 1 / 2 * (1 + 10 ^ 7 * u) * (10 : ℚ) ^ (e - 5)
          = 1 / 2 * (10 : ℚ) ^ (e - 5) + 5000000 * (u * (10 : ℚ) ^ (e - 5)) := by ring
      have e3 : (1 / 2 + u / 2) * (10 : ℚ) ^ (e - 5)
          = 1 / 2 * (10 : ℚ) ^ (e - 5) + 1 / 2 * (u * (10 : ℚ) ^ (e - 5)) := by ring
      have e4 : u * (10 ^ 6 * (10 : ℚ) ^ (e - 5)) = 1000000 * (u * (10 : ℚ) ^ (e - 5)) := by
        ring
      rw [e2]
      rw [e3] at hA
      rw [e4] at hB2
      linarith
    · -- the sliver: the scaled value is `10^5`
      have hk5' : e + 1 + (placesOf_build B |x| : Int) = 5 := by omega
      rw [hk5'] at hak
      have ha5 : |x| * 10 ^ placesOf_build B |x| < 10 ^ 5 := by
        have : (10 : ℚ) ^ (5 : Int) = 10 ^ 5 := by norm_num
        rw [this] at hak
        exact hak
      have hS := scaledOf_build_sliver B u hu0 hu hr |x| hx h2.le ha ha5
      rw [hdiff, hS]
      have hP : 1 / (10 : ℚ) ^ placesOf_build B |x| = 10 * (10 : ℚ) ^ (e - 5) := by
        have hpe : -(placesOf_build B |x| : Int) = 1 + (e - 5) := by omega
        have : (10 : ℚ) ^ (-(placesOf_build B |x| : Int)) = 10 * (10 : ℚ) ^ (e - 5) := by
          rw [hpe, zpow_add₀ h10ne, zpow_one]
        rw [zpow_neg, zpow_natCast] at this
        rw [one_div]
        exact this
      have hnum : abs (((10 ^ 5 : Nat) : ℚ) - |x| * 10 ^ placesOf_build B |x|)
          ≤ 2 * 10 ^ 5 * u := by
        rw [abs_le]
        constructor
        · push_cast
          linarith
        · push_cast
          linarith
      have hUu : 0 ≤ u * (10 : ℚ) ^ (e - 5) := mul_nonneg hu0 hU.le
      calc abs (((10 ^ 5 : Nat) : ℚ) - |x| * 10 ^ placesOf_build B |x|)
              / 10 ^ placesOf_build B |x|
          ≤ 2 * 10 ^ 5 * u / 10 ^ placesOf_build B |x| :=
            div_le_div_of_nonneg_right hnum hp.le
        _ = 2 * 10 ^ 5 * u * (1 / (10 : ℚ) ^ placesOf_build B |x|) := by ring
        _ = 2000000 * (u * (10 : ℚ) ^ (e - 5)) := by rw [hP]; ring
        _ ≤ 1 / 2 * (10 : ℚ) ^ (e - 5) + 5000000 * (u * (10 : ℚ) ^ (e - 5)) := by linarith
        _ = 1 / 2 * (1 + 10 ^ 7 * u) * (10 : ℚ) ^ (e - 5) := by ring
  · -- half a unit of the eighth decimal place
    have hp8 := hsm hsmall
    refine le_trans herr ?_
    rw [hp8]
    have ha : |x| * 10 ^ 8 ≤ 10 ^ 5 := by
      norm_num at hsmall ⊢
      linarith
    generalize |x| * 10 ^ 8 = a at ha
    have hua : u * a ≤ u * 10 ^ 5 := mul_le_mul_of_nonneg_left ha hu0
    have e2 : (1 / 2 + u * (3 * a + 1 / 2)) / 10 ^ 8
        = 1 / 2 / 10 ^ 8 + (3 * (u * a) + u / 2) / 10 ^ 8 := by ring
    rw [e2]
    norm_num at hua ⊢
    linarith
  · -- the zeros after the decimal point
    have ha1 : 1 ≤ |x| * 10 ^ placesOf_build B |x| := by
      rcases hb with hb | ⟨hb, -⟩
      · norm_num at hb ⊢
        linarith
      · rw [hb]
        norm_num at h1 ⊢
        linarith
    have hs0 := scaledOf_build_pos B u hu0 hu hr |x| hx h2.le ha1
    have hvabs : |signOf x * (((scaledOf_build B |x|).toNat : ℚ) / 10 ^ placesOf_build B |x|)|
        = ((scaledOf_build B |x|).toNat : ℚ) / 10 ^ placesOf_build B |x| := by
      rw [abs_mul, abs_signOf x hf, one_mul, abs_of_nonneg (by positivity)]
    rw [hvabs] at hv
    obtain ⟨hzp, hsz⟩ := lt_pow_sub_of_div_lt _ _ z hs0 hv
    exact Double2String_build_leading_zeros B x hf z hs0 hzp hsz

/-- The witness of C5 on IEEE doubles, at the double nearest to `99999.95`, which is written
`100000`: the product with 10 rounds up to `999999.5`. -/
theorem C5_witness :
    Double2String_build Build_double32 (roundDouble (9999995 / 100))
        = ['1', '0', '0', '0', '0', '0']
      ∧ ∃ v : ℚ, denotes (Double2String_build Build_double32 (roundDouble (9999995 / 100))) v
        ∧ (∀ e : Int, -3 ≤ e → (10 : ℚ) ^ e ≤ |roundDouble (9999995 / 100)| →
            |roundDouble (9999995 / 100)| < 10 ^ (e + 1) →
            |v - roundDouble (9999995 / 100)|
              ≤ 1 / 2 * (1 + 10 ^ 7 * (1 / 2 ^ 53)) * (10 : ℚ) ^ (e - 5))
        ∧ (|roundDouble (9999995 / 100)| < 1 / 1000 →
            |v - roundDouble (9999995 / 100)| ≤ 1 / 2 / 10 ^ 8 * (1 + 10 ^ 7 * (1 / 2 ^ 53)))
        ∧ (∀ z : Nat, |roundDouble (9999995 / 100)| < 1 / 10 ^ z → |v| < 1 / 10 ^ z →
            ∃ rest : List Char, rest ≠ [] ∧
              Double2String_build Build_double32 (roundDouble (9999995 / 100))
                = (if roundDouble (9999995 / 100) < 0 then ['-'] else [])
                  ++ '0' :: '.' :: (List.replicate z '0' ++ rest)) :=
  ⟨by decide!,
    C5_six_significant_digits.1 Build_double32 (1 / 2 ^ 53) (by norm_num) (by norm_num)
      Build_double32_rnd (roundDouble (9999995 / 100))
      (by
        rw [show roundDouble (9999995 / 100) = 6871944237626163 / 68719476736 by decide!,
          abs_of_pos (by norm_num)]
        norm_num)
      (by
        rw [show roundDouble (9999995 / 100) = 6871944237626163 / 68719476736 by decide!,
          abs_of_pos (by norm_num)]
        norm_num)⟩

/-- C5 fails as stated, also on IEEE doubles: the double nearest to `0.000123456` lies in
`[1e-8, 1e8)` and between `10^-4` and `10^-3`; it is written `0.00012346`, which is off by
about `4e-9`, more than half a unit `5e-10` of its sixth significant digit. The double
nearest to `99999.95` is written `100000`, off by more than half a unit `0.05` of its sixth
significant digit. And the double nearest to `0.0999999999` has one zero directly after the
decimal point but is written `0.1`. -/
theorem C5_counterexample :
    (1 / 10 ^ 8 ≤ |roundDouble (123456 / 1000000000)|
        ∧ |roundDouble (123456 / 1000000000)| < 10 ^ 8
        ∧ (10 : ℚ) ^ (-4 : Int) ≤ |roundDouble (123456 / 1000000000)|
        ∧ |roundDouble (123456 / 1000000000)| < 10 ^ (-4 + 1 : Int)
        ∧ Double2String_build Build_double32 (roundDouble (123456 / 1000000000))
            = ['0', '.', '0', '0', '0', '1', '2', '3', '4', '6']
        ∧ parse ['0', '.', '0', '0', '0', '1', '2', '3', '4', '6'] = 12346 / 100000000
        ∧ ¬ (|(12346 / 100000000 : ℚ) - roundDouble (123456 / 1000000000)|
              ≤ 1 / 2 * (10 : ℚ) ^ (-4 - 5 : Int)))
      ∧ ((10 : ℚ) ^ (4 : Int) ≤ |roundDouble (9999995 / 100)|
        ∧ |roundDouble (9999995 / 100)| < 10 ^ (4 + 1 : Int)
        ∧ Double2String_build Build_double32 (roundDouble (9999995 / 100))
            = ['1', '0', '0', '0', '0', '0']
        ∧ parse ['1', '0', '0', '0', '0', '0'] = 100000
        ∧ ¬ (|(100000 : ℚ) - roundDouble (9999995 / 100)|
              ≤ 1 / 2 * (10 : ℚ) ^ (4 - 5 : Int)))
      ∧ (1 / 10 ^ 8 ≤ |roundDouble (999999999 / 10000000000)|
        ∧ 1 / 10 ^ 2 ≤ |roundDouble (999999999 / 10000000000)|
        ∧ |roundDouble (999999999 / 10000000000)| < 1 / 10 ^ 1
        ∧ Double2String_build Build_double32 (roundDouble (999999999 / 10000000000))
            = ['0', '.', '1']) := by
  have hx1 : roundDouble (123456 / 1000000000)
      = 4554722472727773 / 36893488147419103232 := by decide!
  have hx2 : roundDouble (9999995 / 100) = 6871944237626163 / 68719476736 := by decide!
  have hx3 : roundDouble (999999999 / 10000000000)
      = 3602879698293517 / 36028797018963968 := by decide!
  refine ⟨⟨?_, ?_, ?_, ?_, by decide!, by decide!, ?_⟩,
    ⟨?_, ?_, by decide!, by decide!, ?_⟩, ⟨?_, ?_, ?_, by decide!⟩⟩
  · rw [hx1, abs_of_pos (by norm_num)]; norm_num
  · rw [hx1, abs_of_pos (by norm_num)]; norm_num
  · rw [hx1, abs_of_pos (by norm_num)]; norm_num
  · rw [hx1, abs_of_pos (by norm_num)]; norm_num
  · rw [hx1, abs_of_pos (by norm_num)]; norm_num
  · rw [hx2, abs_of_pos (by norm_num)]; norm_num
  · rw [hx2, abs_of_pos (by norm_num)]; norm_num
  · rw [hx2, abs_of_pos (by norm_num)]; norm_num
  · rw [hx3, abs_of_pos (by norm_num)]; norm_num
  · rw [hx3, abs_of_pos (by norm_num)]; norm_num
  · rw [hx3, abs_of_pos (by norm_num)]; norm_num

end Calc
